import Mathlib

/-! Entity-component store: the World facade, its id allocator and the archetype engine.

A shallow embedding of `world.go`.  Go maps are total functions into `Option`,
slices are lists, the 32-bit `Id` is a natural number whose increment is taken
modulo `2 ^ 32`, and a call that can end in a Go panic returns an `Option`
(`none`: the call did not return) or, where the state at the panic matters, an
`Outcome`.
-/

namespace ecs

/-! ## Data model -/

/-- Entity handle (`type Id uint32`). -/
abbrev Id := Nat

/-- Identifier of a component type, what `name(T)` yields. -/
abbrev componentId := Nat

/-- Identifier of an archetype. -/
abbrev archetypeId := Nat

/-- Number of values of the 32-bit `Id` type. -/
def idModulus : Nat := 4294967296

/-- The constant `InvalidEntity Id = 0`. -/
def InvalidEntity : Id := 0

/-- The constant `firstEntity Id = 1`. -/
def firstEntity : Id := 1

/-- The constant `MaxEntity Id = math.MaxUint32`. -/
def MaxEntity : Id := 4294967295

/-- The `World` struct; `E` is the type of the archetype engine it points to. -/
structure World (E : Type) where
  nextId : Id
  minId : Id
  maxId : Id
  arch : Id → Option archetypeId
  engine : E

/-- State of a receiver when a call exits, with the panic message when the call
exits by panic. -/
structure Outcome (σ : Type) where
  state : σ
  panicked : Option String

/-- The methods of the archetype engine that `world.go` calls.  `C` is the
`Component` interface (`write` is its method), `V` the type of stored values;
`readArch e t a id` stands for `readArch[T](e, a, id)` with `t = name(T)`.
Each call may panic (`none`). -/
structure archEngineCalls (E C V : Type) where
  newArchEngine : E
  GetarchetypeId : E → List C → Option (E × archetypeId)
  rewriteArch : E → archetypeId → Id → List C → Option (E × archetypeId)
  write : C → E → archetypeId → Id → Option E
  TagForDeletion : E → archetypeId → Id → Option E
  readArch : E → componentId → archetypeId → Id → Option (V × Bool)

section world
variable {E C V : Type}

/-! ## world.go -/

/-- The constructor `NewWorld()`. -/
def NewWorld (ops : archEngineCalls E C V) : World E :=
  { nextId := firstEntity + 1
    minId := firstEntity + 1
    maxId := MaxEntity
    arch := fun _ => none
    engine := ops.newArchEngine }

/-- The method `World.SetIdRange(min, max)`: the three guards panic before any field is
assigned. -/
def World.SetIdRange (w : World E) (min max : Id) : Outcome (World E) :=
  if min ≤ firstEntity then ⟨w, some "max must be greater than 1"⟩
  else if max ≤ firstEntity then ⟨w, some "max must be greater than 1"⟩
  else if min > max then ⟨w, some "min must be less than max!"⟩
  else ⟨{ w with minId := min, maxId := max }, none⟩

/-- The method `World.NewId()`: the returned id and the world afterwards.  `nextId++` is a
32-bit increment. -/
def World.NewId (w : World E) : Id × World E :=
  let w1 : World E := if w.nextId < w.minId then { w with nextId := w.minId } else w
  let id := w1.nextId
  let w2 : World E :=
    if w1.nextId = w1.maxId then { w1 with nextId := w1.minId }
    else { w1 with nextId := (w1.nextId + 1) % idModulus }
  (id, w2)

/-- The loop `for i := range comp { comp[i].write(world.engine, archId, id) }`. -/
def writeAll (ops : archEngineCalls E C V) (archId : archetypeId) (id : Id) :
    List C → E → Option E
  | [], e => some e
  | c :: cs, e =>
    match ops.write c e archId id with
    | none => none
    | some e1 => writeAll ops archId id cs e1

/-- The method `World.Write(id, comp...)`. -/
def World.Write (ops : archEngineCalls E C V) (w : World E) (id : Id) (comp : List C) :
    Option (World E) :=
  if comp.length ≤ 0 then some w
  else
    match w.arch id with
    | some archId =>
      match ops.rewriteArch w.engine archId id comp with
      | none => none
      | some (e, newarchetypeId) =>
        some { w with arch := Function.update w.arch id (some newarchetypeId), engine := e }
    | none =>
      match ops.GetarchetypeId w.engine comp with
      | none => none
      | some (e, archId) =>
        match writeAll ops archId id comp e with
        | none => none
        | some e1 =>
          some { w with arch := Function.update w.arch id (some archId), engine := e1 }

/-- The function `Read[T](world, id)`, with `t = name(T)`; the zero value of `T` is `default`. -/
def Read [Inhabited V] (ops : archEngineCalls E C V) (w : World E) (t : componentId)
    (id : Id) : Option (V × Bool) :=
  match w.arch id with
  | none => some (default, false)
  | some archId => ops.readArch w.engine t archId id

/-- The function `Delete(world, id)`: the world afterwards and the returned boolean. -/
def Delete (ops : archEngineCalls E C V) (w : World E) (id : Id) : Option (World E × Bool) :=
  match w.arch id with
  | none => some (w, false)
  | some archId =>
    match ops.TagForDeletion w.engine archId id with
    | none => none
    | some e => some ({ w with arch := Function.update w.arch id none, engine := e }, true)

/-- The method `World.Exists(id)`. -/
def World.Exists (w : World E) (id : Id) : Bool :=
  (w.arch id).isSome

/-- World states produced from `NewWorld()` by public calls that return:
`SetIdRange` with 32-bit arguments that passes its guards, `NewId`, `Write` and
`Delete`. -/
inductive Reachable (ops : archEngineCalls E C V) : World E → Prop
  | init : Reachable ops (NewWorld ops)
  | setIdRange {w : World E} (min max : Id) : Reachable ops w →
      min ≤ MaxEntity → max ≤ MaxEntity → (w.SetIdRange min max).panicked = none →
      Reachable ops (w.SetIdRange min max).state
  | newId {w : World E} : Reachable ops w → Reachable ops w.NewId.2
  | write {w w1 : World E} (id : Id) (comp : List C) : Reachable ops w →
      w.Write ops id comp = some w1 → Reachable ops w1
  | delete {w w1 : World E} (id : Id) (b : Bool) : Reachable ops w →
      Delete ops w id = some (w1, b) → Reachable ops w1

end world

/-! ## The archetype engine

`world.go` and `view_gen.go` reach the engine through `world.engine`; its own
source file is not part of the sources read here.  The shapes below are the ones
the views use (`engine.lookup[archId]`, `lookup.index[id]`, `lookup.id`,
`storage.slice[archId].comp`); the behaviour follows the specification's
description of the Archetype Engine and of the Lookup Index. -/

/-- Modelled from the spec: the `Component` capability, a value that reports its
own ComponentTag (`tag`) and can be written to an archetype's column (`val` is
what gets stored). -/
structure Component (V : Type) where
  tag : componentId
  val : V

/-- Modelled from the spec: the declaration of `lookupList`, the per-archetype
Lookup: a mapping from EntityId to slot index (`index`), the id column (`id`,
slot index to EntityId, the invalid sentinel marking a hole) and the list of free
slot indices (`holes`). -/
structure lookupList where
  index : Id → Option Nat
  id : List Id
  holes : List Nat

/-- Modelled from the spec: the declaration of `archEngine`.  `generation` is the
archetype registry version, `registry` lists the tag set of every archetype in
creation order (an archetype's id is its position), `lookup` is
`engine.lookup`, and `storage t a` is the column `getStorage[T](engine).slice[a].comp`
for `t = name(T)`. -/
structure archEngine (V : Type) where
  generation : Nat
  registry : List (Finset componentId)
  lookup : archetypeId → Option lookupList
  storage : componentId → archetypeId → Option (List V)

section engine
variable {V : Type}

/-- Modelled from the spec: `newArchEngine()`, an engine with no archetype. -/
def newArchEngine : archEngine V :=
  { generation := 0
    registry := []
    lookup := fun _ => none
    storage := fun _ _ => none }

/-- The set of ComponentTags of a component list. -/
def tagsOf (comp : List (Component V)) : Finset componentId :=
  (comp.map Component.tag).toFinset

/-- Modelled from the spec: `resolveArchetype(tagSet) -> archetypeId`, the
canonical registry lookup keyed by the unordered tag set; it creates a new
archetype (empty columns) on first occurrence, and the registry version counter
increments on creation. -/
def resolveArchetype (e : archEngine V) (tags : Finset componentId) :
    archEngine V × archetypeId :=
  if tags ∈ e.registry then (e, e.registry.indexOf tags)
  else
    ({ generation := e.generation + 1
       registry := e.registry ++ [tags]
       lookup := Function.update e.lookup e.registry.length
           (some { index := fun _ => none, id := [], holes := [] })
       storage := fun t a =>
         if a = e.registry.length then (if t ∈ tags then some [] else none)
         else e.storage t a },
     e.registry.length)

/-- Modelled from the spec: `archEngine.GetarchetypeId(comp...)`, the archetype
exactly matching the given component-type set. -/
def GetarchetypeId (e : archEngine V) (comp : List (Component V)) :
    Option (archEngine V × archetypeId) :=
  some (resolveArchetype e (tagsOf comp))

/-- Modelled from the spec: the slot allocation policy, obtain a slot of
archetype `a` (whose lookup is `l`) for `id`: reuse from the free list if
available (the last freed slot first), else append to the id column; every
column of the archetype grows with the id column, a column's length being always
equal to its archetype's id-column length. -/
def obtainSlot [Inhabited V] (e : archEngine V) (a : archetypeId) (l : lookupList) (id : Id) :
    archEngine V × Nat :=
  match l.holes.getLast? with
  | some h =>
    let l1 : lookupList :=
      { index := Function.update l.index id (some h)
        id := l.id.set h id
        holes := l.holes.dropLast }
    ({ e with lookup := Function.update e.lookup a (some l1) }, h)
  | none =>
    let l1 : lookupList :=
      { index := Function.update l.index id (some l.id.length)
        id := l.id ++ [id]
        holes := l.holes }
    ({ e with
       lookup := Function.update e.lookup a (some l1)
       storage := fun t b =>
         if b = a then (e.storage t b).map (fun col => col ++ [default]) else e.storage t b },
     l.id.length)

/-- Modelled from the spec: storing a component's value in its column of
archetype `a` at a slot.  An archetype without that column, or a slot out of
bounds, is an internal invariant violation (fatal). -/
def writeColumn (e : archEngine V) (a : archetypeId) (slot : Nat) (c : Component V) :
    Option (archEngine V) :=
  match e.storage c.tag a with
  | none => none
  | some col =>
    if slot < col.length then
      some { e with storage := fun t b =>
        if t = c.tag ∧ b = a then some (col.set slot c.val) else e.storage t b }
    else none

/-- Modelled from the spec: the self-describing write operation of a component,
`comp.write(engine, archId, id)`: insert the value into the archetype's column at
the entity's slot, obtaining a slot first when the entity has none there.  A
missing lookup structure is fatal. -/
def writeArch [Inhabited V] (c : Component V) (e : archEngine V) (a : archetypeId) (id : Id) :
    Option (archEngine V) :=
  match e.lookup a with
  | none => none
  | some l =>
    match l.index id with
    | some s => writeColumn e a s c
    | none => writeColumn (obtainSlot e a l id).1 a (obtainSlot e a l id).2 c

/-- Modelled from the spec: `tagForDeletion(archetypeId, id)`: sets the id-column
entry at the entity's slot to the invalid sentinel and appends the slot index to
the free list; never shifts or compacts other slots.  The entity's entry in the
id-to-slot mapping goes with its slot.  A missing lookup or slot is fatal. -/
def TagForDeletion (e : archEngine V) (a : archetypeId) (id : Id) : Option (archEngine V) :=
  match e.lookup a with
  | none => none
  | some l =>
    match l.index id with
    | none => none
    | some s =>
      let l1 : lookupList :=
        { index := Function.update l.index id none
          id := l.id.set s InvalidEntity
          holes := l.holes ++ [s] }
      some { e with lookup := Function.update e.lookup a (some l1) }

/-- Modelled from the spec: the copy step of a migration, every column value of
slot `s` of archetype `a` goes to slot `ds` of archetype `d` for every type the
two archetypes share. -/
def copyShared (e : archEngine V) (a : archetypeId) (s : Nat) (d : archetypeId) (ds : Nat) :
    archEngine V :=
  { e with storage := fun t b =>
      if b = d then
        match e.storage t a, e.storage t d with
        | some src, some dst =>
          match src[s]? with
          | some v => some (dst.set ds v)
          | none => some dst
        | _, r => r
      else e.storage t b }

/-- Modelled from the spec: applying the new or overwritten values of a write at
a known slot, in the order given. -/
def applyAll (a : archetypeId) (slot : Nat) : List (Component V) → archEngine V →
    Option (archEngine V)
  | [], e => some e
  | c :: cs, e =>
    match writeColumn e a slot c with
    | none => none
    | some e1 => applyAll a slot cs e1

/-- Modelled from the spec: `migrate(oldArchetypeId, id, newComponents) ->
newArchetypeId`: computes the destination tag set (union), finds or creates the
destination archetype, obtains a destination slot, copies values for every shared
type, applies new or overwritten values, tombstones the source slot, returns the
destination id. -/
def migrate [Inhabited V] (e : archEngine V) (a : archetypeId) (id : Id)
    (comp : List (Component V)) : Option (archEngine V × archetypeId) :=
  match e.registry[a]?, e.lookup a with
  | some old, some l =>
    match l.index id with
    | none => none
    | some s =>
      match (resolveArchetype e (old ∪ tagsOf comp)).1.lookup
          (resolveArchetype e (old ∪ tagsOf comp)).2 with
      | none => none
      | some ld =>
        let d := (resolveArchetype e (old ∪ tagsOf comp)).2
        let r := obtainSlot (resolveArchetype e (old ∪ tagsOf comp)).1 d ld id
        match applyAll d r.2 comp (copyShared r.1 a s d r.2) with
        | none => none
        | some e4 =>
          match TagForDeletion e4 a id with
          | none => none
          | some e5 => some (e5, d)
  | _, _ => none

/-- Modelled from the spec: `archEngine.rewriteArch(archId, id, comp...)`, the
write to an entity that exists: computes the archetype for (existing types ∪
given types); if unchanged, overwrites values in place; if changed, migrates.
Returns the entity's archetype afterwards. -/
def rewriteArch [Inhabited V] (e : archEngine V) (a : archetypeId) (id : Id)
    (comp : List (Component V)) : Option (archEngine V × archetypeId) :=
  match e.registry[a]? with
  | none => none
  | some old =>
    if old ∪ tagsOf comp = old then
      match e.lookup a with
      | none => none
      | some l =>
        match l.index id with
        | none => none
        | some s => (applyAll a s comp e).map (fun e1 => (e1, a))
    else migrate e a id comp

/-- Modelled from the spec: `readArch[T](engine, archId, id)`, the lookup via
archetype and slot: the value and `true`, or the zero value and `false` when the
entity has no slot there or the archetype has no column of that type (ordinary
conditions).  A missing lookup structure or an out-of-bounds slot is fatal. -/
def readArch [Inhabited V] (e : archEngine V) (t : componentId) (a : archetypeId) (id : Id) :
    Option (V × Bool) :=
  match e.lookup a with
  | none => none
  | some l =>
    match l.index id with
    | none => some (default, false)
    | some s =>
      match e.storage t a with
      | none => some (default, false)
      | some col =>
        match col[s]? with
        | none => none
        | some v => some (v, true)

/-- The engine calls of `world.go`, bound to the engine above. -/
def engineCalls (V : Type) [Inhabited V] :
    archEngineCalls (archEngine V) (Component V) V :=
  { newArchEngine := newArchEngine
    GetarchetypeId := GetarchetypeId
    rewriteArch := rewriteArch
    write := writeArch
    TagForDeletion := TagForDeletion
    readArch := readArch }

/-- The storage invariants of the engine: every registered archetype has a
lookup; an archetype has exactly the columns of its tag set; every column is as
long as the id column; every slot of the id-to-slot mapping and every free slot
lies inside the id column. -/
structure EngineInv (e : archEngine V) : Prop where
  lookup_some : ∀ a, a < e.registry.length → ∃ l, e.lookup a = some l
  column_iff : ∀ a key t, e.registry[a]? = some key →
    ((∃ col, e.storage t a = some col) ↔ t ∈ key)
  column_len : ∀ a l t col, e.lookup a = some l → e.storage t a = some col →
    col.length = l.id.length
  index_lt : ∀ a l i s, e.lookup a = some l → l.index i = some s → s < l.id.length
  holes_lt : ∀ a l h, e.lookup a = some l → h ∈ l.holes → h < l.id.length

/-- Entity `i` has slot `s` in archetype `a`. -/
def SlotOf (e : archEngine V) (a : archetypeId) (i : Id) (s : Nat) : Prop :=
  ∃ l, e.lookup a = some l ∧ l.index i = some s

/-- The invariant tying the World's entity map to the engine: the engine's
storage invariants hold, and every id of the entity map lives in a registered
archetype in which it has a slot. -/
structure WorldInv (w : World (archEngine V)) : Prop where
  engine : EngineInv w.engine
  placed : ∀ i a, w.arch i = some a →
    a < w.engine.registry.length ∧ ∃ s, SlotOf w.engine a i s

/-- What an engine call on entity `i` leaves in place: the registered
archetypes keep their ids and tag sets, and every other entity keeps its slot. -/
structure Extends (i : Id) (e e1 : archEngine V) : Prop where
  length_le : e.registry.length ≤ e1.registry.length
  registry : ∀ (a : archetypeId) key, e.registry[a]? = some key → e1.registry[a]? = some key
  slots : ∀ a j s, a < e.registry.length → j ≠ i → SlotOf e a j s → SlotOf e1 a j s

/-- Engine `e1` is `e` with values of columns of archetype `a` overwritten: same
registry, same lookups, same column lengths, other archetypes untouched. -/
structure Rewrites (a : archetypeId) (e e1 : archEngine V) : Prop where
  registry : e1.registry = e.registry
  lookup : e1.lookup = e.lookup
  shape : ∀ t b, (e1.storage t b).map List.length = (e.storage t b).map List.length
  other : ∀ t b, b ≠ a → e1.storage t b = e.storage t b

end engine

/-! ## Sequences of public calls -/

/-- A public call that changes the world: `Write`, `Delete`, `NewId` or
`SetIdRange`. -/
inductive Call (C : Type) where
  | write (id : Id) (comp : List C)
  | delete (id : Id)
  | newId
  | setIdRange (min max : Id)

section calls
variable {E C V : Type}

/-- The function `ReadPtr[T](world, id)`, with `t = name(T)`; `readPtrArch e t a id`
stands for the engine's `readPtrArch[T](e, a, id)`, `P` for the pointer type, and
the inner `none` for the nil pointer. -/
def ReadPtr {P : Type} (readPtrArch : E → componentId → archetypeId → Id → Option (Option P))
    (w : World E) (t : componentId) (id : Id) : Option (Option P) :=
  match w.arch id with
  | none => some none
  | some archId => readPtrArch w.engine t archId id

/-- The world after one public call, `none` when the call panics. -/
def World.step (ops : archEngineCalls E C V) (w : World E) : Call C → Option (World E)
  | Call.write id comp => w.Write ops id comp
  | Call.delete id => (Delete ops w id).map Prod.fst
  | Call.newId => some w.NewId.2
  | Call.setIdRange min max =>
    match (w.SetIdRange min max).panicked with
    | some _ => none
    | none => some (w.SetIdRange min max).state

/-- The world after a sequence of public calls made in order, `none` when one of
them panics. -/
def World.run (ops : archEngineCalls E C V) : World E → List (Call C) → Option (World E)
  | w, [] => some w
  | w, c :: cs =>
    match w.step ops c with
    | none => none
    | some w1 => World.run ops w1 cs

/-- Whether a call sequence leaves `id` in the entity map, given whether it was
there before: a `Write` to `id` with at least one component puts it there, a
`Delete` of `id` removes it, every other call leaves it as it was. -/
def tracksId (id : Id) : List (Call C) → Bool → Bool
  | [], b => b
  | Call.write j comp :: cs, b =>
    tracksId id cs (if j = id ∧ ¬ comp.length ≤ 0 then true else b)
  | Call.delete j :: cs, b => tracksId id cs (if j = id then false else b)
  | Call.newId :: cs, b => tracksId id cs b
  | Call.setIdRange _ _ :: cs, b => tracksId id cs b

/-- The call sequence contains a `Write(id, ...)` with at least one component
that is not followed by a later `Delete(id)`. -/
def writtenAndKept (id : Id) (calls : List (Call C)) : Prop :=
  ∃ pre comp post, calls = pre ++ Call.write id comp :: post ∧ comp ≠ [] ∧
    Call.delete id ∉ post

end calls

/-! ## view_gen.go

The views hold a pointer to the World; here every method takes the current world
state as an argument.  A view's `storageT` is the engine's storage of the type
`T`, so `v.storageT.slice[archId]` is `w.engine.storage t archId` for
`t = name(T)`; a column that exists is a `comp` slice that is not nil (see
`elemPtr`).  The filter list, whose
source is not part of the sources read here, follows the specification's
Filter/Query Matcher. -/

/-- Modelled from the spec: a predicate of a query, "the archetype's tag set must
include T" (`has`) or "must exclude T" (`lacks`). -/
inductive Filter where
  | has (t : componentId)
  | lacks (t : componentId)
  deriving DecidableEq

/-- Modelled from the spec: the declaration of `filterList`, the required tags
(`comps`), the predicates, the cached registry version (`generation`, also the
number of archetypes scanned so far) and the cached, ordered sequence of
matching archetype ids (`archIds`). -/
structure filterList where
  comps : List componentId
  filters : List Filter
  generation : Nat
  archIds : List archetypeId
  deriving DecidableEq

/-- A pointer `&storageT.slice[arch].comp[slot]` into a column; the nil pointer is
`none : Option compPtr`. -/
structure compPtr where
  tag : componentId
  arch : archetypeId
  slot : Nat
  deriving DecidableEq

/-- The struct `View1[A]`. -/
structure View1 where
  filter : filterList
  storageA : componentId

/-- The struct `View2[A, B]`. -/
structure View2 where
  filter : filterList
  storageA : componentId
  storageB : componentId

section views
variable {V : Type}

/-- Modelled from the spec: whether an archetype's tag set satisfies a predicate. -/
def Filter.holds : Filter → Finset componentId → Bool
  | Filter.has t, tags => decide (t ∈ tags)
  | Filter.lacks t, tags => decide (t ∉ tags)

/-- Modelled from the spec: `FilterList(requiredTags, predicates)` matches
archetype A iff A's tag set is a superset of `requiredTags` and A satisfies every
predicate. -/
def filterList.matches (f : filterList) (tags : Finset componentId) : Bool :=
  f.comps.all (fun t => decide (t ∈ tags)) && f.filters.all (fun p => p.holds tags)

/-- Modelled from the spec: `newFilterList(comps, filters...)`, a matcher that has
scanned no archetype yet. -/
def newFilterList (comps : List componentId) (filters : List Filter) : filterList :=
  { comps := comps, filters := filters, generation := 0, archIds := [] }

/-- Modelled from the spec: `regenerate(world)` compares the cached registry
version against the engine's current version; if unchanged, no work; otherwise it
rescans only the newly created archetypes and appends the matches. -/
def filterList.regenerate (f : filterList) (w : World (archEngine V)) : filterList :=
  if f.generation = w.engine.generation then f
  else
    { f with
      generation := w.engine.generation
      archIds := f.archIds ++ (List.range w.engine.registry.length).filter (fun a =>
        decide (f.generation ≤ a) &&
          (match w.engine.registry[a]? with
           | some tags => f.matches tags
           | none => false)) }

/-- The value a pointer refers to. -/
def compPtr.load (e : archEngine V) (p : compPtr) : Option V :=
  match e.storage p.tag p.arch with
  | none => none
  | some col => col[p.slot]?

/-- The statements `sliceT, ok := v.storageT.slice[archId]; if ok { retT =
&sliceT.comp[index] }` of `Read`, and `if compT != nil { retT = &compT[idx] }`
of `MapId`: nil when the archetype has no column of the type, the address of the
element when it has one, a panic (`none`) when the index is out of range.
`Read` tests the presence of the map entry, `MapId` tests `compT != nil` on the
`comp` slice of the entry; a column of the model is a list, which stands for a
`comp` slice that is not nil, so both tests are the presence of the column.  A
map entry whose `comp` is nil (for which `MapId` passes nil pointers) has no
counterpart here; it can differ from an empty column only when the id column has
an entry other than the sentinel, that is when the column is shorter than the id
column, which the storage invariants exclude. -/
def elemPtr (e : archEngine V) (t : componentId) (archId : archetypeId) (index : Nat) :
    Option (Option compPtr) :=
  match e.storage t archId with
  | none => some none
  | some comp => if index < comp.length then some (some ⟨t, archId, index⟩) else none

/-- The function `Query1[A](world, filters...)`, with `A = name(AA)`. -/
def Query1 (w : World (archEngine V)) (A : componentId) (filters : List Filter) : View1 :=
  { filter := (newFilterList [A] filters).regenerate w, storageA := A }

/-- The function `Query2[A, B](world, filters...)`. -/
def Query2 (w : World (archEngine V)) (A B : componentId) (filters : List Filter) : View2 :=
  { filter := (newFilterList [A, B] filters).regenerate w, storageA := A, storageB := B }

/-- The method `View1.Read(id)`; the outer `none` is a panic. -/
def View1.Read (v : View1) (w : World (archEngine V)) (id : Id) : Option (Option compPtr) :=
  if id = InvalidEntity then some none
  else
    match w.arch id with
    | none => some none
    | some archId =>
      match w.engine.lookup archId with
      | none => none
      | some lookup =>
        match lookup.index id with
        | none => some none
        | some index => elemPtr w.engine v.storageA archId index

/-- The method `View2.Read(id)`; the outer `none` is a panic. -/
def View2.Read (v : View2) (w : World (archEngine V)) (id : Id) :
    Option (Option compPtr × Option compPtr) :=
  if id = InvalidEntity then some (none, none)
  else
    match w.arch id with
    | none => some (none, none)
    | some archId =>
      match w.engine.lookup archId with
      | none => none
      | some lookup =>
        match lookup.index id with
        | none => some (none, none)
        | some index =>
          match elemPtr w.engine v.storageA archId index with
          | none => none
          | some retA =>
            match elemPtr w.engine v.storageB archId index with
            | none => none
            | some retB => some (retA, retB)

/-- The inner loop `for idx := range ids` of `View1.MapId` from slot `idx` on:
`acc` holds the callback invocations made so far. -/
def View1.mapIdSlots (v : View1) (w : World (archEngine V)) (archId : archetypeId) :
    Nat → List Id → List (Id × Option compPtr) → Outcome (List (Id × Option compPtr))
  | _, [], acc => ⟨acc, none⟩
  | idx, i :: ids, acc =>
    if i = InvalidEntity then View1.mapIdSlots v w archId (idx + 1) ids acc
    else
      match elemPtr w.engine v.storageA archId idx with
      | none => ⟨acc, some "index out of range"⟩
      | some retA => View1.mapIdSlots v w archId (idx + 1) ids (acc ++ [(i, retA)])

/-- The loop `for _, archId := range v.filter.archIds` of `View1.MapId`. -/
def View1.mapIdArchs (v : View1) (w : World (archEngine V)) :
    List archetypeId → List (Id × Option compPtr) → Outcome (List (Id × Option compPtr))
  | [], acc => ⟨acc, none⟩
  | archId :: rest, acc =>
    match w.engine.lookup archId with
    | none => ⟨acc, some "LookupList is missing!"⟩
    | some lookup =>
      match (v.mapIdSlots w archId 0 lookup.id acc).panicked with
      | some msg => ⟨(v.mapIdSlots w archId 0 lookup.id acc).state, some msg⟩
      | none => View1.mapIdArchs v w rest (v.mapIdSlots w archId 0 lookup.id acc).state

/-- The method `View1.MapId(lambda)`: the view afterwards (its filter is
regenerated) with the callback invocations `lambda(id, a)` made, in order. -/
def View1.MapId (v : View1) (w : World (archEngine V)) :
    Outcome (View1 × List (Id × Option compPtr)) :=
  let v1 : View1 := { v with filter := v.filter.regenerate w }
  ⟨(v1, (v1.mapIdArchs w v1.filter.archIds []).state),
   (v1.mapIdArchs w v1.filter.archIds []).panicked⟩

/-- The inner loop `for idx := range ids` of `View2.MapId` from slot `idx` on. -/
def View2.mapIdSlots (v : View2) (w : World (archEngine V)) (archId : archetypeId) :
    Nat → List Id → List (Id × Option compPtr × Option compPtr) →
    Outcome (List (Id × Option compPtr × Option compPtr))
  | _, [], acc => ⟨acc, none⟩
  | idx, i :: ids, acc =>
    if i = InvalidEntity then View2.mapIdSlots v w archId (idx + 1) ids acc
    else
      match elemPtr w.engine v.storageA archId idx with
      | none => ⟨acc, some "index out of range"⟩
      | some retA =>
        match elemPtr w.engine v.storageB archId idx with
        | none => ⟨acc, some "index out of range"⟩
        | some retB => View2.mapIdSlots v w archId (idx + 1) ids (acc ++ [(i, retA, retB)])

/-- The loop `for _, archId := range v.filter.archIds` of `View2.MapId`. -/
def View2.mapIdArchs (v : View2) (w : World (archEngine V)) :
    List archetypeId → List (Id × Option compPtr × Option compPtr) →
    Outcome (List (Id × Option compPtr × Option compPtr))
  | [], acc => ⟨acc, none⟩
  | archId :: rest, acc =>
    match w.engine.lookup archId with
    | none => ⟨acc, some "LookupList is missing!"⟩
    | some lookup =>
      match (v.mapIdSlots w archId 0 lookup.id acc).panicked with
      | some msg => ⟨(v.mapIdSlots w archId 0 lookup.id acc).state, some msg⟩
      | none => View2.mapIdArchs v w rest (v.mapIdSlots w archId 0 lookup.id acc).state

/-- The method `View2.MapId(lambda)`: the view afterwards with the callback
invocations `lambda(id, a, b)` made, in order. -/
def View2.MapId (v : View2) (w : World (archEngine V)) :
    Outcome (View2 × List (Id × Option compPtr × Option compPtr)) :=
  let v1 : View2 := { v with filter := v.filter.regenerate w }
  ⟨(v1, (v1.mapIdArchs w v1.filter.archIds []).state),
   (v1.mapIdArchs w v1.filter.archIds []).panicked⟩

/-- The first loop of `View1.MapSlices`, which gathers the id column and the
column of every matched archetype that has the column. -/
def View1.gatherSlices (v : View1) (w : World (archEngine V)) :
    List archetypeId → List (List Id × List V) → Outcome (List (List Id × List V))
  | [], acc => ⟨acc, none⟩
  | archId :: rest, acc =>
    match w.engine.storage v.storageA archId with
    | none => View1.gatherSlices v w rest acc
    | some sliceA =>
      match w.engine.lookup archId with
      | none => ⟨acc, some "LookupList is missing!"⟩
      | some lookup => View1.gatherSlices v w rest (acc ++ [(lookup.id, sliceA)])

/-- The method `View1.MapSlices(lambda)`: the view afterwards with the callback
invocations `lambda(id, a)` made, in order; a panic of the first loop comes
before any invocation. -/
def View1.MapSlices (v : View1) (w : World (archEngine V)) :
    Outcome (View1 × List (List Id × List V)) :=
  let v1 : View1 := { v with filter := v.filter.regenerate w }
  match (v1.gatherSlices w v1.filter.archIds []).panicked with
  | some msg => ⟨(v1, []), some msg⟩
  | none => ⟨(v1, (v1.gatherSlices w v1.filter.archIds []).state), none⟩

/-- The first loop of `View2.MapSlices`. -/
def View2.gatherSlices (v : View2) (w : World (archEngine V)) :
    List archetypeId → List (List Id × List V × List V) →
    Outcome (List (List Id × List V × List V))
  | [], acc => ⟨acc, none⟩
  | archId :: rest, acc =>
    match w.engine.storage v.storageA archId with
    | none => View2.gatherSlices v w rest acc
    | some sliceA =>
      match w.engine.storage v.storageB archId with
      | none => View2.gatherSlices v w rest acc
      | some sliceB =>
        match w.engine.lookup archId with
        | none => ⟨acc, some "LookupList is missing!"⟩
        | some lookup => View2.gatherSlices v w rest (acc ++ [(lookup.id, sliceA, sliceB)])

/-- The method `View2.MapSlices(lambda)`. -/
def View2.MapSlices (v : View2) (w : World (archEngine V)) :
    Outcome (View2 × List (List Id × List V × List V)) :=
  let v1 : View2 := { v with filter := v.filter.regenerate w }
  match (v1.gatherSlices w v1.filter.archIds []).panicked with
  | some msg => ⟨(v1, []), some msg⟩
  | none => ⟨(v1, (v1.gatherSlices w v1.filter.archIds []).state), none⟩

/-! ### What the loops of the views compute -/

/-- The storage invariants of the specification, read on the World's entity map
and the engine's lookups and columns: (1) every id of the entity map has, in the
lookup of the archetype the map names, a slot `index[id]` below the id column's
length with `id column[index[id]] = id`; (2) every column is as long as its
archetype's id column; and an id is stored nowhere else: every entry of an id
column other than the invalid sentinel is an id of the entity map, held in that
archetype at that slot. -/
structure StorageInv (w : World (archEngine V)) : Prop where
  placed : ∀ id a, w.arch id = some a →
    ∃ l s, w.engine.lookup a = some l ∧ l.index id = some s ∧ s < l.id.length ∧
      l.id[s]? = some id
  column_len : ∀ a l t col, w.engine.lookup a = some l → w.engine.storage t a = some col →
    col.length = l.id.length
  owned : ∀ a l idx id, w.engine.lookup a = some l → l.id[idx]? = some id →
    id ≠ InvalidEntity → w.arch id = some a ∧ l.index id = some idx

/-- The bookkeeping of one lookup: the id-to-slot mapping and the id column agree
(the slot of an id holds that id; an entry of the id column other than the
invalid sentinel has that slot), and the free slots are distinct, inside the id
column and assigned to no id. -/
structure LookupOk (l : lookupList) : Prop where
  idx_id : ∀ i s, l.index i = some s → l.id[s]? = some i
  id_idx : ∀ k i, l.id[k]? = some i → i ≠ InvalidEntity → l.index i = some k
  hole_free : ∀ h i, h ∈ l.holes → l.index i ≠ some h
  holes_nodup : l.holes.Nodup
  holes_lt : ∀ h, h ∈ l.holes → h < l.id.length

/-- What an engine call for entity `id` does to the lookups, `a` being the
archetype the entity is in afterwards (`none`: in no archetype): every lookup
keeps its bookkeeping, `id` has a slot in archetype `a` only, and a slot of any
other entity is a slot that entity had before. -/
def Places (id : Id) (a : Option archetypeId) (e e1 : archEngine V) : Prop :=
  ∀ b l1, e1.lookup b = some l1 → LookupOk l1 ∧
    ∀ i s, l1.index i = some s → (i = id ∧ a = some b) ∨ (i ≠ id ∧ SlotOf e b i s)

/-- The invariant tying the lookups to the World's entity map: every lookup
keeps its bookkeeping, and an id that has a slot in an archetype is an id of the
entity map, mapped to that archetype. -/
structure SlotInv (w : World (archEngine V)) : Prop where
  lookups : ∀ a l, w.engine.lookup a = some l → LookupOk l
  linked : ∀ a l i s, w.engine.lookup a = some l → l.index i = some s → w.arch i = some a

/-- The pointers `View1.MapId` passes for slot `idx` of archetype `archId`
(`none`: the index is out of range). -/
def View1.ptrs (v : View1) (w : World (archEngine V)) (archId : archetypeId) (idx : Nat) :
    Option (Option compPtr) :=
  elemPtr w.engine v.storageA archId idx

/-- The pointers `View2.MapId` passes for slot `idx` of archetype `archId`
(`none`: an index is out of range). -/
def View2.ptrs (v : View2) (w : World (archEngine V)) (archId : archetypeId) (idx : Nat) :
    Option (Option compPtr × Option compPtr) :=
  match elemPtr w.engine v.storageA archId idx with
  | none => none
  | some retA =>
    match elemPtr w.engine v.storageB archId idx with
    | none => none
    | some retB => some (retA, retB)

/-- The slot loop of `MapId` for any arity, `ptrs idx` being the pointers of slot
`idx`. -/
def slotLoop {β : Type} (ptrs : Nat → Option β) :
    Nat → List Id → List (Id × β) → Outcome (List (Id × β))
  | _, [], acc => ⟨acc, none⟩
  | idx, i :: ids, acc =>
    if i = InvalidEntity then slotLoop ptrs (idx + 1) ids acc
    else
      match ptrs idx with
      | none => ⟨acc, some "index out of range"⟩
      | some p => slotLoop ptrs (idx + 1) ids (acc ++ [(i, p)])

/-- The archetype loop of `MapId` for any arity. -/
def archLoop {β : Type} (w : World (archEngine V)) (ptrs : archetypeId → Nat → Option β) :
    List archetypeId → List (Id × β) → Outcome (List (Id × β))
  | [], acc => ⟨acc, none⟩
  | archId :: rest, acc =>
    match w.engine.lookup archId with
    | none => ⟨acc, some "LookupList is missing!"⟩
    | some lookup =>
      match (slotLoop (ptrs archId) 0 lookup.id acc).panicked with
      | some msg => ⟨(slotLoop (ptrs archId) 0 lookup.id acc).state, some msg⟩
      | none => archLoop w ptrs rest (slotLoop (ptrs archId) 0 lookup.id acc).state

/-- Whether the slot loop meets no index out of range: the pointers of every slot
from `idx` on whose entry is not the invalid sentinel resolve. -/
def slotsOk {β : Type} (ptrs : Nat → Option β) : Nat → List Id → Bool
  | _, [] => true
  | idx, i :: ids =>
    (decide (i = InvalidEntity) || (ptrs idx).isSome) && slotsOk ptrs (idx + 1) ids

/-- Whether the archetype loop meets no fatal path: every archetype of the list
has a lookup, and the pointers of every slot of its id column whose entry is not
the invalid sentinel resolve. -/
def archsOk {β : Type} (w : World (archEngine V)) (ptrs : archetypeId → Nat → Option β) :
    List archetypeId → Bool
  | [] => true
  | archId :: rest =>
    (match w.engine.lookup archId with
     | none => false
     | some lookup => slotsOk (ptrs archId) 0 lookup.id) && archsOk w ptrs rest

/-- Whether `View1.MapId` meets no fatal path in world `w`: every matched
archetype has a lookup, and the column of A, where the archetype has one, reaches
every slot of the id column whose entry is not the invalid sentinel. -/
def View1.mapSafe (v : View1) (w : World (archEngine V)) : Bool :=
  archsOk w (v.ptrs w) (v.filter.regenerate w).archIds

/-- Whether `View2.MapId` meets no fatal path in world `w`. -/
def View2.mapSafe (v : View2) (w : World (archEngine V)) : Bool :=
  archsOk w (v.ptrs w) (v.filter.regenerate w).archIds

/-- The entries of an id column that are not the invalid sentinel, in slot order. -/
def liveIds (ids : List Id) : List Id :=
  ids.filter (fun i => decide (i ≠ InvalidEntity))

/-- The id column of an archetype, empty when the archetype has no lookup. -/
def idColumn (w : World (archEngine V)) (archId : archetypeId) : List Id :=
  match w.engine.lookup archId with
  | none => []
  | some lookup => lookup.id

/-- Whether `View1.MapSlices` meets no fatal path: every matched archetype that
has the column of A has a lookup. -/
def View1.slicesSafe (v : View1) (w : World (archEngine V)) : Bool :=
  (v.filter.regenerate w).archIds.all (fun a =>
    (w.engine.storage v.storageA a).isNone || (w.engine.lookup a).isSome)

/-- Whether `View2.MapSlices` meets no fatal path: every matched archetype that
has the columns of A and of B has a lookup. -/
def View2.slicesSafe (v : View2) (w : World (archEngine V)) : Bool :=
  (v.filter.regenerate w).archIds.all (fun a =>
    (w.engine.storage v.storageA a).isNone || (w.engine.storage v.storageB a).isNone ||
      (w.engine.lookup a).isSome)

/-- The id column and the column of A of an archetype that has both, what
`View1.MapSlices` passes for it. -/
def View1.slicesOf (v : View1) (w : World (archEngine V)) (a : archetypeId) :
    Option (List Id × List V) :=
  match w.engine.storage v.storageA a, w.engine.lookup a with
  | some sliceA, some lookup => some (lookup.id, sliceA)
  | _, _ => none

/-- The id column and the columns of A and B of an archetype that has all three,
what `View2.MapSlices` passes for it. -/
def View2.slicesOf (v : View2) (w : World (archEngine V)) (a : archetypeId) :
    Option (List Id × List V × List V) :=
  match w.engine.storage v.storageA a, w.engine.storage v.storageB a, w.engine.lookup a with
  | some sliceA, some sliceB, some lookup => some (lookup.id, sliceA, sliceB)
  | _, _, _ => none

end views

/-! ## Sample states -/

/-- The world reached from a new world by a sequence of public calls (a new
world when one of them panics), over the engine with natural numbers as values. -/
def worldAfter (calls : List (Call (Component Nat))) : World (archEngine Nat) :=
  ((NewWorld (engineCalls Nat)).run (engineCalls Nat) calls).getD (NewWorld (engineCalls Nat))

/-- A consistent world with two archetypes: archetype 0 (tag set {1}) holds ids
2 and 4 at slots 0 and 2, slot 1 being a hole; archetype 1 (tag set {1, 2}) holds
id 7.  It is the state after writing ids 2, 3, 4 with a component of type 1,
deleting id 3 and writing id 7 with components of types 1 and 2. -/
def sampleWorld : World (archEngine Nat) :=
  { nextId := 2
    minId := 2
    maxId := MaxEntity
    arch := fun i => if i = 2 then some 0 else if i = 4 then some 0 else
      if i = 7 then some 1 else none
    engine :=
      { generation := 2
        registry := [{1}, {1, 2}]
        lookup := fun a =>
          if a = 0 then
            some { index := fun i => if i = 2 then some 0 else if i = 4 then some 2 else none
                   id := [2, 0, 4]
                   holes := [1] }
          else if a = 1 then
            some { index := fun i => if i = 7 then some 0 else none
                   id := [7]
                   holes := [] }
          else none
        storage := fun t a =>
          if a = 0 then (if t = 1 then some [10, 20, 30] else none)
          else if a = 1 then (if t = 1 then some [70] else if t = 2 then some [71] else none)
          else none } }

/-- A consistent world in which the reserved id 0 is in the entity map, the state
after `Write(InvalidEntity, c)` on a new world with one component `c` of type 1. -/
def invalidIdWorld : World (archEngine Nat) :=
  { nextId := 2
    minId := 2
    maxId := MaxEntity
    arch := fun i => if i = 0 then some 0 else none
    engine :=
      { generation := 1
        registry := [{1}]
        lookup := fun a =>
          if a = 0 then
            some { index := fun i => if i = 0 then some 0 else none
                   id := [0]
                   holes := [] }
          else none
        storage := fun t a => if a = 0 ∧ t = 1 then some [7] else none } }

/-- A filter list that is up to date with a registry of version 2 and lists the
archetypes given. -/
def listedFilter (archIds : List archetypeId) : filterList :=
  { comps := [1], filters := [], generation := 2, archIds := archIds }

/-! ## Successive calls of NewId -/

section newIds
variable {E : Type}

/-- The ids returned by `n` successive calls of `World.NewId()`, in call order,
and the world after them. -/
def World.NewIds (w : World E) : Nat → List Id × World E
  | 0 => ([], w)
  | n + 1 => (w.NewId.1 :: (World.NewIds w.NewId.2 n).1, (World.NewIds w.NewId.2 n).2)

end newIds

/-- The calls that produce `sampleWorld`: ids 2, 3 and 4 are written with a
component of type 1, id 3 is deleted, id 7 is written with components of types 1
and 2. -/
def sampleCalls : List (Call (Component Nat)) :=
  [Call.write 2 [⟨1, 10⟩], Call.write 3 [⟨1, 20⟩], Call.write 4 [⟨1, 30⟩], Call.delete 3,
   Call.write 7 [⟨1, 70⟩, ⟨2, 71⟩]]

section calledIds
variable {E C V : Type}

/-- The ids the `NewId` calls of a sequence of public calls return, in call
order; `none` when one of the calls panics. -/
def World.idsOf (ops : archEngineCalls E C V) : World E → List (Call C) → Option (List Id)
  | _, [] => some []
  | w, Call.newId :: cs => (World.idsOf ops w.NewId.2 cs).map (fun ids => w.NewId.1 :: ids)
  | w, c :: cs =>
    match w.step ops c with
    | none => none
    | some w1 => World.idsOf ops w1 cs

end calledIds

/-! ## system.go

The scheduler's frame loop.  `time.Duration` is a signed 64-bit count of
nanoseconds: durations are integers here, and `wrap64` is applied wherever the
Go code computes a new one.  A system's function acts on an environment `σ`
that the scheduler's own fields are not part of (what the function closes over);
the clock (`time.Now`, `time.Since`, `time.Sleep`) is read from and acts on that
environment.  Every call `sys.Run(dt)` and `time.Sleep(d)` of a frame is
recorded as an `Event`. -/

/-- The least value of a signed 64-bit integer (`math.MinInt64`). -/
def minInt64 : Int := -9223372036854775808

/-- The greatest value of a signed 64-bit integer (`math.MaxInt64`). -/
def maxInt64 : Int := 9223372036854775807

/-- The value a signed 64-bit computation keeps of a mathematical result: the
two's-complement wraparound of `int64` arithmetic. -/
def wrap64 (x : Int) : Int :=
  (x + 9223372036854775808) % 18446744073709551616 - 9223372036854775808

/-- The clock of the standard library as `system.go` uses it: `now env` is
`time.Now()`, `since t env` is `time.Since(t)`, `sleep d env` is the environment
after `time.Sleep(d)`; `τ` is `time.Time`. -/
structure Clock (σ τ : Type) where
  now : σ → τ
  since : τ → σ → Int
  sleep : Int → σ → σ

/-- The struct `System`: `Func` is the function the system runs, given the
elapsed time. -/
structure System (σ : Type) where
  Name : String
  Func : Int → σ → σ

/-- The struct `SystemLog`. -/
structure SystemLog where
  Name : String
  Time : Int
  deriving DecidableEq

/-- The struct `Signal`, a boolean behind a mutex. -/
structure Signal where
  value : Bool
  deriving DecidableEq

/-- The struct `Scheduler`. -/
structure Scheduler (σ : Type) where
  input : List (System σ)
  physics : List (System σ)
  render : List (System σ)
  sysLogBack : List SystemLog
  sysLogFront : List SystemLog
  sysLogBackFixed : List SystemLog
  sysLogFrontFixed : List SystemLog
  fixedTimeStep : Int
  accumulator : Int
  gameSpeed : Int
  quit : Signal
  pauseRender : Signal
  maxLoopCount : Int

/-- The group of systems a call `sys.Run(dt)` belongs to. -/
inductive Phase where
  | input
  | physics
  | render
  deriving DecidableEq

/-- What a frame does that is visible from outside: a call `sys.Run(dt)` of a
system of one of the three groups, or a call `time.Sleep(d)`. -/
inductive Event where
  | run (phase : Phase) (name : String) (dt : Int)
  | sleep (d : Int)
  deriving DecidableEq

/-- The local variables of `Scheduler.Run` between two frames, with the
scheduler and the environment. -/
structure RunState (σ τ : Type) where
  sched : Scheduler σ
  env : σ
  dt : Int
  frameStart : τ

section scheduler
variable {σ τ : Type}

/-- The function `NewSystem(lambda)`; `systemName` is the name of the calling
function, which the Go runtime reports. -/
def NewSystem (systemName : String) (lambda : Int → σ → σ) : System σ :=
  { Name := systemName, Func := lambda }

/-- The method `System.Run(dt)`: the environment afterwards and the measured
time `time.Since(start)`. -/
def System.Run (clock : Clock σ τ) (s : System σ) (dt : Int) (env : σ) : σ × Int :=
  (s.Func dt env, clock.since (clock.now env) (s.Func dt env))

/-- The method `Signal.Set(val)`. -/
def Signal.Set (_s : Signal) (val : Bool) : Signal :=
  { value := val }

/-- The method `Signal.Get()`. -/
def Signal.Get (s : Signal) : Bool :=
  s.value

/-- The function `NewScheduler()`: the fields it does not name (`quit`,
`pauseRender`, `maxLoopCount`, `sysLogBackFixed`, ...) have their zero value;
16 milliseconds are 16000000 nanoseconds. -/
def NewScheduler : Scheduler σ :=
  { input := []
    physics := []
    render := []
    sysLogBack := []
    sysLogFront := []
    sysLogBackFixed := []
    sysLogFrontFixed := []
    fixedTimeStep := 16 * 1000000
    accumulator := 0
    gameSpeed := 1
    quit := { value := false }
    pauseRender := { value := false }
    maxLoopCount := 0 }

/-- The method `Scheduler.SetGameSpeed(speed)`. -/
def Scheduler.SetGameSpeed (s : Scheduler σ) (speed : Int) : Scheduler σ :=
  { s with gameSpeed := speed }

/-- The method `Scheduler.SetQuit(value)`, which sets the signal to `true`
whatever `value` is. -/
def Scheduler.SetQuit (s : Scheduler σ) (_value : Bool) : Scheduler σ :=
  { s with quit := s.quit.Set true }

/-- The method `Scheduler.PauseRender(value)`. -/
def Scheduler.PauseRender (s : Scheduler σ) (value : Bool) : Scheduler σ :=
  { s with pauseRender := s.pauseRender.Set value }

/-- The method `Scheduler.SetFixedTimeStep(t)`. -/
def Scheduler.SetFixedTimeStep (s : Scheduler σ) (t : Int) : Scheduler σ :=
  { s with fixedTimeStep := t }

/-- The method `Scheduler.AppendInput(systems...)`. -/
def Scheduler.AppendInput (s : Scheduler σ) (systems : List (System σ)) : Scheduler σ :=
  { s with input := s.input ++ systems }

/-- The method `Scheduler.AppendPhysics(systems...)`. -/
def Scheduler.AppendPhysics (s : Scheduler σ) (systems : List (System σ)) : Scheduler σ :=
  { s with physics := s.physics ++ systems }

/-- The method `Scheduler.AppendRender(systems...)`. -/
def Scheduler.AppendRender (s : Scheduler σ) (systems : List (System σ)) : Scheduler σ :=
  { s with render := s.render ++ systems }

/-- The method `Scheduler.SetMaxPhysicsLoopCount(count)`. -/
def Scheduler.SetMaxPhysicsLoopCount (s : Scheduler σ) (count : Int) : Scheduler σ :=
  { s with maxLoopCount := count }

/-- The loop `for _, sys := range systems { sysTime := sys.Run(dt); log =
append(log, SystemLog{sys.Name, sysTime}) }` that `Run` has for each of the
three groups: the environment, the log and the events recorded so far. -/
def runSystems (clock : Clock σ τ) (phase : Phase) (dt : Int) :
    List (System σ) → σ × List SystemLog × List Event → σ × List SystemLog × List Event
  | [], r => r
  | sys :: rest, (env, log, evs) =>
    runSystems clock phase dt rest
      ((sys.Run clock dt env).1, log ++ [⟨sys.Name, (sys.Run clock dt env).2⟩],
        evs ++ [Event.run phase sys.Name dt])

/-- The statements `if maxLoopCount > 0 { if s.accumulator > (maxLoopCount *
s.fixedTimeStep) { s.accumulator = 0 } }` of `Run`, `maxLoopCount` being the
local variable `time.Duration(s.maxLoopCount)`. -/
def Scheduler.capAccumulator (maxLoopCount : Int) (s : Scheduler σ) : Scheduler σ :=
  if maxLoopCount > 0 then
    if s.accumulator > wrap64 (maxLoopCount * s.fixedTimeStep) then { s with accumulator := 0 }
    else s
  else s

/-- One iteration of the loop `for s.accumulator >= s.fixedTimeStep`: every
physics system runs with `s.fixedTimeStep`, then `s.accumulator -=
s.fixedTimeStep`. -/
def Scheduler.physicsTick (clock : Clock σ τ) (s : Scheduler σ) (env : σ) (evs : List Event) :
    Scheduler σ × σ × List Event :=
  ({ s with
     sysLogBackFixed :=
       (runSystems clock Phase.physics s.fixedTimeStep s.physics
         (env, s.sysLogBackFixed, evs)).2.1
     accumulator := wrap64 (s.accumulator - s.fixedTimeStep) },
   (runSystems clock Phase.physics s.fixedTimeStep s.physics (env, s.sysLogBackFixed, evs)).1,
   (runSystems clock Phase.physics s.fixedTimeStep s.physics (env, s.sysLogBackFixed, evs)).2.2)

/-- The loop `for s.accumulator >= s.fixedTimeStep { ... }` of `Run`, with at
most `fuel` iterations: `none` when the loop condition still holds after them. -/
def Scheduler.physicsLoop (clock : Clock σ τ) :
    Nat → Scheduler σ → σ → List Event → Option (Scheduler σ × σ × List Event)
  | 0, s, env, evs => if s.accumulator ≥ s.fixedTimeStep then none else some (s, env, evs)
  | fuel + 1, s, env, evs =>
    if s.accumulator ≥ s.fixedTimeStep then
      Scheduler.physicsLoop clock fuel (s.physicsTick clock env evs).1
        (s.physicsTick clock env evs).2.1 (s.physicsTick clock env evs).2.2
    else some (s, env, evs)

/-- The render systems of a frame, skipped while the pause signal is set. -/
def Scheduler.renderPhase (clock : Clock σ τ) (dt : Int) (s : Scheduler σ) (env : σ)
    (evs : List Event) : Scheduler σ × σ × List Event :=
  if !s.pauseRender.Get then
    ({ s with sysLogBack := (runSystems clock Phase.render dt s.render
        (env, s.sysLogBack, evs)).2.1 },
     (runSystems clock Phase.render dt s.render (env, s.sysLogBack, evs)).1,
     (runSystems clock Phase.render dt s.render (env, s.sysLogBack, evs)).2.2)
  else (s, env, evs)

/-- The statement `if len(s.input) == 0 && len(s.render) == 0 {
time.Sleep(s.fixedTimeStep - s.accumulator) }` of `Run`. -/
def Scheduler.sleepPhase (clock : Clock σ τ) (s : Scheduler σ) (env : σ) (evs : List Event) :
    σ × List Event :=
  if s.input.length = 0 ∧ s.render.length = 0 then
    (clock.sleep (wrap64 (s.fixedTimeStep - s.accumulator)) env,
     evs ++ [Event.sleep (wrap64 (s.fixedTimeStep - s.accumulator))])
  else (env, evs)

/-- The end of a frame: `dt = time.Since(frameStart); frameStart = time.Now();
scaledDt := dt.Nanoseconds() * s.gameSpeed; s.accumulator +=
time.Duration(scaledDt)`. -/
def Scheduler.endFrame (clock : Clock σ τ) (frameStart : τ) (s : Scheduler σ) (env : σ) :
    RunState σ τ :=
  { sched := { s with
      accumulator := wrap64 (s.accumulator + wrap64 (clock.since frameStart env * s.gameSpeed)) }
    env := env
    dt := clock.since frameStart env
    frameStart := clock.now env }

/-- The start of a frame, up to the physics loop: the logs are swapped (`sysLogFront`
takes the back log, the back log is emptied), the input systems run with the
frame's `dt`, the accumulator is capped, and the logs of the fixed systems are
swapped when a physics tick is due. -/
def Scheduler.beforePhysics (clock : Clock σ τ) (maxLoopCount : Int) (st : RunState σ τ) :
    Scheduler σ × σ × List Event :=
  let s1 : Scheduler σ := { st.sched with sysLogFront := st.sched.sysLogBack, sysLogBack := [] }
  let r1 := runSystems clock Phase.input st.dt s1.input (st.env, s1.sysLogBack, [])
  let s2 : Scheduler σ := { s1 with sysLogBack := r1.2.1 }
  let s3 := s2.capAccumulator maxLoopCount
  let s4 : Scheduler σ :=
    if s3.accumulator ≥ s3.fixedTimeStep then
      { s3 with sysLogFrontFixed := s3.sysLogBackFixed, sysLogBackFixed := [] }
    else s3
  (s4, r1.1, r1.2.2)

/-- The rest of a frame after the physics loop: the render systems, the sleep of
a schedule without input and render systems, and the measurement of the frame
time. -/
def Scheduler.afterPhysics (clock : Clock σ τ) (dt : Int) (frameStart : τ) (s5 : Scheduler σ)
    (env5 : σ) (evs5 : List Event) : RunState σ τ × List Event :=
  let r6 := s5.renderPhase clock dt env5 evs5
  let r7 := r6.1.sleepPhase clock r6.2.1 r6.2.2
  (r6.1.endFrame clock frameStart r7.1, r7.2)

/-- The body of the loop `for !s.quit.Get()` of `Scheduler.Run`, one frame: the
state afterwards and the events of the frame, `none` when the physics loop does
not exit within `fuel` iterations.  `maxLoopCount` is the local variable of
`Run`. -/
def Scheduler.frame (clock : Clock σ τ) (maxLoopCount : Int) (fuel : Nat) (st : RunState σ τ) :
    Option (RunState σ τ × List Event) :=
  match (Scheduler.beforePhysics clock maxLoopCount st).1.physicsLoop clock fuel
      (Scheduler.beforePhysics clock maxLoopCount st).2.1
      (Scheduler.beforePhysics clock maxLoopCount st).2.2 with
  | none => none
  | some (s5, env5, evs5) => some (s5.afterPhysics clock st.dt st.frameStart env5 evs5)

/-- The loop `for !s.quit.Get()` of `Scheduler.Run` for at most `frames`
frames: the state afterwards and the events of each frame. -/
def Scheduler.runFrames (clock : Clock σ τ) (maxLoopCount : Int) (fuel : Nat) :
    Nat → RunState σ τ → Option (RunState σ τ × List (List Event))
  | 0, st => some (st, [])
  | frames + 1, st =>
    if st.sched.quit.Get then some (st, [])
    else
      match Scheduler.frame clock maxLoopCount fuel st with
      | none => none
      | some (st1, evs) =>
        (Scheduler.runFrames clock maxLoopCount fuel frames st1).map
          (fun r => (r.1, evs :: r.2))

/-- The method `Scheduler.Run()`, observed for at most `frames` frames. -/
def Scheduler.Run (clock : Clock σ τ) (s : Scheduler σ) (env : σ) (fuel frames : Nat) :
    Option (RunState σ τ × List (List Event)) :=
  Scheduler.runFrames clock s.maxLoopCount fuel frames
    { sched := { s with accumulator := 0 }
      env := env
      dt := s.fixedTimeStep
      frameStart := clock.now env }

/-- The number of iterations the loop `for acc >= step { acc -= step }` makes
on signed 64-bit values, `none` when it makes more than `fuel`. -/
def dueTicks : Nat → Int → Int → Option Nat
  | 0, acc, step => if acc ≥ step then none else some 0
  | fuel + 1, acc, step =>
    if acc ≥ step then (dueTicks fuel (wrap64 (acc - step)) step).map (fun k => k + 1)
    else some 0

/-- The state after `k` iterations of the physics loop. -/
def Scheduler.physicsTicks (clock : Clock σ τ) :
    Nat → Scheduler σ → σ → List Event → Scheduler σ × σ × List Event
  | 0, s, env, evs => (s, env, evs)
  | k + 1, s, env, evs =>
    Scheduler.physicsTicks clock k (s.physicsTick clock env evs).1
      (s.physicsTick clock env evs).2.1 (s.physicsTick clock env evs).2.2

/-- The events of one physics tick: every physics system, in registration
order, with `dt = fixedTimeStep`. -/
def Scheduler.tickEvents (s : Scheduler σ) : List Event :=
  s.physics.map (fun sys => Event.run Phase.physics sys.Name s.fixedTimeStep)

end scheduler

/-- A clock over an environment that is the current time in nanoseconds; a
`time.Sleep(d)` takes `d` nanoseconds and one more. -/
def sampleClock : Clock Int Int :=
  { now := fun env => env
    since := fun t env => env - t
    sleep := fun d env => env + (if d > 0 then d else 0) + 1 }

/-- A scheduler with one input system, two physics systems and one render
system, a fixed time step of 10 nanoseconds and 25 nanoseconds accumulated. -/
def sampleScheduler : Scheduler Int :=
  { ((((NewScheduler : Scheduler Int).AppendInput [NewSystem "poll" (fun _ env => env)]
      ).AppendPhysics [NewSystem "move" (fun _ env => env + 1),
        NewSystem "collide" (fun _ env => env + 2)]
      ).AppendRender [NewSystem "draw" (fun _ env => env + 3)]) with
    fixedTimeStep := 10
    accumulator := 25 }

/-- A state of `Run` between two frames of the sample scheduler, the last frame
having taken 7 nanoseconds. -/
def sampleRunState : RunState Int Int :=
  { sched := sampleScheduler, env := 100, dt := 7, frameStart := 93 }

/-- A scheduler with one physics system and no other, as `NewScheduler` leaves
it but for the game speed, which is the least 64-bit value. -/
def physicsOnlyScheduler : Scheduler Int :=
  ((NewScheduler : Scheduler Int).AppendPhysics [NewSystem "move" (fun _ env => env)]
    ).SetGameSpeed minInt64

/-! ## MapId with a callback that deletes

`Delete` may be called from inside the callback of `MapId`.  The loops below are
those of `MapId` with such a callback: `lambda w id p` lists the ids the
callback passes to `Delete` when it is invoked with `(id, p)` in world `w`.  The
slice `ids := lookup.id` that the inner loop ranges over shares its elements with
the lookup's id column, which `TagForDeletion` writes in place: `ids[idx]` is
read from the current world.  The columns and the list of matched archetypes are
those captured before the loops. -/

section deleting
variable {E C V : Type}

/-- The calls `Delete(world, id)` for the ids of a list, in order; `none` when
one of them panics. -/
def deleteAll (ops : archEngineCalls E C V) : World E → List Id → Option (World E)
  | w, [] => some w
  | w, id :: ids =>
    match Delete ops w id with
    | none => none
    | some r => deleteAll ops r.1 ids

/-- The entry `ids[idx]` of the slice captured from the id column of archetype
`archId`: the entry the column holds now, `captured` being the entry at the time
of capture. -/
def currentId (w : World (archEngine V)) (archId : archetypeId) (idx : Nat) (captured : Id) :
    Id :=
  match w.engine.lookup archId with
  | none => captured
  | some lookup => lookup.id.getD idx captured

/-- The inner loop `for idx := range ids` of `MapId` with a callback that
deletes, from slot `idx` on: the world and, for every invocation made so far, the
id and pointers passed and the ids the callback deleted. -/
def slotLoopDeleting [Inhabited V] {β : Type}
    (lambda : World (archEngine V) → Id → β → List Id) (archId : archetypeId)
    (ptrs : Nat → Option β) :
    Nat → List Id → World (archEngine V) → List (Id × β × List Id) →
      Outcome (World (archEngine V) × List (Id × β × List Id))
  | _, [], w, acc => ⟨(w, acc), none⟩
  | idx, i :: ids, w, acc =>
    if currentId w archId idx i = InvalidEntity then
      slotLoopDeleting lambda archId ptrs (idx + 1) ids w acc
    else
      match ptrs idx with
      | none => ⟨(w, acc), some "index out of range"⟩
      | some p =>
        match deleteAll (engineCalls V) w (lambda w (currentId w archId idx i) p) with
        | none =>
          ⟨(w, acc ++ [(currentId w archId idx i, p, lambda w (currentId w archId idx i) p)]),
           some "TagForDeletion"⟩
        | some w1 =>
          slotLoopDeleting lambda archId ptrs (idx + 1) ids w1
            (acc ++ [(currentId w archId idx i, p, lambda w (currentId w archId idx i) p)])

/-- The loop `for _, archId := range v.filter.archIds` of `MapId` with a callback
that deletes; `ptrs w archId` are the pointers into the columns captured at the
start of the archetype. -/
def archLoopDeleting [Inhabited V] {β : Type}
    (lambda : World (archEngine V) → Id → β → List Id)
    (ptrs : World (archEngine V) → archetypeId → Nat → Option β) :
    List archetypeId → World (archEngine V) → List (Id × β × List Id) →
      Outcome (World (archEngine V) × List (Id × β × List Id))
  | [], w, acc => ⟨(w, acc), none⟩
  | archId :: rest, w, acc =>
    match w.engine.lookup archId with
    | none => ⟨(w, acc), some "LookupList is missing!"⟩
    | some lookup =>
      match (slotLoopDeleting lambda archId (ptrs w archId) 0 lookup.id w acc).panicked with
      | some msg =>
        ⟨(slotLoopDeleting lambda archId (ptrs w archId) 0 lookup.id w acc).state, some msg⟩
      | none =>
        archLoopDeleting lambda ptrs rest
          (slotLoopDeleting lambda archId (ptrs w archId) 0 lookup.id w acc).state.1
          (slotLoopDeleting lambda archId (ptrs w archId) 0 lookup.id w acc).state.2

/-- The method `View1.MapId(lambda)` with a callback that deletes: the world
afterwards and the invocations made, each with the ids it deleted. -/
def View1.MapIdDeleting [Inhabited V] (v : View1) (w : World (archEngine V))
    (lambda : World (archEngine V) → Id → Option compPtr → List Id) :
    Outcome (World (archEngine V) × List (Id × Option compPtr × List Id)) :=
  archLoopDeleting lambda (fun w1 => View1.ptrs v w1) (v.filter.regenerate w).archIds w []

/-- The method `View2.MapId(lambda)` with a callback that deletes. -/
def View2.MapIdDeleting [Inhabited V] (v : View2) (w : World (archEngine V))
    (lambda : World (archEngine V) → Id → Option compPtr × Option compPtr → List Id) :
    Outcome (World (archEngine V) × List (Id × (Option compPtr × Option compPtr) × List Id)) :=
  archLoopDeleting lambda (fun w1 => View2.ptrs v w1) (v.filter.regenerate w).archIds w []

/-- The invocations of a `MapId` without deletions, replayed with a callback that
deletes: an invocation is left out when its entity is no longer in the entity
map, and the deletions of the others are carried out. -/
def replayDeleting [Inhabited V] {β : Type}
    (lambda : World (archEngine V) → Id → β → List Id) :
    List (Id × β) → World (archEngine V) → World (archEngine V) × List (Id × β × List Id)
  | [], w => (w, [])
  | c :: cs, w =>
    if w.Exists c.1 then
      ((replayDeleting lambda cs
          ((deleteAll (engineCalls V) w (lambda w c.1 c.2)).getD w)).1,
       (c.1, c.2, lambda w c.1 c.2) ::
        (replayDeleting lambda cs
          ((deleteAll (engineCalls V) w (lambda w c.1 c.2)).getD w)).2)
    else replayDeleting lambda cs w

/-- World `w` is world `w0` after deletions: the columns are those of `w0`, the
lookups are the same ones with the id-column entry of every entity no longer in
the entity map set to the invalid sentinel, an entity still in the entity map is
in the archetype it was in, and the invariants hold. -/
structure Tombstoned (w0 w : World (archEngine V)) : Prop where
  storage : w.engine.storage = w0.engine.storage
  lookup_none : ∀ a, w0.engine.lookup a = none → w.engine.lookup a = none
  lookup_some : ∀ a l0, w0.engine.lookup a = some l0 →
    ∃ l, w.engine.lookup a = some l ∧ l.id.length = l0.id.length ∧
      ∀ (k : Nat) (i0 : Id), l0.id[k]? = some i0 →
        l.id[k]? = some (if w.Exists i0 then i0 else InvalidEntity)
  arch : ∀ i a, w.arch i = some a → w0.arch i = some a
  worldInv : WorldInv w
  slotInv : SlotInv w

end deleting

/-- A callback that deletes entity 4 when it is invoked for entity 2, and
nothing otherwise. -/
def deletesFourAtTwo {β : Type} : World (archEngine Nat) → Id → β → List Id :=
  fun _ id _ => if id = 2 then [4] else []


/-! ## MapId read off the slices of MapSlices -/

section sliceCalls

/-- The callback invocations that correspond to one invocation of the
`MapSlices` callback: one for each position `k` of the id slice `ids` whose entry
is not the invalid sentinel, in position order, with that entry and `ptr k`, the
pointers to position `k` of the column slices. -/
def sliceCalls {β : Type} (ptr : Nat → β) (ids : List Id) : List (Id × β) :=
  ids.enum.filterMap (fun x => if x.2 = InvalidEntity then none else some (x.2, ptr x.1))

end sliceCalls
/-! ## Theorems -/

/-! ### The id allocator -/

section allocator
variable {E C V : Type}

theorem SetIdRange_state_nextId (w : World E) (min max : Id) :
    (w.SetIdRange min max).state.nextId = w.nextId := by
  unfold World.SetIdRange
  split_ifs <;> rfl

theorem SetIdRange_state_arch (w : World E) (min max : Id) :
    (w.SetIdRange min max).state.arch = w.arch := by
  unfold World.SetIdRange
  split_ifs <;> rfl

theorem SetIdRange_state_engine (w : World E) (min max : Id) :
    (w.SetIdRange min max).state.engine = w.engine := by
  unfold World.SetIdRange
  split_ifs <;> rfl

theorem SetIdRange_two_le_minId (w : World E) (min max : Id) (h : 2 ≤ w.minId) :
    2 ≤ (w.SetIdRange min max).state.minId := by
  unfold World.SetIdRange firstEntity
  simp only [Id] at *
  split_ifs <;> simp only <;> omega

theorem NewId_minId (w : World E) : w.NewId.2.minId = w.minId := by
  unfold World.NewId
  simp only
  split_ifs <;> rfl

theorem NewId_maxId (w : World E) : w.NewId.2.maxId = w.maxId := by
  unfold World.NewId
  simp only
  split_ifs <;> rfl

theorem NewId_arch (w : World E) : w.NewId.2.arch = w.arch := by
  unfold World.NewId
  simp only
  split_ifs <;> rfl

theorem NewId_engine (w : World E) : w.NewId.2.engine = w.engine := by
  unfold World.NewId
  simp only
  split_ifs <;> rfl

theorem NewId_ge_minId (w : World E) : w.minId ≤ w.NewId.1 := by
  unfold World.NewId
  simp only
  split_ifs with h
  · exact le_refl _
  · exact not_lt.mp h

theorem Write_minId (ops : archEngineCalls E C V) (w w1 : World E) (id : Id) (comp : List C)
    (h : w.Write ops id comp = some w1) :
    w1.nextId = w.nextId ∧ w1.minId = w.minId ∧ w1.maxId = w.maxId := by
  unfold World.Write at h
  split_ifs at h with h0
  · cases h
    exact ⟨rfl, rfl, rfl⟩
  · split at h
    · split at h
      · cases h
      · cases h
        exact ⟨rfl, rfl, rfl⟩
    · split at h
      · cases h
      · split at h
        · cases h
        · cases h
          exact ⟨rfl, rfl, rfl⟩

theorem Delete_minId (ops : archEngineCalls E C V) (w w1 : World E) (id : Id) (b : Bool)
    (h : Delete ops w id = some (w1, b)) :
    w1.nextId = w.nextId ∧ w1.minId = w.minId ∧ w1.maxId = w.maxId := by
  unfold Delete at h
  split at h
  · cases h
    exact ⟨rfl, rfl, rfl⟩
  · split at h
    · cases h
    · cases h
      exact ⟨rfl, rfl, rfl⟩

theorem Reachable.two_le_minId {ops : archEngineCalls E C V} {w : World E}
    (h : Reachable ops w) : 2 ≤ w.minId := by
  induction h with
  | init => exact le_refl _
  | setIdRange min max _ _ _ _ ih => exact SetIdRange_two_le_minId _ min max ih
  | newId _ ih => rw [NewId_minId]; exact ih
  | write id comp _ hw ih => rw [(Write_minId ops _ _ id comp hw).2.1]; exact ih
  | delete id b _ hd ih => rw [(Delete_minId ops _ _ id b hd).2.1]; exact ih

/-- C3 (evaluation at the failing input): on a new world, after one `NewId`
(which returns 2) the call `SetIdRange(2, 2)` passes its guards and configures
the range [2, 2], and the next `NewId` returns 3, above the configured `maxId`. -/
theorem NewId_above_maxId_after_SetIdRange :
    ((NewWorld (engineCalls Nat)).NewId.2.SetIdRange 2 2).panicked = none ∧
    ((NewWorld (engineCalls Nat)).NewId.2.SetIdRange 2 2).state.minId = 2 ∧
    ((NewWorld (engineCalls Nat)).NewId.2.SetIdRange 2 2).state.maxId = 2 ∧
    ((NewWorld (engineCalls Nat)).NewId.2.SetIdRange 2 2).state.NewId.1 = 3 := by
  refine ⟨?_, ?_, ?_, ?_⟩ <;> decide

/-- C4: in every world reachable from `NewWorld` by public calls, `NewId` does
not return `InvalidEntity` (0); the returned id is at least `minId`, which is at
least 2, also when the 32-bit `nextId` has wrapped to 0. -/
theorem NewId_ne_InvalidEntity (ops : archEngineCalls E C V) (w : World E)
    (h : Reachable ops w) : w.NewId.1 ≠ InvalidEntity := by
  have h1 := h.two_le_minId
  have h2 := NewId_ge_minId w
  unfold InvalidEntity
  simp only [Id] at *
  omega

theorem NewId_ne_InvalidEntity_witness :
    Reachable (engineCalls Nat) ((NewWorld (engineCalls Nat)).SetIdRange 3 4).state ∧
    ((NewWorld (engineCalls Nat)).SetIdRange 3 4).state.NewId.1 ≠ InvalidEntity :=
  ⟨Reachable.setIdRange 3 4 Reachable.init (by decide) (by decide) (by decide),
   NewId_ne_InvalidEntity (engineCalls Nat) _
     (Reachable.setIdRange 3 4 Reachable.init (by decide) (by decide) (by decide))⟩

/-- C5: if a call to `NewId` returns `maxId`, the immediately following call
returns `minId`. -/
theorem NewId_wraps_to_minId (w : World E) (h : w.NewId.1 = w.maxId) :
    w.NewId.2.NewId.1 = w.minId := by
  unfold World.NewId at h ⊢
  simp only at h ⊢
  split_ifs at h ⊢ <;> simp_all

theorem NewId_wraps_to_minId_witness :
    ((NewWorld (engineCalls Nat)).SetIdRange 2 3).state.NewId.2.NewId.1 = 3 ∧
    ((NewWorld (engineCalls Nat)).SetIdRange 2 3).state.NewId.2.NewId.2.NewId.1 = 2 :=
  ⟨by decide,
   NewId_wraps_to_minId ((NewWorld (engineCalls Nat)).SetIdRange 2 3).state.NewId.2
     (by decide)⟩

/-- C6: `SetIdRange(min, max)` panics exactly when `min <= 1` or `max <= 1` or
`min > max`; when it panics the world is as before, and when it does not,
`minId = min` and `maxId = max` afterwards, the other fields being as before. -/
theorem SetIdRange_panics_iff (w : World E) (min max : Id) :
    ((w.SetIdRange min max).panicked.isSome = true ↔ (min ≤ 1 ∨ max ≤ 1 ∨ min > max)) ∧
    ((w.SetIdRange min max).panicked.isSome = true → (w.SetIdRange min max).state = w) ∧
    ((w.SetIdRange min max).panicked = none →
      (w.SetIdRange min max).state.minId = min ∧ (w.SetIdRange min max).state.maxId = max ∧
      (w.SetIdRange min max).state.nextId = w.nextId ∧
      (w.SetIdRange min max).state.arch = w.arch ∧
      (w.SetIdRange min max).state.engine = w.engine) := by
  unfold World.SetIdRange firstEntity
  split_ifs with h1 h2 h3
  · simp [h1]
  · simp [h2]
  · simp [h3]
  · refine ⟨?_, ?_, ?_⟩
    · simp only [Option.isSome_none, Bool.false_eq_true, false_iff]
      simp only [Id] at *
      omega
    · simp
    · intro _
      exact ⟨rfl, rfl, rfl, rfl, rfl⟩

end allocator

/-! ### Write, Delete and Exists over any engine -/

section facade
variable {E C V : Type}

/-- C7: `Write` with no components returns the world as it was (the entity map,
the allocator and the engine, whatever the engine calls would do), so `Exists`
keeps its value for every id. -/
theorem Write_nil_noop (ops : archEngineCalls E C V) (w : World E) (id : Id) :
    w.Write ops id [] = some w ∧
    ∀ w1, w.Write ops id [] = some w1 → ∀ j, w1.Exists j = w.Exists j := by
  have h : w.Write ops id [] = some w := by
    unfold World.Write
    simp
  refine ⟨h, ?_⟩
  intro w1 h1 j
  rw [h] at h1
  cases h1
  rfl

/-- C8: for a non-empty component list, whenever `Write(id, comps...)` returns,
`Exists(id)` is true afterwards and the archetype recorded for `id` is the one
returned by the engine's `rewriteArch` (id already present) or the one resolved
by `GetarchetypeId` from the components (id new); and `Write` returns exactly
when the engine calls it makes return. -/
theorem Write_makes_Exists (ops : archEngineCalls E C V) (w : World E) (id : Id)
    (comp : List C) (hne : comp ≠ []) :
    (∀ w1, w.Write ops id comp = some w1 →
      w1.Exists id = true ∧
      ((∃ a e n, w.arch id = some a ∧ ops.rewriteArch w.engine a id comp = some (e, n) ∧
          w1.arch id = some n ∧ w1.engine = e) ∨
       (w.arch id = none ∧ ∃ e n e1, ops.GetarchetypeId w.engine comp = some (e, n) ∧
          writeAll ops n id comp e = some e1 ∧ w1.arch id = some n ∧ w1.engine = e1))) ∧
    ((w.Write ops id comp).isSome = true ↔
      ((∃ a, w.arch id = some a ∧ (ops.rewriteArch w.engine a id comp).isSome = true) ∨
       (w.arch id = none ∧ ∃ e n, ops.GetarchetypeId w.engine comp = some (e, n) ∧
          (writeAll ops n id comp e).isSome = true))) := by
  have hlen : ¬ comp.length ≤ 0 := by
    cases comp with
    | nil => exact absurd rfl hne
    | cons c cs => simp
  unfold World.Write
  rw [if_neg hlen]
  cases ha : w.arch id with
  | some a =>
    cases hr : ops.rewriteArch w.engine a id comp with
    | none => simp [hr]
    | some r =>
      obtain ⟨e, n⟩ := r
      refine ⟨?_, by simp [hr]⟩
      intro w1 h1
      simp only [hr, Option.some.injEq] at h1
      subst h1
      refine ⟨by simp [World.Exists], Or.inl ⟨a, e, n, rfl, hr, by simp, rfl⟩⟩
  | none =>
    cases hg : ops.GetarchetypeId w.engine comp with
    | none => simp [hg]
    | some r =>
      obtain ⟨e, n⟩ := r
      cases hw : writeAll ops n id comp e with
      | none => simp [hg, hw]
      | some e1 =>
        refine ⟨?_, ?_⟩
        · intro w1 h1
          simp only [hg, hw, Option.some.injEq] at h1
          subst h1
          exact ⟨by simp [World.Exists], Or.inr ⟨rfl, e, n, e1, rfl, hw, by simp, rfl⟩⟩
        · exact ⟨fun _ => Or.inr ⟨rfl, e, n, rfl, by simp [hw]⟩, fun _ => by simp [hg, hw]⟩

theorem Write_makes_Exists_witness :
    ((NewWorld (engineCalls Nat)).Write (engineCalls Nat) 5 [⟨1, 7⟩]).isSome = true ∧
    ∀ w1, (NewWorld (engineCalls Nat)).Write (engineCalls Nat) 5 [⟨1, 7⟩] = some w1 →
      w1.Exists 5 = true :=
  ⟨by decide, fun w1 h =>
    ((Write_makes_Exists (engineCalls Nat) (NewWorld (engineCalls Nat)) 5 [⟨1, 7⟩]
      (by simp)).1 w1 h).1⟩

theorem Delete_Exists_after (ops : archEngineCalls E C V) (w : World E) (id : Id)
    (w1 : World E) (b : Bool) (h : Delete ops w id = some (w1, b)) :
    b = w.Exists id ∧ w1.Exists id = false := by
  unfold Delete at h
  unfold World.Exists
  cases ha : w.arch id with
  | none =>
    simp only [ha, Option.some.injEq, Prod.mk.injEq] at h
    obtain ⟨h1, h2⟩ := h
    subst h1 h2
    simp [ha]
  | some a =>
    cases ht : ops.TagForDeletion w.engine a id with
    | none => simp [ha, ht] at h
    | some e =>
      simp only [ha, ht, Option.some.injEq, Prod.mk.injEq] at h
      obtain ⟨h1, h2⟩ := h
      subst h1 h2
      simp

/-- C9: whenever `Delete(world, id)` returns, its result is true exactly when
`Exists(id)` was true before the call, and `Exists(id)` is false after it in
either case; it returns for every unknown id, and for a known id exactly when
the engine's `TagForDeletion` returns. -/
theorem Delete_result_and_Exists (ops : archEngineCalls E C V) (w : World E) (id : Id) :
    (∀ w1 b, Delete ops w id = some (w1, b) →
      b = w.Exists id ∧ w1.Exists id = false) ∧
    ((Delete ops w id).isSome = true ↔
      (w.Exists id = false ∨
        ∃ a, w.arch id = some a ∧ (ops.TagForDeletion w.engine a id).isSome = true)) := by
  unfold Delete World.Exists
  cases ha : w.arch id with
  | none =>
    refine ⟨?_, by simp⟩
    intro w1 b h
    simp only [Option.some.injEq, Prod.mk.injEq] at h
    obtain ⟨h1, h2⟩ := h
    subst h1 h2
    simp [ha]
  | some a =>
    cases ht : ops.TagForDeletion w.engine a id with
    | none => simp [ht]
    | some e =>
      refine ⟨?_, by simp [ht]⟩
      intro w1 b h
      simp only [ht, Option.some.injEq, Prod.mk.injEq] at h
      obtain ⟨h1, h2⟩ := h
      subst h1 h2
      simp

/-- C10: `Delete` on an id that is not in the world returns false and leaves the
world (entity map, allocator and engine) as it was, whatever `TagForDeletion`
would do; hence after any `Delete` of an id that returned, a second `Delete` of
the same id returns false and leaves the state reached by the first. -/
theorem Delete_absent_noop (ops : archEngineCalls E C V) (w : World E) (id : Id) :
    (w.Exists id = false → Delete ops w id = some (w, false)) ∧
    (∀ w1 b, Delete ops w id = some (w1, b) → Delete ops w1 id = some (w1, false)) := by
  have key : ∀ u : World E, u.Exists id = false → Delete ops u id = some (u, false) := by
    intro u hu
    unfold World.Exists at hu
    unfold Delete
    cases ha : u.arch id with
    | none => rfl
    | some a => simp [ha] at hu
  refine ⟨key w, ?_⟩
  intro w1 b h
  exact key w1 (Delete_Exists_after ops w id w1 b h).2

end facade

/-! ### The engine keeps its storage invariants -/

section engineLemmas
variable {V : Type}

theorem Extends.refl (i : Id) (e : archEngine V) : Extends i e e :=
  ⟨le_refl _, fun _ _ h => h, fun _ _ _ _ _ h => h⟩

theorem Extends.trans {i : Id} {e e1 e2 : archEngine V} (h1 : Extends i e e1)
    (h2 : Extends i e1 e2) : Extends i e e2 :=
  ⟨le_trans h1.length_le h2.length_le,
   fun a key h => h2.registry a key (h1.registry a key h),
   fun a j s ha hj h =>
     h2.slots a j s (lt_of_lt_of_le ha h1.length_le) hj (h1.slots a j s ha hj h)⟩

theorem lt_length_of_getElem? {α : Type} {l : List α} {a : Nat} {x : α}
    (h : l[a]? = some x) : a < l.length := by
  by_contra hc
  rw [List.getElem?_eq_none (not_lt.mp hc)] at h
  cases h

/-- An engine with the registry, the lookups and the column lengths of an engine
that satisfies the storage invariants satisfies them too. -/
theorem EngineInv.of_shape {e e1 : archEngine V} (h : EngineInv e)
    (hr : e1.registry = e.registry) (hl : e1.lookup = e.lookup)
    (hs : ∀ t a, (e1.storage t a).map List.length = (e.storage t a).map List.length) :
    EngineInv e1 := by
  have hsome : ∀ t a col1, e1.storage t a = some col1 →
      ∃ col, e.storage t a = some col ∧ col.length = col1.length := by
    intro t a col1 h1
    have := hs t a
    rw [h1] at this
    cases h0 : e.storage t a with
    | none => rw [h0] at this; cases this
    | some col =>
      rw [h0] at this
      simp only [Option.map_some', Option.some.injEq] at this
      exact ⟨col, rfl, this.symm⟩
  have hsome1 : ∀ t a col, e.storage t a = some col → ∃ col1, e1.storage t a = some col1 := by
    intro t a col h0
    have := hs t a
    rw [h0] at this
    cases h1 : e1.storage t a with
    | none => rw [h1] at this; cases this
    | some col1 => exact ⟨col1, rfl⟩
  constructor
  · intro a ha
    rw [hl]
    exact h.lookup_some a (hr ▸ ha)
  · intro a key t hk
    rw [hr] at hk
    rw [← h.column_iff a key t hk]
    constructor
    · rintro ⟨col1, h1⟩
      obtain ⟨col, h0, _⟩ := hsome t a col1 h1
      exact ⟨col, h0⟩
    · rintro ⟨col, h0⟩
      exact hsome1 t a col h0
  · intro a l t col1 hlk h1
    rw [hl] at hlk
    obtain ⟨col, h0, hlen⟩ := hsome t a col1 h1
    rw [← hlen]
    exact h.column_len a l t col hlk h0
  · intro a l i s hlk hi
    rw [hl] at hlk
    exact h.index_lt a l i s hlk hi
  · intro a l x hlk hx
    rw [hl] at hlk
    exact h.holes_lt a l x hlk hx

theorem newArchEngine_inv : EngineInv (newArchEngine : archEngine V) := by
  constructor
  · intro a ha
    simp [newArchEngine] at ha
  · intro a key t hk
    simp [newArchEngine] at hk
  · intro a l t col hl
    simp [newArchEngine] at hl
  · intro a l i s hl
    simp [newArchEngine] at hl
  · intro a l x hl
    simp [newArchEngine] at hl

theorem readArch_of_slot [Inhabited V] {e : archEngine V} {t : componentId} {a : archetypeId}
    {id : Id} {s : Nat} {col : List V} {v : V} (hs : SlotOf e a id s)
    (hc : e.storage t a = some col) (hv : col[s]? = some v) :
    readArch e t a id = some (v, true) := by
  obtain ⟨l, hl, hi⟩ := hs
  simp [readArch, hl, hi, hc, hv]

theorem slot_of_readArch [Inhabited V] {e : archEngine V} {t : componentId} {a : archetypeId}
    {id : Id} {v : V} (h : readArch e t a id = some (v, true)) :
    ∃ s col, SlotOf e a id s ∧ e.storage t a = some col ∧ col[s]? = some v := by
  unfold readArch at h
  cases hl : e.lookup a with
  | none => simp [hl] at h
  | some l =>
    cases hi : l.index id with
    | none => simp [hl, hi] at h
    | some s =>
      cases hc : e.storage t a with
      | none => simp [hl, hi, hc] at h
      | some col =>
        cases hv : col[s]? with
        | none => simp [hl, hi, hc, hv] at h
        | some v1 =>
          simp only [hl, hi, hc, hv, Option.some.injEq, Prod.mk.injEq, and_true] at h
          subst h
          exact ⟨s, col, ⟨l, hl, hi⟩, rfl, hv⟩

/-! #### resolveArchetype -/

theorem resolveArchetype_registry (e : archEngine V) (tags : Finset componentId) :
    (resolveArchetype e tags).1.registry[(resolveArchetype e tags).2]? = some tags := by
  unfold resolveArchetype
  split_ifs with h
  · exact List.getElem?_indexOf h
  · simp

theorem resolveArchetype_keeps (e : archEngine V) (tags : Finset componentId)
    (a : archetypeId) (ha : a < e.registry.length) :
    (resolveArchetype e tags).1.registry[a]? = e.registry[a]? ∧
    (resolveArchetype e tags).1.lookup a = e.lookup a ∧
    ∀ t, (resolveArchetype e tags).1.storage t a = e.storage t a := by
  unfold resolveArchetype
  split_ifs with h
  · exact ⟨rfl, rfl, fun _ => rfl⟩
  · have hne : a ≠ e.registry.length := Nat.ne_of_lt ha
    refine ⟨?_, ?_, ?_⟩
    · simp only
      rw [List.getElem?_append_left ha]
    · simp only
      rw [Function.update_noteq hne]
    · intro t
      simp only
      rw [if_neg hne]

theorem resolveArchetype_length (e : archEngine V) (tags : Finset componentId) :
    e.registry.length ≤ (resolveArchetype e tags).1.registry.length := by
  unfold resolveArchetype
  split_ifs with h
  · exact le_refl _
  · simp

theorem resolveArchetype_inv (e : archEngine V) (tags : Finset componentId)
    (h : EngineInv e) : EngineInv (resolveArchetype e tags).1 := by
  unfold resolveArchetype
  split_ifs with hm
  · exact h
  · constructor
    · intro a ha
      simp only [List.length_append, List.length_singleton] at ha
      simp only
      by_cases hz : a = e.registry.length
      · subst hz
        rw [Function.update_same]
        exact ⟨_, rfl⟩
      · rw [Function.update_noteq hz]
        exact h.lookup_some a (Nat.lt_of_le_of_ne (Nat.le_of_lt_succ ha) hz)
    · intro a key t hk
      simp only at hk ⊢
      by_cases hz : a = e.registry.length
      · subst hz
        rw [List.getElem?_append_right (le_refl _)] at hk
        simp only [Nat.sub_self, List.getElem?_cons_zero, Option.some.injEq] at hk
        subst hk
        rw [if_pos rfl]
        by_cases ht : t ∈ tags <;> simp [ht]
      · have ha : a < e.registry.length := by
          have := lt_length_of_getElem? hk
          simp only [List.length_append, List.length_singleton] at this
          exact Nat.lt_of_le_of_ne (Nat.le_of_lt_succ this) hz
        rw [List.getElem?_append_left ha] at hk
        rw [if_neg hz]
        exact h.column_iff a key t hk
    · intro a l t col hl hc
      simp only at hl hc
      by_cases hz : a = e.registry.length
      · subst hz
        rw [Function.update_same] at hl
        rw [if_pos rfl] at hc
        simp only [Option.some.injEq] at hl
        subst hl
        split_ifs at hc with ht
        simp only [Option.some.injEq] at hc
        subst hc
        rfl
      · rw [Function.update_noteq hz] at hl
        rw [if_neg hz] at hc
        exact h.column_len a l t col hl hc
    · intro a l i s hl hi
      simp only at hl
      by_cases hz : a = e.registry.length
      · subst hz
        rw [Function.update_same] at hl
        simp only [Option.some.injEq] at hl
        subst hl
        cases hi
      · rw [Function.update_noteq hz] at hl
        exact h.index_lt a l i s hl hi
    · intro a l x hl hx
      simp only at hl
      by_cases hz : a = e.registry.length
      · subst hz
        rw [Function.update_same] at hl
        simp only [Option.some.injEq] at hl
        subst hl
        cases hx
      · rw [Function.update_noteq hz] at hl
        exact h.holes_lt a l x hl hx

theorem resolveArchetype_extends (i : Id) (e : archEngine V) (tags : Finset componentId) :
    Extends i e (resolveArchetype e tags).1 := by
  refine ⟨resolveArchetype_length e tags, ?_, ?_⟩
  · intro a key hk
    rw [(resolveArchetype_keeps e tags a (lt_length_of_getElem? hk)).1]
    exact hk
  · intro a j s ha _ hs
    obtain ⟨l, hl, hi⟩ := hs
    exact ⟨l, by rw [(resolveArchetype_keeps e tags a ha).2.1]; exact hl, hi⟩

/-! #### Overwriting column values -/

theorem Rewrites.self (a : archetypeId) (e : archEngine V) : Rewrites a e e :=
  ⟨rfl, rfl, fun _ _ => rfl, fun _ _ _ => rfl⟩

theorem Rewrites.andThen {a : archetypeId} {e e1 e2 : archEngine V} (h1 : Rewrites a e e1)
    (h2 : Rewrites a e1 e2) : Rewrites a e e2 :=
  ⟨h2.registry.trans h1.registry, h2.lookup.trans h1.lookup,
   fun t b => (h2.shape t b).trans (h1.shape t b),
   fun t b hb => (h2.other t b hb).trans (h1.other t b hb)⟩

theorem Rewrites.engineInv {a : archetypeId} {e e1 : archEngine V} (h : Rewrites a e e1)
    (hi : EngineInv e) : EngineInv e1 :=
  hi.of_shape h.registry h.lookup h.shape

theorem Rewrites.slotOf {a : archetypeId} {e e1 : archEngine V} (h : Rewrites a e e1)
    {b : archetypeId} {i : Id} {s : Nat} (hs : SlotOf e b i s) : SlotOf e1 b i s := by
  obtain ⟨l, hl, hi⟩ := hs
  exact ⟨l, by rw [h.lookup]; exact hl, hi⟩

theorem Rewrites.extends {a : archetypeId} {e e1 : archEngine V} (h : Rewrites a e e1)
    (i : Id) : Extends i e e1 :=
  ⟨by rw [h.registry], fun _ _ hk => by rw [h.registry]; exact hk,
   fun _ _ _ _ _ hs => h.slotOf hs⟩

theorem writeColumn_spec (e : archEngine V) (a : archetypeId) (s : Nat) (c : Component V)
    (col : List V) (hc : e.storage c.tag a = some col) (hs : s < col.length) :
    ∃ e1, writeColumn e a s c = some e1 ∧ Rewrites a e e1 ∧
      e1.storage c.tag a = some (col.set s c.val) ∧
      ∀ t, t ≠ c.tag → e1.storage t a = e.storage t a := by
  have hw : writeColumn e a s c =
      some { e with
             storage := fun t b =>
               if t = c.tag ∧ b = a then some (col.set s c.val) else e.storage t b } := by
    simp only [writeColumn, hc, if_pos hs]
  refine ⟨_, hw, ⟨rfl, rfl, ?_, ?_⟩, ?_, ?_⟩
  · intro t b
    simp only
    split_ifs with h
    · obtain ⟨h1, h2⟩ := h
      subst h1 h2
      rw [hc]
      simp
    · rfl
  · intro t b hb
    simp only
    rw [if_neg (fun h => hb h.2)]
  · simp
  · intro t ht
    simp only
    rw [if_neg (fun h => ht h.1)]

theorem shape_some {e e1 : archEngine V} {t : componentId} {b : archetypeId} {col : List V}
    (hsh : (e1.storage t b).map List.length = (e.storage t b).map List.length)
    (hc : e.storage t b = some col) :
    ∃ col1, e1.storage t b = some col1 ∧ col1.length = col.length := by
  rw [hc] at hsh
  cases h1 : e1.storage t b with
  | none => rw [h1] at hsh; cases hsh
  | some col1 =>
    rw [h1] at hsh
    simp only [Option.map_some', Option.some.injEq] at hsh
    exact ⟨col1, rfl, hsh⟩

theorem applyAll_spec (a : archetypeId) (s : Nat) (comp : List (Component V)) :
    ∀ e : archEngine V,
    (∀ c ∈ comp, ∃ col, e.storage c.tag a = some col ∧ s < col.length) →
    ∃ e1, applyAll a s comp e = some e1 ∧ Rewrites a e e1 ∧
      (∀ t, t ∉ tagsOf comp → e1.storage t a = e.storage t a) ∧
      (∀ c, comp.getLast? = some c →
        ∃ col, e1.storage c.tag a = some col ∧ col[s]? = some c.val) := by
  induction comp with
  | nil =>
    intro e _
    exact ⟨e, rfl, Rewrites.self a e, fun _ _ => rfl, fun c hc => by simp at hc⟩
  | cons c cs ih =>
    intro e h
    obtain ⟨col, hc, hs⟩ := h c (List.mem_cons_self c cs)
    obtain ⟨e1, h1, hr1, hv1, ho1⟩ := writeColumn_spec e a s c col hc hs
    have hcs : ∀ c1 ∈ cs, ∃ col1, e1.storage c1.tag a = some col1 ∧ s < col1.length := by
      intro c1 hc1
      obtain ⟨col1, hcol1, hs1⟩ := h c1 (List.mem_cons_of_mem c hc1)
      obtain ⟨col2, h2, hlen⟩ := shape_some (hr1.shape c1.tag a) hcol1
      exact ⟨col2, h2, by rw [hlen]; exact hs1⟩
    obtain ⟨e2, h2, hr2, ho2, hl2⟩ := ih e1 hcs
    refine ⟨e2, by simp only [applyAll, h1, h2], hr1.andThen hr2, ?_, ?_⟩
    · intro t ht
      have ht1 : t ≠ c.tag := by
        intro hEq
        apply ht
        simp [tagsOf, hEq]
      have ht2 : t ∉ tagsOf cs := by
        intro hmem
        apply ht
        simp only [tagsOf, List.map_cons, List.toFinset_cons, Finset.mem_insert] at hmem ⊢
        exact Or.inr hmem
      rw [ho2 t ht2, ho1 t ht1]
    · intro c1 hlast
      cases cs with
      | nil =>
        simp only [List.getLast?_singleton, Option.some.injEq] at hlast
        subst hlast
        simp only [applyAll, Option.some.injEq] at h2
        subst h2
        exact ⟨_, hv1, List.getElem?_set_self hs⟩
      | cons c2 cs2 =>
        rw [List.getLast?_cons_cons] at hlast
        exact hl2 c1 hlast

theorem copyShared_rewrites (e : archEngine V) (a : archetypeId) (s : Nat) (d : archetypeId)
    (ds : Nat) : Rewrites d e (copyShared e a s d ds) := by
  refine ⟨rfl, rfl, ?_, ?_⟩
  · intro t b
    simp only [copyShared]
    split_ifs with hb
    · subst hb
      cases h1 : e.storage t a with
      | none => rfl
      | some src =>
        cases h2 : e.storage t b with
        | none => rfl
        | some dst =>
          cases h3 : src[s]? with
          | none => simp [h3]
          | some v => simp [h3]
    · rfl
  · intro t b hb
    simp only [copyShared]
    rw [if_neg hb]

theorem copyShared_value (e : archEngine V) (a : archetypeId) (s : Nat) (d : archetypeId)
    (ds : Nat) (t : componentId) (src dst : List V) (v : V) (h1 : e.storage t a = some src)
    (h2 : e.storage t d = some dst) (h3 : src[s]? = some v) :
    (copyShared e a s d ds).storage t d = some (dst.set ds v) := by
  simp [copyShared, h1, h2, h3]

/-! #### Slots -/

theorem obtainSlot_registry [Inhabited V] (e : archEngine V) (a : archetypeId) (l : lookupList)
    (id : Id) : (obtainSlot e a l id).1.registry = e.registry := by
  unfold obtainSlot
  split <;> rfl

theorem obtainSlot_other [Inhabited V] (e : archEngine V) (a : archetypeId) (l : lookupList)
    (id : Id) (b : archetypeId) (hb : b ≠ a) :
    (obtainSlot e a l id).1.lookup b = e.lookup b ∧
    ∀ t, (obtainSlot e a l id).1.storage t b = e.storage t b := by
  unfold obtainSlot
  split
  · exact ⟨Function.update_noteq hb _ _, fun _ => rfl⟩
  · refine ⟨Function.update_noteq hb _ _, fun t => ?_⟩
    simp only
    rw [if_neg hb]

theorem obtainSlot_slot [Inhabited V] (e : archEngine V) (a : archetypeId) (l : lookupList)
    (id : Id) : SlotOf (obtainSlot e a l id).1 a id (obtainSlot e a l id).2 := by
  unfold obtainSlot
  split
  · exact ⟨_, Function.update_same _ _ _, Function.update_same _ _ _⟩
  · exact ⟨_, Function.update_same _ _ _, Function.update_same _ _ _⟩

theorem obtainSlot_extends [Inhabited V] (e : archEngine V) (a : archetypeId) (l : lookupList)
    (id : Id) (hl : e.lookup a = some l) : Extends id e (obtainSlot e a l id).1 := by
  refine ⟨by rw [obtainSlot_registry], fun _ _ hk => by rw [obtainSlot_registry]; exact hk, ?_⟩
  intro b j s _ hj hs
  obtain ⟨l0, hl0, hi0⟩ := hs
  by_cases hb : b = a
  · subst hb
    rw [hl] at hl0
    simp only [Option.some.injEq] at hl0
    subst hl0
    unfold obtainSlot
    split
    · exact ⟨_, Function.update_same _ _ _, by simp only; rw [Function.update_noteq hj]; exact hi0⟩
    · exact ⟨_, Function.update_same _ _ _, by simp only; rw [Function.update_noteq hj]; exact hi0⟩
  · exact ⟨l0, by rw [(obtainSlot_other e a l id b hb).1]; exact hl0, hi0⟩

theorem obtainSlot_inv [Inhabited V] (e : archEngine V) (a : archetypeId) (l : lookupList)
    (id : Id) (h : EngineInv e) (hl : e.lookup a = some l) :
    EngineInv (obtainSlot e a l id).1 := by
  unfold obtainSlot
  split
  · rename_i x hx
    have hxl : x < l.id.length := h.holes_lt a l x hl (List.mem_of_getLast?_eq_some hx)
    constructor
    · intro b hb
      simp only at hb ⊢
      by_cases hz : b = a
      · subst hz
        rw [Function.update_same]
        exact ⟨_, rfl⟩
      · rw [Function.update_noteq hz]
        exact h.lookup_some b hb
    · intro b key t hk
      exact h.column_iff b key t hk
    · intro b l1 t col hl1 hc
      simp only at hl1 hc
      by_cases hz : b = a
      · subst hz
        rw [Function.update_same] at hl1
        simp only [Option.some.injEq] at hl1
        subst hl1
        simp only [List.length_set]
        exact h.column_len b l t col hl hc
      · rw [Function.update_noteq hz] at hl1
        exact h.column_len b l1 t col hl1 hc
    · intro b l1 i s hl1 hi
      simp only at hl1
      by_cases hz : b = a
      · subst hz
        rw [Function.update_same] at hl1
        simp only [Option.some.injEq] at hl1
        subst hl1
        simp only [List.length_set] at hi ⊢
        by_cases hid : i = id
        · subst hid
          rw [Function.update_same] at hi
          simp only [Option.some.injEq] at hi
          subst hi
          exact hxl
        · rw [Function.update_noteq hid] at hi
          exact h.index_lt b l i s hl hi
      · rw [Function.update_noteq hz] at hl1
        exact h.index_lt b l1 i s hl1 hi
    · intro b l1 y hl1 hy
      simp only at hl1
      by_cases hz : b = a
      · subst hz
        rw [Function.update_same] at hl1
        simp only [Option.some.injEq] at hl1
        subst hl1
        simp only [List.length_set] at hy ⊢
        exact h.holes_lt b l y hl (List.mem_of_mem_dropLast hy)
      · rw [Function.update_noteq hz] at hl1
        exact h.holes_lt b l1 y hl1 hy
  · constructor
    · intro b hb
      simp only at hb ⊢
      by_cases hz : b = a
      · subst hz
        rw [Function.update_same]
        exact ⟨_, rfl⟩
      · rw [Function.update_noteq hz]
        exact h.lookup_some b hb
    · intro b key t hk
      simp only at hk ⊢
      rw [← h.column_iff b key t hk]
      split_ifs with hz
      · cases hc : e.storage t b <;> simp
      · rfl
    · intro b l1 t col hl1 hc
      simp only at hl1 hc
      by_cases hz : b = a
      · subst hz
        rw [Function.update_same] at hl1
        simp only [Option.some.injEq] at hl1
        subst hl1
        rw [if_pos rfl] at hc
        cases hc0 : e.storage t b with
        | none => rw [hc0] at hc; cases hc
        | some col0 =>
          rw [hc0] at hc
          simp only [Option.map_some', Option.some.injEq] at hc
          subst hc
          simp only [List.length_append, List.length_singleton]
          rw [h.column_len b l t col0 hl hc0]
      · rw [Function.update_noteq hz] at hl1
        rw [if_neg hz] at hc
        exact h.column_len b l1 t col hl1 hc
    · intro b l1 i s hl1 hi
      simp only at hl1
      by_cases hz : b = a
      · subst hz
        rw [Function.update_same] at hl1
        simp only [Option.some.injEq] at hl1
        subst hl1
        simp only [List.length_append, List.length_singleton] at hi ⊢
        by_cases hid : i = id
        · subst hid
          rw [Function.update_same] at hi
          simp only [Option.some.injEq] at hi
          subst hi
          exact Nat.lt_succ_self _
        · rw [Function.update_noteq hid] at hi
          exact Nat.lt_succ_of_lt (h.index_lt b l i s hl hi)
      · rw [Function.update_noteq hz] at hl1
        exact h.index_lt b l1 i s hl1 hi
    · intro b l1 y hl1 hy
      simp only at hl1
      by_cases hz : b = a
      · subst hz
        rw [Function.update_same] at hl1
        simp only [Option.some.injEq] at hl1
        subst hl1
        simp only [List.length_append, List.length_singleton] at hy ⊢
        exact Nat.lt_succ_of_lt (h.holes_lt b l y hl hy)
      · rw [Function.update_noteq hz] at hl1
        exact h.holes_lt b l1 y hl1 hy

theorem TagForDeletion_spec (e : archEngine V) (a : archetypeId) (id : Id) (s : Nat)
    (hs : SlotOf e a id s) :
    ∃ e1, TagForDeletion e a id = some e1 ∧ e1.registry = e.registry ∧
      e1.storage = e.storage ∧ (∀ b, b ≠ a → e1.lookup b = e.lookup b) ∧
      Extends id e e1 ∧ (EngineInv e → EngineInv e1) := by
  obtain ⟨l, hl, hi⟩ := hs
  have hw : TagForDeletion e a id =
      some { e with
             lookup := Function.update e.lookup a
               (some { index := Function.update l.index id none
                       id := l.id.set s InvalidEntity
                       holes := l.holes ++ [s] }) } := by
    simp only [TagForDeletion, hl, hi]
  refine ⟨_, hw, rfl, rfl, ?_, ⟨le_refl _, fun _ _ hk => hk, ?_⟩, ?_⟩
  · intro b hb
    exact Function.update_noteq hb _ _
  · intro b j s1 _ hj hs1
    obtain ⟨l0, hl0, hi0⟩ := hs1
    by_cases hb : b = a
    · subst hb
      rw [hl] at hl0
      simp only [Option.some.injEq] at hl0
      subst hl0
      exact ⟨_, Function.update_same _ _ _, by simp only; rw [Function.update_noteq hj]; exact hi0⟩
    · exact ⟨l0, by simp only; rw [Function.update_noteq hb]; exact hl0, hi0⟩
  · intro h
    have hsl : s < l.id.length := h.index_lt a l id s hl hi
    constructor
    · intro b hb
      simp only at hb ⊢
      by_cases hz : b = a
      · subst hz
        rw [Function.update_same]
        exact ⟨_, rfl⟩
      · rw [Function.update_noteq hz]
        exact h.lookup_some b hb
    · intro b key t hk
      exact h.column_iff b key t hk
    · intro b l1 t col hl1 hc
      simp only at hl1 hc
      by_cases hz : b = a
      · subst hz
        rw [Function.update_same] at hl1
        simp only [Option.some.injEq] at hl1
        subst hl1
        simp only [List.length_set]
        exact h.column_len b l t col hl hc
      · rw [Function.update_noteq hz] at hl1
        exact h.column_len b l1 t col hl1 hc
    · intro b l1 i s1 hl1 hi1
      simp only at hl1
      by_cases hz : b = a
      · subst hz
        rw [Function.update_same] at hl1
        simp only [Option.some.injEq] at hl1
        subst hl1
        simp only [List.length_set] at hi1 ⊢
        by_cases hid : i = id
        · subst hid
          rw [Function.update_same] at hi1
          cases hi1
        · rw [Function.update_noteq hid] at hi1
          exact h.index_lt b l i s1 hl hi1
      · rw [Function.update_noteq hz] at hl1
        exact h.index_lt b l1 i s1 hl1 hi1
    · intro b l1 y hl1 hy
      simp only at hl1
      by_cases hz : b = a
      · subst hz
        rw [Function.update_same] at hl1
        simp only [Option.some.injEq] at hl1
        subst hl1
        simp only [List.length_set, List.mem_append, List.mem_singleton] at hy ⊢
        rcases hy with hy | hy
        · exact h.holes_lt b l y hl hy
        · rw [hy]
          exact hsl
      · rw [Function.update_noteq hz] at hl1
        exact h.holes_lt b l1 y hl1 hy

/-! #### The component write of a new entity -/

theorem writeArch_spec [Inhabited V] (e : archEngine V) (a : archetypeId) (id : Id)
    (c : Component V) (key : Finset componentId) (h : EngineInv e)
    (hk : e.registry[a]? = some key) (hc : c.tag ∈ key) :
    ∃ e1, writeArch c e a id = some e1 ∧ EngineInv e1 ∧ e1.registry = e.registry ∧
      Extends id e e1 ∧
      ∃ s col, SlotOf e1 a id s ∧ e1.storage c.tag a = some col ∧ col[s]? = some c.val := by
  obtain ⟨l, hl⟩ := h.lookup_some a (lt_length_of_getElem? hk)
  cases hi : l.index id with
  | some s =>
    obtain ⟨col, hcol⟩ := (h.column_iff a key c.tag hk).mpr hc
    have hs : s < col.length := by
      rw [h.column_len a l c.tag col hl hcol]
      exact h.index_lt a l id s hl hi
    obtain ⟨e1, h1, hr1, hv1, _⟩ := writeColumn_spec e a s c col hcol hs
    refine ⟨e1, by simp only [writeArch, hl, hi, h1], hr1.engineInv h, hr1.registry,
      hr1.extends id, s, _, hr1.slotOf ⟨l, hl, hi⟩, hv1, List.getElem?_set_self hs⟩
  | none =>
    have hinv := obtainSlot_inv e a l id h hl
    have hslot := obtainSlot_slot e a l id
    have hreg := obtainSlot_registry e a l id
    have hk1 : (obtainSlot e a l id).1.registry[a]? = some key := by rw [hreg]; exact hk
    obtain ⟨col, hcol⟩ := (hinv.column_iff a key c.tag hk1).mpr hc
    obtain ⟨l1, hl1, hi1⟩ := hslot
    have hs : (obtainSlot e a l id).2 < col.length := by
      rw [hinv.column_len a l1 c.tag col hl1 hcol]
      exact hinv.index_lt a l1 id _ hl1 hi1
    obtain ⟨e1, h1, hr1, hv1, _⟩ :=
      writeColumn_spec (obtainSlot e a l id).1 a (obtainSlot e a l id).2 c col hcol hs
    refine ⟨e1, by simp only [writeArch, hl, hi, h1], hr1.engineInv hinv, hr1.registry.trans hreg,
      (obtainSlot_extends e a l id hl).trans (hr1.extends id), _, _,
      hr1.slotOf ⟨l1, hl1, hi1⟩, hv1, List.getElem?_set_self hs⟩

theorem writeArch_keeps_slot [Inhabited V] (e e1 : archEngine V) (a : archetypeId) (id : Id)
    (c : Component V) (s : Nat) (hs : SlotOf e a id s) (h1 : writeArch c e a id = some e1) :
    SlotOf e1 a id s := by
  obtain ⟨l, hl, hi⟩ := hs
  simp only [writeArch, hl, hi] at h1
  cases hcol : e.storage c.tag a with
  | none => simp [writeColumn, hcol] at h1
  | some col =>
    by_cases hlt : s < col.length
    · obtain ⟨e2, h2, hr2, _, _⟩ := writeColumn_spec e a s c col hcol hlt
      rw [h2] at h1
      simp only [Option.some.injEq] at h1
      subst h1
      exact hr2.slotOf ⟨l, hl, hi⟩
    · simp [writeColumn, hcol, hlt] at h1

theorem writeAll_spec [Inhabited V] (a : archetypeId) (id : Id) (key : Finset componentId)
    (comp : List (Component V)) :
    ∀ e : archEngine V, EngineInv e → e.registry[a]? = some key →
    (∀ c ∈ comp, c.tag ∈ key) →
    ∃ e1, writeAll (engineCalls V) a id comp e = some e1 ∧ EngineInv e1 ∧
      e1.registry = e.registry ∧ Extends id e e1 ∧
      (∀ s, SlotOf e a id s → SlotOf e1 a id s) ∧
      (comp ≠ [] → ∃ s, SlotOf e1 a id s) ∧
      (∀ c, comp.getLast? = some c → readArch e1 c.tag a id = some (c.val, true)) := by
  induction comp with
  | nil =>
    intro e h _ _
    exact ⟨e, rfl, h, rfl, Extends.refl id e, fun _ hs => hs, fun hne => absurd rfl hne,
      fun c hc => by simp at hc⟩
  | cons c cs ih =>
    intro e h hk hc
    obtain ⟨e1, h1, hinv1, hreg1, hext1, s, col, hslot1, hcol1, hv1⟩ :=
      writeArch_spec e a id c key h hk (hc c (List.mem_cons_self c cs))
    have hk1 : e1.registry[a]? = some key := by rw [hreg1]; exact hk
    obtain ⟨e2, h2, hinv2, hreg2, hext2, hkeep2, _, hlast2⟩ :=
      ih e1 hinv1 hk1 (fun c1 hc1 => hc c1 (List.mem_cons_of_mem c hc1))
    have hw : (engineCalls V).write c e a id = some e1 := h1
    refine ⟨e2, by simp only [writeAll, hw, h2], hinv2, hreg2.trans hreg1,
      hext1.trans hext2, ?_, fun _ => ⟨s, hkeep2 s hslot1⟩, ?_⟩
    · intro s0 hs0
      exact hkeep2 s0 (writeArch_keeps_slot e e1 a id c s0 hs0 h1)
    · intro c1 hlast
      cases cs with
      | nil =>
        simp only [List.getLast?_singleton, Option.some.injEq] at hlast
        subst hlast
        simp only [writeAll, Option.some.injEq] at h2
        subst h2
        exact readArch_of_slot hslot1 hcol1 hv1
      | cons c2 cs2 =>
        rw [List.getLast?_cons_cons] at hlast
        exact hlast2 c1 hlast

/-! #### The write to an existing entity -/

theorem mem_tagsOf {comp : List (Component V)} {c : Component V} (h : c ∈ comp) :
    c.tag ∈ tagsOf comp := by
  simp only [tagsOf, List.mem_toFinset, List.mem_map]
  exact ⟨c, h, rfl⟩

theorem SlotOf.unique {e : archEngine V} {a : archetypeId} {i : Id} {s s1 : Nat}
    (h : SlotOf e a i s) (h1 : SlotOf e a i s1) : s1 = s := by
  obtain ⟨l, hl, hi⟩ := h
  obtain ⟨l1, hl1, hi1⟩ := h1
  rw [hl] at hl1
  simp only [Option.some.injEq] at hl1
  subst hl1
  rw [hi] at hi1
  simp only [Option.some.injEq] at hi1
  exact hi1.symm

theorem migrate_tail (e2 : archEngine V) (a d : archetypeId) (id : Id) (s ds : Nat)
    (key : Finset componentId) (comp : List (Component V)) (h : EngineInv e2) (hda : d ≠ a)
    (hk : e2.registry[d]? = some key) (hsub : ∀ c ∈ comp, c.tag ∈ key)
    (hd : SlotOf e2 d id ds) (hs : SlotOf e2 a id s) :
    ∃ e4 e5, applyAll d ds comp (copyShared e2 a s d ds) = some e4 ∧
      TagForDeletion e4 a id = some e5 ∧ EngineInv e5 ∧ Extends id e2 e5 ∧
      SlotOf e5 d id ds ∧
      (∀ t src v, t ∉ tagsOf comp → t ∈ key → e2.storage t a = some src → src[s]? = some v →
        ∃ col, e5.storage t d = some col ∧ col[ds]? = some v) ∧
      (∀ c, comp.getLast? = some c →
        ∃ col, e5.storage c.tag d = some col ∧ col[ds]? = some c.val) := by
  have hr3 := copyShared_rewrites e2 a s d ds
  have hinv3 := hr3.engineInv h
  have hk3 : (copyShared e2 a s d ds).registry[d]? = some key := by
    rw [hr3.registry]; exact hk
  have hd3 := hr3.slotOf hd
  have hpre : ∀ c ∈ comp, ∃ col, (copyShared e2 a s d ds).storage c.tag d = some col ∧
      ds < col.length := by
    intro c hc
    obtain ⟨col, hcol⟩ := (hinv3.column_iff d key c.tag hk3).mpr (hsub c hc)
    obtain ⟨l3, hl3, hi3⟩ := hd3
    refine ⟨col, hcol, ?_⟩
    rw [hinv3.column_len d l3 c.tag col hl3 hcol]
    exact hinv3.index_lt d l3 id ds hl3 hi3
  obtain ⟨e4, h4, hr4, ho4, hlast4⟩ := applyAll_spec d ds comp _ hpre
  have hinv4 := hr4.engineInv hinv3
  have hs4 : SlotOf e4 a id s := hr4.slotOf (hr3.slotOf hs)
  obtain ⟨e5, h5, _, hst5, hlk5, hext5, hinv5⟩ := TagForDeletion_spec e4 a id s hs4
  refine ⟨e4, e5, h4, h5, hinv5 hinv4,
    (hr3.extends id).trans ((hr4.extends id).trans hext5), ?_, ?_, ?_⟩
  · obtain ⟨l, hl, hi⟩ := hr4.slotOf hd3
    exact ⟨l, by rw [hlk5 d hda]; exact hl, hi⟩
  · intro t src v ht htk hsrc hv
    obtain ⟨dst, hdst⟩ := (h.column_iff d key t hk).mpr htk
    have hlt : ds < dst.length := by
      obtain ⟨l2, hl2, hi2⟩ := hd
      rw [h.column_len d l2 t dst hl2 hdst]
      exact h.index_lt d l2 id ds hl2 hi2
    refine ⟨dst.set ds v, ?_, List.getElem?_set_self hlt⟩
    rw [hst5, ho4 t ht]
    exact copyShared_value e2 a s d ds t src dst v hsrc hdst hv
  · intro c hc
    obtain ⟨col, hcol, hv⟩ := hlast4 c hc
    exact ⟨col, by rw [hst5]; exact hcol, hv⟩

theorem rewriteArch_spec [Inhabited V] (e : archEngine V) (a : archetypeId) (id : Id)
    (comp : List (Component V)) (s : Nat) (h : EngineInv e) (ha : a < e.registry.length)
    (hs : SlotOf e a id s) :
    ∃ e1 n, rewriteArch e a id comp = some (e1, n) ∧ EngineInv e1 ∧ Extends id e e1 ∧
      n < e1.registry.length ∧ (∃ s1, SlotOf e1 n id s1) ∧
      (∀ t v, t ∉ tagsOf comp → readArch e t a id = some (v, true) →
        readArch e1 t n id = some (v, true)) ∧
      (∀ c, comp.getLast? = some c → readArch e1 c.tag n id = some (c.val, true)) := by
  have hreg : e.registry[a]? = some (e.registry[a]) := List.getElem?_eq_getElem ha
  obtain ⟨l, hl, hi⟩ := hs
  by_cases hu : e.registry[a] ∪ tagsOf comp = e.registry[a]
  · have hpre : ∀ c ∈ comp, ∃ col, e.storage c.tag a = some col ∧ s < col.length := by
      intro c hc
      have hmem : c.tag ∈ e.registry[a] := by
        rw [← hu]
        exact Finset.mem_union_right _ (mem_tagsOf hc)
      obtain ⟨col, hcol⟩ := (h.column_iff a _ c.tag hreg).mpr hmem
      refine ⟨col, hcol, ?_⟩
      rw [h.column_len a l c.tag col hl hcol]
      exact h.index_lt a l id s hl hi
    obtain ⟨e1, h1, hr1, ho1, hlast1⟩ := applyAll_spec a s comp e hpre
    have hs1 : SlotOf e1 a id s := hr1.slotOf ⟨l, hl, hi⟩
    refine ⟨e1, a, ?_, hr1.engineInv h, hr1.extends id, by rw [hr1.registry]; exact ha,
      ⟨s, hs1⟩, ?_, ?_⟩
    · simp only [rewriteArch, hreg, if_pos hu, hl, hi, h1, Option.map_some']
    · intro t v ht hread
      obtain ⟨s0, col, hs0, hcol, hv⟩ := slot_of_readArch hread
      exact readArch_of_slot (hr1.slotOf hs0) (by rw [ho1 t ht]; exact hcol) hv
    · intro c hc
      obtain ⟨col, hcol, hv⟩ := hlast1 c hc
      exact readArch_of_slot hs1 hcol hv
  · have hinv1 := resolveArchetype_inv e (e.registry[a] ∪ tagsOf comp) h
    have hd1 := resolveArchetype_registry e (e.registry[a] ∪ tagsOf comp)
    have hkeep := resolveArchetype_keeps e (e.registry[a] ∪ tagsOf comp) a ha
    have hda : (resolveArchetype e (e.registry[a] ∪ tagsOf comp)).2 ≠ a := by
      intro hEq
      rw [hEq, hkeep.1, hreg] at hd1
      simp only [Option.some.injEq] at hd1
      exact hu hd1.symm
    obtain ⟨ld, hld⟩ := hinv1.lookup_some _ (lt_length_of_getElem? hd1)
    have hinv2 := obtainSlot_inv _ _ ld id hinv1 hld
    have hreg2 := obtainSlot_registry (resolveArchetype e (e.registry[a] ∪ tagsOf comp)).1
      (resolveArchetype e (e.registry[a] ∪ tagsOf comp)).2 ld id
    have hslot2 := obtainSlot_slot (resolveArchetype e (e.registry[a] ∪ tagsOf comp)).1
      (resolveArchetype e (e.registry[a] ∪ tagsOf comp)).2 ld id
    have hother := obtainSlot_other (resolveArchetype e (e.registry[a] ∪ tagsOf comp)).1
      (resolveArchetype e (e.registry[a] ∪ tagsOf comp)).2 ld id a (Ne.symm hda)
    have hs2 : SlotOf (obtainSlot (resolveArchetype e (e.registry[a] ∪ tagsOf comp)).1
        (resolveArchetype e (e.registry[a] ∪ tagsOf comp)).2 ld id).1 a id s :=
      ⟨l, by rw [hother.1, hkeep.2.1]; exact hl, hi⟩
    have hk2 : (obtainSlot (resolveArchetype e (e.registry[a] ∪ tagsOf comp)).1
        (resolveArchetype e (e.registry[a] ∪ tagsOf comp)).2 ld id).1.registry[
          (resolveArchetype e (e.registry[a] ∪ tagsOf comp)).2]? =
        some (e.registry[a] ∪ tagsOf comp) := by
      rw [hreg2]; exact hd1
    have hsub : ∀ c ∈ comp, c.tag ∈ e.registry[a] ∪ tagsOf comp :=
      fun c hc => Finset.mem_union_right _ (mem_tagsOf hc)
    obtain ⟨e4, e5, h4, h5, hinv5, hext5, hslot5, hval5, hlast5⟩ :=
      migrate_tail _ a _ id s _ _ comp hinv2 hda hk2 hsub hslot2 hs2
    have hext : Extends id e e5 :=
      (resolveArchetype_extends id e _).trans ((obtainSlot_extends _ _ ld id hld).trans hext5)
    refine ⟨e5, _, ?_, hinv5, hext,
      lt_length_of_getElem? (hext5.registry _ _ hk2), ⟨_, hslot5⟩, ?_, ?_⟩
    · simp only [rewriteArch, hreg, if_neg hu, migrate, hl, hi, hld, h4, h5]
    · intro t v ht hread
      obtain ⟨s0, col, hs0, hcol, hv⟩ := slot_of_readArch hread
      have hs0s : s0 = s := SlotOf.unique ⟨l, hl, hi⟩ hs0
      subst hs0s
      have htold : t ∈ e.registry[a] := (h.column_iff a _ t hreg).mp ⟨col, hcol⟩
      have hcol2 : (obtainSlot (resolveArchetype e (e.registry[a] ∪ tagsOf comp)).1
          (resolveArchetype e (e.registry[a] ∪ tagsOf comp)).2 ld id).1.storage t a =
          some col := by
        rw [hother.2 t, hkeep.2.2 t]; exact hcol
      obtain ⟨col5, hcol5, hv5⟩ :=
        hval5 t col v ht (Finset.mem_union_left _ htold) hcol2 hv
      exact readArch_of_slot hslot5 hcol5 hv5
    · intro c hc
      obtain ⟨col, hcol, hv⟩ := hlast5 c hc
      exact readArch_of_slot hslot5 hcol hv

end engineLemmas

/-! ### Write and Read over the engine -/

section roundtrip
variable {V : Type}

theorem WorldInv.congr {w w1 : World (archEngine V)} (h : WorldInv w) (ha : w1.arch = w.arch)
    (he : w1.engine = w.engine) : WorldInv w1 := by
  constructor
  · rw [he]; exact h.engine
  · intro i a hi
    rw [he]
    rw [ha] at hi
    exact h.placed i a hi

theorem NewWorld_inv [Inhabited V] : WorldInv (NewWorld (engineCalls V)) :=
  ⟨newArchEngine_inv, fun i a hi => by simp [NewWorld] at hi⟩

/-- On a world that satisfies the invariant, `Write` returns, the invariant
holds afterwards, the values of the types not written stay readable, and the
last component given is read back. -/
theorem Write_spec [Inhabited V] (w : World (archEngine V)) (id : Id)
    (comp : List (Component V)) (h : WorldInv w) :
    ∃ w1, w.Write (engineCalls V) id comp = some w1 ∧ WorldInv w1 ∧
      (∀ t v, t ∉ tagsOf comp → Read (engineCalls V) w t id = some (v, true) →
        Read (engineCalls V) w1 t id = some (v, true)) ∧
      (∀ c, comp.getLast? = some c →
        Read (engineCalls V) w1 c.tag id = some (c.val, true)) := by
  cases comp with
  | nil =>
    exact ⟨w, by simp [World.Write], h, fun _ _ _ hr => hr, fun c hc => by simp at hc⟩
  | cons c0 cs =>
    have hlen : ¬ (c0 :: cs).length ≤ 0 := by simp
    cases ha : w.arch id with
    | some a =>
      obtain ⟨hlt, s, hs⟩ := h.placed id a ha
      obtain ⟨e1, n, h1, hinv1, hext1, hn, hslot1, hkeep1, hlast1⟩ :=
        rewriteArch_spec w.engine a id (c0 :: cs) s h.engine hlt hs
      have hw : (engineCalls V).rewriteArch w.engine a id (c0 :: cs) = some (e1, n) := h1
      refine ⟨{ w with arch := Function.update w.arch id (some n), engine := e1 }, ?_,
        ⟨hinv1, ?_⟩, ?_, ?_⟩
      · simp only [World.Write, if_neg hlen, ha, hw]
      · intro i b hi
        simp only at hi ⊢
        by_cases hid : i = id
        · subst hid
          rw [Function.update_same] at hi
          simp only [Option.some.injEq] at hi
          subst hi
          exact ⟨hn, hslot1⟩
        · rw [Function.update_noteq hid] at hi
          obtain ⟨hb, sb, hsb⟩ := h.placed i b hi
          exact ⟨lt_of_lt_of_le hb hext1.length_le, sb, hext1.slots b i sb hb hid hsb⟩
      · intro t v ht hr
        simp only [Read, ha] at hr
        simp only [Read, Function.update_same]
        exact hkeep1 t v ht hr
      · intro c hc
        simp only [Read, Function.update_same]
        exact hlast1 c hc
    | none =>
      have hinv0 := resolveArchetype_inv w.engine (tagsOf (c0 :: cs)) h.engine
      have hreg0 := resolveArchetype_registry w.engine (tagsOf (c0 :: cs))
      obtain ⟨e1, h1, hinv1, hreg1, hext1, _, hslot1, hlast1⟩ :=
        writeAll_spec (resolveArchetype w.engine (tagsOf (c0 :: cs))).2 id
          (tagsOf (c0 :: cs)) (c0 :: cs) _ hinv0 hreg0 (fun c hc => mem_tagsOf hc)
      have hg : (engineCalls V).GetarchetypeId w.engine (c0 :: cs) =
          some (resolveArchetype w.engine (tagsOf (c0 :: cs))) := rfl
      have hext : Extends id w.engine e1 :=
        (resolveArchetype_extends id w.engine _).trans hext1
      refine ⟨{ w with
                arch := Function.update w.arch id
                  (some (resolveArchetype w.engine (tagsOf (c0 :: cs))).2),
                engine := e1 }, ?_, ⟨hinv1, ?_⟩, ?_, ?_⟩
      · simp only [World.Write, if_neg hlen, ha, hg, h1]
      · intro i b hi
        simp only at hi ⊢
        by_cases hid : i = id
        · subst hid
          rw [Function.update_same] at hi
          simp only [Option.some.injEq] at hi
          subst hi
          refine ⟨?_, hslot1 (by simp)⟩
          rw [hreg1]
          exact lt_length_of_getElem? hreg0
        · rw [Function.update_noteq hid] at hi
          obtain ⟨hb, sb, hsb⟩ := h.placed i b hi
          exact ⟨lt_of_lt_of_le hb hext.length_le, sb, hext.slots b i sb hb hid hsb⟩
      · intro t v _ hr
        simp [Read, ha] at hr
      · intro c hc
        simp only [Read, Function.update_same]
        exact hlast1 c hc

/-- On a world that satisfies the invariant, `Delete` returns and the invariant
holds afterwards. -/
theorem Delete_spec [Inhabited V] (w : World (archEngine V)) (id : Id) (h : WorldInv w) :
    ∃ w1 b, Delete (engineCalls V) w id = some (w1, b) ∧ WorldInv w1 := by
  cases ha : w.arch id with
  | none => exact ⟨w, false, by simp only [Delete, ha], h⟩
  | some a =>
    obtain ⟨_, s, hs⟩ := h.placed id a ha
    obtain ⟨e1, h1, hreg1, _, _, hext1, hinv1⟩ := TagForDeletion_spec w.engine a id s hs
    have ht : (engineCalls V).TagForDeletion w.engine a id = some e1 := h1
    refine ⟨{ w with arch := Function.update w.arch id none, engine := e1 }, true, ?_,
      ⟨hinv1 h.engine, ?_⟩⟩
    · simp only [Delete, ha, ht]
    · intro i b hi
      simp only at hi ⊢
      by_cases hid : i = id
      · subst hid
        rw [Function.update_same] at hi
        cases hi
      · rw [Function.update_noteq hid] at hi
        obtain ⟨hb, sb, hsb⟩ := h.placed i b hi
        exact ⟨lt_of_lt_of_le hb hext1.length_le, sb, hext1.slots b i sb hb hid hsb⟩

/-- Every world reachable through the public calls satisfies the invariant. -/
theorem Reachable.worldInv [Inhabited V] {w : World (archEngine V)}
    (h : Reachable (engineCalls V) w) : WorldInv w := by
  induction h with
  | init => exact NewWorld_inv
  | setIdRange min max _ _ _ _ ih =>
    exact ih.congr (SetIdRange_state_arch _ min max) (SetIdRange_state_engine _ min max)
  | newId _ ih => exact ih.congr (NewId_arch _) (NewId_engine _)
  | write id comp _ hw ih =>
    obtain ⟨w2, h2, hinv2, _⟩ := Write_spec _ id comp ih
    rw [h2] at hw
    simp only [Option.some.injEq] at hw
    subst hw
    exact hinv2
  | delete id b _ hd ih =>
    obtain ⟨w2, b2, h2, hinv2⟩ := Delete_spec _ id ih
    rw [h2] at hd
    simp only [Option.some.injEq, Prod.mk.injEq] at hd
    obtain ⟨hd1, _⟩ := hd
    subst hd1
    exact hinv2

/-- C1: in every world reachable through the public calls, for every id, every
component type (tag `t`) and every value `v`, `Write(world, id, v)` returns and
`Read[T](world, id)` afterwards returns `(v, true)`. -/
theorem Write_Read_roundtrip [Inhabited V] (w : World (archEngine V))
    (h : Reachable (engineCalls V) w) (id : Id) (t : componentId) (v : V) :
    ∃ w1, w.Write (engineCalls V) id [⟨t, v⟩] = some w1 ∧
      Read (engineCalls V) w1 t id = some (v, true) := by
  obtain ⟨w1, h1, _, _, hlast⟩ := Write_spec w id [⟨t, v⟩] h.worldInv
  exact ⟨w1, h1, hlast ⟨t, v⟩ rfl⟩

theorem Write_Read_roundtrip_witness :
    Reachable (engineCalls (Nat × Nat)) (NewWorld (engineCalls (Nat × Nat))) ∧
    ∃ w1, (NewWorld (engineCalls (Nat × Nat))).Write (engineCalls (Nat × Nat)) 5
        [⟨1, (0, 0)⟩] = some w1 ∧
      Read (engineCalls (Nat × Nat)) w1 1 5 = some ((0, 0), true) :=
  ⟨Reachable.init, Write_Read_roundtrip _ Reachable.init 5 1 (0, 0)⟩

/-- C2: in every world reachable through the public calls, if id holds a
component of type A with value `a` (`Read[A]` returns `(a, true)`), then a
`Write(id, b)` with `b` of a different type B returns, leaves
`Read[A](world, id) = (a, true)` and makes `Read[B](world, id) = (b, true)`. -/
theorem Write_keeps_earlier_values [Inhabited V] (w : World (archEngine V))
    (h : Reachable (engineCalls V) w) (id : Id) (tA tB : componentId) (a b : V)
    (hAB : tA ≠ tB) (hA : Read (engineCalls V) w tA id = some (a, true)) :
    ∃ w1, w.Write (engineCalls V) id [⟨tB, b⟩] = some w1 ∧
      Read (engineCalls V) w1 tA id = some (a, true) ∧
      Read (engineCalls V) w1 tB id = some (b, true) := by
  obtain ⟨w1, h1, _, hkeep, hlast⟩ := Write_spec w id [⟨tB, b⟩] h.worldInv
  refine ⟨w1, h1, hkeep tA a ?_ hA, hlast ⟨tB, b⟩ rfl⟩
  simp [tagsOf, hAB]

/-- The scenario of C2: on a new world, id 5 gets Position{0,0} (tag 1) and then
Velocity{1,1} (tag 2); both are readable afterwards and the entity's archetype
is the second one created, with tag set {Position, Velocity}. -/
theorem Write_keeps_earlier_values_witness :
    ∃ w, Reachable (engineCalls (Nat × Nat)) w ∧
      Read (engineCalls (Nat × Nat)) w 1 5 = some ((0, 0), true) ∧
      ∃ w1, w.Write (engineCalls (Nat × Nat)) 5 [⟨2, (1, 1)⟩] = some w1 ∧
        Read (engineCalls (Nat × Nat)) w1 1 5 = some ((0, 0), true) ∧
        Read (engineCalls (Nat × Nat)) w1 2 5 = some ((1, 1), true) := by
  obtain ⟨w, hw, _, _, hlast⟩ :=
    Write_spec (NewWorld (engineCalls (Nat × Nat))) 5 [⟨1, (0, 0)⟩] NewWorld_inv
  have hr : Reachable (engineCalls (Nat × Nat)) w := Reachable.write 5 _ Reachable.init hw
  have hA := hlast ⟨1, (0, 0)⟩ rfl
  exact ⟨w, hr, hA, Write_keeps_earlier_values w hr 5 1 2 (0, 0) (1, 1) (by decide) hA⟩

/-- The scenario of C2, evaluated: the two writes return, both values are read
back, and id 5 ends in archetype 1, the second one created, whose tag set has
the two elements 1 and 2 (the first one has the single element 1). -/
theorem scenario_position_velocity :
    (do
      let w1 ← (NewWorld (engineCalls (Nat × Nat))).Write (engineCalls (Nat × Nat)) 5
        [⟨1, (0, 0)⟩]
      let w2 ← w1.Write (engineCalls (Nat × Nat)) 5 [⟨2, (1, 1)⟩]
      let r1 ← Read (engineCalls (Nat × Nat)) w2 1 5
      let r2 ← Read (engineCalls (Nat × Nat)) w2 2 5
      pure (r1, r2, w2.arch 5)) =
    some (((0, 0), true), ((1, 1), true), some 1) ∧
    (do
      let w1 ← (NewWorld (engineCalls (Nat × Nat))).Write (engineCalls (Nat × Nat)) 5
        [⟨1, (0, 0)⟩]
      let w2 ← w1.Write (engineCalls (Nat × Nat)) 5 [⟨2, (1, 1)⟩]
      pure (w2.engine.registry.map
        (fun k => (decide (1 ∈ k), decide (2 ∈ k), k.card)))) =
    some [(true, false, 1), (true, true, 2)] := by
  constructor <;> decide

end roundtrip

/-! ### The lookups in reachable worlds -/

section slotBook
variable {V : Type}

theorem LookupOk_empty : LookupOk { index := fun _ => none, id := [], holes := [] } := by
  constructor
  · intro i s h; cases h
  · intro k i h; simp at h
  · intro h i hh; simp at hh
  · exact List.nodup_nil
  · intro h hh; simp at hh

theorem LookupOk_reuse (l : lookupList) (id : Id) (h : Nat) (hl : LookupOk l)
    (hn : l.index id = none) (hh : l.holes.getLast? = some h) :
    LookupOk { index := Function.update l.index id (some h)
               id := l.id.set h id
               holes := l.holes.dropLast } := by
  have hsplit : l.holes = l.holes.dropLast ++ [h] :=
    (List.dropLast_append_getLast? h hh).symm
  have hmem : h ∈ l.holes := by rw [hsplit]; simp
  have hlt : h < l.id.length := hl.holes_lt h hmem
  have hnd : (l.holes.dropLast ++ [h]).Nodup := by rw [← hsplit]; exact hl.holes_nodup
  have hnot : h ∉ l.holes.dropLast := by
    intro hin
    have := (List.nodup_append.mp hnd).2.2 hin (List.mem_singleton_self h)
    exact this
  constructor
  · intro i s hi
    simp only at hi ⊢
    by_cases hid : i = id
    · subst hid
      rw [Function.update_same] at hi
      simp only [Option.some.injEq] at hi
      subst hi
      exact List.getElem?_set_self hlt
    · rw [Function.update_noteq hid] at hi
      have hne : h ≠ s := fun hEq => hl.hole_free h i hmem (by rw [hEq]; exact hi)
      rw [List.getElem?_set_ne hne]
      exact hl.idx_id i s hi
  · intro k i hk hi0
    simp only at hk ⊢
    by_cases hkh : h = k
    · subst hkh
      rw [List.getElem?_set_self hlt] at hk
      simp only [Option.some.injEq] at hk
      subst hk
      exact Function.update_same _ _ _
    · rw [List.getElem?_set_ne hkh] at hk
      have hold := hl.id_idx k i hk hi0
      have hid : i ≠ id := by
        intro hEq
        rw [hEq, hn] at hold
        cases hold
      rw [Function.update_noteq hid]
      exact hold
  · intro h1 i hh1 hi
    simp only at hh1 hi
    by_cases hid : i = id
    · subst hid
      rw [Function.update_same] at hi
      simp only [Option.some.injEq] at hi
      subst hi
      exact hnot hh1
    · rw [Function.update_noteq hid] at hi
      exact hl.hole_free h1 i (List.mem_of_mem_dropLast hh1) hi
  · exact (List.nodup_append.mp hnd).1
  · intro h1 hh1
    simp only [List.length_set]
    exact hl.holes_lt h1 (List.mem_of_mem_dropLast hh1)

theorem LookupOk_append (l : lookupList) (id : Id) (hl : LookupOk l)
    (hn : l.index id = none) :
    LookupOk { index := Function.update l.index id (some l.id.length)
               id := l.id ++ [id]
               holes := l.holes } := by
  have hlt : ∀ i s, l.index i = some s → s < l.id.length := by
    intro i s hi
    have := hl.idx_id i s hi
    by_contra hge
    rw [List.getElem?_eq_none (Nat.le_of_not_lt hge)] at this
    cases this
  constructor
  · intro i s hi
    simp only at hi ⊢
    by_cases hid : i = id
    · subst hid
      rw [Function.update_same] at hi
      simp only [Option.some.injEq] at hi
      subst hi
      simp
    · rw [Function.update_noteq hid] at hi
      rw [List.getElem?_append_left (hlt i s hi)]
      exact hl.idx_id i s hi
  · intro k i hk hi0
    simp only at hk ⊢
    by_cases hkl : k < l.id.length
    · rw [List.getElem?_append_left hkl] at hk
      have hold := hl.id_idx k i hk hi0
      have hid : i ≠ id := by
        intro hEq
        rw [hEq, hn] at hold
        cases hold
      rw [Function.update_noteq hid]
      exact hold
    · have hk2 : k = l.id.length := by
        by_contra hne
        have hgt : l.id.length + 1 ≤ k := by omega
        rw [List.getElem?_eq_none (by simpa using hgt)] at hk
        cases hk
      subst hk2
      simp only [List.getElem?_concat_length, Option.some.injEq] at hk
      subst hk
      exact Function.update_same _ _ _
  · intro h i hh hi
    simp only at hh hi
    by_cases hid : i = id
    · subst hid
      rw [Function.update_same] at hi
      simp only [Option.some.injEq] at hi
      have := hl.holes_lt h hh
      omega
    · rw [Function.update_noteq hid] at hi
      exact hl.hole_free h i hh hi
  · exact hl.holes_nodup
  · intro h hh
    simp only [List.length_append, List.length_singleton]
    exact Nat.lt_succ_of_lt (hl.holes_lt h hh)

theorem LookupOk_tombstone (l : lookupList) (id : Id) (s : Nat) (hl : LookupOk l)
    (hs : l.index id = some s) :
    LookupOk { index := Function.update l.index id none
               id := l.id.set s InvalidEntity
               holes := l.holes ++ [s] } := by
  have hat : l.id[s]? = some id := hl.idx_id id s hs
  have hslt : s < l.id.length := by
    by_contra hge
    rw [List.getElem?_eq_none (Nat.le_of_not_lt hge)] at hat
    cases hat
  have hother : ∀ i s1, i ≠ id → l.index i = some s1 → s ≠ s1 := by
    intro i s1 hid hi hEq
    have h1 := hl.idx_id i s1 hi
    rw [← hEq, hat] at h1
    simp only [Option.some.injEq] at h1
    exact hid h1.symm
  constructor
  · intro i s1 hi
    simp only at hi ⊢
    by_cases hid : i = id
    · subst hid
      rw [Function.update_same] at hi
      cases hi
    · rw [Function.update_noteq hid] at hi
      rw [List.getElem?_set_ne (hother i s1 hid hi)]
      exact hl.idx_id i s1 hi
  · intro k i hk hi0
    simp only at hk ⊢
    by_cases hks : s = k
    · subst hks
      rw [List.getElem?_set_self hslt] at hk
      simp only [Option.some.injEq] at hk
      exact absurd hk.symm hi0
    · rw [List.getElem?_set_ne hks] at hk
      have hold := hl.id_idx k i hk hi0
      have hid : i ≠ id := by
        intro hEq
        rw [hEq, hs] at hold
        simp only [Option.some.injEq] at hold
        exact hks hold
      rw [Function.update_noteq hid]
      exact hold
  · intro h i hh hi
    simp only at hh hi
    by_cases hid : i = id
    · subst hid
      rw [Function.update_same] at hi
      cases hi
    · rw [Function.update_noteq hid] at hi
      rcases List.mem_append.mp hh with hin | hin
      · exact hl.hole_free h i hin hi
      · rw [List.mem_singleton] at hin
        exact hother i h hid hi hin.symm
  · simp only
    rw [List.nodup_append]
    refine ⟨hl.holes_nodup, List.nodup_singleton s, ?_⟩
    intro x hx hx1
    rw [List.mem_singleton] at hx1
    subst hx1
    exact hl.hole_free x id hx hs
  · intro h hh
    simp only [List.length_set]
    simp only at hh
    rcases List.mem_append.mp hh with hin | hin
    · exact hl.holes_lt h hin
    · rw [List.mem_singleton] at hin
      rw [hin]
      exact hslt

end slotBook

section slotMoves
variable {V : Type}

theorem obtainSlot_lookup [Inhabited V] (e : archEngine V) (a : archetypeId) (l : lookupList)
    (id : Id) (hl : LookupOk l) (hn : l.index id = none) :
    ∃ l1, (obtainSlot e a l id).1.lookup = Function.update e.lookup a (some l1) ∧
      LookupOk l1 ∧ l1.index = Function.update l.index id (some (obtainSlot e a l id).2) := by
  unfold obtainSlot
  cases hh : l.holes.getLast? with
  | some h => exact ⟨_, rfl, LookupOk_reuse l id h hl hn hh, rfl⟩
  | none => exact ⟨_, rfl, LookupOk_append l id hl hn, rfl⟩

theorem TagForDeletion_lookup (e e1 : archEngine V) (a : archetypeId) (id : Id)
    (h : TagForDeletion e a id = some e1) :
    ∃ l s, e.lookup a = some l ∧ l.index id = some s ∧
      e1.lookup = Function.update e.lookup a
        (some { index := Function.update l.index id none
                id := l.id.set s InvalidEntity
                holes := l.holes ++ [s] }) := by
  unfold TagForDeletion at h
  cases hl : e.lookup a with
  | none => simp [hl] at h
  | some l =>
    cases hi : l.index id with
    | none => simp [hl, hi] at h
    | some s =>
      simp only [hl, hi, Option.some.injEq] at h
      subst h
      exact ⟨l, s, rfl, hi, rfl⟩

theorem writeColumn_lookup (e e1 : archEngine V) (a : archetypeId) (s : Nat) (c : Component V)
    (h : writeColumn e a s c = some e1) : e1.lookup = e.lookup := by
  unfold writeColumn at h
  cases hcol : e.storage c.tag a with
  | none => simp [hcol] at h
  | some col =>
    by_cases hlt : s < col.length
    · simp only [hcol, if_pos hlt, Option.some.injEq] at h
      subst h
      rfl
    · simp [hcol, hlt] at h

theorem applyAll_lookup (a : archetypeId) (s : Nat) (comp : List (Component V)) :
    ∀ e e1 : archEngine V, applyAll a s comp e = some e1 → e1.lookup = e.lookup := by
  induction comp with
  | nil =>
    intro e e1 h
    simp only [applyAll, Option.some.injEq] at h
    subst h
    rfl
  | cons c cs ih =>
    intro e e1 h
    cases h1 : writeColumn e a s c with
    | none => simp [applyAll, h1] at h
    | some e2 =>
      simp only [applyAll, h1] at h
      rw [ih e2 e1 h, writeColumn_lookup e e2 a s c h1]

theorem resolveArchetype_lookup (e : archEngine V) (tags : Finset componentId)
    (b : archetypeId) :
    (resolveArchetype e tags).1.lookup b = e.lookup b ∨
      (resolveArchetype e tags).1.lookup b =
        some { index := fun _ => none, id := [], holes := [] } := by
  unfold resolveArchetype
  split_ifs with h
  · exact Or.inl rfl
  · by_cases hb : b = e.registry.length
    · right
      subst hb
      exact Function.update_same _ _ _
    · left
      exact Function.update_noteq hb _ _

theorem Places.lookupOk {id : Id} {a : Option archetypeId} {e e1 : archEngine V}
    (h : Places id a e e1) : ∀ b l, e1.lookup b = some l → LookupOk l :=
  fun b l hb => (h b l hb).1

theorem Places.elsewhere {id : Id} {a : archetypeId} {e e1 : archEngine V}
    (h : Places id (some a) e e1) :
    ∀ b l, e1.lookup b = some l → b ≠ a → l.index id = none := by
  intro b l hb hba
  cases hi : l.index id with
  | none => rfl
  | some s =>
    rcases (h b l hb).2 id s hi with ⟨_, hab⟩ | ⟨hne, _⟩
    · simp only [Option.some.injEq] at hab
      exact absurd hab.symm hba
    · exact absurd rfl hne

theorem Places.chain {id : Id} {a : Option archetypeId} {e e1 e2 : archEngine V}
    (h01 : Places id a e e1) (h12 : Places id a e1 e2) : Places id a e e2 := by
  intro b l2 hb
  refine ⟨(h12 b l2 hb).1, fun i s hi => ?_⟩
  rcases (h12 b l2 hb).2 i s hi with h | ⟨_, l1, hl1, hi1⟩
  · exact Or.inl h
  · exact (h01 b l1 hl1).2 i s hi1

/-- An engine call that leaves every lookup as it was, or empty where it creates
one, places no entity anywhere new. -/
theorem Places.of_same {id : Id} {a : archetypeId} {e e1 : archEngine V}
    (hok : ∀ b l, e.lookup b = some l → LookupOk l)
    (hel : ∀ b l, e.lookup b = some l → b ≠ a → l.index id = none)
    (h : ∀ b, e1.lookup b = e.lookup b ∨
      e1.lookup b = some { index := fun _ => none, id := [], holes := [] }) :
    Places id (some a) e e1 := by
  intro b l1 hb
  rcases h b with hs | hs
  · rw [hs] at hb
    refine ⟨hok b l1 hb, fun i s hi => ?_⟩
    by_cases hid : i = id
    · subst hid
      by_cases hba : b = a
      · subst hba
        exact Or.inl ⟨rfl, rfl⟩
      · rw [hel b l1 hb hba] at hi
        cases hi
    · exact Or.inr ⟨hid, l1, hb, hi⟩
  · rw [hs] at hb
    simp only [Option.some.injEq] at hb
    subst hb
    exact ⟨LookupOk_empty, fun i s hi => by cases hi⟩

/-- An engine call that replaces the lookup of archetype `a` by one in which only
`id` may have a new slot places `id` in `a`. -/
theorem Places.of_update {id : Id} {a : archetypeId} {e e1 : archEngine V} {l l1 : lookupList}
    (hok : ∀ b l, e.lookup b = some l → LookupOk l)
    (hel : ∀ b l, e.lookup b = some l → b ≠ a → l.index id = none)
    (hl : e.lookup a = some l)
    (h1 : e1.lookup = Function.update e.lookup a (some l1)) (hok1 : LookupOk l1)
    (hidx : ∀ i s, i ≠ id → l1.index i = some s → l.index i = some s) :
    Places id (some a) e e1 := by
  intro b lb hb
  rw [h1] at hb
  by_cases hba : b = a
  · subst hba
    rw [Function.update_same] at hb
    simp only [Option.some.injEq] at hb
    subst hb
    refine ⟨hok1, fun i s hi => ?_⟩
    by_cases hid : i = id
    · exact Or.inl ⟨hid, rfl⟩
    · exact Or.inr ⟨hid, l, hl, hidx i s hid hi⟩
  · rw [Function.update_noteq hba] at hb
    refine ⟨hok b lb hb, fun i s hi => ?_⟩
    by_cases hid : i = id
    · subst hid
      rw [hel b lb hb hba] at hi
      cases hi
    · exact Or.inr ⟨hid, lb, hb, hi⟩

theorem writeArch_places [Inhabited V] (e e1 : archEngine V) (a : archetypeId) (id : Id)
    (c : Component V) (hok : ∀ b l, e.lookup b = some l → LookupOk l)
    (hel : ∀ b l, e.lookup b = some l → b ≠ a → l.index id = none)
    (h : writeArch c e a id = some e1) : Places id (some a) e e1 := by
  unfold writeArch at h
  cases hl : e.lookup a with
  | none => simp [hl] at h
  | some l =>
    cases hi : l.index id with
    | some s =>
      simp only [hl, hi] at h
      exact Places.of_same hok hel (fun b => Or.inl (by rw [writeColumn_lookup e e1 a s c h]))
    | none =>
      simp only [hl, hi] at h
      obtain ⟨l1, hl1, hok1, hidx1⟩ := obtainSlot_lookup e a l id (hok a l hl) hi
      have hlk := writeColumn_lookup _ e1 a _ c h
      refine Places.of_update hok hel hl (hlk.trans hl1) hok1 ?_
      intro i s hid his
      rw [hidx1, Function.update_noteq hid] at his
      exact his

theorem writeAll_places [Inhabited V] (a : archetypeId) (id : Id) (comp : List (Component V)) :
    ∀ e e1 : archEngine V, (∀ b l, e.lookup b = some l → LookupOk l) →
    (∀ b l, e.lookup b = some l → b ≠ a → l.index id = none) →
    writeAll (engineCalls V) a id comp e = some e1 → Places id (some a) e e1 := by
  induction comp with
  | nil =>
    intro e e1 hok hel h
    simp only [writeAll, Option.some.injEq] at h
    subst h
    exact Places.of_same hok hel (fun b => Or.inl rfl)
  | cons c cs ih =>
    intro e e1 hok hel h
    cases h1 : writeArch c e a id with
    | none =>
      have hw : (engineCalls V).write c e a id = none := h1
      simp [writeAll, hw] at h
    | some e2 =>
      have hw : (engineCalls V).write c e a id = some e2 := h1
      simp only [writeAll, hw] at h
      have hp := writeArch_places e e2 a id c hok hel h1
      exact hp.chain (ih e2 e1 hp.lookupOk hp.elsewhere h)

theorem TagForDeletion_places (e e1 : archEngine V) (a : archetypeId) (id : Id)
    (hok : ∀ b l, e.lookup b = some l → LookupOk l)
    (hel : ∀ b l, e.lookup b = some l → b ≠ a → l.index id = none)
    (h : TagForDeletion e a id = some e1) : Places id none e e1 := by
  obtain ⟨l, s, hl, hs, h1⟩ := TagForDeletion_lookup e e1 a id h
  intro b lb hb
  rw [h1] at hb
  by_cases hba : b = a
  · subst hba
    rw [Function.update_same] at hb
    simp only [Option.some.injEq] at hb
    subst hb
    refine ⟨LookupOk_tombstone l id s (hok b l hl) hs, fun i s1 hi => ?_⟩
    simp only at hi
    by_cases hid : i = id
    · subst hid
      rw [Function.update_same] at hi
      cases hi
    · rw [Function.update_noteq hid] at hi
      exact Or.inr ⟨hid, l, hl, hi⟩
  · rw [Function.update_noteq hba] at hb
    refine ⟨hok b lb hb, fun i s1 hi => ?_⟩
    by_cases hid : i = id
    · subst hid
      rw [hel b lb hb hba] at hi
      cases hi
    · exact Or.inr ⟨hid, lb, hb, hi⟩

end slotMoves

section slotWorld
variable {V : Type}

theorem rewriteArch_places [Inhabited V] (e e1 : archEngine V) (a n : archetypeId) (id : Id)
    (comp : List (Component V)) (hok : ∀ b l, e.lookup b = some l → LookupOk l)
    (hel : ∀ b l, e.lookup b = some l → b ≠ a → l.index id = none)
    (h : rewriteArch e a id comp = some (e1, n)) : Places id (some n) e e1 := by
  unfold rewriteArch at h
  cases hreg : e.registry[a]? with
  | none => simp [hreg] at h
  | some old =>
    have ha : a < e.registry.length := lt_length_of_getElem? hreg
    simp only [hreg] at h
    by_cases hu : old ∪ tagsOf comp = old
    · simp only [if_pos hu] at h
      cases hl : e.lookup a with
      | none => simp [hl] at h
      | some l =>
        cases hi : l.index id with
        | none => simp [hl, hi] at h
        | some s =>
          simp only [hl, hi, Option.map_eq_some', Prod.mk.injEq] at h
          obtain ⟨e2, h2, he, hn⟩ := h
          subst he
          subst hn
          exact Places.of_same hok hel (fun b => Or.inl (by rw [applyAll_lookup a s comp e e2 h2]))
    · simp only [if_neg hu] at h
      have hd1 := resolveArchetype_registry e (old ∪ tagsOf comp)
      have hkeep := resolveArchetype_keeps e (old ∪ tagsOf comp) a ha
      have hda : (resolveArchetype e (old ∪ tagsOf comp)).2 ≠ a := by
        intro hEq
        rw [hEq, hkeep.1, hreg] at hd1
        simp only [Option.some.injEq] at hd1
        exact hu hd1.symm
      unfold migrate at h
      cases hl : e.lookup a with
      | none => simp [hreg, hl] at h
      | some l =>
        cases hi : l.index id with
        | none => simp [hreg, hl, hi] at h
        | some s =>
          cases hld : (resolveArchetype e (old ∪ tagsOf comp)).1.lookup
              (resolveArchetype e (old ∪ tagsOf comp)).2 with
          | none => simp [hreg, hl, hi, hld] at h
          | some ld =>
            simp only [hreg, hl, hi, hld] at h
            cases h4 : applyAll (resolveArchetype e (old ∪ tagsOf comp)).2
                (obtainSlot (resolveArchetype e (old ∪ tagsOf comp)).1
                  (resolveArchetype e (old ∪ tagsOf comp)).2 ld id).2 comp
                (copyShared (obtainSlot (resolveArchetype e (old ∪ tagsOf comp)).1
                  (resolveArchetype e (old ∪ tagsOf comp)).2 ld id).1 a s
                  (resolveArchetype e (old ∪ tagsOf comp)).2
                  (obtainSlot (resolveArchetype e (old ∪ tagsOf comp)).1
                    (resolveArchetype e (old ∪ tagsOf comp)).2 ld id).2) with
            | none => simp [h4] at h
            | some e4 =>
              simp only [h4] at h
              cases h5 : TagForDeletion e4 a id with
              | none => simp [h5] at h
              | some e5 =>
                simp only [h5, Option.some.injEq, Prod.mk.injEq] at h
                obtain ⟨he, hn⟩ := h
                subst he
                subst hn
                -- the lookups of the source engine, seen from the resolved one
                have hsame := resolveArchetype_lookup e (old ∪ tagsOf comp)
                have hldok : LookupOk ld ∧ ld.index id = none ∧
                    ∀ i s1, ld.index i = some s1 →
                      SlotOf e (resolveArchetype e (old ∪ tagsOf comp)).2 i s1 := by
                  rcases hsame (resolveArchetype e (old ∪ tagsOf comp)).2 with hs | hs
                  · rw [hs] at hld
                    exact ⟨hok _ ld hld, hel _ ld hld hda, fun i s1 hi1 => ⟨ld, hld, hi1⟩⟩
                  · rw [hs] at hld
                    simp only [Option.some.injEq] at hld
                    subst hld
                    exact ⟨LookupOk_empty, rfl, fun i s1 hi1 => by cases hi1⟩
                obtain ⟨ld1, hld1, hok1, hidx1⟩ :=
                  obtainSlot_lookup (resolveArchetype e (old ∪ tagsOf comp)).1
                    (resolveArchetype e (old ∪ tagsOf comp)).2 ld id hldok.1 hldok.2.1
                have hlk4 : e4.lookup = Function.update
                    (resolveArchetype e (old ∪ tagsOf comp)).1.lookup
                    (resolveArchetype e (old ∪ tagsOf comp)).2 (some ld1) := by
                  rw [applyAll_lookup _ _ comp _ e4 h4]
                  exact hld1
                obtain ⟨l4, s4, hl4, hs4, hlk5⟩ := TagForDeletion_lookup e4 _ a id h5
                have hl4eq : l4 = l := by
                  rw [hlk4, Function.update_noteq (Ne.symm hda), hkeep.2.1, hl] at hl4
                  simp only [Option.some.injEq] at hl4
                  exact hl4.symm
                subst hl4eq
                intro b lb hb
                rw [hlk5] at hb
                by_cases hba : b = a
                · subst hba
                  rw [Function.update_same] at hb
                  simp only [Option.some.injEq] at hb
                  subst hb
                  refine ⟨LookupOk_tombstone l4 id s4 (hok b l4 hl) hs4, fun i s1 hi1 => ?_⟩
                  simp only at hi1
                  by_cases hid : i = id
                  · subst hid
                    rw [Function.update_same] at hi1
                    cases hi1
                  · rw [Function.update_noteq hid] at hi1
                    exact Or.inr ⟨hid, l4, hl, hi1⟩
                · rw [Function.update_noteq hba, hlk4] at hb
                  by_cases hbd : b = (resolveArchetype e (old ∪ tagsOf comp)).2
                  · rw [hbd, Function.update_same] at hb
                    simp only [Option.some.injEq] at hb
                    subst hb
                    refine ⟨hok1, fun i s1 hi1 => ?_⟩
                    by_cases hid : i = id
                    · exact Or.inl ⟨hid, by rw [hbd]⟩
                    · rw [hidx1, Function.update_noteq hid] at hi1
                      rw [hbd]
                      exact Or.inr ⟨hid, hldok.2.2 i s1 hi1⟩
                  · rw [Function.update_noteq hbd] at hb
                    rcases hsame b with hs | hs
                    · rw [hs] at hb
                      refine ⟨hok b lb hb, fun i s1 hi1 => ?_⟩
                      by_cases hid : i = id
                      · subst hid
                        rw [hel b lb hb hba] at hi1
                        cases hi1
                      · exact Or.inr ⟨hid, lb, hb, hi1⟩
                    · rw [hs] at hb
                      simp only [Option.some.injEq] at hb
                      subst hb
                      exact ⟨LookupOk_empty, fun i s1 hi1 => by cases hi1⟩

theorem SlotInv.of_eq {w w1 : World (archEngine V)} (h : SlotInv w) (ha : w1.arch = w.arch)
    (he : w1.engine = w.engine) : SlotInv w1 := by
  constructor
  · intro a l hl
    rw [he] at hl
    exact h.lookups a l hl
  · intro a l i s hl hi
    rw [he] at hl
    rw [ha]
    exact h.linked a l i s hl hi

theorem NewWorld_slotInv [Inhabited V] : SlotInv (NewWorld (engineCalls V)) :=
  ⟨fun a l hl => (by cases hl), fun a l i s hl _ => (by cases hl)⟩

theorem SlotInv.unplaced {w : World (archEngine V)} (h : SlotInv w) {id : Id}
    {a : archetypeId} (ha : w.arch id = some a) :
    ∀ b l, w.engine.lookup b = some l → b ≠ a → l.index id = none := by
  intro b l hl hba
  cases hi : l.index id with
  | none => rfl
  | some s =>
    have := h.linked b l id s hl hi
    rw [ha] at this
    simp only [Option.some.injEq] at this
    exact absurd this.symm hba

theorem SlotInv.of_places {w : World (archEngine V)} (h : SlotInv w) {id : Id}
    {na : Option archetypeId} {e1 : archEngine V} (hp : Places id na w.engine e1) :
    SlotInv { w with arch := Function.update w.arch id na, engine := e1 } := by
  constructor
  · intro a l hl
    exact (hp a l hl).1
  · intro a l i s hl hi
    simp only at hl ⊢
    rcases (hp a l hl).2 i s hi with ⟨hid, hna⟩ | ⟨hid, l0, hl0, hi0⟩
    · rw [hid, Function.update_same]
      exact hna
    · rw [Function.update_noteq hid]
      exact h.linked a l0 i s hl0 hi0

theorem Write_slotInv [Inhabited V] (w w1 : World (archEngine V)) (id : Id)
    (comp : List (Component V)) (h : SlotInv w)
    (hw : w.Write (engineCalls V) id comp = some w1) : SlotInv w1 := by
  unfold World.Write at hw
  by_cases hlen : comp.length ≤ 0
  · simp only [if_pos hlen, Option.some.injEq] at hw
    subst hw
    exact h
  · simp only [if_neg hlen] at hw
    cases ha : w.arch id with
    | some a =>
      simp only [ha] at hw
      cases hr : (engineCalls V).rewriteArch w.engine a id comp with
      | none => simp [hr] at hw
      | some r =>
        obtain ⟨e1, n⟩ := r
        simp only [hr, Option.some.injEq] at hw
        subst hw
        exact h.of_places (rewriteArch_places w.engine e1 a n id comp h.lookups
          (h.unplaced ha) hr)
    | none =>
      simp only [ha] at hw
      have hg : (engineCalls V).GetarchetypeId w.engine comp =
          some (resolveArchetype w.engine (tagsOf comp)) := rfl
      simp only [hg] at hw
      cases h1 : writeAll (engineCalls V) (resolveArchetype w.engine (tagsOf comp)).2 id comp
          (resolveArchetype w.engine (tagsOf comp)).1 with
      | none => simp [h1] at hw
      | some e1 =>
        simp only [h1, Option.some.injEq] at hw
        subst hw
        have hnone : ∀ b l, w.engine.lookup b = some l →
            b ≠ (resolveArchetype w.engine (tagsOf comp)).2 → l.index id = none := by
          intro b l hl _
          cases hi : l.index id with
          | none => rfl
          | some s =>
            have := h.linked b l id s hl hi
            rw [ha] at this
            cases this
        have hp0 : Places id (some (resolveArchetype w.engine (tagsOf comp)).2) w.engine
            (resolveArchetype w.engine (tagsOf comp)).1 :=
          Places.of_same h.lookups hnone (resolveArchetype_lookup w.engine (tagsOf comp))
        have hp1 := writeAll_places _ id comp _ e1 hp0.lookupOk hp0.elsewhere h1
        exact h.of_places (hp0.chain hp1)

theorem Delete_slotInv [Inhabited V] (w w1 : World (archEngine V)) (id : Id) (b : Bool)
    (h : SlotInv w) (hd : Delete (engineCalls V) w id = some (w1, b)) : SlotInv w1 := by
  unfold Delete at hd
  cases ha : w.arch id with
  | none =>
    simp only [ha, Option.some.injEq, Prod.mk.injEq] at hd
    obtain ⟨hd1, _⟩ := hd
    subst hd1
    exact h
  | some a =>
    simp only [ha] at hd
    cases ht : (engineCalls V).TagForDeletion w.engine a id with
    | none => simp [ht] at hd
    | some e1 =>
      simp only [ht, Option.some.injEq, Prod.mk.injEq] at hd
      obtain ⟨hd1, _⟩ := hd
      subst hd1
      exact h.of_places (TagForDeletion_places w.engine e1 a id h.lookups (h.unplaced ha) ht)

/-- Every world reachable through the public calls keeps the bookkeeping of its
lookups. -/
theorem Reachable.slotInv [Inhabited V] {w : World (archEngine V)}
    (h : Reachable (engineCalls V) w) : SlotInv w := by
  induction h with
  | init => exact NewWorld_slotInv
  | setIdRange min max _ _ _ _ ih =>
    exact ih.of_eq (SetIdRange_state_arch _ min max) (SetIdRange_state_engine _ min max)
  | newId _ ih => exact ih.of_eq (NewId_arch _) (NewId_engine _)
  | write id comp _ hw ih => exact Write_slotInv _ _ id comp ih hw
  | delete id b _ hd ih => exact Delete_slotInv _ _ id b ih hd

theorem StorageInv.of_inv {w : World (archEngine V)} (h : WorldInv w) (hs : SlotInv w) :
    StorageInv w := by
  constructor
  · intro id a ha
    obtain ⟨_, s, l, hl, hi⟩ := h.placed id a ha
    exact ⟨l, s, hl, hi, h.engine.index_lt a l id s hl hi, (hs.lookups a l hl).idx_id id s hi⟩
  · exact h.engine.column_len
  · intro a l idx id hl hid hne
    have hi := (hs.lookups a l hl).id_idx idx id hid hne
    exact ⟨hs.linked a l id idx hl hi, hi⟩

/-- Every world reachable through the public calls satisfies the storage
invariants of the specification. -/
theorem Reachable.storageInv [Inhabited V] {w : World (archEngine V)}
    (h : Reachable (engineCalls V) w) : StorageInv w :=
  StorageInv.of_inv h.worldInv h.slotInv

end slotWorld

section reachedWorlds
variable {E C V : Type}

/-- A sequence of public calls that returns, made on a reachable world, ends in a
reachable world (the arguments of `SetIdRange` being 32-bit values). -/
theorem run_reachable (ops : archEngineCalls E C V) (calls : List (Call C)) :
    ∀ w w1 : World E, Reachable ops w →
    (∀ min max, Call.setIdRange min max ∈ calls → min ≤ MaxEntity ∧ max ≤ MaxEntity) →
    w.run ops calls = some w1 → Reachable ops w1 := by
  induction calls with
  | nil =>
    intro w w1 hw _ h
    simp only [World.run, Option.some.injEq] at h
    subst h
    exact hw
  | cons c cs ih =>
    intro w w1 hw hb h
    have hbs : ∀ min max, Call.setIdRange min max ∈ cs → min ≤ MaxEntity ∧ max ≤ MaxEntity :=
      fun min max hm => hb min max (List.mem_cons_of_mem c hm)
    cases hs : w.step ops c with
    | none => simp [World.run, hs] at h
    | some w2 =>
      simp only [World.run, hs] at h
      refine ih w2 w1 ?_ hbs h
      cases c with
      | write id comp => exact Reachable.write id comp hw hs
      | delete id =>
        simp only [World.step, Option.map_eq_some'] at hs
        obtain ⟨r, hr, hr1⟩ := hs
        obtain ⟨w3, b⟩ := r
        simp only at hr1
        subst hr1
        exact Reachable.delete id b hw hr
      | newId =>
        simp only [World.step, Option.some.injEq] at hs
        subst hs
        exact Reachable.newId hw
      | setIdRange min max =>
        obtain ⟨hmin, hmax⟩ := hb min max (List.mem_cons_self _ cs)
        simp only [World.step] at hs
        cases hp : (w.SetIdRange min max).panicked with
        | some msg => simp [hp] at hs
        | none =>
          simp only [hp, Option.some.injEq] at hs
          subst hs
          exact Reachable.setIdRange min max hw hmin hmax hp

theorem worldAfter_reachable (calls : List (Call (Component Nat)))
    (hb : ∀ min max, Call.setIdRange min max ∈ calls → min ≤ MaxEntity ∧ max ≤ MaxEntity) :
    Reachable (engineCalls Nat) (worldAfter calls) := by
  unfold worldAfter
  cases h : (NewWorld (engineCalls Nat)).run (engineCalls Nat) calls with
  | none => exact Reachable.init
  | some w1 => exact run_reachable (engineCalls Nat) calls _ w1 Reachable.init hb h

/-- The sample world is what the public calls produce: the state after writing
ids 2, 3, 4 with a component of type 1, deleting id 3 and writing id 7 with
components of types 1 and 2 has the entity map, the registry, the lookups and
the columns of `sampleWorld`. -/
theorem sampleWorld_reached :
    Reachable (engineCalls Nat)
      (worldAfter [Call.write 2 [⟨1, 10⟩], Call.write 3 [⟨1, 20⟩], Call.write 4 [⟨1, 30⟩],
        Call.delete 3, Call.write 7 [⟨1, 70⟩, ⟨2, 71⟩]]) ∧
    [2, 3, 4, 7].map (worldAfter [Call.write 2 [⟨1, 10⟩], Call.write 3 [⟨1, 20⟩],
        Call.write 4 [⟨1, 30⟩], Call.delete 3, Call.write 7 [⟨1, 70⟩, ⟨2, 71⟩]]).arch =
      [2, 3, 4, 7].map sampleWorld.arch ∧
    [0, 1, 2].map (fun a =>
      ((worldAfter [Call.write 2 [⟨1, 10⟩], Call.write 3 [⟨1, 20⟩],
        Call.write 4 [⟨1, 30⟩], Call.delete 3,
        Call.write 7 [⟨1, 70⟩, ⟨2, 71⟩]]).engine.lookup a).map
          (fun l => (l.id, l.holes, [2, 3, 4, 7].map l.index))) =
      [0, 1, 2].map (fun a => (sampleWorld.engine.lookup a).map
          (fun l => (l.id, l.holes, [2, 3, 4, 7].map l.index))) ∧
    [0, 1, 2].map (fun a => [1, 2, 3].map (fun t =>
      (worldAfter [Call.write 2 [⟨1, 10⟩], Call.write 3 [⟨1, 20⟩],
        Call.write 4 [⟨1, 30⟩], Call.delete 3,
        Call.write 7 [⟨1, 70⟩, ⟨2, 71⟩]]).engine.storage t a)) =
      [0, 1, 2].map (fun a => [1, 2, 3].map (fun t => sampleWorld.engine.storage t a)) ∧
    (worldAfter [Call.write 2 [⟨1, 10⟩], Call.write 3 [⟨1, 20⟩],
        Call.write 4 [⟨1, 30⟩], Call.delete 3,
        Call.write 7 [⟨1, 70⟩, ⟨2, 71⟩]]).engine.generation = sampleWorld.engine.generation ∧
    (worldAfter [Call.write 2 [⟨1, 10⟩], Call.write 3 [⟨1, 20⟩],
        Call.write 4 [⟨1, 30⟩], Call.delete 3,
        Call.write 7 [⟨1, 70⟩, ⟨2, 71⟩]]).engine.registry.map
          (fun k => (decide (1 ∈ k), decide (2 ∈ k), k.card)) =
      sampleWorld.engine.registry.map (fun k => (decide (1 ∈ k), decide (2 ∈ k), k.card)) := by
  refine ⟨worldAfter_reachable _ (by intro min max h; simp at h), ?_, ?_, ?_, ?_, ?_⟩ <;> decide

end reachedWorlds

/-! ### Reads of ids that are not in the entity map -/

section unknownIds
variable {E C V P : Type}

theorem Write_arch_other (ops : archEngineCalls E C V) (w w1 : World E) (id j : Id)
    (comp : List C) (h : w.Write ops id comp = some w1) (hj : j ≠ id) :
    w1.arch j = w.arch j := by
  unfold World.Write at h
  split_ifs at h with h0
  · cases h
    rfl
  · split at h
    · split at h
      · cases h
      · cases h
        exact Function.update_noteq hj _ _
    · split at h
      · cases h
      · split at h
        · cases h
        · cases h
          exact Function.update_noteq hj _ _

theorem Write_arch_self (ops : archEngineCalls E C V) (w w1 : World E) (id : Id)
    (comp : List C) (h : w.Write ops id comp = some w1) :
    w1.Exists id = (if comp.length ≤ 0 then w.Exists id else true) := by
  unfold World.Write at h
  split_ifs at h with h0
  · cases h
    rw [if_pos h0]
  · split at h
    · split at h
      · cases h
      · cases h
        simp [World.Exists, h0]
    · split at h
      · cases h
      · split at h
        · cases h
        · cases h
          simp [World.Exists, h0]

theorem Delete_arch_other (ops : archEngineCalls E C V) (w w1 : World E) (id j : Id) (b : Bool)
    (h : Delete ops w id = some (w1, b)) (hj : j ≠ id) : w1.arch j = w.arch j := by
  unfold Delete at h
  split at h
  · cases h
    rfl
  · split at h
    · cases h
    · cases h
      exact Function.update_noteq hj _ _

theorem step_Exists (ops : archEngineCalls E C V) (w w1 : World E) (id : Id) (c : Call C)
    (h : w.step ops c = some w1) : w1.Exists id = tracksId id [c] (w.Exists id) := by
  cases c with
  | write j comp =>
    simp only [World.step] at h
    simp only [tracksId]
    by_cases hj : j = id
    · subst hj
      rw [Write_arch_self ops w w1 j comp h]
      by_cases hc : comp.length ≤ 0 <;> simp [hc]
    · have := Write_arch_other ops w w1 j id comp h (Ne.symm hj)
      simp [World.Exists, this, hj]
  | delete j =>
    simp only [World.step, Option.map_eq_some'] at h
    obtain ⟨r, hr, hr1⟩ := h
    obtain ⟨w2, b⟩ := r
    simp only at hr1
    subst hr1
    simp only [tracksId]
    by_cases hj : j = id
    · subst hj
      rw [(Delete_Exists_after ops w j w2 b hr).2]
      simp
    · have := Delete_arch_other ops w w2 j id b hr (Ne.symm hj)
      simp [World.Exists, this, hj]
  | newId =>
    simp only [World.step, Option.some.injEq] at h
    subst h
    simp [tracksId, World.Exists, NewId_arch]
  | setIdRange min max =>
    simp only [World.step] at h
    split at h
    · cases h
    · simp only [Option.some.injEq] at h
      subst h
      simp [tracksId, World.Exists, SetIdRange_state_arch]

theorem tracksId_cons (id : Id) (c : Call C) (cs : List (Call C)) (b : Bool) :
    tracksId id (c :: cs) b = tracksId id cs (tracksId id [c] b) := by
  cases c <;> simp [tracksId]

theorem run_Exists (ops : archEngineCalls E C V) (id : Id) (calls : List (Call C)) :
    ∀ w w1 : World E, w.run ops calls = some w1 →
      w1.Exists id = tracksId id calls (w.Exists id) := by
  induction calls with
  | nil =>
    intro w w1 h
    simp only [World.run, Option.some.injEq] at h
    subst h
    rfl
  | cons c cs ih =>
    intro w w1 h
    simp only [World.run] at h
    cases hs : w.step ops c with
    | none => simp [hs] at h
    | some w2 =>
      simp only [hs] at h
      rw [ih w2 w1 h, step_Exists ops w w2 id c hs, ← tracksId_cons]

theorem writtenAndKept_nil (id : Id) : ¬ writtenAndKept id ([] : List (Call C)) := by
  rintro ⟨pre, comp, post, h, _⟩
  cases pre <;> cases h

theorem writtenAndKept_cons (id : Id) (c : Call C) (cs : List (Call C)) :
    writtenAndKept id (c :: cs) ↔
      (∃ comp, c = Call.write id comp ∧ comp ≠ [] ∧ Call.delete id ∉ cs) ∨
      writtenAndKept id cs := by
  constructor
  · rintro ⟨pre, comp, post, h, hc, hd⟩
    cases pre with
    | nil =>
      simp only [List.nil_append, List.cons.injEq] at h
      obtain ⟨h1, h2⟩ := h
      subst h2
      exact Or.inl ⟨comp, h1, hc, hd⟩
    | cons p ps =>
      simp only [List.cons_append, List.cons.injEq] at h
      exact Or.inr ⟨ps, comp, post, h.2, hc, hd⟩
  · rintro (⟨comp, h1, hc, hd⟩ | ⟨pre, comp, post, h, hc, hd⟩)
    · exact ⟨[], comp, cs, by simp [h1], hc, hd⟩
    · exact ⟨c :: pre, comp, post, by simp [h], hc, hd⟩

theorem tracksId_iff (id : Id) (calls : List (Call C)) :
    ∀ b : Bool, tracksId id calls b = true ↔
      (writtenAndKept id calls ∨ (b = true ∧ Call.delete id ∉ calls)) := by
  induction calls with
  | nil =>
    intro b
    simp [tracksId, writtenAndKept_nil]
  | cons c cs ih =>
    intro b
    rw [tracksId_cons, ih, writtenAndKept_cons]
    cases c with
    | write j comp =>
      simp only [tracksId]
      by_cases hj : j = id ∧ ¬ comp.length ≤ 0
      · obtain ⟨hj1, hj2⟩ := hj
        subst hj1
        have hne : comp ≠ [] := by
          intro h0
          apply hj2
          simp [h0]
        rw [if_pos ⟨rfl, hj2⟩]
        have hmem : Call.delete j ∉ Call.write j comp :: cs ↔ Call.delete j ∉ cs := by
          simp
        rw [hmem]
        constructor
        · rintro (h | ⟨_, h⟩)
          · exact Or.inl (Or.inr h)
          · exact Or.inl (Or.inl ⟨comp, rfl, hne, h⟩)
        · rintro ((⟨comp1, _, _, h⟩ | h) | ⟨_, h⟩)
          · exact Or.inr ⟨rfl, h⟩
          · exact Or.inl h
          · exact Or.inr ⟨rfl, h⟩
      · rw [if_neg hj]
        have hno : ¬ ∃ comp1, Call.write j comp = Call.write id comp1 ∧ comp1 ≠ [] ∧
            Call.delete id ∉ cs := by
          rintro ⟨comp1, h1, h2, _⟩
          simp only [Call.write.injEq] at h1
          obtain ⟨h1a, h1b⟩ := h1
          subst h1a h1b
          apply hj
          refine ⟨rfl, ?_⟩
          cases comp with
          | nil => exact absurd rfl h2
          | cons x xs => simp
        simp only [hno, false_or, List.mem_cons, reduceCtorEq]
    | delete j =>
      simp only [tracksId]
      have hno : ¬ ∃ comp1, (Call.delete j : Call C) = Call.write id comp1 ∧ comp1 ≠ [] ∧
          Call.delete id ∉ cs := by
        rintro ⟨comp1, h1, _⟩
        cases h1
      by_cases hj : j = id
      · subst hj
        simp [hno]
      · have hne : ¬ Call.delete id = (Call.delete j : Call C) := by
          intro h
          cases h
          exact hj rfl
        simp [hno, hj, hne]
    | newId =>
      simp only [tracksId]
      have hno : ¬ ∃ comp1, (Call.newId : Call C) = Call.write id comp1 ∧ comp1 ≠ [] ∧
          Call.delete id ∉ cs := by
        rintro ⟨comp1, h1, _⟩
        cases h1
      simp [hno]
    | setIdRange min max =>
      simp only [tracksId]
      have hno : ¬ ∃ comp1, (Call.setIdRange min max : Call C) = Call.write id comp1 ∧
          comp1 ≠ [] ∧ Call.delete id ∉ cs := by
        rintro ⟨comp1, h1, _⟩
        cases h1
      simp [hno]

theorem tracksId_false (id : Id) (calls : List (Call C))
    (h : ∀ comp, Call.write id comp ∉ calls) : tracksId id calls false = false := by
  cases ht : tracksId id calls false with
  | false => rfl
  | true =>
    rcases (tracksId_iff id calls false).mp ht with ⟨pre, comp, post, hs, _⟩ | ⟨hb, _⟩
    · exact absurd (by rw [hs]; simp) (h comp)
    · cases hb

theorem reads_of_not_Exists [Inhabited V] (ops : archEngineCalls (archEngine V) C V)
    (readPtrArch : archEngine V → componentId → archetypeId → Id → Option (Option P))
    (w : World (archEngine V)) (id : Id) (h : w.Exists id = false) (t : componentId)
    (v1 : View1) (v2 : View2) :
    Read ops w t id = some (default, false) ∧ ReadPtr readPtrArch w t id = some none ∧
    v1.Read w id = some none ∧ v2.Read w id = some (none, none) := by
  have ha : w.arch id = none := by
    unfold World.Exists at h
    cases hx : w.arch id with
    | none => rfl
    | some a => simp [hx] at h
  refine ⟨by simp [Read, ha], by simp [ReadPtr, ha], ?_, ?_⟩
  · unfold View1.Read
    split_ifs
    · rfl
    · simp [ha]
  · unfold View2.Read
    split_ifs
    · rfl
    · simp [ha]

/-- C11: after a `Delete(world, id)` that returned, and after any further public
calls none of which is a `Write` to `id`, `Read[T](world, id)` returns (zero
value, false), `ReadPtr[T](world, id)` returns nil, and `View1.Read(id)` and
`View2.Read(id)` return nil in every position, for every engine and whatever the
world held before. -/
theorem deleted_entity_unreadable [Inhabited V] (ops : archEngineCalls (archEngine V) C V)
    (readPtrArch : archEngine V → componentId → archetypeId → Id → Option (Option P))
    (w w1 w2 : World (archEngine V)) (id : Id) (b : Bool) (calls : List (Call C))
    (hd : Delete ops w id = some (w1, b)) (hc : ∀ comp, Call.write id comp ∉ calls)
    (hr : w1.run ops calls = some w2) (t : componentId) (v1 : View1) (v2 : View2) :
    Read ops w2 t id = some (default, false) ∧ ReadPtr readPtrArch w2 t id = some none ∧
    v1.Read w2 id = some none ∧ v2.Read w2 id = some (none, none) := by
  have h1 : w1.Exists id = false := (Delete_Exists_after ops w id w1 b hd).2
  have h2 : w2.Exists id = false := by
    rw [run_Exists ops id calls w1 w2 hr, h1]
    exact tracksId_false id calls hc
  exact reads_of_not_Exists ops readPtrArch w2 id h2 t v1 v2

/-- C12: after any sequence of public calls applied to a new world (each call
returning), `Exists(id)` is true if and only if the sequence contains a
`Write(id, ...)` with at least one component that is not followed by a later
`Delete(id)`. -/
theorem Exists_iff_writtenAndKept (ops : archEngineCalls E C V) (calls : List (Call C))
    (w : World E) (id : Id) (h : (NewWorld ops).run ops calls = some w) :
    w.Exists id = true ↔ writtenAndKept id calls := by
  rw [run_Exists ops id calls _ w h, tracksId_iff]
  simp [NewWorld, World.Exists]

/-- C13: for an id that is not in the entity map, `Read[T]` returns (zero value,
false), `ReadPtr[T]` returns nil and `View1.Read` and `View2.Read` return nil in
every position; none of them panics, and the results are the same whatever the
engine's state and methods are. -/
theorem unknown_id_is_ordinary [Inhabited V] (ops : archEngineCalls (archEngine V) C V)
    (readPtrArch : archEngine V → componentId → archetypeId → Id → Option (Option P))
    (w : World (archEngine V)) (id : Id) (h : w.Exists id = false) (t : componentId)
    (v1 : View1) (v2 : View2) (e : archEngine V) :
    Read ops { w with engine := e } t id = some (default, false) ∧
    ReadPtr readPtrArch { w with engine := e } t id = some none ∧
    v1.Read { w with engine := e } id = some none ∧
    v2.Read { w with engine := e } id = some (none, none) :=
  reads_of_not_Exists ops readPtrArch { w with engine := e } id h t v1 v2

end unknownIds

theorem deleted_entity_unreadable_witness :
    Read (engineCalls Nat) (worldAfter [Call.write 5 [⟨1, 7⟩]]) 1 5 = some (7, true) ∧
    Delete (engineCalls Nat) (worldAfter [Call.write 5 [⟨1, 7⟩]]) 5 =
      some (worldAfter [Call.write 5 [⟨1, 7⟩], Call.delete 5], true) ∧
    Read (engineCalls Nat)
      (worldAfter [Call.write 5 [⟨1, 7⟩], Call.delete 5, Call.newId, Call.write 6 [⟨1, 8⟩]])
      1 5 = some (default, false) ∧
    ReadPtr (fun _ _ _ _ => (none : Option (Option compPtr)))
      (worldAfter [Call.write 5 [⟨1, 7⟩], Call.delete 5, Call.newId, Call.write 6 [⟨1, 8⟩]])
      1 5 = some none ∧
    (Query1 (worldAfter [Call.write 5 [⟨1, 7⟩]]) 1 []).Read
      (worldAfter [Call.write 5 [⟨1, 7⟩], Call.delete 5, Call.newId, Call.write 6 [⟨1, 8⟩]])
      5 = some none ∧
    (Query2 (worldAfter [Call.write 5 [⟨1, 7⟩]]) 1 2 []).Read
      (worldAfter [Call.write 5 [⟨1, 7⟩], Call.delete 5, Call.newId, Call.write 6 [⟨1, 8⟩]])
      5 = some (none, none) :=
  ⟨by decide, rfl,
   deleted_entity_unreadable (engineCalls Nat) (fun _ _ _ _ => none)
     (worldAfter [Call.write 5 [⟨1, 7⟩]]) _ _ 5 true [Call.newId, Call.write 6 [⟨1, 8⟩]]
     rfl (by intro comp h; simp at h) rfl 1 _ _⟩

theorem Exists_iff_writtenAndKept_witness :
    (worldAfter [Call.write 5 [⟨1, 7⟩], Call.delete 5, Call.write 5 [⟨2, 8⟩],
      Call.write 6 []]).Exists 5 = true ∧
    (worldAfter [Call.write 5 [⟨1, 7⟩], Call.delete 5, Call.write 5 [⟨2, 8⟩],
      Call.write 6 []]).Exists 6 = false ∧
    ((worldAfter [Call.write 5 [⟨1, 7⟩], Call.delete 5, Call.write 5 [⟨2, 8⟩],
        Call.write 6 []]).Exists 5 = true ↔
      writtenAndKept 5 [Call.write 5 [(⟨1, 7⟩ : Component Nat)], Call.delete 5,
        Call.write 5 [⟨2, 8⟩], Call.write 6 []]) ∧
    ((worldAfter [Call.write 5 [⟨1, 7⟩], Call.delete 5, Call.write 5 [⟨2, 8⟩],
        Call.write 6 []]).Exists 6 = true ↔
      writtenAndKept 6 [Call.write 5 [(⟨1, 7⟩ : Component Nat)], Call.delete 5,
        Call.write 5 [⟨2, 8⟩], Call.write 6 []]) :=
  ⟨by decide, by decide,
   Exists_iff_writtenAndKept (engineCalls Nat) _ _ 5 rfl,
   Exists_iff_writtenAndKept (engineCalls Nat) _ _ 6 rfl⟩

theorem unknown_id_is_ordinary_witness :
    (worldAfter [Call.write 5 [⟨1, 7⟩]]).Exists 6 = false ∧
    Read (engineCalls Nat)
      { worldAfter [Call.write 5 [⟨1, 7⟩]] with engine := (newArchEngine : archEngine Nat) } 1 6 =
      some (default, false) ∧
    ReadPtr (fun _ _ _ _ => (none : Option (Option compPtr)))
      { worldAfter [Call.write 5 [⟨1, 7⟩]] with engine := (newArchEngine : archEngine Nat) } 1 6 = some none ∧
    (Query1 (worldAfter [Call.write 5 [⟨1, 7⟩]]) 1 []).Read
      { worldAfter [Call.write 5 [⟨1, 7⟩]] with engine := (newArchEngine : archEngine Nat) } 6 = some none ∧
    (Query2 (worldAfter [Call.write 5 [⟨1, 7⟩]]) 1 2 []).Read
      { worldAfter [Call.write 5 [⟨1, 7⟩]] with engine := (newArchEngine : archEngine Nat) } 6 =
      some (none, none) :=
  ⟨by decide,
   unknown_id_is_ordinary (engineCalls Nat) (fun _ _ _ _ => none)
     (worldAfter [Call.write 5 [⟨1, 7⟩]]) 6 (by decide) 1 _ _ newArchEngine⟩

/-! ### Point reads of the views -/

section viewRead
variable {V : Type}

theorem elemPtr_of_lt (e : archEngine V) (t : componentId) (a : archetypeId) (index : Nat)
    (h : ∀ col, e.storage t a = some col → index < col.length) :
    ∃ p, elemPtr e t a index = some p ∧
      (∀ col, e.storage t a = some col → p = some ⟨t, a, index⟩) ∧
      (p ≠ none ↔ ∃ col, e.storage t a = some col) := by
  cases hc : e.storage t a with
  | none =>
    refine ⟨none, by simp [elemPtr, hc], ?_, by simp⟩
    intro col hcol
    cases hcol
  | some col =>
    have hlt := h col hc
    exact ⟨some ⟨t, a, index⟩, by simp [elemPtr, hc, hlt], fun _ _ => rfl, by simp⟩

theorem elemPtr_none_iff (e : archEngine V) (t : componentId) (a : archetypeId) (index : Nat)
    (p : Option compPtr) (h : elemPtr e t a index = some p) :
    p = none ↔ e.storage t a = none := by
  unfold elemPtr at h
  cases hc : e.storage t a with
  | none =>
    simp only [hc, Option.some.injEq] at h
    simp [← h]
  | some col =>
    simp only [hc] at h
    split_ifs at h
    simp only [Option.some.injEq] at h
    simp [← h]

theorem View1_Read_of_slot (v : View1) (w : World (archEngine V)) (id : Id) (a : archetypeId)
    (l : lookupList) (s : Nat) (hid : id ≠ InvalidEntity) (ha : w.arch id = some a)
    (hl : w.engine.lookup a = some l) (hs : l.index id = some s) :
    v.Read w id = v.ptrs w a s := by
  unfold View1.Read View1.ptrs
  rw [if_neg hid]
  simp only [ha, hl, hs]

theorem View2_Read_of_slot (v : View2) (w : World (archEngine V)) (id : Id) (a : archetypeId)
    (l : lookupList) (s : Nat) (hid : id ≠ InvalidEntity) (ha : w.arch id = some a)
    (hl : w.engine.lookup a = some l) (hs : l.index id = some s) :
    v.Read w id = v.ptrs w a s := by
  unfold View2.Read View2.ptrs
  rw [if_neg hid]
  simp only [ha, hl, hs]

theorem sampleWorld_inv : StorageInv sampleWorld := by
  constructor
  · intro id a h
    simp only [sampleWorld] at h ⊢
    split_ifs at h with h2 h4 h7
    · cases h
      subst h2
      exact ⟨_, 0, rfl, rfl, by decide, rfl⟩
    · cases h
      subst h4
      exact ⟨_, 2, rfl, rfl, by decide, rfl⟩
    · cases h
      subst h7
      exact ⟨_, 0, rfl, rfl, by decide, rfl⟩
  · intro a l t col hl hc
    simp only [sampleWorld] at hl hc
    split_ifs at hl with h0 h1
    · cases hl
      rw [if_pos h0] at hc
      split_ifs at hc
      cases hc
      rfl
    · cases hl
      rw [if_neg h0, if_pos h1] at hc
      split_ifs at hc <;> cases hc <;> rfl
  · intro a l idx id hl hi hne
    simp only [sampleWorld] at hl ⊢
    split_ifs at hl with h0 h1
    · cases hl
      subst h0
      simp only at hi
      match idx, hi with
      | 0, hi =>
        simp only [List.getElem?_cons_zero, Option.some.injEq] at hi
        subst hi
        simp
      | 1, hi =>
        simp only [List.getElem?_cons_succ, List.getElem?_cons_zero, Option.some.injEq] at hi
        exact absurd hi.symm hne
      | 2, hi =>
        simp only [List.getElem?_cons_succ, List.getElem?_cons_zero, Option.some.injEq] at hi
        subst hi
        simp
      | n + 3, hi => simp at hi
    · cases hl
      subst h1
      simp only at hi
      match idx, hi with
      | 0, hi =>
        simp only [List.getElem?_cons_zero, Option.some.injEq] at hi
        subst hi
        simp
      | n + 1, hi => simp at hi

theorem invalidIdWorld_inv : StorageInv invalidIdWorld := by
  constructor
  · intro id a h
    simp only [invalidIdWorld] at h ⊢
    split_ifs at h with h0
    cases h
    subst h0
    exact ⟨_, 0, rfl, rfl, by decide, rfl⟩
  · intro a l t col hl hc
    simp only [invalidIdWorld] at hl hc
    split_ifs at hl with h0
    cases hl
    split_ifs at hc
    cases hc
    rfl
  · intro a l idx id hl hi hne
    simp only [invalidIdWorld] at hl
    split_ifs at hl with h0
    cases hl
    simp only at hi
    match idx, hi with
    | 0, hi =>
      simp only [List.getElem?_cons_zero, Option.some.injEq] at hi
      exact absurd hi.symm hne
    | n + 1, hi => simp at hi

/-- C14 (counterexample): in the world after `Write(InvalidEntity, c)` on a new
world, which is reachable through the public calls and satisfies the storage
invariants, `Exists(InvalidEntity)` is true and the entity's archetype 0 has a
column of type 1, yet `View1.Read` and `View2.Read` of that id return nil in
every position (`invalidIdWorld` is that state written out). -/
theorem View_Read_nil_for_live_InvalidEntity :
    Reachable (engineCalls Nat) (worldAfter [Call.write InvalidEntity [⟨1, 7⟩]]) ∧
    StorageInv (worldAfter [Call.write InvalidEntity [⟨1, 7⟩]]) ∧
    StorageInv invalidIdWorld ∧ invalidIdWorld.Exists InvalidEntity = true ∧
    invalidIdWorld.arch InvalidEntity = some 0 ∧
    invalidIdWorld.engine.storage 1 0 = some [7] ∧
    (Query1 invalidIdWorld 1 []).Read invalidIdWorld InvalidEntity = some none ∧
    (Query2 invalidIdWorld 1 2 []).Read invalidIdWorld InvalidEntity = some (none, none) ∧
    (worldAfter [Call.write InvalidEntity [⟨1, 7⟩]]).Exists InvalidEntity = true ∧
    Read (engineCalls Nat) (worldAfter [Call.write InvalidEntity [⟨1, 7⟩]]) 1 InvalidEntity =
      some (7, true) ∧
    (Query1 (worldAfter [Call.write InvalidEntity [⟨1, 7⟩]]) 1 []).Read
      (worldAfter [Call.write InvalidEntity [⟨1, 7⟩]]) InvalidEntity = some none := by
  refine ⟨worldAfter_reachable _ (by intro min max h; simp at h),
    (worldAfter_reachable _ (by intro min max h; simp at h)).storageInv,
    invalidIdWorld_inv, ?_, ?_, ?_, ?_, ?_, ?_, ?_, ?_⟩ <;> decide

/-- C14 (amended): in every world state satisfying the storage invariants, for
every id other than `InvalidEntity` that is in the entity map, `View1.Read(id)`
and `View2.Read(id)` return, in the position of every requested type for which
the entity's archetype has a column, the non-nil pointer to that column's
element at the entity's slot `lookup.index[id]`, which lies inside the column. -/
theorem View_Read_of_live_id (w : World (archEngine V)) (h : StorageInv w) (id : Id)
    (a : archetypeId) (hid : id ≠ InvalidEntity) (ha : w.arch id = some a) :
    ∃ l s, w.engine.lookup a = some l ∧ l.index id = some s ∧
      (∀ (v : View1) (col : List V), w.engine.storage v.storageA a = some col →
        v.Read w id = some (some ⟨v.storageA, a, s⟩) ∧ s < col.length) ∧
      (∀ v : View2, ∃ r, v.Read w id = some r ∧
        (∀ col : List V, w.engine.storage v.storageA a = some col →
          r.1 = some ⟨v.storageA, a, s⟩ ∧ s < col.length) ∧
        (∀ col : List V, w.engine.storage v.storageB a = some col →
          r.2 = some ⟨v.storageB, a, s⟩ ∧ s < col.length)) := by
  obtain ⟨l, s, hl, hs, hlt, _⟩ := h.placed id a ha
  have hcol : ∀ (t : componentId) (col : List V), w.engine.storage t a = some col →
      s < col.length := by
    intro t col hc
    rw [h.column_len a l t col hl hc]
    exact hlt
  refine ⟨l, s, hl, hs, ?_, ?_⟩
  · intro v col hc
    rw [View1_Read_of_slot v w id a l s hid ha hl hs]
    obtain ⟨p, hp, hp1, _⟩ := elemPtr_of_lt w.engine v.storageA a s (hcol v.storageA)
    exact ⟨by rw [View1.ptrs, hp, hp1 col hc], hcol v.storageA col hc⟩
  · intro v
    rw [View2_Read_of_slot v w id a l s hid ha hl hs]
    obtain ⟨pA, hpA, hpA1, _⟩ := elemPtr_of_lt w.engine v.storageA a s (hcol v.storageA)
    obtain ⟨pB, hpB, hpB1, _⟩ := elemPtr_of_lt w.engine v.storageB a s (hcol v.storageB)
    refine ⟨(pA, pB), by simp only [View2.ptrs, hpA, hpB], ?_, ?_⟩
    · intro col hc
      exact ⟨hpA1 col hc, hcol v.storageA col hc⟩
    · intro col hc
      exact ⟨hpB1 col hc, hcol v.storageB col hc⟩

theorem View_Read_of_live_id_witness :
    StorageInv sampleWorld ∧ (4 : Id) ≠ InvalidEntity ∧ sampleWorld.arch 4 = some 0 ∧
    (Query1 sampleWorld 1 []).Read sampleWorld 4 = some (some ⟨1, 0, 2⟩) ∧
    ∃ l s, sampleWorld.engine.lookup 0 = some l ∧ l.index 4 = some s ∧
      (∀ (v : View1) (col : List Nat), sampleWorld.engine.storage v.storageA 0 = some col →
        v.Read sampleWorld 4 = some (some ⟨v.storageA, 0, s⟩) ∧ s < col.length) ∧
      (∀ v : View2, ∃ r, v.Read sampleWorld 4 = some r ∧
        (∀ col : List Nat, sampleWorld.engine.storage v.storageA 0 = some col →
          r.1 = some ⟨v.storageA, 0, s⟩ ∧ s < col.length) ∧
        (∀ col : List Nat, sampleWorld.engine.storage v.storageB 0 = some col →
          r.2 = some ⟨v.storageB, 0, s⟩ ∧ s < col.length)) :=
  ⟨sampleWorld_inv, by decide, by decide, by decide,
   View_Read_of_live_id sampleWorld sampleWorld_inv 4 0 (by decide) (by decide)⟩

/-- C15: `View1.Read` and `View2.Read` do not depend on the view's filter list:
replacing the filter (its predicates, its cached list of matched archetype ids)
leaves every result as it was, and two views of the same types built by
`Query1` or `Query2` with different filters return the same pointers for every
id in every world state. -/
theorem View_Read_ignores_filter (w : World (archEngine V)) (id : Id) :
    (∀ (v : View1) (f : filterList),
      ({ v with filter := f } : View1).Read w id = v.Read w id) ∧
    (∀ (v : View2) (f : filterList),
      ({ v with filter := f } : View2).Read w id = v.Read w id) ∧
    (∀ (w0 : World (archEngine V)) (A : componentId) (fs1 fs2 : List Filter),
      (Query1 w0 A fs1).Read w id = (Query1 w0 A fs2).Read w id) ∧
    (∀ (w0 : World (archEngine V)) (A B : componentId) (fs1 fs2 : List Filter),
      (Query2 w0 A B fs1).Read w id = (Query2 w0 A B fs2).Read w id) :=
  ⟨fun _ _ => rfl, fun _ _ => rfl, fun _ _ _ _ => rfl, fun _ _ _ _ _ => rfl⟩

/-- For an id other than `InvalidEntity` that is in the entity map and whose slot
is known to its archetype's lookup and lies inside every requested column the
archetype has, `View2.Read` returns, its first result is non-nil if and only if
the storage of A has a column for the entity's archetype, and its second is
non-nil if and only if the storage of B has one. -/
theorem View2_Read_of_columns (w : World (archEngine V)) (v : View2) (id : Id) (a : archetypeId)
    (l : lookupList) (s : Nat) (hid : id ≠ InvalidEntity) (ha : w.arch id = some a)
    (hl : w.engine.lookup a = some l) (hs : l.index id = some s)
    (hA : ∀ col, w.engine.storage v.storageA a = some col → s < col.length)
    (hB : ∀ col, w.engine.storage v.storageB a = some col → s < col.length) :
    ∃ r, v.Read w id = some r ∧
      (r.1 ≠ none ↔ ∃ col, w.engine.storage v.storageA a = some col) ∧
      (r.2 ≠ none ↔ ∃ col, w.engine.storage v.storageB a = some col) := by
  rw [View2_Read_of_slot v w id a l s hid ha hl hs]
  obtain ⟨pA, hpA, _, hpA2⟩ := elemPtr_of_lt w.engine v.storageA a s hA
  obtain ⟨pB, hpB, _, hpB2⟩ := elemPtr_of_lt w.engine v.storageB a s hB
  exact ⟨(pA, pB), by simp only [View2.ptrs, hpA, hpB], hpA2, hpB2⟩

end viewRead

/-! ### The loops of MapId -/

section mapId
variable {V : Type}

theorem slotLoop_panicked {β : Type} (ptrs : Nat → Option β) (ids : List Id) :
    ∀ (idx : Nat) (acc : List (Id × β)),
      (slotLoop ptrs idx ids acc).panicked = none ↔ slotsOk ptrs idx ids = true := by
  induction ids with
  | nil =>
    intro idx acc
    simp [slotLoop, slotsOk]
  | cons i ids ih =>
    intro idx acc
    simp only [slotLoop, slotsOk]
    by_cases hi : i = InvalidEntity
    · rw [if_pos hi, ih]
      simp [hi]
    · rw [if_neg hi]
      cases hp : ptrs idx with
      | none => simp [hi]
      | some p =>
        simp only [ih]
        simp [hi]

theorem liveIds_cons (i : Id) (ids : List Id) :
    liveIds (i :: ids) = if i = InvalidEntity then liveIds ids else i :: liveIds ids := by
  unfold liveIds
  by_cases hi : i = InvalidEntity <;> simp [List.filter_cons, hi]

theorem slotLoop_ids {β : Type} (ptrs : Nat → Option β) (ids : List Id) :
    ∀ (idx : Nat) (acc : List (Id × β)), slotsOk ptrs idx ids = true →
      (slotLoop ptrs idx ids acc).state.map Prod.fst = acc.map Prod.fst ++ liveIds ids := by
  induction ids with
  | nil =>
    intro idx acc _
    simp [slotLoop, liveIds]
  | cons i ids ih =>
    intro idx acc hok
    simp only [slotsOk, Bool.and_eq_true, Bool.or_eq_true, decide_eq_true_eq] at hok
    obtain ⟨h1, h2⟩ := hok
    simp only [slotLoop, liveIds_cons]
    by_cases hi : i = InvalidEntity
    · rw [if_pos hi, if_pos hi]
      exact ih _ _ h2
    · rw [if_neg hi, if_neg hi]
      rcases h1 with h1 | h1
      · exact absurd h1 hi
      · cases hp : ptrs idx with
        | none => simp [hp] at h1
        | some p =>
          simp only
          rw [ih _ _ h2]
          simp

theorem slotLoop_mem {β : Type} (ptrs : Nat → Option β) (ids : List Id) :
    ∀ (idx : Nat) (acc : List (Id × β)) (c : Id × β),
      c ∈ (slotLoop ptrs idx ids acc).state →
      c ∈ acc ∨ ∃ k, ids[k]? = some c.1 ∧ c.1 ≠ InvalidEntity ∧ ptrs (idx + k) = some c.2 := by
  induction ids with
  | nil =>
    intro idx acc c hc
    exact Or.inl hc
  | cons i ids ih =>
    intro idx acc c hc
    simp only [slotLoop] at hc
    by_cases hi : i = InvalidEntity
    · rw [if_pos hi] at hc
      rcases ih _ _ c hc with h | ⟨k, hk, hne, hp⟩
      · exact Or.inl h
      · exact Or.inr ⟨k + 1, by simpa using hk, hne, by rw [← hp]; congr 1; omega⟩
    · rw [if_neg hi] at hc
      cases hp : ptrs idx with
      | none =>
        simp only [hp] at hc
        exact Or.inl hc
      | some p =>
        simp only [hp] at hc
        rcases ih _ _ c hc with h | ⟨k, hk, hne, hpk⟩
        · simp only [List.mem_append, List.mem_singleton] at h
          rcases h with h | h
          · exact Or.inl h
          · subst h
            exact Or.inr ⟨0, by simp, hi, by simpa using hp⟩
        · exact Or.inr ⟨k + 1, by simpa using hk, hne, by rw [← hpk]; congr 1; omega⟩

theorem archLoop_panicked {β : Type} (w : World (archEngine V))
    (ptrs : archetypeId → Nat → Option β) (archIds : List archetypeId) :
    ∀ acc : List (Id × β),
      (archLoop w ptrs archIds acc).panicked = none ↔ archsOk w ptrs archIds = true := by
  induction archIds with
  | nil =>
    intro acc
    simp [archLoop, archsOk]
  | cons a rest ih =>
    intro acc
    simp only [archLoop, archsOk]
    cases hl : w.engine.lookup a with
    | none => simp
    | some l =>
      simp only
      cases hp : (slotLoop (ptrs a) 0 l.id acc).panicked with
      | none =>
        simp only [ih]
        rw [(slotLoop_panicked (ptrs a) l.id 0 acc).mp hp]
        simp
      | some msg =>
        have hno : slotsOk (ptrs a) 0 l.id ≠ true := by
          intro hok
          rw [(slotLoop_panicked (ptrs a) l.id 0 acc).mpr hok] at hp
          cases hp
        simp [hno]

theorem archLoop_ids {β : Type} (w : World (archEngine V))
    (ptrs : archetypeId → Nat → Option β) (archIds : List archetypeId) :
    ∀ acc : List (Id × β), archsOk w ptrs archIds = true →
      (archLoop w ptrs archIds acc).state.map Prod.fst =
        acc.map Prod.fst ++ (archIds.map (fun a => liveIds (idColumn w a))).flatten := by
  induction archIds with
  | nil =>
    intro acc _
    simp [archLoop]
  | cons a rest ih =>
    intro acc hok
    simp only [archsOk, Bool.and_eq_true] at hok
    obtain ⟨h1, h2⟩ := hok
    simp only [archLoop, idColumn, List.map_cons, List.flatten_cons]
    cases hl : w.engine.lookup a with
    | none => simp [hl] at h1
    | some l =>
      simp only [hl] at h1
      simp only
      rw [(slotLoop_panicked (ptrs a) l.id 0 acc).mpr h1]
      simp only
      rw [ih _ h2, slotLoop_ids (ptrs a) l.id 0 acc h1]
      simp [idColumn]

theorem archLoop_mem {β : Type} (w : World (archEngine V))
    (ptrs : archetypeId → Nat → Option β) (archIds : List archetypeId) :
    ∀ (acc : List (Id × β)) (c : Id × β), c ∈ (archLoop w ptrs archIds acc).state →
      c ∈ acc ∨ ∃ a, a ∈ archIds ∧ ∃ l k, w.engine.lookup a = some l ∧
        l.id[k]? = some c.1 ∧ c.1 ≠ InvalidEntity ∧ ptrs a k = some c.2 := by
  induction archIds with
  | nil =>
    intro acc c hc
    exact Or.inl hc
  | cons a rest ih =>
    intro acc c hc
    simp only [archLoop] at hc
    cases hl : w.engine.lookup a with
    | none =>
      simp only [hl] at hc
      exact Or.inl hc
    | some l =>
      simp only [hl] at hc
      have hslot : ∀ c1, c1 ∈ (slotLoop (ptrs a) 0 l.id acc).state →
          c1 ∈ acc ∨ ∃ a1, a1 ∈ a :: rest ∧ ∃ l1 k, w.engine.lookup a1 = some l1 ∧
            l1.id[k]? = some c1.1 ∧ c1.1 ≠ InvalidEntity ∧ ptrs a1 k = some c1.2 := by
        intro c1 hc1
        rcases slotLoop_mem (ptrs a) l.id 0 acc c1 hc1 with h | ⟨k, hk, hne, hp⟩
        · exact Or.inl h
        · exact Or.inr ⟨a, List.mem_cons_self a rest, l, k, hl, hk, hne, by simpa using hp⟩
      cases hp : (slotLoop (ptrs a) 0 l.id acc).panicked with
      | some msg =>
        simp only [hp] at hc
        exact hslot c hc
      | none =>
        simp only [hp] at hc
        rcases ih _ c hc with h | ⟨a1, ha1, l1, k, hl1, hk, hne, hpk⟩
        · exact hslot c h
        · exact Or.inr ⟨a1, List.mem_cons_of_mem a ha1, l1, k, hl1, hk, hne, hpk⟩

theorem View1_mapIdSlots_eq (v : View1) (w : World (archEngine V)) (a : archetypeId)
    (ids : List Id) :
    ∀ (idx : Nat) (acc : List (Id × Option compPtr)),
      v.mapIdSlots w a idx ids acc = slotLoop (v.ptrs w a) idx ids acc := by
  induction ids with
  | nil =>
    intro idx acc
    rfl
  | cons i ids ih =>
    intro idx acc
    simp only [View1.mapIdSlots, slotLoop, View1.ptrs]
    by_cases hi : i = InvalidEntity
    · rw [if_pos hi, if_pos hi]
      exact ih _ _
    · rw [if_neg hi, if_neg hi]
      cases elemPtr w.engine v.storageA a idx with
      | none => rfl
      | some p => exact ih _ _

theorem View1_mapIdArchs_eq (v : View1) (w : World (archEngine V))
    (archIds : List archetypeId) :
    ∀ acc : List (Id × Option compPtr),
      v.mapIdArchs w archIds acc = archLoop w (v.ptrs w) archIds acc := by
  induction archIds with
  | nil =>
    intro acc
    rfl
  | cons a rest ih =>
    intro acc
    simp only [View1.mapIdArchs, archLoop, View1_mapIdSlots_eq]
    cases w.engine.lookup a with
    | none => rfl
    | some l =>
      simp only
      cases (slotLoop (v.ptrs w a) 0 l.id acc).panicked with
      | none => exact ih _
      | some msg => rfl

theorem View2_mapIdSlots_eq (v : View2) (w : World (archEngine V)) (a : archetypeId)
    (ids : List Id) :
    ∀ (idx : Nat) (acc : List (Id × Option compPtr × Option compPtr)),
      v.mapIdSlots w a idx ids acc = slotLoop (v.ptrs w a) idx ids acc := by
  induction ids with
  | nil =>
    intro idx acc
    rfl
  | cons i ids ih =>
    intro idx acc
    simp only [View2.mapIdSlots, slotLoop, View2.ptrs]
    by_cases hi : i = InvalidEntity
    · rw [if_pos hi, if_pos hi]
      exact ih _ _
    · rw [if_neg hi, if_neg hi]
      cases elemPtr w.engine v.storageA a idx with
      | none => rfl
      | some pA =>
        cases elemPtr w.engine v.storageB a idx with
        | none => rfl
        | some pB => exact ih _ _

theorem View2_mapIdArchs_eq (v : View2) (w : World (archEngine V))
    (archIds : List archetypeId) :
    ∀ acc : List (Id × Option compPtr × Option compPtr),
      v.mapIdArchs w archIds acc = archLoop w (v.ptrs w) archIds acc := by
  induction archIds with
  | nil =>
    intro acc
    rfl
  | cons a rest ih =>
    intro acc
    simp only [View2.mapIdArchs, archLoop, View2_mapIdSlots_eq]
    cases w.engine.lookup a with
    | none => rfl
    | some l =>
      simp only
      cases (slotLoop (v.ptrs w a) 0 l.id acc).panicked with
      | none => exact ih _
      | some msg => rfl

theorem View1_MapId_calls (v : View1) (w : World (archEngine V)) :
    (v.MapId w).state.2 =
      (archLoop w (v.ptrs w) (v.filter.regenerate w).archIds []).state ∧
    (v.MapId w).panicked =
      (archLoop w (v.ptrs w) (v.filter.regenerate w).archIds []).panicked := by
  simp only [View1.MapId, View1_mapIdArchs_eq]
  exact ⟨rfl, rfl⟩

theorem View2_MapId_calls (v : View2) (w : World (archEngine V)) :
    (v.MapId w).state.2 =
      (archLoop w (v.ptrs w) (v.filter.regenerate w).archIds []).state ∧
    (v.MapId w).panicked =
      (archLoop w (v.ptrs w) (v.filter.regenerate w).archIds []).panicked := by
  simp only [View2.MapId, View2_mapIdArchs_eq]
  exact ⟨rfl, rfl⟩

theorem count_liveIds (i : Id) (ids : List Id) :
    (liveIds ids).count i = if i = InvalidEntity then 0 else ids.count i := by
  unfold liveIds
  split_ifs with h
  · apply List.count_eq_zero.mpr
    intro hm
    simp only [List.mem_filter, decide_eq_true_eq] at hm
    exact hm.2 h
  · exact List.count_filter (by simpa using h)

theorem flatten_liveIds (w : World (archEngine V)) (archIds : List archetypeId) :
    (archIds.map (fun a => liveIds (idColumn w a))).flatten =
      liveIds ((archIds.map (idColumn w)).flatten) := by
  induction archIds with
  | nil => rfl
  | cons a rest ih =>
    simp only [List.map_cons, List.flatten_cons, ih]
    simp [liveIds]

end mapId

/-! ### Bulk iteration -/

section bulk
variable {V : Type}

/-- C19: in every world state satisfying the storage invariants, every callback
invocation `fn(id, p1..pn)` made by `View1.MapId` or `View2.MapId` passes the
pointers that `Read(id)` of the same view returns in that state, and each
pointer is nil exactly when the entity's archetype has no column of its type. -/
theorem MapId_pointers_as_Read (w : World (archEngine V)) (h : StorageInv w) (v1 : View1)
    (v2 : View2) :
    (∀ c ∈ (v1.MapId w).state.2, v1.Read w c.1 = some c.2 ∧
      ∃ a, w.arch c.1 = some a ∧ (c.2 = none ↔ w.engine.storage v1.storageA a = none)) ∧
    (∀ c ∈ (v2.MapId w).state.2, v2.Read w c.1 = some c.2 ∧
      ∃ a, w.arch c.1 = some a ∧ (c.2.1 = none ↔ w.engine.storage v2.storageA a = none) ∧
        (c.2.2 = none ↔ w.engine.storage v2.storageB a = none)) := by
  constructor
  · intro c hc
    rw [(View1_MapId_calls v1 w).1] at hc
    rcases archLoop_mem w (v1.ptrs w) _ [] c hc with h0 | ⟨a, _, l, k, hl, hk, hne, hp⟩
    · cases h0
    · obtain ⟨ha, hi⟩ := h.owned a l k c.1 hl hk hne
      refine ⟨?_, a, ha, ?_⟩
      · rw [View1_Read_of_slot v1 w c.1 a l k hne ha hl hi]
        exact hp
      · exact elemPtr_none_iff w.engine v1.storageA a k c.2 hp
  · intro c hc
    rw [(View2_MapId_calls v2 w).1] at hc
    rcases archLoop_mem w (v2.ptrs w) _ [] c hc with h0 | ⟨a, _, l, k, hl, hk, hne, hp⟩
    · cases h0
    · obtain ⟨ha, hi⟩ := h.owned a l k c.1 hl hk hne
      refine ⟨?_, a, ha, ?_⟩
      · rw [View2_Read_of_slot v2 w c.1 a l k hne ha hl hi]
        exact hp
      · unfold View2.ptrs at hp
        cases hA : elemPtr w.engine v2.storageA a k with
        | none => simp [hA] at hp
        | some pA =>
          cases hB : elemPtr w.engine v2.storageB a k with
          | none => simp [hA, hB] at hp
          | some pB =>
            simp only [hA, hB, Option.some.injEq] at hp
            rw [← hp]
            exact ⟨elemPtr_none_iff w.engine v2.storageA a k pA hA,
              elemPtr_none_iff w.engine v2.storageB a k pB hB⟩

theorem MapId_pointers_as_Read_witness :
    StorageInv sampleWorld ∧
    ((Query1 sampleWorld 1 []).MapId sampleWorld).state.2 =
      [(2, some ⟨1, 0, 0⟩), (4, some ⟨1, 0, 2⟩), (7, some ⟨1, 1, 0⟩)] ∧
    ((⟨listedFilter [0, 1], 1, 2⟩ : View2).MapId sampleWorld).state.2 =
      [(2, some ⟨1, 0, 0⟩, none), (4, some ⟨1, 0, 2⟩, none),
       (7, some ⟨1, 1, 0⟩, some ⟨2, 1, 0⟩)] ∧
    (∀ c ∈ ((Query1 sampleWorld 1 []).MapId sampleWorld).state.2,
      (Query1 sampleWorld 1 []).Read sampleWorld c.1 = some c.2 ∧
      ∃ a, sampleWorld.arch c.1 = some a ∧
        (c.2 = none ↔ sampleWorld.engine.storage (Query1 sampleWorld 1 []).storageA a = none)) ∧
    (∀ c ∈ ((⟨listedFilter [0, 1], 1, 2⟩ : View2).MapId sampleWorld).state.2,
      (⟨listedFilter [0, 1], 1, 2⟩ : View2).Read sampleWorld c.1 = some c.2 ∧
      ∃ a, sampleWorld.arch c.1 = some a ∧
        (c.2.1 = none ↔
          sampleWorld.engine.storage (⟨listedFilter [0, 1], 1, 2⟩ : View2).storageA a = none) ∧
        (c.2.2 = none ↔
          sampleWorld.engine.storage (⟨listedFilter [0, 1], 1, 2⟩ : View2).storageB a = none)) :=
  ⟨sampleWorld_inv, by decide, by decide,
   MapId_pointers_as_Read sampleWorld sampleWorld_inv (Query1 sampleWorld 1 [])
     ⟨listedFilter [0, 1], 1, 2⟩⟩

theorem View1_gatherSlices_spec (v : View1) (w : World (archEngine V))
    (archIds : List archetypeId) :
    ∀ acc : List (List Id × List V),
      ((v.gatherSlices w archIds acc).panicked = none ↔
        archIds.all (fun a =>
          (w.engine.storage v.storageA a).isNone || (w.engine.lookup a).isSome) = true) ∧
      ((v.gatherSlices w archIds acc).panicked = none →
        (v.gatherSlices w archIds acc).state = acc ++ archIds.filterMap (v.slicesOf w)) := by
  induction archIds with
  | nil =>
    intro acc
    simp [View1.gatherSlices]
  | cons a rest ih =>
    intro acc
    simp only [View1.gatherSlices, List.all_cons, Bool.and_eq_true, List.filterMap_cons,
      View1.slicesOf]
    cases hst : w.engine.storage v.storageA a with
    | none =>
      simp only [Option.isNone_none, Bool.true_or, true_and]
      exact ih acc
    | some col =>
      cases hl : w.engine.lookup a with
      | none => simp
      | some l =>
        simp only [Option.isNone_some, Option.isSome_some, Bool.or_true, true_and]
        obtain ⟨h1, h2⟩ := ih (acc ++ [(l.id, col)])
        refine ⟨h1, fun hp => ?_⟩
        rw [h2 hp]
        simp

theorem View2_gatherSlices_spec (v : View2) (w : World (archEngine V))
    (archIds : List archetypeId) :
    ∀ acc : List (List Id × List V × List V),
      ((v.gatherSlices w archIds acc).panicked = none ↔
        archIds.all (fun a =>
          (w.engine.storage v.storageA a).isNone || (w.engine.storage v.storageB a).isNone ||
            (w.engine.lookup a).isSome) = true) ∧
      ((v.gatherSlices w archIds acc).panicked = none →
        (v.gatherSlices w archIds acc).state = acc ++ archIds.filterMap (v.slicesOf w)) := by
  induction archIds with
  | nil =>
    intro acc
    simp [View2.gatherSlices]
  | cons a rest ih =>
    intro acc
    simp only [View2.gatherSlices, List.all_cons, Bool.and_eq_true, List.filterMap_cons,
      View2.slicesOf]
    cases hsA : w.engine.storage v.storageA a with
    | none =>
      simp only [Option.isNone_none, Bool.true_or, true_and]
      exact ih acc
    | some colA =>
      cases hsB : w.engine.storage v.storageB a with
      | none =>
        simp only [Option.isNone_none, Bool.true_or, Bool.or_true, true_and]
        exact ih acc
      | some colB =>
        cases hl : w.engine.lookup a with
        | none => simp
        | some l =>
          simp only [Option.isNone_some, Option.isSome_some, Bool.or_true, true_and]
          obtain ⟨h1, h2⟩ := ih (acc ++ [(l.id, colA, colB)])
          refine ⟨h1, fun hp => ?_⟩
          rw [h2 hp]
          simp

end bulk

/-! ### Views on reachable worlds -/

section safeViews
variable {V : Type}

theorem slotsOk_of_forall {β : Type} (ptrs : Nat → Option β) (ids : List Id) :
    ∀ idx : Nat, (∀ k, idx ≤ k → k < idx + ids.length → (ptrs k).isSome = true) →
      slotsOk ptrs idx ids = true := by
  induction ids with
  | nil =>
    intro idx _
    rfl
  | cons i ids ih =>
    intro idx h
    simp only [slotsOk, Bool.and_eq_true, Bool.or_eq_true]
    refine ⟨Or.inr (h idx (Nat.le_refl idx) (by simp)), ih (idx + 1) ?_⟩
    intro k hk hlt
    exact h k (Nat.le_of_succ_le hk) (by simp only [List.length_cons]; omega)

theorem archsOk_of_forall {β : Type} (w : World (archEngine V))
    (ptrs : archetypeId → Nat → Option β) (archIds : List archetypeId)
    (h : ∀ a ∈ archIds, ∃ l, w.engine.lookup a = some l ∧
      ∀ k, k < l.id.length → (ptrs a k).isSome = true) :
    archsOk w ptrs archIds = true := by
  induction archIds with
  | nil => rfl
  | cons a rest ih =>
    obtain ⟨l, hl, hk⟩ := h a (List.mem_cons_self a rest)
    simp only [archsOk, hl, Bool.and_eq_true]
    refine ⟨slotsOk_of_forall (ptrs a) l.id 0 ?_, ih (fun b hb => h b (List.mem_cons_of_mem a hb))⟩
    intro k _ hlt
    exact hk k (by simpa using hlt)

theorem elemPtr_isSome (e : archEngine V) (t : componentId) (a : archetypeId) (k : Nat)
    (h : ∀ col, e.storage t a = some col → k < col.length) :
    (elemPtr e t a k).isSome = true := by
  unfold elemPtr
  cases hc : e.storage t a with
  | none => rfl
  | some col => simp [h col hc]

/-- The archetype ids a filter list holds after `regenerate` are registered ones
when those it held before are. -/
theorem regenerate_listed (f : filterList) (w : World (archEngine V))
    (h : ∀ a ∈ f.archIds, a < w.engine.registry.length) :
    ∀ a ∈ (f.regenerate w).archIds, a < w.engine.registry.length := by
  intro a ha
  unfold filterList.regenerate at ha
  split_ifs at ha with hg
  · exact h a ha
  · simp only [List.mem_append, List.mem_filter, List.mem_range] at ha
    rcases ha with ha | ha
    · exact h a ha
    · exact ha.1

/-- In a world that satisfies the invariant, `MapId` and `MapSlices` of a view
whose matched archetypes are registered ones meet no fatal path. -/
theorem View_safe_of_inv (w : World (archEngine V)) (h : WorldInv w) (f : filterList)
    (hf : ∀ a ∈ (f.regenerate w).archIds, a < w.engine.registry.length) :
    (∀ A, (⟨f, A⟩ : View1).mapSafe w = true ∧ (⟨f, A⟩ : View1).slicesSafe w = true) ∧
    (∀ A B, (⟨f, A, B⟩ : View2).mapSafe w = true ∧ (⟨f, A, B⟩ : View2).slicesSafe w = true) := by
  have hcol : ∀ a l t k, w.engine.lookup a = some l → k < l.id.length →
      ∀ col, w.engine.storage t a = some col → k < col.length := by
    intro a l t k hl hk col hc
    rw [h.engine.column_len a l t col hl hc]
    exact hk
  constructor
  · intro A
    constructor
    · unfold View1.mapSafe
      refine archsOk_of_forall w _ _ ?_
      intro a ha
      obtain ⟨l, hl⟩ := h.engine.lookup_some a (hf a ha)
      exact ⟨l, hl, fun k hk => elemPtr_isSome w.engine A a k (hcol a l A k hl hk)⟩
    · unfold View1.slicesSafe
      rw [List.all_eq_true]
      intro a ha
      obtain ⟨l, hl⟩ := h.engine.lookup_some a (hf a ha)
      simp [hl]
  · intro A B
    constructor
    · unfold View2.mapSafe
      refine archsOk_of_forall w _ _ ?_
      intro a ha
      obtain ⟨l, hl⟩ := h.engine.lookup_some a (hf a ha)
      refine ⟨l, hl, fun k hk => ?_⟩
      have hA := elemPtr_isSome w.engine A a k (hcol a l A k hl hk)
      have hB := elemPtr_isSome w.engine B a k (hcol a l B k hl hk)
      unfold View2.ptrs
      simp only
      cases hpA : elemPtr w.engine A a k with
      | none => rw [hpA] at hA; cases hA
      | some pA =>
        cases hpB : elemPtr w.engine B a k with
        | none => rw [hpB] at hB; cases hB
        | some pB => rfl
    · unfold View2.slicesSafe
      rw [List.all_eq_true]
      intro a ha
      obtain ⟨l, hl⟩ := h.engine.lookup_some a (hf a ha)
      simp [hl]

/-- In every world reachable through the public calls, `MapId` and `MapSlices`
of a view built there by `Query1` or `Query2` meet no fatal path. -/
theorem Query_safe_of_reachable [Inhabited V] (w : World (archEngine V))
    (h : Reachable (engineCalls V) w) (A B : componentId) (filters : List Filter) :
    (Query1 w A filters).mapSafe w = true ∧ (Query1 w A filters).slicesSafe w = true ∧
    (Query2 w A B filters).mapSafe w = true ∧ (Query2 w A B filters).slicesSafe w = true := by
  have h1 : ∀ comps, ∀ a ∈ (((newFilterList comps filters).regenerate w).regenerate w).archIds,
      a < w.engine.registry.length := by
    intro comps
    refine regenerate_listed _ w (regenerate_listed _ w ?_)
    intro a ha
    simp [newFilterList] at ha
  obtain ⟨hv1, _⟩ := View_safe_of_inv w h.worldInv _ (h1 [A])
  obtain ⟨_, hv2⟩ := View_safe_of_inv w h.worldInv _ (h1 [A, B])
  exact ⟨(hv1 A).1, (hv1 A).2, (hv2 A B).1, (hv2 A B).2⟩

end safeViews


/-! ### The fatal paths of the views -/

section fatalPaths
variable {V : Type}

theorem View2_ptrs_isSome (v : View2) (w : World (archEngine V)) (a : archetypeId) (k : Nat)
    (hA : ∀ col, w.engine.storage v.storageA a = some col → k < col.length)
    (hB : ∀ col, w.engine.storage v.storageB a = some col → k < col.length) :
    (v.ptrs w a k).isSome = true := by
  have h1 := elemPtr_isSome w.engine v.storageA a k hA
  have h2 := elemPtr_isSome w.engine v.storageB a k hB
  unfold View2.ptrs
  cases hpA : elemPtr w.engine v.storageA a k with
  | none => rw [hpA] at h1; cases h1
  | some pA =>
    cases hpB : elemPtr w.engine v.storageB a k with
    | none => rw [hpB] at h2; cases h2
    | some pB => rfl

/-- C21: in every world state in which every archetype named by the entity map
or by the view's match list (the list `MapId` iterates, its filter regenerated)
has a lookup, every `index[id]` is below the id column's length and every column
of an archetype is as long as its id column, `View1.Read` and `View2.Read`
return for every id and `View1.MapId` and `View2.MapId` complete: neither the
"LookupList is missing!" panic nor an out-of-range column index occurs. -/
theorem views_fatal_paths_unreachable (w : World (archEngine V)) (v1 : View1) (v2 : View2)
    (hmap : ∀ id a, w.arch id = some a → ∃ l, w.engine.lookup a = some l)
    (hm1 : ∀ a ∈ (v1.filter.regenerate w).archIds, ∃ l, w.engine.lookup a = some l)
    (hm2 : ∀ a ∈ (v2.filter.regenerate w).archIds, ∃ l, w.engine.lookup a = some l)
    (hidx : ∀ a l i s, w.engine.lookup a = some l → l.index i = some s → s < l.id.length)
    (hlen : ∀ a l t col, w.engine.lookup a = some l → w.engine.storage t a = some col →
      col.length = l.id.length) :
    (∀ id, (v1.Read w id).isSome = true) ∧ (v1.MapId w).panicked = none ∧
    (∀ id, (v2.Read w id).isSome = true) ∧ (v2.MapId w).panicked = none := by
  have hcol : ∀ a l t k, w.engine.lookup a = some l → k < l.id.length →
      ∀ col, w.engine.storage t a = some col → k < col.length := by
    intro a l t k hl hk col hc
    rw [hlen a l t col hl hc]
    exact hk
  refine ⟨?_, ?_, ?_, ?_⟩
  · intro id
    unfold View1.Read
    by_cases hid : id = InvalidEntity
    · rw [if_pos hid]; rfl
    · rw [if_neg hid]
      cases ha : w.arch id with
      | none => rfl
      | some a =>
        obtain ⟨l, hl⟩ := hmap id a ha
        simp only [hl]
        cases hi : l.index id with
        | none => rfl
        | some s =>
          exact elemPtr_isSome w.engine v1.storageA a s
            (hcol a l v1.storageA s hl (hidx a l id s hl hi))
  · rw [(View1_MapId_calls v1 w).2, archLoop_panicked]
    refine archsOk_of_forall w _ _ ?_
    intro a ha
    obtain ⟨l, hl⟩ := hm1 a ha
    exact ⟨l, hl, fun k hk => elemPtr_isSome w.engine v1.storageA a k
      (hcol a l v1.storageA k hl hk)⟩
  · intro id
    unfold View2.Read
    by_cases hid : id = InvalidEntity
    · rw [if_pos hid]; rfl
    · rw [if_neg hid]
      cases ha : w.arch id with
      | none => rfl
      | some a =>
        obtain ⟨l, hl⟩ := hmap id a ha
        simp only [hl]
        cases hi : l.index id with
        | none => rfl
        | some s =>
          have hs := hidx a l id s hl hi
          have h2 := View2_ptrs_isSome v2 w a s (hcol a l v2.storageA s hl hs)
            (hcol a l v2.storageB s hl hs)
          unfold View2.ptrs at h2
          exact h2
  · rw [(View2_MapId_calls v2 w).2, archLoop_panicked]
    refine archsOk_of_forall w _ _ ?_
    intro a ha
    obtain ⟨l, hl⟩ := hm2 a ha
    exact ⟨l, hl, fun k hk => View2_ptrs_isSome v2 w a k (hcol a l v2.storageA k hl hk)
      (hcol a l v2.storageB k hl hk)⟩

theorem Query_listed (w : World (archEngine V)) (comps : List componentId)
    (filters : List Filter) :
    ∀ a ∈ (((newFilterList comps filters).regenerate w).regenerate w).archIds,
      a < w.engine.registry.length := by
  refine regenerate_listed _ w (regenerate_listed _ w ?_)
  intro a ha
  simp [newFilterList] at ha

theorem views_fatal_paths_unreachable_witness :
    Reachable (engineCalls Nat) (worldAfter sampleCalls) ∧
    ((Query1 (worldAfter sampleCalls) 1 []).MapId (worldAfter sampleCalls)).state.2 =
      [(2, some ⟨1, 0, 0⟩), (4, some ⟨1, 0, 2⟩), (7, some ⟨1, 1, 0⟩)] ∧
    ((∀ id, ((Query1 (worldAfter sampleCalls) 1 []).Read (worldAfter sampleCalls) id).isSome
      = true) ∧
     ((Query1 (worldAfter sampleCalls) 1 []).MapId (worldAfter sampleCalls)).panicked = none ∧
     (∀ id, ((Query2 (worldAfter sampleCalls) 1 2 []).Read (worldAfter sampleCalls) id).isSome
      = true) ∧
     ((Query2 (worldAfter sampleCalls) 1 2 []).MapId (worldAfter sampleCalls)).panicked = none) :=
  ⟨worldAfter_reachable sampleCalls (by intro min max h; simp [sampleCalls] at h), by decide,
   views_fatal_paths_unreachable (worldAfter sampleCalls) (Query1 (worldAfter sampleCalls) 1 [])
     (Query2 (worldAfter sampleCalls) 1 2 [])
     (fun id a ha =>
       (worldAfter_reachable sampleCalls
         (by intro min max h; simp [sampleCalls] at h)).worldInv.engine.lookup_some a
         ((worldAfter_reachable sampleCalls
           (by intro min max h; simp [sampleCalls] at h)).worldInv.placed id a ha).1)
     (fun a ha =>
       (worldAfter_reachable sampleCalls
         (by intro min max h; simp [sampleCalls] at h)).worldInv.engine.lookup_some a
         (Query_listed (worldAfter sampleCalls) [1] [] a ha))
     (fun a ha =>
       (worldAfter_reachable sampleCalls
         (by intro min max h; simp [sampleCalls] at h)).worldInv.engine.lookup_some a
         (Query_listed (worldAfter sampleCalls) [1, 2] [] a ha))
     (worldAfter_reachable sampleCalls
       (by intro min max h; simp [sampleCalls] at h)).worldInv.engine.index_lt
     (worldAfter_reachable sampleCalls
       (by intro min max h; simp [sampleCalls] at h)).worldInv.engine.column_len⟩

end fatalPaths

/-! ### NewId calls between other calls -/

section interleaved
variable {E C V : Type}

theorem NewIds_length (n : Nat) : ∀ w : World E, (w.NewIds n).1.length = n := by
  induction n with
  | zero => intro w; rfl
  | succ n ih =>
    intro w
    simp only [World.NewIds, List.length_cons, ih]

theorem NewId_congr (w w1 : World E) (h1 : w1.nextId = w.nextId) (h2 : w1.minId = w.minId)
    (h3 : w1.maxId = w.maxId) :
    w1.NewId.1 = w.NewId.1 ∧ w1.NewId.2.nextId = w.NewId.2.nextId ∧
    w1.NewId.2.minId = w.NewId.2.minId ∧ w1.NewId.2.maxId = w.NewId.2.maxId := by
  unfold World.NewId
  simp only [h1, h2, h3]
  refine ⟨?_, ?_, ?_, ?_⟩ <;> split_ifs <;> simp_all

theorem NewIds_congr (n : Nat) :
    ∀ w w1 : World E, w1.nextId = w.nextId → w1.minId = w.minId → w1.maxId = w.maxId →
      (w1.NewIds n).1 = (w.NewIds n).1 := by
  induction n with
  | zero => intro w w1 _ _ _; rfl
  | succ n ih =>
    intro w w1 h1 h2 h3
    obtain ⟨hid, hn, hmin, hmax⟩ := NewId_congr w w1 h1 h2 h3
    simp only [World.NewIds, hid, ih w.NewId.2 w1.NewId.2 hn hmin hmax]

/-- The ids returned by the `NewId` calls of a call sequence without
`SetIdRange` are those of as many successive `NewId` calls: the `Write` and
`Delete` calls in between do not move the cursor. -/
theorem idsOf_eq_NewIds (ops : archEngineCalls E C V) (calls : List (Call C)) :
    ∀ (w : World E) (ids : List Id), (∀ min max, Call.setIdRange min max ∉ calls) →
      w.idsOf ops calls = some ids → ids = (w.NewIds ids.length).1 := by
  induction calls with
  | nil =>
    intro w ids _ h
    simp only [World.idsOf, Option.some.injEq] at h
    subst h
    rfl
  | cons c cs ih =>
    intro w ids hno h
    have hno1 : ∀ min max, Call.setIdRange min max ∉ cs :=
      fun min max hm => hno min max (List.mem_cons_of_mem c hm)
    cases c with
    | newId =>
      simp only [World.idsOf, Option.map_eq_some'] at h
      obtain ⟨ids1, h1, rfl⟩ := h
      simp only [List.length_cons, World.NewIds]
      rw [← ih w.NewId.2 ids1 hno1 h1]
    | write id comp =>
      simp only [World.idsOf, World.step] at h
      cases hw : w.Write ops id comp with
      | none => simp [hw] at h
      | some w1 =>
        simp only [hw] at h
        obtain ⟨hn, hmin, hmax⟩ := Write_minId ops w w1 id comp hw
        rw [ih w1 ids hno1 h]
        simp only [NewIds_length]
        exact NewIds_congr _ w w1 hn hmin hmax
    | delete id =>
      simp only [World.idsOf, World.step] at h
      cases hd : Delete ops w id with
      | none => simp [hd] at h
      | some r =>
        obtain ⟨w1, b⟩ := r
        simp only [hd, Option.map_some'] at h
        obtain ⟨hn, hmin, hmax⟩ := Delete_minId ops w w1 id b hd
        rw [ih w1 ids hno1 h]
        simp only [NewIds_length]
        exact NewIds_congr _ w w1 hn hmin hmax
    | setIdRange min max =>
      exact absurd (List.mem_cons_self _ cs) (hno min max)

end interleaved

/-! ### The order in which NewId hands out ids -/

section enumeration
variable {E C V : Type}

theorem NewId_in_range (w : World E) (h1 : w.minId ≤ w.nextId) (h2 : w.nextId ≤ w.maxId)
    (h3 : w.maxId ≤ MaxEntity) :
    w.NewId.1 = w.nextId ∧ w.NewId.2.minId = w.minId ∧ w.NewId.2.maxId = w.maxId ∧
    w.NewId.2.nextId = (if w.nextId = w.maxId then w.minId else w.nextId + 1) := by
  have hlt : ¬ w.nextId < w.minId := not_lt.mpr h1
  refine ⟨?_, NewId_minId w, NewId_maxId w, ?_⟩
  · unfold World.NewId
    simp only [if_neg hlt]
  · unfold World.NewId
    simp only [if_neg hlt]
    by_cases hm : w.nextId = w.maxId
    · simp only [if_pos hm]
    · simp only [if_neg hm]
      apply Nat.mod_eq_of_lt
      unfold MaxEntity at h3
      unfold idModulus
      simp only [Id] at *
      omega

/-- The `j`-th id (counting from 0) of `n` successive calls of `NewId`, when the
cursor starts inside the range. -/
theorem NewIds_getElem? (n : Nat) :
    ∀ (w : World E), w.minId ≤ w.nextId → w.nextId ≤ w.maxId → w.maxId ≤ MaxEntity →
    ∀ j, j < n → (w.NewIds n).1[j]? =
      some (w.minId + (w.nextId - w.minId + j) % (w.maxId - w.minId + 1)) := by
  induction n with
  | zero =>
    intro w _ _ _ j hj
    exact absurd hj (Nat.not_lt_zero j)
  | succ n ih =>
    intro w h1 h2 h3 j hj
    obtain ⟨hid, hmin, hmax, hnext⟩ := NewId_in_range w h1 h2 h3
    cases j with
    | zero =>
      simp only [World.NewIds, List.getElem?_cons_zero, hid, Option.some.injEq, Nat.add_zero]
      have hlt : w.nextId - w.minId < w.maxId - w.minId + 1 := by
        simp only [Id] at *
        omega
      rw [Nat.mod_eq_of_lt hlt]
      simp only [Id] at *
      omega
    | succ j =>
      have h1n : w.NewId.2.minId ≤ w.NewId.2.nextId := by
        rw [hmin, hnext]
        split_ifs
        · exact le_refl _
        · exact Nat.le_succ_of_le h1
      have h2n : w.NewId.2.nextId ≤ w.NewId.2.maxId := by
        rw [hmax, hnext]
        split_ifs with hm
        · exact le_trans h1 h2
        · exact Nat.lt_of_le_of_ne h2 hm
      have h3n : w.NewId.2.maxId ≤ MaxEntity := by rw [hmax]; exact h3
      simp only [World.NewIds, List.getElem?_cons_succ]
      rw [ih w.NewId.2 h1n h2n h3n j (Nat.lt_of_succ_lt_succ hj), hmin, hmax, hnext]
      simp only [Option.some.injEq, Nat.add_left_cancel_iff]
      by_cases hm : w.nextId = w.maxId
      · simp only [if_pos hm, Nat.sub_self, Nat.zero_add]
        rw [hm]
        have : w.maxId - w.minId + (j + 1) = j + (w.maxId - w.minId + 1) := by
          simp only [Id] at *
          omega
        rw [this, Nat.add_mod_right]
      · simp only [if_neg hm]
        congr 1
        simp only [Id] at *
        omega

/-- The ids of `N = maxId - minId + 1` successive calls made after `j` earlier
ones are the range `[minId, maxId]`, rotated. -/
theorem NewIds_drop_eq_rotate (w : World E) (h1 : w.minId ≤ w.nextId) (h2 : w.nextId ≤ w.maxId)
    (h3 : w.maxId ≤ MaxEntity) (j : Nat) :
    (w.NewIds (j + (w.maxId - w.minId + 1))).1.drop j =
      (List.range' w.minId (w.maxId - w.minId + 1)).rotate (w.nextId - w.minId + j) := by
  apply List.ext_getElem?
  intro i
  by_cases hi : i < w.maxId - w.minId + 1
  · rw [List.getElem?_drop, NewIds_getElem? _ w h1 h2 h3 (j + i) (Nat.add_lt_add_left hi j),
      List.getElem?_rotate (by simpa using hi)]
    simp only [List.length_range']
    rw [List.getElem?_range' _ _ (Nat.mod_lt _ (Nat.succ_pos _))]
    simp only [Nat.one_mul, Option.some.injEq, Nat.add_left_cancel_iff]
    congr 1
    simp only [Id] at *
    omega
  · rw [List.getElem?_eq_none, List.getElem?_eq_none]
    · simp only [List.length_rotate, List.length_range']
      exact Nat.le_of_not_lt hi
    · simp only [List.length_drop, NewIds_length]
      simp only [Id] at *
      omega

/-- C30: for every world state with `minId <= nextId <= maxId` (32-bit fields),
the `k`-th of any number of successive calls of `NewId` returns
`minId + ((nextId - minId + k - 1) mod (maxId - minId + 1))`, also when `Write`
and `Delete` calls (but no `SetIdRange`) come in between; any
`maxId - minId + 1` consecutive calls return every id of `[minId, maxId]`
exactly once; and the first `n` calls on a new world return 2, 3, 4, ... in
order. -/
theorem NewId_enumerates_range (ops : archEngineCalls E C V) (w : World E)
    (h1 : w.minId ≤ w.nextId)
    (h2 : w.nextId ≤ w.maxId) (h3 : w.maxId ≤ MaxEntity) :
    (∀ n k, 1 ≤ k → k ≤ n → (w.NewIds n).1[k - 1]? =
      some (w.minId + (w.nextId - w.minId + k - 1) % (w.maxId - w.minId + 1))) ∧
    (∀ (calls : List (Call C)) (ids : List Id), (∀ min max, Call.setIdRange min max ∉ calls) →
      w.idsOf ops calls = some ids → ids = (w.NewIds ids.length).1) ∧
    (∀ j, ((w.NewIds (j + (w.maxId - w.minId + 1))).1.drop j).Nodup ∧
      ∀ x, x ∈ (w.NewIds (j + (w.maxId - w.minId + 1))).1.drop j ↔
        (w.minId ≤ x ∧ x ≤ w.maxId)) ∧
    (∀ n, n ≤ MaxEntity - 1 → ((NewWorld ops).NewIds n).1 = List.range' 2 n) := by
  refine ⟨?_, fun calls ids hno h => idsOf_eq_NewIds ops calls w ids hno h, ?_, ?_⟩
  · intro n k hk hkn
    have hk1 : k - 1 < n := Nat.lt_of_lt_of_le (Nat.sub_lt hk Nat.one_pos) hkn
    rw [NewIds_getElem? n w h1 h2 h3 (k - 1) hk1]
    have : w.nextId - w.minId + (k - 1) = w.nextId - w.minId + k - 1 :=
      (Nat.add_sub_assoc hk _).symm
    rw [this]
  · intro j
    rw [NewIds_drop_eq_rotate w h1 h2 h3 j]
    refine ⟨List.nodup_rotate.mpr (List.nodup_range' _ _), ?_⟩
    intro x
    rw [List.mem_rotate, List.mem_range']
    constructor
    · rintro ⟨i, hi, rfl⟩
      simp only [Id] at *
      omega
    · rintro ⟨hx1, hx2⟩
      refine ⟨x - w.minId, ?_, ?_⟩
      · simp only [Id] at *
        omega
      · simp only [Id] at *
        omega
  · intro n hn
    apply List.ext_getElem?
    intro i
    by_cases hi : i < n
    · have h12 : (NewWorld ops).nextId ≤ (NewWorld ops).maxId := by
        show (2 : Nat) ≤ 4294967295
        decide
      rw [NewIds_getElem? n (NewWorld ops) (le_refl _) h12 (le_refl _) i hi,
        List.getElem?_range' _ _ hi]
      have hmod : ((NewWorld ops).nextId - (NewWorld ops).minId + i) %
          ((NewWorld ops).maxId - (NewWorld ops).minId + 1) = i := by
        show (2 - 2 + i) % (4294967295 - 2 + 1) = i
        have hn1 : n ≤ 4294967294 := hn
        rw [Nat.sub_self, Nat.zero_add]
        have hlt : i < 4294967295 - 2 + 1 := Nat.lt_of_lt_of_le hi hn1
        exact Nat.mod_eq_of_lt hlt
      rw [hmod]
      show some (2 + i) = some (2 + 1 * i)
      rw [Nat.one_mul]
    · rw [List.getElem?_eq_none, List.getElem?_eq_none]
      · simp only [List.length_range']
        exact Nat.le_of_not_lt hi
      · rw [NewIds_length]
        exact Nat.le_of_not_lt hi

theorem NewId_enumerates_range_witness :
    (((NewWorld (engineCalls Nat)).SetIdRange 2 4).state.NewIds 7).1 = [2, 3, 4, 2, 3, 4, 2] ∧
    ((NewWorld (engineCalls Nat)).SetIdRange 2 4).state.idsOf (engineCalls Nat)
      [Call.newId, Call.write 2 [⟨1, 7⟩], Call.newId, Call.delete 2, Call.newId, Call.newId] =
      some [2, 3, 4, 2] ∧
    ((∀ n k, 1 ≤ k → k ≤ n →
      (((NewWorld (engineCalls Nat)).SetIdRange 2 4).state.NewIds n).1[k - 1]? =
        some (2 + (2 - 2 + k - 1) % (4 - 2 + 1))) ∧
    (∀ (calls : List (Call (Component Nat))) (ids : List Id),
      (∀ min max, Call.setIdRange min max ∉ calls) →
      ((NewWorld (engineCalls Nat)).SetIdRange 2 4).state.idsOf (engineCalls Nat) calls =
        some ids →
      ids = (((NewWorld (engineCalls Nat)).SetIdRange 2 4).state.NewIds ids.length).1) ∧
    (∀ j, ((((NewWorld (engineCalls Nat)).SetIdRange 2 4).state.NewIds (j + (4 - 2 + 1))).1.drop
        j).Nodup ∧
      ∀ x, x ∈ (((NewWorld (engineCalls Nat)).SetIdRange 2 4).state.NewIds
          (j + (4 - 2 + 1))).1.drop j ↔ (2 ≤ x ∧ x ≤ 4)) ∧
    (∀ n, n ≤ MaxEntity - 1 → ((NewWorld (engineCalls Nat)).NewIds n).1 = List.range' 2 n)) :=
  ⟨by decide, by decide,
   NewId_enumerates_range (engineCalls Nat) ((NewWorld (engineCalls Nat)).SetIdRange 2 4).state
     (by decide) (by decide) (by decide)⟩

/-- C22: the id `NewId` returns and the allocator fields after it are the same
whatever the entity map and the engine hold; `NewId` leaves the entity map and
the engine as they were; and in the world reached by `Write(2, c)` on a new
world, `NewId` returns 2, an id for which `Exists` is already true. -/
theorem NewId_ignores_liveness (w : World E) :
    (∀ (arch : Id → Option archetypeId) (engine : E),
      ({ w with arch := arch, engine := engine } : World E).NewId.1 = w.NewId.1 ∧
      ({ w with arch := arch, engine := engine } : World E).NewId.2.nextId =
        w.NewId.2.nextId ∧
      ({ w with arch := arch, engine := engine } : World E).NewId.2.minId = w.NewId.2.minId ∧
      ({ w with arch := arch, engine := engine } : World E).NewId.2.maxId =
        w.NewId.2.maxId) ∧
    w.NewId.2.arch = w.arch ∧ w.NewId.2.engine = w.engine ∧
    (Reachable (engineCalls Nat) (worldAfter [Call.write 2 [⟨1, 7⟩]]) ∧
      (worldAfter [Call.write 2 [⟨1, 7⟩]]).NewId.1 = 2 ∧
      (worldAfter [Call.write 2 [⟨1, 7⟩]]).Exists
        (worldAfter [Call.write 2 [⟨1, 7⟩]]).NewId.1 = true) := by
  refine ⟨?_, NewId_arch w, NewId_engine w,
    worldAfter_reachable _ (by intro min max h; simp at h), by decide, by decide⟩
  intro arch engine
  unfold World.NewId
  simp only
  refine ⟨?_, ?_, ?_, ?_⟩ <;> split_ifs <;> rfl

end enumeration



/-! ### The scheduler's frame -/

section schedulerLemmas
variable {σ τ : Type}

theorem wrap64_of_range (x : Int) (h1 : minInt64 ≤ x) (h2 : x ≤ maxInt64) : wrap64 x = x := by
  unfold minInt64 at h1
  unfold maxInt64 at h2
  unfold wrap64
  omega

theorem runSystems_events (clock : Clock σ τ) (phase : Phase) (dt : Int)
    (systems : List (System σ)) :
    ∀ (env : σ) (log : List SystemLog) (evs : List Event),
      (runSystems clock phase dt systems (env, log, evs)).2.2 =
        evs ++ systems.map (fun sys => Event.run phase sys.Name dt) := by
  induction systems with
  | nil => intro env log evs; simp [runSystems]
  | cons sys rest ih =>
    intro env log evs
    simp only [runSystems, ih, List.map_cons, List.append_assoc, List.singleton_append]

theorem physicsTick_events (clock : Clock σ τ) (s : Scheduler σ) (env : σ) (evs : List Event) :
    (s.physicsTick clock env evs).2.2 = evs ++ s.tickEvents := by
  simp only [Scheduler.physicsTick, runSystems_events, Scheduler.tickEvents]

/-- What the physics loop leaves of the scheduler: every field but the
accumulator and the back log of the fixed systems. -/
theorem physicsTicks_spec (clock : Clock σ τ) (k : Nat) :
    ∀ (s : Scheduler σ) (env : σ) (evs : List Event),
      (Scheduler.physicsTicks clock k s env evs).2.2 =
        evs ++ (List.replicate k s.tickEvents).flatten ∧
      (Scheduler.physicsTicks clock k s env evs).1 =
        { s with
          accumulator := (Scheduler.physicsTicks clock k s env evs).1.accumulator
          sysLogBackFixed := (Scheduler.physicsTicks clock k s env evs).1.sysLogBackFixed } := by
  induction k with
  | zero =>
    intro s env evs
    simp [Scheduler.physicsTicks]
  | succ k ih =>
    intro s env evs
    obtain ⟨h1, h2⟩ := ih (s.physicsTick clock env evs).1 (s.physicsTick clock env evs).2.1
      (s.physicsTick clock env evs).2.2
    constructor
    · have ht : (s.physicsTick clock env evs).1.tickEvents = s.tickEvents := rfl
      show (Scheduler.physicsTicks clock k (s.physicsTick clock env evs).1
        (s.physicsTick clock env evs).2.1 (s.physicsTick clock env evs).2.2).2.2 = _
      rw [h1, physicsTick_events, ht, List.replicate_succ, List.flatten_cons,
        List.append_assoc]
    · simp only [Scheduler.physicsTicks]
      rw [h2]
      rfl

theorem physicsLoop_eq (clock : Clock σ τ) (fuel : Nat) :
    ∀ (s : Scheduler σ) (env : σ) (evs : List Event),
      s.physicsLoop clock fuel env evs =
        (dueTicks fuel s.accumulator s.fixedTimeStep).map
          (fun k => Scheduler.physicsTicks clock k s env evs) := by
  induction fuel with
  | zero =>
    intro s env evs
    simp only [Scheduler.physicsLoop, dueTicks]
    split_ifs <;> rfl
  | succ fuel ih =>
    intro s env evs
    simp only [Scheduler.physicsLoop, dueTicks]
    split_ifs with h
    · rw [ih]
      simp only [Scheduler.physicsTick, Option.map_map]
      rfl
    · rfl

theorem dueTicks_of_lt (fuel : Nat) (a s : Int) (h : a < s) : dueTicks fuel a s = some 0 := by
  have hn : ¬ a ≥ s := not_le.mpr h
  cases fuel <;> simp only [dueTicks, if_neg hn]

/-- With a positive step the loop makes `a div s` iterations (none for a
negative `a`). -/
theorem dueTicks_pos (fuel : Nat) :
    ∀ a s : Int, 0 < s → a ≤ maxInt64 → (a / s).toNat ≤ fuel →
      dueTicks fuel a s = some (a / s).toNat := by
  induction fuel with
  | zero =>
    intro a s hs _ hf
    have hdiv : a / s ≤ 0 := by omega
    have hlt : a < s := by
      by_contra hge
      have : 1 ≤ a / s := Int.le_ediv_of_mul_le hs (by omega)
      omega
    rw [dueTicks_of_lt 0 a s hlt]
    congr 1
    omega
  | succ fuel ih =>
    intro a s hs ha hf
    by_cases hlt : a < s
    · rw [dueTicks_of_lt _ a s hlt]
      have : a / s < 1 := Int.ediv_lt_of_lt_mul hs (by omega)
      congr 1
      omega
    · have hge : a ≥ s := not_lt.mp hlt
      have h1 : 1 ≤ a / s := Int.le_ediv_of_mul_le hs (by omega)
      have hsub : (a - s) / s = a / s - 1 := by
        have := Int.add_mul_ediv_right a (-1) (ne_of_gt hs)
        simpa [sub_eq_add_neg] using this
      have hw : wrap64 (a - s) = a - s := by
        apply wrap64_of_range
        · unfold minInt64; omega
        · omega
      simp only [dueTicks, if_pos hge, hw]
      rw [ih (a - s) s hs (by omega) (by rw [hsub]; omega), hsub]
      simp only [Option.map_some', Option.some.injEq]
      omega

/-- More fuel does not change the count of iterations. -/
theorem dueTicks_mono (fuel : Nat) :
    ∀ fuel1, fuel ≤ fuel1 → ∀ (a s : Int) (k : Nat), dueTicks fuel a s = some k →
      dueTicks fuel1 a s = some k := by
  induction fuel with
  | zero =>
    intro fuel1 _ a s k h
    simp only [dueTicks] at h
    split_ifs at h with hge
    simp only [Option.some.injEq] at h
    subst h
    exact dueTicks_of_lt fuel1 a s (not_le.mp hge)
  | succ fuel ih =>
    intro fuel1 hle a s k h
    obtain ⟨f1, rfl⟩ : ∃ f1, fuel1 = f1 + 1 := ⟨fuel1 - 1, by omega⟩
    simp only [dueTicks] at h ⊢
    split_ifs at h ⊢ with hge
    · simp only [Option.map_eq_some'] at h ⊢
      obtain ⟨k0, hk0, rfl⟩ := h
      exact ⟨k0, ih f1 (by omega) _ _ k0 hk0, rfl⟩
    · exact h

/-- With a step of 0 and a non-negative accumulator the loop condition holds
after every number of iterations. -/
theorem dueTicks_zero_step (fuel : Nat) :
    ∀ a : Int, 0 ≤ a → a ≤ maxInt64 → dueTicks fuel a 0 = none := by
  induction fuel with
  | zero =>
    intro a h0 _
    simp only [dueTicks, ge_iff_le, if_pos h0]
  | succ fuel ih =>
    intro a h0 h1
    have hw : wrap64 (a - 0) = a := by
      rw [Int.sub_zero]
      exact wrap64_of_range a (by unfold minInt64; omega) h1
    simp only [dueTicks, ge_iff_le, if_pos h0, hw, ih a h0 h1, Option.map_none']

/-- The accumulator after `k` iterations that were all due. -/
theorem physicsTicks_accumulator (clock : Clock σ τ) (k : Nat) :
    ∀ (s : Scheduler σ) (env : σ) (evs : List Event), 0 < s.fixedTimeStep →
      s.accumulator ≤ maxInt64 → (k : Int) * s.fixedTimeStep ≤ s.accumulator →
      (Scheduler.physicsTicks clock k s env evs).1.accumulator =
        s.accumulator - k * s.fixedTimeStep := by
  induction k with
  | zero =>
    intro s env evs _ _ _
    simp [Scheduler.physicsTicks]
  | succ k ih =>
    intro s env evs hs ha hk
    have hk1 : ((k : Int) + 1) * s.fixedTimeStep ≤ s.accumulator := by
      simpa using hk
    have hexp : ((k : Int) + 1) * s.fixedTimeStep = k * s.fixedTimeStep + s.fixedTimeStep := by
      ring
    have hk0 : (0 : Int) ≤ k * s.fixedTimeStep :=
      Int.mul_nonneg (Int.ofNat_nonneg k) (le_of_lt hs)
    have hw : wrap64 (s.accumulator - s.fixedTimeStep) = s.accumulator - s.fixedTimeStep := by
      apply wrap64_of_range
      · unfold minInt64; omega
      · omega
    have hstep : (s.physicsTick clock env evs).1.fixedTimeStep = s.fixedTimeStep := rfl
    have hacc : (s.physicsTick clock env evs).1.accumulator =
        s.accumulator - s.fixedTimeStep := hw
    simp only [Scheduler.physicsTicks]
    rw [ih _ _ _ (by rw [hstep]; exact hs) (by rw [hacc]; omega)
      (by rw [hstep, hacc]; omega), hstep, hacc]
    push_cast
    ring

end schedulerLemmas

section physicsLoop
variable {σ τ : Type}

/-- C28: for `fixedTimeStep = s > 0` and an accumulator `a >= 0` (a signed 64-bit
value) at loop entry, the physics loop returns after running every physics system
exactly `a div s` times, each time with `dt = s` and in registration order within
a tick, and leaves the accumulator equal to `a mod s`, so `0 <= accumulator < s`;
for `a < s` it runs nothing and leaves the scheduler as it was. -/
theorem physicsLoop_exact_ticks (clock : Clock σ τ) (s : Scheduler σ) (env : σ)
    (evs : List Event) (fuel : Nat) (hs : 0 < s.fixedTimeStep) (h0 : 0 ≤ s.accumulator)
    (h64 : s.accumulator ≤ maxInt64) (hf : (s.accumulator / s.fixedTimeStep).toNat ≤ fuel) :
    (∃ s1 env1, s.physicsLoop clock fuel env evs =
        some (s1, env1, evs ++ (List.replicate (s.accumulator / s.fixedTimeStep).toNat
          (s.physics.map (fun sys => Event.run Phase.physics sys.Name s.fixedTimeStep))).flatten) ∧
      s1.accumulator = s.accumulator % s.fixedTimeStep ∧
      0 ≤ s1.accumulator ∧ s1.accumulator < s.fixedTimeStep ∧
      s1.fixedTimeStep = s.fixedTimeStep ∧ s1.physics = s.physics) ∧
    (s.accumulator < s.fixedTimeStep → s.physicsLoop clock fuel env evs = some (s, env, evs)) := by
  have hdiv0 : 0 ≤ s.accumulator / s.fixedTimeStep := Int.ediv_nonneg h0 (le_of_lt hs)
  have hk : ((s.accumulator / s.fixedTimeStep).toNat : Int) = s.accumulator / s.fixedTimeStep :=
    Int.toNat_of_nonneg hdiv0
  constructor
  · refine ⟨(Scheduler.physicsTicks clock (s.accumulator / s.fixedTimeStep).toNat s env evs).1,
      (Scheduler.physicsTicks clock (s.accumulator / s.fixedTimeStep).toNat s env evs).2.1,
      ?_, ?_⟩
    · rw [physicsLoop_eq, dueTicks_pos fuel _ _ hs h64 hf, Option.map_some']
      have h := (physicsTicks_spec clock (s.accumulator / s.fixedTimeStep).toNat s env evs).1
      unfold Scheduler.tickEvents at h
      rw [← h]
    · have hle : ((s.accumulator / s.fixedTimeStep).toNat : Int) * s.fixedTimeStep ≤
          s.accumulator := by
        rw [hk]
        exact Int.ediv_mul_le _ (ne_of_gt hs)
      have hacc := physicsTicks_accumulator clock (s.accumulator / s.fixedTimeStep).toNat s env
        evs hs h64 hle
      have hmod : s.accumulator - (s.accumulator / s.fixedTimeStep) * s.fixedTimeStep =
          s.accumulator % s.fixedTimeStep := by
        have := Int.emod_def s.accumulator s.fixedTimeStep
        rw [this, Int.mul_comm]
      rw [hk, hmod] at hacc
      have hspec := (physicsTicks_spec clock (s.accumulator / s.fixedTimeStep).toNat s env evs).2
      refine ⟨hacc, ?_, ?_, ?_, ?_⟩
      · rw [hacc]; exact Int.emod_nonneg _ (ne_of_gt hs)
      · rw [hacc]; exact Int.emod_lt_of_pos _ hs
      · rw [hspec]
      · rw [hspec]
  · intro hlt
    rw [physicsLoop_eq, dueTicks_of_lt fuel _ _ hlt]
    rfl

theorem physicsLoop_exact_ticks_witness :
    (((NewScheduler : Scheduler Int).AppendPhysics
        [NewSystem "move" (fun _ env => env), NewSystem "collide" (fun _ env => env)]
      ).SetFixedTimeStep 10).physicsLoop sampleClock 3 0 [] =
      some (((NewScheduler : Scheduler Int).AppendPhysics
        [NewSystem "move" (fun _ env => env), NewSystem "collide" (fun _ env => env)]
      ).SetFixedTimeStep 10, 0, []) ∧
    ((∃ s1 env1, ({ ((NewScheduler : Scheduler Int).AppendPhysics
        [NewSystem "move" (fun _ env => env), NewSystem "collide" (fun _ env => env)]) with
        fixedTimeStep := 10, accumulator := 25 } : Scheduler Int).physicsLoop sampleClock 2 0 [] =
        some (s1, env1, [] ++ (List.replicate ((25 : Int) / 10).toNat
          [Event.run Phase.physics "move" 10, Event.run Phase.physics "collide" 10]).flatten) ∧
      s1.accumulator = 25 % 10 ∧ 0 ≤ s1.accumulator ∧ s1.accumulator < 10 ∧
      s1.fixedTimeStep = 10 ∧
      s1.physics = [NewSystem "move" (fun _ env => env),
        NewSystem "collide" (fun _ env => env)]) ∧
     ((25 : Int) < 10 → ({ ((NewScheduler : Scheduler Int).AppendPhysics
        [NewSystem "move" (fun _ env => env), NewSystem "collide" (fun _ env => env)]) with
        fixedTimeStep := 10, accumulator := 25 } : Scheduler Int).physicsLoop sampleClock 2 0 [] =
        some ({ ((NewScheduler : Scheduler Int).AppendPhysics
          [NewSystem "move" (fun _ env => env), NewSystem "collide" (fun _ env => env)]) with
          fixedTimeStep := 10, accumulator := 25 }, 0, []))) :=
  ⟨rfl,
   physicsLoop_exact_ticks sampleClock
     { ((NewScheduler : Scheduler Int).AppendPhysics
        [NewSystem "move" (fun _ env => env), NewSystem "collide" (fun _ env => env)]) with
        fixedTimeStep := 10, accumulator := 25 } 0 [] 2 (by decide) (by decide) (by decide)
     (by decide)⟩

/-- C29: for every `fixedTimeStep = s > 0` the physics loop exits for every
accumulator value `a` (a signed 64-bit value), after at most `max(0, a div s)`
iterations; with `s = 0`, which `SetFixedTimeStep` accepts, and an accumulator
`a >= 0` the loop condition holds after every number of iterations: the loop
never exits. -/
theorem physicsLoop_terminates (clock : Clock σ τ) (s : Scheduler σ) (env : σ)
    (evs : List Event) (h64 : s.accumulator ≤ maxInt64) :
    (0 < s.fixedTimeStep →
      (s.physicsLoop clock (max 0 (s.accumulator / s.fixedTimeStep)).toNat env evs).isSome = true ∧
      ∀ fuel k, dueTicks fuel s.accumulator s.fixedTimeStep = some k →
        (k : Int) ≤ max 0 (s.accumulator / s.fixedTimeStep)) ∧
    (s.fixedTimeStep = 0 → 0 ≤ s.accumulator →
      ∀ fuel, s.physicsLoop clock fuel env evs = none) ∧
    (s.SetFixedTimeStep 0).fixedTimeStep = 0 := by
  refine ⟨?_, ?_, rfl⟩
  · intro hs
    have hmax : (max 0 (s.accumulator / s.fixedTimeStep)).toNat =
        (s.accumulator / s.fixedTimeStep).toNat := by
      rcases le_total 0 (s.accumulator / s.fixedTimeStep) with h | h
      · rw [max_eq_right h]
      · rw [max_eq_left h]
        have : (s.accumulator / s.fixedTimeStep).toNat = 0 := Int.toNat_eq_zero.mpr h
        rw [this]
        rfl
    constructor
    · rw [hmax, physicsLoop_eq, dueTicks_pos _ _ _ hs h64 (le_refl _)]
      rfl
    · intro fuel k hk
      have hbig := dueTicks_pos (max fuel (s.accumulator / s.fixedTimeStep).toNat) _ _ hs h64
        (le_max_right _ _)
      have hmono : dueTicks (max fuel (s.accumulator / s.fixedTimeStep).toNat) s.accumulator
          s.fixedTimeStep = some k :=
        dueTicks_mono fuel _ (le_max_left _ _) _ _ k hk
      rw [hbig] at hmono
      simp only [Option.some.injEq] at hmono
      rw [← hmono]
      have := Int.self_le_toNat (s.accumulator / s.fixedTimeStep)
      have h2 := Int.toNat_eq_max (s.accumulator / s.fixedTimeStep)
      rw [h2, max_comm]
  · intro hs h0 fuel
    rw [physicsLoop_eq, hs, dueTicks_zero_step fuel _ h0 h64]
    rfl

theorem physicsLoop_terminates_witness :
    (({ (NewScheduler : Scheduler Int) with fixedTimeStep := 0, accumulator := 5 } :
      Scheduler Int).physicsLoop sampleClock 20 0 [] = none) ∧
    (((0 : Int) < 10 →
      (({ (NewScheduler : Scheduler Int) with fixedTimeStep := 10, accumulator := 25 } :
        Scheduler Int).physicsLoop sampleClock (max 0 ((25 : Int) / 10)).toNat 0 []).isSome
        = true ∧
      ∀ fuel k, dueTicks fuel 25 10 = some k → (k : Int) ≤ max 0 ((25 : Int) / 10)) ∧
     ((10 : Int) = 0 → (0 : Int) ≤ 25 →
      ∀ fuel, ({ (NewScheduler : Scheduler Int) with fixedTimeStep := 10, accumulator := 25 } :
        Scheduler Int).physicsLoop sampleClock fuel 0 [] = none) ∧
     (({ (NewScheduler : Scheduler Int) with fixedTimeStep := 10, accumulator := 25 } :
        Scheduler Int).SetFixedTimeStep 0).fixedTimeStep = 0) :=
  ⟨rfl,
   physicsLoop_terminates sampleClock
     { (NewScheduler : Scheduler Int) with fixedTimeStep := 10, accumulator := 25 } 0 []
     (by decide)⟩

end physicsLoop

section frames
variable {σ τ : Type}

theorem capAccumulator_fields (n : Int) (s : Scheduler σ) :
    s.capAccumulator n = { s with accumulator := (s.capAccumulator n).accumulator } := by
  unfold Scheduler.capAccumulator
  split_ifs <;> rfl

theorem beforePhysics_spec (clock : Clock σ τ) (n : Int) (st : RunState σ τ) :
    (Scheduler.beforePhysics clock n st).1.accumulator = (st.sched.capAccumulator n).accumulator ∧
    (Scheduler.beforePhysics clock n st).1.fixedTimeStep = st.sched.fixedTimeStep ∧
    (Scheduler.beforePhysics clock n st).1.physics = st.sched.physics ∧
    (Scheduler.beforePhysics clock n st).1.input = st.sched.input ∧
    (Scheduler.beforePhysics clock n st).1.render = st.sched.render ∧
    (Scheduler.beforePhysics clock n st).1.pauseRender = st.sched.pauseRender ∧
    (Scheduler.beforePhysics clock n st).2.2 =
      st.sched.input.map (fun sys => Event.run Phase.input sys.Name st.dt) := by
  unfold Scheduler.beforePhysics Scheduler.capAccumulator
  simp only [runSystems_events, List.nil_append]
  refine ⟨?_, ?_, ?_, ?_, ?_, ?_, trivial⟩ <;> split_ifs <;> rfl

theorem renderPhase_spec (clock : Clock σ τ) (dt : Int) (s : Scheduler σ) (env : σ)
    (evs : List Event) :
    (s.renderPhase clock dt env evs).2.2 =
      evs ++ (if s.pauseRender.Get then []
        else s.render.map (fun sys => Event.run Phase.render sys.Name dt)) ∧
    (s.renderPhase clock dt env evs).1.input = s.input ∧
    (s.renderPhase clock dt env evs).1.render = s.render := by
  unfold Scheduler.renderPhase
  cases hp : s.pauseRender.Get
  · simp [runSystems_events]
  · simp

theorem sleepPhase_spec (clock : Clock σ τ) (s : Scheduler σ) (env : σ) (evs : List Event) :
    ∃ sl, (s.sleepPhase clock env evs).2 = evs ++ sl ∧
      (sl = if s.input.length = 0 ∧ s.render.length = 0 then
        [Event.sleep (wrap64 (s.fixedTimeStep - s.accumulator))] else []) := by
  unfold Scheduler.sleepPhase
  split_ifs with h
  · exact ⟨_, rfl, rfl⟩
  · exact ⟨[], by simp, rfl⟩

theorem afterPhysics_spec (clock : Clock σ τ) (dt : Int) (frameStart : τ) (s5 : Scheduler σ)
    (env5 : σ) (evs5 : List Event) :
    ∃ sl, (s5.afterPhysics clock dt frameStart env5 evs5).2 =
        evs5 ++ (if s5.pauseRender.Get then []
          else s5.render.map (fun sys => Event.run Phase.render sys.Name dt)) ++ sl ∧
      (sl = [] ∨ ∃ d, sl = [Event.sleep d]) ∧
      (sl = [] ↔ ¬ (s5.input.length = 0 ∧ s5.render.length = 0)) := by
  obtain ⟨hre, hrin, hrren⟩ := renderPhase_spec clock dt s5 env5 evs5
  obtain ⟨sl, hsl, hsl1⟩ := sleepPhase_spec clock (s5.renderPhase clock dt env5 evs5).1
    (s5.renderPhase clock dt env5 evs5).2.1 (s5.renderPhase clock dt env5 evs5).2.2
  refine ⟨sl, ?_, ?_, ?_⟩
  · show ((s5.renderPhase clock dt env5 evs5).1.sleepPhase clock
      (s5.renderPhase clock dt env5 evs5).2.1 (s5.renderPhase clock dt env5 evs5).2.2).2 = _
    rw [hsl, hre]
  · rw [hsl1]
    split_ifs
    · exact Or.inr ⟨_, rfl⟩
    · exact Or.inl rfl
  · rw [hsl1, hrin, hrren]
    split_ifs with hc
    · exact ⟨fun h => (by cases h), fun h => absurd hc h⟩
    · exact ⟨fun _ => hc, fun _ => rfl⟩

/-- The events of a frame: the input systems with the frame's `dt`, then as
many physics ticks as the capped accumulator makes due, then the render systems
unless the pause signal is set, then the sleep of a schedule without input and
render systems. -/
theorem frame_spec (clock : Clock σ τ) (n : Int) (fuel : Nat) (st : RunState σ τ) :
    (dueTicks fuel (st.sched.capAccumulator n).accumulator st.sched.fixedTimeStep = none →
      Scheduler.frame clock n fuel st = none) ∧
    (∀ k, dueTicks fuel (st.sched.capAccumulator n).accumulator st.sched.fixedTimeStep =
        some k →
      ∃ st1 sl, Scheduler.frame clock n fuel st = some (st1,
        st.sched.input.map (fun sys => Event.run Phase.input sys.Name st.dt) ++
        (List.replicate k st.sched.tickEvents).flatten ++
        (if st.sched.pauseRender.Get then []
          else st.sched.render.map (fun sys => Event.run Phase.render sys.Name st.dt)) ++ sl) ∧
        (sl = [] ∨ ∃ d, sl = [Event.sleep d]) ∧
        (sl = [] ↔ ¬ (st.sched.input.length = 0 ∧ st.sched.render.length = 0))) := by
  obtain ⟨hacc, hstep, hphys, hin, hren, hpause, hevs⟩ := beforePhysics_spec clock n st
  constructor
  · intro h
    unfold Scheduler.frame
    rw [physicsLoop_eq, hacc, hstep, h]
    rfl
  · intro k h
    unfold Scheduler.frame
    rw [physicsLoop_eq, hacc, hstep, h]
    simp only [Option.map_some']
    obtain ⟨hte, hts⟩ := physicsTicks_spec clock k (Scheduler.beforePhysics clock n st).1
      (Scheduler.beforePhysics clock n st).2.1 (Scheduler.beforePhysics clock n st).2.2
    have htick : (Scheduler.beforePhysics clock n st).1.tickEvents = st.sched.tickEvents := by
      unfold Scheduler.tickEvents
      rw [hphys, hstep]
    have hte1 : (Scheduler.physicsTicks clock k (Scheduler.beforePhysics clock n st).1
        (Scheduler.beforePhysics clock n st).2.1
        (Scheduler.beforePhysics clock n st).2.2).2.2 =
        st.sched.input.map (fun sys => Event.run Phase.input sys.Name st.dt) ++
          (List.replicate k st.sched.tickEvents).flatten := by
      rw [hte, hevs, htick]
    have h5in : (Scheduler.physicsTicks clock k (Scheduler.beforePhysics clock n st).1
        (Scheduler.beforePhysics clock n st).2.1
        (Scheduler.beforePhysics clock n st).2.2).1.input = st.sched.input := by
      rw [hts]; exact hin
    have h5ren : (Scheduler.physicsTicks clock k (Scheduler.beforePhysics clock n st).1
        (Scheduler.beforePhysics clock n st).2.1
        (Scheduler.beforePhysics clock n st).2.2).1.render = st.sched.render := by
      rw [hts]; exact hren
    have h5pause : (Scheduler.physicsTicks clock k (Scheduler.beforePhysics clock n st).1
        (Scheduler.beforePhysics clock n st).2.1
        (Scheduler.beforePhysics clock n st).2.2).1.pauseRender = st.sched.pauseRender := by
      rw [hts]; exact hpause
    generalize Scheduler.physicsTicks clock k (Scheduler.beforePhysics clock n st).1
        (Scheduler.beforePhysics clock n st).2.1
        (Scheduler.beforePhysics clock n st).2.2 = r at hte1 h5in h5ren h5pause ⊢
    obtain ⟨sl, hsl, hsl1, hsl2⟩ :=
      afterPhysics_spec clock st.dt st.frameStart r.1 r.2.1 r.2.2
    have hsl3 : (r.1.afterPhysics clock st.dt st.frameStart r.2.1 r.2.2).2 =
        st.sched.input.map (fun sys => Event.run Phase.input sys.Name st.dt) ++
        (List.replicate k st.sched.tickEvents).flatten ++
        (if st.sched.pauseRender.Get then []
          else st.sched.render.map (fun sys => Event.run Phase.render sys.Name st.dt)) ++ sl := by
      rw [hsl, hte1, h5pause, h5ren]
    rw [h5in, h5ren] at hsl2
    refine ⟨(r.1.afterPhysics clock st.dt st.frameStart r.2.1 r.2.2).1, sl, ?_, hsl1, hsl2⟩
    rw [← hsl3]

end frames

section frameClaims
variable {σ τ : Type}

theorem wrap64_le_self (x : Int) (h : 0 ≤ x) : wrap64 x ≤ x := by
  unfold wrap64
  omega

theorem toNat_ediv_le (a s n : Int) (hs : 0 < s) (hn : 0 ≤ n) (h : a ≤ n * s) :
    ((a / s).toNat : Int) ≤ n ∧ (a / s).toNat ≤ n.toNat := by
  have h1 : a / s ≤ n := Int.ediv_le_of_le_mul hs h
  omega

/-- C23: with `maxLoopCount = n > 0` and `fixedTimeStep = s > 0`, in a frame of
`Scheduler.Run` whose accumulator (a signed 64-bit value) exceeds `n * s` at the
check, the accumulator is reset to 0 and no physics system runs; and every frame
runs the physics systems `k` times for some `k <= n`. -/
theorem cap_drops_ticks (clock : Clock σ τ) (n : Int) (fuel : Nat) (st : RunState σ τ)
    (hn : 0 < n) (hs : 0 < st.sched.fixedTimeStep) (h64 : st.sched.accumulator ≤ maxInt64)
    (hf : n.toNat ≤ fuel) :
    (n * st.sched.fixedTimeStep < st.sched.accumulator →
      (st.sched.capAccumulator n).accumulator = 0 ∧
      ∃ st1 sl, Scheduler.frame clock n fuel st = some (st1,
        st.sched.input.map (fun sys => Event.run Phase.input sys.Name st.dt) ++
        (if st.sched.pauseRender.Get then []
          else st.sched.render.map (fun sys => Event.run Phase.render sys.Name st.dt)) ++ sl) ∧
        (sl = [] ∨ ∃ d, sl = [Event.sleep d])) ∧
    (∃ k : Nat, (k : Int) ≤ n ∧
      ∃ st1 sl, Scheduler.frame clock n fuel st = some (st1,
        st.sched.input.map (fun sys => Event.run Phase.input sys.Name st.dt) ++
        (List.replicate k
          (st.sched.physics.map
            (fun sys => Event.run Phase.physics sys.Name st.sched.fixedTimeStep))).flatten ++
        (if st.sched.pauseRender.Get then []
          else st.sched.render.map (fun sys => Event.run Phase.render sys.Name st.dt)) ++ sl) ∧
        (sl = [] ∨ ∃ d, sl = [Event.sleep d])) := by
  have hprod : 0 < n * st.sched.fixedTimeStep := Int.mul_pos hn hs
  constructor
  · intro hgt
    have hw : wrap64 (n * st.sched.fixedTimeStep) = n * st.sched.fixedTimeStep :=
      wrap64_of_range _ (by unfold minInt64; omega) (by omega)
    have hcap : (st.sched.capAccumulator n).accumulator = 0 := by
      unfold Scheduler.capAccumulator
      rw [if_pos hn, hw, if_pos hgt]
    refine ⟨hcap, ?_⟩
    have hd : dueTicks fuel (st.sched.capAccumulator n).accumulator st.sched.fixedTimeStep =
        some 0 := by
      rw [hcap]
      exact dueTicks_of_lt fuel 0 _ hs
    obtain ⟨st1, sl, h1, h2, _⟩ := (frame_spec clock n fuel st).2 0 hd
    refine ⟨st1, sl, ?_, h2⟩
    rw [h1]
    simp
  · have hcases : (st.sched.capAccumulator n).accumulator = 0 ∨
        ((st.sched.capAccumulator n).accumulator = st.sched.accumulator ∧
          st.sched.accumulator ≤ n * st.sched.fixedTimeStep) := by
      unfold Scheduler.capAccumulator
      rw [if_pos hn]
      by_cases hgt : st.sched.accumulator > wrap64 (n * st.sched.fixedTimeStep)
      · left
        rw [if_pos hgt]
      · right
        rw [if_neg hgt]
        exact ⟨rfl, le_trans (not_lt.mp hgt) (wrap64_le_self _ (le_of_lt hprod))⟩
    have hle : (st.sched.capAccumulator n).accumulator ≤ n * st.sched.fixedTimeStep ∧
        (st.sched.capAccumulator n).accumulator ≤ maxInt64 := by
      rcases hcases with h0 | ⟨h1, h2⟩
      · rw [h0]
        exact ⟨le_of_lt hprod, by unfold maxInt64; omega⟩
      · rw [h1]
        exact ⟨h2, h64⟩
    obtain ⟨hk1, hk2⟩ := toNat_ediv_le (st.sched.capAccumulator n).accumulator
      st.sched.fixedTimeStep n hs (le_of_lt hn) hle.1
    have hd := dueTicks_pos fuel (st.sched.capAccumulator n).accumulator st.sched.fixedTimeStep
      hs hle.2 (le_trans hk2 hf)
    obtain ⟨st1, sl, h1, h2, _⟩ := (frame_spec clock n fuel st).2 _ hd
    exact ⟨_, hk1, st1, sl, h1, h2⟩

theorem cap_drops_ticks_witness :
    ((Scheduler.frame sampleClock 2 2 sampleRunState).map Prod.snd =
      some [Event.run Phase.input "poll" 7, Event.run Phase.render "draw" 7]) ∧
    (((2 : Int) * 10 < 25 →
      (sampleScheduler.capAccumulator 2).accumulator = 0 ∧
      ∃ st1 sl, Scheduler.frame sampleClock 2 2 sampleRunState = some (st1,
        sampleScheduler.input.map (fun sys => Event.run Phase.input sys.Name 7) ++
        (if sampleScheduler.pauseRender.Get then []
          else sampleScheduler.render.map (fun sys => Event.run Phase.render sys.Name 7)) ++ sl) ∧
        (sl = [] ∨ ∃ d, sl = [Event.sleep d])) ∧
    (∃ k : Nat, (k : Int) ≤ 2 ∧
      ∃ st1 sl, Scheduler.frame sampleClock 2 2 sampleRunState = some (st1,
        sampleScheduler.input.map (fun sys => Event.run Phase.input sys.Name 7) ++
        (List.replicate k
          (sampleScheduler.physics.map
            (fun sys => Event.run Phase.physics sys.Name 10))).flatten ++
        (if sampleScheduler.pauseRender.Get then []
          else sampleScheduler.render.map (fun sys => Event.run Phase.render sys.Name 7)) ++ sl) ∧
        (sl = [] ∨ ∃ d, sl = [Event.sleep d]))) :=
  ⟨by decide,
   cap_drops_ticks sampleClock 2 2 sampleRunState (by decide) (by decide) (by decide)
     (by decide)⟩

/-- C24: `NewScheduler` leaves `maxLoopCount = 0`, which `Run` takes as its cap;
with the cap 0 the check resets nothing, and for `fixedTimeStep = s > 0` a frame
entered with an accumulator `a` (a signed 64-bit value) runs the physics systems
exactly `a div s` times when `a >= 0`, however large `a` is (and not at all when
`a < 0`). -/
theorem default_cap_runs_every_tick (clock : Clock σ τ) (fuel : Nat) (st : RunState σ τ)
    (hs : 0 < st.sched.fixedTimeStep) (h64 : st.sched.accumulator ≤ maxInt64)
    (hf : (st.sched.accumulator / st.sched.fixedTimeStep).toNat ≤ fuel) :
    (NewScheduler : Scheduler σ).maxLoopCount = 0 ∧
    (∀ (s : Scheduler σ) (env : σ) (frames : Nat), s.maxLoopCount = 0 →
      s.Run clock env fuel frames = Scheduler.runFrames clock 0 fuel frames
        { sched := { s with accumulator := 0 }, env := env, dt := s.fixedTimeStep,
          frameStart := clock.now env }) ∧
    st.sched.capAccumulator 0 = st.sched ∧
    ∃ st1 sl, Scheduler.frame clock 0 fuel st = some (st1,
      st.sched.input.map (fun sys => Event.run Phase.input sys.Name st.dt) ++
      (List.replicate (st.sched.accumulator / st.sched.fixedTimeStep).toNat
        (st.sched.physics.map
          (fun sys => Event.run Phase.physics sys.Name st.sched.fixedTimeStep))).flatten ++
      (if st.sched.pauseRender.Get then []
        else st.sched.render.map (fun sys => Event.run Phase.render sys.Name st.dt)) ++ sl) ∧
      (sl = [] ∨ ∃ d, sl = [Event.sleep d]) := by
  have hcap : st.sched.capAccumulator 0 = st.sched := by
    unfold Scheduler.capAccumulator
    rw [if_neg (by decide)]
  refine ⟨rfl, ?_, hcap, ?_⟩
  · intro s env frames hm
    unfold Scheduler.Run
    rw [hm]
  · have hd := dueTicks_pos fuel st.sched.accumulator st.sched.fixedTimeStep hs h64 hf
    have hd1 : dueTicks fuel (st.sched.capAccumulator 0).accumulator st.sched.fixedTimeStep =
        some (st.sched.accumulator / st.sched.fixedTimeStep).toNat := by
      rw [hcap]
      exact hd
    obtain ⟨st1, sl, h1, h2, _⟩ := (frame_spec clock 0 fuel st).2 _ hd1
    exact ⟨st1, sl, h1, h2⟩

theorem default_cap_runs_every_tick_witness :
    ((Scheduler.frame sampleClock 0 2 sampleRunState).map Prod.snd =
      some [Event.run Phase.input "poll" 7, Event.run Phase.physics "move" 10,
        Event.run Phase.physics "collide" 10, Event.run Phase.physics "move" 10,
        Event.run Phase.physics "collide" 10, Event.run Phase.render "draw" 7]) ∧
    ((NewScheduler : Scheduler Int).maxLoopCount = 0 ∧
    (∀ (s : Scheduler Int) (env : Int) (frames : Nat), s.maxLoopCount = 0 →
      s.Run sampleClock env 2 frames = Scheduler.runFrames sampleClock 0 2 frames
        { sched := { s with accumulator := 0 }, env := env, dt := s.fixedTimeStep,
          frameStart := sampleClock.now env }) ∧
    sampleScheduler.capAccumulator 0 = sampleScheduler ∧
    ∃ st1 sl, Scheduler.frame sampleClock 0 2 sampleRunState = some (st1,
      sampleScheduler.input.map (fun sys => Event.run Phase.input sys.Name 7) ++
      (List.replicate ((25 : Int) / 10).toNat
        (sampleScheduler.physics.map
          (fun sys => Event.run Phase.physics sys.Name 10))).flatten ++
      (if sampleScheduler.pauseRender.Get then []
        else sampleScheduler.render.map (fun sys => Event.run Phase.render sys.Name 7)) ++ sl) ∧
      (sl = [] ∨ ∃ d, sl = [Event.sleep d])) :=
  ⟨by decide,
   default_cap_runs_every_tick sampleClock 2 sampleRunState (by decide) (by decide)
     (by decide)⟩

/-- C25: `PauseRender(v)` sets the pause signal to `v` and nothing else; a frame
of `Scheduler.Run` that returns has invoked every input system with the frame's
`dt`, then every physics system in each of the `k` ticks that are due (`k` does
not depend on the pause signal), then, in registration order and once each,
every render system when the pause signal is false and no render system when it
is true; and a frame with a positive time step returns. -/
theorem PauseRender_skips_render (clock : Clock σ τ) (n : Int) (fuel : Nat)
    (st st1 : RunState σ τ) (evs : List Event)
    (h : Scheduler.frame clock n fuel st = some (st1, evs)) :
    (∀ (s : Scheduler σ) (v : Bool), (s.PauseRender v).pauseRender.Get = v ∧
      s.PauseRender v = { s with pauseRender := { value := v } }) ∧
    (∃ k sl, dueTicks fuel (st.sched.capAccumulator n).accumulator st.sched.fixedTimeStep =
        some k ∧
      evs = st.sched.input.map (fun sys => Event.run Phase.input sys.Name st.dt) ++
        (List.replicate k
          (st.sched.physics.map
            (fun sys => Event.run Phase.physics sys.Name st.sched.fixedTimeStep))).flatten ++
        (if st.sched.pauseRender.Get then []
          else st.sched.render.map (fun sys => Event.run Phase.render sys.Name st.dt)) ++ sl ∧
      (sl = [] ∨ ∃ d, sl = [Event.sleep d])) ∧
    (0 < st.sched.fixedTimeStep → (st.sched.capAccumulator n).accumulator ≤ maxInt64 →
      ∃ r, Scheduler.frame clock n
        ((st.sched.capAccumulator n).accumulator / st.sched.fixedTimeStep).toNat st = some r) := by
  refine ⟨fun s v => ⟨rfl, rfl⟩, ?_, ?_⟩
  · cases hd : dueTicks fuel (st.sched.capAccumulator n).accumulator st.sched.fixedTimeStep with
    | none =>
      rw [(frame_spec clock n fuel st).1 hd] at h
      cases h
    | some k =>
      obtain ⟨st2, sl, h1, h2, _⟩ := (frame_spec clock n fuel st).2 k hd
      rw [h1] at h
      simp only [Option.some.injEq, Prod.mk.injEq] at h
      exact ⟨k, sl, rfl, h.2.symm, h2⟩
  · intro hs h64
    have hd := dueTicks_pos _ (st.sched.capAccumulator n).accumulator st.sched.fixedTimeStep
      hs h64 (le_refl _)
    obtain ⟨st2, sl, h1, _⟩ := (frame_spec clock n _ st).2 _ hd
    exact ⟨_, h1⟩

theorem PauseRender_skips_render_witness :
    ((Scheduler.frame sampleClock 0 2
        { sampleRunState with sched := sampleScheduler.PauseRender true }).map Prod.snd =
      some [Event.run Phase.input "poll" 7, Event.run Phase.physics "move" 10,
        Event.run Phase.physics "collide" 10, Event.run Phase.physics "move" 10,
        Event.run Phase.physics "collide" 10]) ∧
    ∃ st1 evs, Scheduler.frame sampleClock 0 2
        { sampleRunState with sched := sampleScheduler.PauseRender true } = some (st1, evs) ∧
      (∃ k sl, dueTicks 2 ((sampleScheduler.PauseRender true).capAccumulator 0).accumulator 10 =
          some k ∧
        evs = sampleScheduler.input.map (fun sys => Event.run Phase.input sys.Name 7) ++
          (List.replicate k
            (sampleScheduler.physics.map
              (fun sys => Event.run Phase.physics sys.Name 10))).flatten ++
          (if (sampleScheduler.PauseRender true).pauseRender.Get then []
            else sampleScheduler.render.map (fun sys => Event.run Phase.render sys.Name 7)) ++
          sl ∧
        (sl = [] ∨ ∃ d, sl = [Event.sleep d])) :=
  ⟨by decide, _, _, rfl,
   (PauseRender_skips_render sampleClock 0 2
     { sampleRunState with sched := sampleScheduler.PauseRender true } _ _ rfl).2.1⟩

theorem sleep_positive_without_overflow (a s : Int) (hlt : a < s) (h : s - a ≤ maxInt64) :
    0 < wrap64 (s - a) := by
  rw [wrap64_of_range _ (by unfold minInt64; omega) h]
  omega

/-- C27 (evaluation at the failing input): a scheduler as `NewScheduler` leaves
it (time step 16 ms) with one physics system and `SetGameSpeed(math.MinInt64)`;
the first frame sleeps 16000000 ns and is measured at 16000001 ns, so the
accumulator becomes `16000001 * MinInt64`, which is `MinInt64` in 64 bits; in the
second frame the physics loop exits at once (the accumulator is below the time
step) and `fixedTimeStep - accumulator` wraps to a negative duration. -/
theorem sleep_duration_negative_on_overflow :
    (physicsOnlyScheduler.Run sampleClock 0 10 1).map (fun r => (r.1.sched.accumulator, r.1.dt))
      = some (minInt64, 16000001) ∧
    (physicsOnlyScheduler.Run sampleClock 0 10 2).map Prod.snd =
      some [[Event.sleep 16000000], [Event.sleep (-9223372036838775808)]] ∧
    ¬ (0 < wrap64 (physicsOnlyScheduler.fixedTimeStep - minInt64)) := by
  refine ⟨?_, ?_, ?_⟩ <;> decide

end frameClaims


/-! ### Delete inside MapId -/

section deletingLemmas
variable {E C V : Type}

theorem deleteAll_arch (ops : archEngineCalls E C V) (ids : List Id) :
    ∀ w w1 : World E, deleteAll ops w ids = some w1 →
      ∀ j, w1.arch j = if j ∈ ids then none else w.arch j := by
  induction ids with
  | nil =>
    intro w w1 h j
    simp only [deleteAll, Option.some.injEq] at h
    subst h
    simp
  | cons id ids ih =>
    intro w w1 h j
    cases hd : Delete ops w id with
    | none => simp [deleteAll, hd] at h
    | some r =>
      obtain ⟨w2, b⟩ := r
      simp only [deleteAll, hd] at h
      rw [ih w2 w1 h j]
      by_cases hj : j ∈ ids
      · simp [hj]
      · simp only [if_neg hj, List.mem_cons, hj, or_false]
        by_cases hji : j = id
        · rw [if_pos hji, hji]
          have := (Delete_Exists_after ops w id w2 b hd).2
          simpa [World.Exists] using this
        · rw [if_neg hji]
          exact Delete_arch_other ops w w2 id j b hd hji

theorem TagForDeletion_storage (e e1 : archEngine V) (a : archetypeId) (id : Id)
    (h : TagForDeletion e a id = some e1) : e1.storage = e.storage := by
  unfold TagForDeletion at h
  cases hl : e.lookup a with
  | none => simp [hl] at h
  | some l =>
    cases hi : l.index id with
    | none => simp [hl, hi] at h
    | some s =>
      simp only [hl, hi, Option.some.injEq] at h
      subst h
      rfl

theorem Tombstoned.same [Inhabited V] (w0 : World (archEngine V)) (h : WorldInv w0)
    (hs : SlotInv w0) : Tombstoned w0 w0 := by
  refine ⟨rfl, fun a ha => ha, ?_, fun i a hi => hi, h, hs⟩
  intro a l0 hl0
  refine ⟨l0, hl0, rfl, ?_⟩
  intro k i0 hk
  rw [hk]
  by_cases h0 : i0 = InvalidEntity
  · rw [h0]
    simp
  · have := ((StorageInv.of_inv h hs).owned a l0 k i0 hl0 hk h0).1
    simp [World.Exists, this]

theorem Tombstoned.delete [Inhabited V] {w0 w w1 : World (archEngine V)} (id : Id) (b : Bool)
    (t : Tombstoned w0 w) (hd : Delete (engineCalls V) w id = some (w1, b)) :
    Tombstoned w0 w1 := by
  have hinv1 : WorldInv w1 := by
    obtain ⟨w2, b2, h2, hw2⟩ := Delete_spec w id t.worldInv
    rw [h2] at hd
    simp only [Option.some.injEq, Prod.mk.injEq] at hd
    rw [← hd.1]
    exact hw2
  have hslot1 : SlotInv w1 := Delete_slotInv w w1 id b t.slotInv hd
  unfold Delete at hd
  cases ha : w.arch id with
  | none =>
    simp only [ha, Option.some.injEq, Prod.mk.injEq] at hd
    rw [← hd.1]
    exact t
  | some a =>
    simp only [ha] at hd
    cases ht : (engineCalls V).TagForDeletion w.engine a id with
    | none => simp [ht] at hd
    | some e1 =>
      simp only [ht, Option.some.injEq, Prod.mk.injEq] at hd
      obtain ⟨hd1, _⟩ := hd
      have ht1 : TagForDeletion w.engine a id = some e1 := ht
      obtain ⟨l, s, hl, hs, hlk⟩ := TagForDeletion_lookup w.engine e1 a id ht1
      have hst := TagForDeletion_storage w.engine e1 a id ht1
      have harch1 : ∀ j, w1.arch j = if j = id then none else w.arch j := by
        intro j
        rw [← hd1]
        simp only [Function.update_apply]
      have hengine1 : w1.engine = e1 := by rw [← hd1]
      have hexists : ∀ j, w1.Exists j = (if j = id then false else w.Exists j) := by
        intro j
        simp only [World.Exists, harch1 j]
        split_ifs <;> rfl
      have hok := t.slotInv.lookups a l hl
      have hat : l.id[s]? = some id := hok.idx_id id s hs
      have hslt : s < l.id.length := by
        by_contra hge
        rw [List.getElem?_eq_none (Nat.le_of_not_lt hge)] at hat
        cases hat
      refine ⟨?_, ?_, ?_, ?_, hinv1, hslot1⟩
      · rw [hengine1, hst]
        exact t.storage
      · intro a1 h0
        have hw := t.lookup_none a1 h0
        have hne : a1 ≠ a := by
          intro hEq
          rw [hEq, hl] at hw
          cases hw
        rw [hengine1, hlk, Function.update_noteq hne]
        exact hw
      · intro a1 l0 hl0
        obtain ⟨lw, hlw, hlen, hent⟩ := t.lookup_some a1 l0 hl0
        by_cases hne : a1 = a
        · subst hne
          rw [hl] at hlw
          simp only [Option.some.injEq] at hlw
          subst hlw
          refine ⟨_, by rw [hengine1, hlk, Function.update_same], ?_, ?_⟩
          · simp only [List.length_set]
            exact hlen
          · intro k i0 hk
            have hold := hent k i0 hk
            simp only
            by_cases hks : s = k
            · subst hks
              rw [List.getElem?_set_self hslt]
              rw [hat] at hold
              simp only [Option.some.injEq] at hold
              rw [hexists i0]
              by_cases hi0 : i0 = id
              · simp [hi0]
              · rw [if_neg hi0]
                by_cases hex : w.Exists i0 = true
                · rw [if_pos hex] at hold
                  exact absurd hold.symm hi0
                · rw [if_neg hex] at hold ⊢
              -- the slot of the deleted entity holds the sentinel afterwards
            · rw [List.getElem?_set_ne hks, hold, hexists i0]
              by_cases hi0 : i0 = id
              · rw [if_pos hi0]
                by_cases hex : w.Exists i0 = true
                · rw [if_pos hex] at hold ⊢
                  by_cases hz : i0 = InvalidEntity
                  · rw [hz]
                    simp
                  · have hidx := hok.id_idx k i0 hold hz
                    rw [hi0, hs] at hidx
                    simp only [Option.some.injEq] at hidx
                    exact absurd hidx hks
                · rw [if_neg hex]
                  simp
              · rw [if_neg hi0]
        · refine ⟨lw, by rw [hengine1, hlk, Function.update_noteq hne]; exact hlw, hlen, ?_⟩
          intro k i0 hk
          rw [hent k i0 hk, hexists i0]
          by_cases hi0 : i0 = id
          · rw [if_pos hi0]
            by_cases hex : w.Exists i0 = true
            · rw [if_pos hex]
              by_cases hz : i0 = InvalidEntity
              · rw [hz]
                simp
              · exfalso
                have hold := hent k i0 hk
                rw [if_pos hex] at hold
                have hidx := (t.slotInv.lookups a1 lw hlw).id_idx k i0 hold hz
                have hlink := t.slotInv.linked a1 lw i0 k hlw hidx
                rw [hi0, ha] at hlink
                simp only [Option.some.injEq] at hlink
                exact hne hlink.symm
            · rw [if_neg hex]
              simp
          · rw [if_neg hi0]
      · intro i a1 hi
        rw [harch1 i] at hi
        by_cases hi0 : i = id
        · rw [if_pos hi0] at hi
          cases hi
        · rw [if_neg hi0] at hi
          exact t.arch i a1 hi

theorem Tombstoned.deleteAll [Inhabited V] {w0 : World (archEngine V)} (ids : List Id) :
    ∀ w, Tombstoned w0 w → ∃ w1, deleteAll (engineCalls V) w ids = some w1 ∧
      Tombstoned w0 w1 := by
  induction ids with
  | nil => intro w t; exact ⟨w, rfl, t⟩
  | cons id ids ih =>
    intro w t
    obtain ⟨w2, b2, h2, _⟩ := Delete_spec w id t.worldInv
    obtain ⟨w1, h1, t1⟩ := ih w2 (t.delete id b2 h2)
    exact ⟨w1, by simp only [ecs.deleteAll, h2, h1], t1⟩

end deletingLemmas

section deletingLoops
variable {V : Type}

theorem slotLoop_append {β : Type} (ptrs : Nat → Option β) (ids : List Id) :
    ∀ (idx : Nat) (acc : List (Id × β)),
      (slotLoop ptrs idx ids acc).state = acc ++ (slotLoop ptrs idx ids []).state ∧
      (slotLoop ptrs idx ids acc).panicked = (slotLoop ptrs idx ids []).panicked := by
  induction ids with
  | nil =>
    intro idx acc
    simp [slotLoop]
  | cons i ids ih =>
    intro idx acc
    simp only [slotLoop]
    by_cases hi : i = InvalidEntity
    · simp only [if_pos hi]
      exact ih (idx + 1) acc
    · simp only [if_neg hi]
      cases hp : ptrs idx with
      | none => simp
      | some p =>
        simp only [List.nil_append]
        obtain ⟨h1, h2⟩ := ih (idx + 1) (acc ++ [(i, p)])
        obtain ⟨h3, h4⟩ := ih (idx + 1) [(i, p)]
        exact ⟨by rw [h1, h3, List.append_assoc], by rw [h2, h4]⟩

theorem archLoop_append {β : Type} (w : World (archEngine V))
    (ptrs : archetypeId → Nat → Option β) (archIds : List archetypeId) :
    ∀ acc : List (Id × β),
      (archLoop w ptrs archIds acc).state = acc ++ (archLoop w ptrs archIds []).state ∧
      (archLoop w ptrs archIds acc).panicked = (archLoop w ptrs archIds []).panicked := by
  induction archIds with
  | nil =>
    intro acc
    simp [archLoop]
  | cons a rest ih =>
    intro acc
    simp only [archLoop]
    cases hl : w.engine.lookup a with
    | none => simp
    | some l =>
      simp only
      obtain ⟨h1, h2⟩ := slotLoop_append (ptrs a) l.id 0 acc
      rw [h2]
      cases hp : (slotLoop (ptrs a) 0 l.id []).panicked with
      | some msg => simp [h1]
      | none =>
        simp only
        obtain ⟨h3, h4⟩ := ih (slotLoop (ptrs a) 0 l.id acc).state
        obtain ⟨h5, h6⟩ := ih (slotLoop (ptrs a) 0 l.id []).state
        exact ⟨by rw [h3, h5, h1, List.append_assoc], by rw [h4, h6]⟩

theorem replayDeleting_append [Inhabited V] {β : Type}
    (lambda : World (archEngine V) → Id → β → List Id) (t1 t2 : List (Id × β)) :
    ∀ w, replayDeleting lambda (t1 ++ t2) w =
      ((replayDeleting lambda t2 (replayDeleting lambda t1 w).1).1,
       (replayDeleting lambda t1 w).2 ++
        (replayDeleting lambda t2 (replayDeleting lambda t1 w).1).2) := by
  induction t1 with
  | nil => intro w; simp [replayDeleting]
  | cons c cs ih =>
    intro w
    show replayDeleting lambda (c :: (cs ++ t2)) w = _
    simp only [replayDeleting]
    by_cases hex : w.Exists c.1 = true
    · simp only [if_pos hex]
      rw [ih]
      rfl
    · simp only [if_neg hex]
      exact ih w

theorem currentId_of_tombstoned {w0 w : World (archEngine V)} (t : Tombstoned w0 w)
    (a : archetypeId) (l0 : lookupList) (k : Nat) (i0 captured : Id)
    (hl0 : w0.engine.lookup a = some l0) (hk : l0.id[k]? = some i0) :
    currentId w a k captured = if w.Exists i0 then i0 else InvalidEntity := by
  obtain ⟨l, hl, _, hent⟩ := t.lookup_some a l0 hl0
  have := hent k i0 hk
  unfold currentId
  simp only [hl, List.getD_eq_getElem?_getD, this, Option.getD_some]

/-- The inner loop with a callback that deletes, started in a world that is the
original one after deletions, makes the invocations of the loop without
deletions, replayed. -/
theorem slotLoopDeleting_eq [Inhabited V] {β : Type}
    (lambda : World (archEngine V) → Id → β → List Id) (w0 : World (archEngine V))
    (a : archetypeId) (l0 : lookupList) (hl0 : w0.engine.lookup a = some l0)
    (ptrs : Nat → Option β) (ids0 : List Id) :
    ∀ (ids : List Id) (idx : Nat) (w : World (archEngine V)) (acc : List (Id × β × List Id)),
      ids.length = ids0.length →
      (∀ (k : Nat) (i0 : Id), ids0[k]? = some i0 → l0.id[idx + k]? = some i0) →
      slotsOk ptrs idx ids0 = true → Tombstoned w0 w →
      slotLoopDeleting lambda a ptrs idx ids w acc =
        ⟨((replayDeleting lambda (slotLoop ptrs idx ids0 []).state w).1,
          acc ++ (replayDeleting lambda (slotLoop ptrs idx ids0 []).state w).2), none⟩ ∧
      Tombstoned w0 (replayDeleting lambda (slotLoop ptrs idx ids0 []).state w).1 := by
  induction ids0 with
  | nil =>
    intro ids idx w acc hlen _ _ t
    have hnil : ids = [] := List.length_eq_zero.mp hlen
    subst hnil
    exact ⟨by simp [slotLoopDeleting, slotLoop, replayDeleting], t⟩
  | cons i0 rest0 ih =>
    intro ids idx w acc hlen hent hok t
    cases ids with
    | nil => simp at hlen
    | cons i rest =>
      have hlen1 : rest.length = rest0.length := by simpa using hlen
      have hent0 : l0.id[idx]? = some i0 := by
        have := hent 0 i0 (by simp)
        simpa using this
      have hent1 : ∀ (k : Nat) (j : Id), rest0[k]? = some j →
          l0.id[idx + 1 + k]? = some j := by
        intro k j hk
        have := hent (k + 1) j (by simpa using hk)
        have he : idx + 1 + k = idx + (k + 1) := by omega
        rw [he]
        exact this
      have hcur := currentId_of_tombstoned t a l0 idx i0 i hl0 hent0
      simp only [slotsOk, Bool.and_eq_true, Bool.or_eq_true, decide_eq_true_eq] at hok
      obtain ⟨hp, hok1⟩ := hok
      by_cases hz : i0 = InvalidEntity
      · have hc0 : currentId w a idx i = InvalidEntity := by
          rw [hcur, hz]
          simp
        simp only [slotLoopDeleting, if_pos hc0, slotLoop, if_pos hz]
        exact ih rest (idx + 1) w acc hlen1 hent1 hok1 t
      · have hsome : (ptrs idx).isSome = true := by
          rcases hp with h | h
          · exact absurd h hz
          · exact h
        obtain ⟨p, hpp⟩ := Option.isSome_iff_exists.mp hsome
        have hpure : (slotLoop ptrs idx (i0 :: rest0) []).state =
            (i0, p) :: (slotLoop ptrs (idx + 1) rest0 []).state := by
          simp only [slotLoop, if_neg hz, hpp, List.nil_append]
          rw [(slotLoop_append ptrs rest0 (idx + 1) [(i0, p)]).1]
          rfl
        rw [hpure]
        by_cases hex : w.Exists i0 = true
        · have hc1 : currentId w a idx i = i0 := by rw [hcur, if_pos hex]
          have hc2 : ¬ currentId w a idx i = InvalidEntity := by rw [hc1]; exact hz
          obtain ⟨w1, hw1, t1⟩ := t.deleteAll (lambda w i0 p) w
          obtain ⟨h1, h2⟩ := ih rest (idx + 1) w1
            (acc ++ [(i0, p, lambda w i0 p)]) hlen1 hent1 hok1 t1
          simp only [slotLoopDeleting, hc1, if_neg hz, hpp, hw1, replayDeleting, if_pos hex,
            Option.getD_some]
          refine ⟨?_, h2⟩
          rw [h1]
          simp only [List.append_assoc, List.singleton_append]
        · have hc0 : currentId w a idx i = InvalidEntity := by rw [hcur, if_neg hex]
          obtain ⟨h1, h2⟩ := ih rest (idx + 1) w acc hlen1 hent1 hok1 t
          simp only [slotLoopDeleting, if_pos hc0, replayDeleting, if_neg hex]
          exact ⟨h1, h2⟩

theorem archsOk_cons {β : Type} (w : World (archEngine V))
    (ptrs : archetypeId → Nat → Option β) (a : archetypeId) (rest : List archetypeId)
    (h : archsOk w ptrs (a :: rest) = true) :
    (∃ l, w.engine.lookup a = some l ∧ slotsOk (ptrs a) 0 l.id = true) ∧
    archsOk w ptrs rest = true := by
  simp only [archsOk, Bool.and_eq_true] at h
  obtain ⟨h1, h2⟩ := h
  refine ⟨?_, h2⟩
  cases hl : w.engine.lookup a with
  | none => simp [hl] at h1
  | some l =>
    simp only [hl] at h1
    exact ⟨l, rfl, h1⟩

/-- The loops of `MapId` with a callback that deletes make the invocations of
the loops without deletions, replayed. -/
theorem archLoopDeleting_eq [Inhabited V] {β : Type}
    (lambda : World (archEngine V) → Id → β → List Id) (w0 : World (archEngine V))
    (ptrs : World (archEngine V) → archetypeId → Nat → Option β)
    (hptrs : ∀ w, w.engine.storage = w0.engine.storage → ptrs w = ptrs w0)
    (archIds : List archetypeId) :
    ∀ (w : World (archEngine V)) (acc : List (Id × β × List Id)),
      archsOk w0 (ptrs w0) archIds = true → Tombstoned w0 w →
      archLoopDeleting lambda ptrs archIds w acc =
        ⟨((replayDeleting lambda (archLoop w0 (ptrs w0) archIds []).state w).1,
          acc ++ (replayDeleting lambda (archLoop w0 (ptrs w0) archIds []).state w).2), none⟩ ∧
      Tombstoned w0 (replayDeleting lambda (archLoop w0 (ptrs w0) archIds []).state w).1 := by
  induction archIds with
  | nil =>
    intro w acc _ t
    exact ⟨by simp [archLoopDeleting, archLoop, replayDeleting], t⟩
  | cons a rest ih =>
    intro w acc hok t
    obtain ⟨⟨l0, hl0, hs0⟩, hrest⟩ := archsOk_cons w0 (ptrs w0) a rest hok
    obtain ⟨l, hl, hlen, _⟩ := t.lookup_some a l0 hl0
    have hp0 : (slotLoop (ptrs w0 a) 0 l0.id []).panicked = none :=
      (slotLoop_panicked (ptrs w0 a) l0.id 0 []).mpr hs0
    have hpure : (archLoop w0 (ptrs w0) (a :: rest) []).state =
        (slotLoop (ptrs w0 a) 0 l0.id []).state ++ (archLoop w0 (ptrs w0) rest []).state := by
      simp only [archLoop, hl0, hp0]
      exact (archLoop_append w0 (ptrs w0) rest _).1
    obtain ⟨h1, t1⟩ := slotLoopDeleting_eq lambda w0 a l0 hl0 (ptrs w0 a) l0.id l.id 0 w acc hlen
      (fun k i0 hk => by rw [Nat.zero_add]; exact hk) hs0 t
    obtain ⟨h2, t2⟩ := ih (replayDeleting lambda (slotLoop (ptrs w0 a) 0 l0.id []).state w).1
      (acc ++ (replayDeleting lambda (slotLoop (ptrs w0 a) 0 l0.id []).state w).2) hrest t1
    rw [hpure, replayDeleting_append]
    refine ⟨?_, t2⟩
    simp only [archLoopDeleting, hl, hptrs w t.storage, h1]
    rw [h2]
    simp only [List.append_assoc]

end deletingLoops

section deletingReplay
variable {V : Type}

theorem replayDeleting_sublist [Inhabited V] {β : Type}
    (lambda : World (archEngine V) → Id → β → List Id) (t : List (Id × β)) :
    ∀ w, ((replayDeleting lambda t w).2.map (fun e => (e.1, e.2.1))).Sublist t := by
  induction t with
  | nil => intro w; simp [replayDeleting]
  | cons c cs ih =>
    intro w
    simp only [replayDeleting]
    by_cases hex : w.Exists c.1 = true
    · simp only [if_pos hex, List.map_cons]
      exact List.Sublist.cons₂ c (ih _)
    · simp only [if_neg hex]
      exact List.Sublist.cons c (ih w)

theorem deleteAll_getD_of_tombstoned [Inhabited V] {w0 w : World (archEngine V)}
    (t : Tombstoned w0 w) (ids : List Id) :
    Tombstoned w0 ((deleteAll (engineCalls V) w ids).getD w) ∧
    ∀ j, ((deleteAll (engineCalls V) w ids).getD w).Exists j =
      (if j ∈ ids then false else w.Exists j) := by
  obtain ⟨w1, hw1, t1⟩ := t.deleteAll ids w
  rw [hw1, Option.getD_some]
  refine ⟨t1, fun j => ?_⟩
  simp only [World.Exists, deleteAll_arch (engineCalls V) ids w w1 hw1 j]
  split_ifs <;> rfl

/-- No invocation of the replay is for an entity that is not in the entity map
when the replay starts. -/
theorem replayDeleting_not_dead [Inhabited V] {β : Type}
    (lambda : World (archEngine V) → Id → β → List Id) (w0 : World (archEngine V))
    (dead : List Id) (t : List (Id × β)) :
    ∀ w, Tombstoned w0 w → (∀ d ∈ dead, w.Exists d = false) →
      ∀ e ∈ (replayDeleting lambda t w).2, e.1 ∉ dead := by
  induction t with
  | nil => intro w _ _ e he; simp [replayDeleting] at he
  | cons c cs ih =>
    intro w tw hdead e he
    simp only [replayDeleting] at he
    by_cases hex : w.Exists c.1 = true
    · simp only [if_pos hex, List.mem_cons] at he
      obtain ⟨t1, hex1⟩ := deleteAll_getD_of_tombstoned tw (lambda w c.1 c.2)
      rcases he with he | he
      · intro hmem
        rw [he] at hmem
        have := hdead c.1 hmem
        rw [hex] at this
        cases this
      · refine ih _ t1 ?_ e he
        intro d hd
        rw [hex1 d]
        split_ifs
        · rfl
        · exact hdead d hd
    · simp only [if_neg hex] at he
      exact ih w tw hdead e he

/-- No invocation of the replay is for an entity that an earlier invocation
deleted. -/
theorem replayDeleting_pairwise [Inhabited V] {β : Type}
    (lambda : World (archEngine V) → Id → β → List Id) (w0 : World (archEngine V))
    (t : List (Id × β)) :
    ∀ w, Tombstoned w0 w →
      (replayDeleting lambda t w).2.Pairwise (fun e0 e => e.1 ∉ e0.2.2) := by
  induction t with
  | nil => intro w _; simp [replayDeleting]
  | cons c cs ih =>
    intro w tw
    simp only [replayDeleting]
    by_cases hex : w.Exists c.1 = true
    · simp only [if_pos hex, List.pairwise_cons]
      obtain ⟨t1, hex1⟩ := deleteAll_getD_of_tombstoned tw (lambda w c.1 c.2)
      refine ⟨?_, ih _ t1⟩
      intro e he
      refine replayDeleting_not_dead lambda w0 (lambda w c.1 c.2) cs _ t1 ?_ e he
      intro d hd
      rw [hex1 d, if_pos hd]
    · simp only [if_neg hex]
      exact ih w tw

/-- An invocation of the list whose entity is in the entity map and is deleted
by no invocation of the replay is made by the replay. -/
theorem replayDeleting_keeps [Inhabited V] {β : Type}
    (lambda : World (archEngine V) → Id → β → List Id) (w0 : World (archEngine V))
    (t : List (Id × β)) :
    ∀ w, Tombstoned w0 w → ∀ c ∈ t, w.Exists c.1 = true →
      (∀ e ∈ (replayDeleting lambda t w).2, c.1 ∉ e.2.2) →
      c ∈ (replayDeleting lambda t w).2.map (fun e => (e.1, e.2.1)) := by
  induction t with
  | nil => intro w _ c hc; cases hc
  | cons c0 cs ih =>
    intro w tw c hc hex hno
    simp only [replayDeleting] at hno ⊢
    by_cases hex0 : w.Exists c0.1 = true
    · simp only [if_pos hex0, List.mem_cons, List.map_cons] at hno ⊢
      rcases List.mem_cons.mp hc with hc0 | hcs
      · left
        rw [hc0]
      · right
        obtain ⟨t1, hex1⟩ := deleteAll_getD_of_tombstoned tw (lambda w c0.1 c0.2)
        have hnd : c.1 ∉ lambda w c0.1 c0.2 := hno _ (Or.inl rfl)
        refine ih _ t1 c hcs ?_ (fun e he => hno e (Or.inr he))
        rw [hex1 c.1, if_neg hnd]
        exact hex
    · simp only [if_neg hex0] at hno ⊢
      rcases List.mem_cons.mp hc with hc0 | hcs
      · rw [hc0] at hex
        exact absurd hex hex0
      · exact ih w tw c hcs hex hno

/-- What `MapId` with a callback that deletes does, for the pointers of any
arity: it completes, it makes the invocations of the `MapId` without deletions
replayed, these are a subsequence of the invocations without deletions, none is
for an entity deleted by an earlier one, and every invocation without deletions
whose entity no invocation deletes is made. -/
theorem archLoopDeleting_spec [Inhabited V] {β : Type}
    (lambda : World (archEngine V) → Id → β → List Id) (w : World (archEngine V))
    (h : WorldInv w) (hs : SlotInv w)
    (ptrs : World (archEngine V) → archetypeId → Nat → Option β)
    (hptrs : ∀ w1, w1.engine.storage = w.engine.storage → ptrs w1 = ptrs w)
    (archIds : List archetypeId) (hok : archsOk w (ptrs w) archIds = true) :
    (archLoopDeleting lambda ptrs archIds w []).panicked = none ∧
    (archLoopDeleting lambda ptrs archIds w []).state =
      replayDeleting lambda (archLoop w (ptrs w) archIds []).state w ∧
    ((archLoopDeleting lambda ptrs archIds w []).state.2.map (fun e => (e.1, e.2.1))).Sublist
      (archLoop w (ptrs w) archIds []).state ∧
    (archLoopDeleting lambda ptrs archIds w []).state.2.Pairwise (fun e0 e => e.1 ∉ e0.2.2) ∧
    (∀ c ∈ (archLoop w (ptrs w) archIds []).state,
      (∀ e ∈ (archLoopDeleting lambda ptrs archIds w []).state.2, c.1 ∉ e.2.2) →
      c ∈ (archLoopDeleting lambda ptrs archIds w []).state.2.map (fun e => (e.1, e.2.1))) ∧
    (archLoopDeleting lambda ptrs archIds w []).state.1.engine.storage = w.engine.storage := by
  have t0 := Tombstoned.same w h hs
  obtain ⟨h1, tfin⟩ := archLoopDeleting_eq lambda w ptrs hptrs archIds w [] hok t0
  have hstate : (archLoopDeleting lambda ptrs archIds w []).state =
      replayDeleting lambda (archLoop w (ptrs w) archIds []).state w := by
    rw [h1]
    simp only [List.nil_append]
  refine ⟨by rw [h1], hstate, ?_, ?_, ?_, by rw [hstate]; exact tfin.storage⟩
  · rw [hstate]
    exact replayDeleting_sublist lambda _ w
  · rw [hstate]
    exact replayDeleting_pairwise lambda w _ w t0
  · intro c hc hno
    rw [hstate] at hno ⊢
    refine replayDeleting_keeps lambda w _ w t0 c hc ?_ hno
    rcases archLoop_mem w (ptrs w) archIds [] c hc with h0 | ⟨a, _, l, k, hl, hk, hne, _⟩
    · cases h0
    · have := ((StorageInv.of_inv h hs).owned a l k c.1 hl hk hne).1
      simp [World.Exists, this]

theorem View1_ptrs_congr (v : View1) (w w1 : World (archEngine V))
    (h : w1.engine.storage = w.engine.storage) : View1.ptrs v w1 = View1.ptrs v w := by
  funext a k
  simp only [View1.ptrs, elemPtr, h]

theorem View2_ptrs_congr (v : View2) (w w1 : World (archEngine V))
    (h : w1.engine.storage = w.engine.storage) : View2.ptrs v w1 = View2.ptrs v w := by
  funext a k
  simp only [View2.ptrs, elemPtr, h]

/-- C26: in every world reachable through the public calls, a `MapId` whose
callback calls `Delete` (on the ids `lambda w id p` when invoked with `(id, p)`
in world `w`) completes whenever the `MapId` without deletions does, and its
invocations are those of the `MapId` without deletions with the same ids and
pointers in the same order, leaving out exactly the entities that are no longer
in the entity map when their slot is reached: the callback is never invoked for
an entity that an earlier invocation deleted, and every entity that no
invocation deletes is passed with the id and pointers it would have been passed
without the deletions; the columns the pointers refer to are left as they were.
Proved for `View1` and `View2`. -/
theorem Delete_inside_MapId [Inhabited V] (w : World (archEngine V))
    (h : Reachable (engineCalls V) w) (v1 : View1) (v2 : View2)
    (hs1 : v1.mapSafe w = true) (hs2 : v2.mapSafe w = true)
    (lambda1 : World (archEngine V) → Id → Option compPtr → List Id)
    (lambda2 : World (archEngine V) → Id → Option compPtr × Option compPtr → List Id) :
    ((v1.MapIdDeleting w lambda1).panicked = none ∧
     (v1.MapIdDeleting w lambda1).state = replayDeleting lambda1 (v1.MapId w).state.2 w ∧
     ((v1.MapIdDeleting w lambda1).state.2.map (fun e => (e.1, e.2.1))).Sublist
       (v1.MapId w).state.2 ∧
     (v1.MapIdDeleting w lambda1).state.2.Pairwise (fun e0 e => e.1 ∉ e0.2.2) ∧
     (∀ c ∈ (v1.MapId w).state.2,
       (∀ e ∈ (v1.MapIdDeleting w lambda1).state.2, c.1 ∉ e.2.2) →
       c ∈ (v1.MapIdDeleting w lambda1).state.2.map (fun e => (e.1, e.2.1))) ∧
     (v1.MapIdDeleting w lambda1).state.1.engine.storage = w.engine.storage) ∧
    ((v2.MapIdDeleting w lambda2).panicked = none ∧
     (v2.MapIdDeleting w lambda2).state = replayDeleting lambda2 (v2.MapId w).state.2 w ∧
     ((v2.MapIdDeleting w lambda2).state.2.map (fun e => (e.1, e.2.1))).Sublist
       (v2.MapId w).state.2 ∧
     (v2.MapIdDeleting w lambda2).state.2.Pairwise (fun e0 e => e.1 ∉ e0.2.2) ∧
     (∀ c ∈ (v2.MapId w).state.2,
       (∀ e ∈ (v2.MapIdDeleting w lambda2).state.2, c.1 ∉ e.2.2) →
       c ∈ (v2.MapIdDeleting w lambda2).state.2.map (fun e => (e.1, e.2.1))) ∧
     (v2.MapIdDeleting w lambda2).state.1.engine.storage = w.engine.storage) := by
  constructor
  · rw [(View1_MapId_calls v1 w).1]
    exact archLoopDeleting_spec lambda1 w h.worldInv h.slotInv (fun w1 => View1.ptrs v1 w1)
      (fun w1 hw1 => View1_ptrs_congr v1 w w1 hw1) _ hs1
  · rw [(View2_MapId_calls v2 w).1]
    exact archLoopDeleting_spec lambda2 w h.worldInv h.slotInv (fun w1 => View2.ptrs v2 w1)
      (fun w1 hw1 => View2_ptrs_congr v2 w w1 hw1) _ hs2

end deletingReplay

/-- The scenario of C26: in the sample world (entities 2 and 4 in archetype 0,
entity 7 in archetype 1) the callback deletes entity 4 while it is invoked for
entity 2; entity 4 is then never passed, and entities 2 and 7 are passed with the
pointers of the `MapId` without deletions. -/
theorem Delete_inside_MapId_witness :
    ((Query1 (worldAfter sampleCalls) 1 []).MapId (worldAfter sampleCalls)).state.2 =
      [(2, some ⟨1, 0, 0⟩), (4, some ⟨1, 0, 2⟩), (7, some ⟨1, 1, 0⟩)] ∧
    ((Query1 (worldAfter sampleCalls) 1 []).MapIdDeleting (worldAfter sampleCalls)
      deletesFourAtTwo).state.2 = [(2, some ⟨1, 0, 0⟩, [4]), (7, some ⟨1, 1, 0⟩, [])] ∧
    ((⟨listedFilter [0, 1], 1, 2⟩ : View2).MapIdDeleting (worldAfter sampleCalls)
      deletesFourAtTwo).state.2 =
      [(2, (some ⟨1, 0, 0⟩, none), [4]), (7, (some ⟨1, 1, 0⟩, some ⟨2, 1, 0⟩), [])] ∧
    (((Query1 (worldAfter sampleCalls) 1 []).MapIdDeleting (worldAfter sampleCalls)
      deletesFourAtTwo).state.1.Exists 4 = false) ∧
    ((((Query1 (worldAfter sampleCalls) 1 []).MapIdDeleting (worldAfter sampleCalls)
        deletesFourAtTwo).panicked = none ∧
     ((Query1 (worldAfter sampleCalls) 1 []).MapIdDeleting (worldAfter sampleCalls)
        deletesFourAtTwo).state =
       replayDeleting deletesFourAtTwo
         ((Query1 (worldAfter sampleCalls) 1 []).MapId (worldAfter sampleCalls)).state.2
         (worldAfter sampleCalls) ∧
     (((Query1 (worldAfter sampleCalls) 1 []).MapIdDeleting (worldAfter sampleCalls)
        deletesFourAtTwo).state.2.map (fun e => (e.1, e.2.1))).Sublist
       ((Query1 (worldAfter sampleCalls) 1 []).MapId (worldAfter sampleCalls)).state.2 ∧
     ((Query1 (worldAfter sampleCalls) 1 []).MapIdDeleting (worldAfter sampleCalls)
        deletesFourAtTwo).state.2.Pairwise (fun e0 e => e.1 ∉ e0.2.2) ∧
     (∀ c ∈ ((Query1 (worldAfter sampleCalls) 1 []).MapId (worldAfter sampleCalls)).state.2,
       (∀ e ∈ ((Query1 (worldAfter sampleCalls) 1 []).MapIdDeleting (worldAfter sampleCalls)
          deletesFourAtTwo).state.2, c.1 ∉ e.2.2) →
       c ∈ ((Query1 (worldAfter sampleCalls) 1 []).MapIdDeleting (worldAfter sampleCalls)
          deletesFourAtTwo).state.2.map (fun e => (e.1, e.2.1))) ∧
     ((Query1 (worldAfter sampleCalls) 1 []).MapIdDeleting (worldAfter sampleCalls)
        deletesFourAtTwo).state.1.engine.storage = (worldAfter sampleCalls).engine.storage) ∧
    (((⟨listedFilter [0, 1], 1, 2⟩ : View2).MapIdDeleting (worldAfter sampleCalls)
        deletesFourAtTwo).panicked = none ∧
     ((⟨listedFilter [0, 1], 1, 2⟩ : View2).MapIdDeleting (worldAfter sampleCalls)
        deletesFourAtTwo).state =
       replayDeleting deletesFourAtTwo
         ((⟨listedFilter [0, 1], 1, 2⟩ : View2).MapId (worldAfter sampleCalls)).state.2
         (worldAfter sampleCalls) ∧
     (((⟨listedFilter [0, 1], 1, 2⟩ : View2).MapIdDeleting (worldAfter sampleCalls)
        deletesFourAtTwo).state.2.map (fun e => (e.1, e.2.1))).Sublist
       ((⟨listedFilter [0, 1], 1, 2⟩ : View2).MapId (worldAfter sampleCalls)).state.2 ∧
     ((⟨listedFilter [0, 1], 1, 2⟩ : View2).MapIdDeleting (worldAfter sampleCalls)
        deletesFourAtTwo).state.2.Pairwise (fun e0 e => e.1 ∉ e0.2.2) ∧
     (∀ c ∈ ((⟨listedFilter [0, 1], 1, 2⟩ : View2).MapId (worldAfter sampleCalls)).state.2,
       (∀ e ∈ ((⟨listedFilter [0, 1], 1, 2⟩ : View2).MapIdDeleting (worldAfter sampleCalls)
          deletesFourAtTwo).state.2, c.1 ∉ e.2.2) →
       c ∈ ((⟨listedFilter [0, 1], 1, 2⟩ : View2).MapIdDeleting (worldAfter sampleCalls)
          deletesFourAtTwo).state.2.map (fun e => (e.1, e.2.1))) ∧
     ((⟨listedFilter [0, 1], 1, 2⟩ : View2).MapIdDeleting (worldAfter sampleCalls)
        deletesFourAtTwo).state.1.engine.storage = (worldAfter sampleCalls).engine.storage)) :=
  ⟨by decide, by decide, by decide, by decide,
   Delete_inside_MapId (worldAfter sampleCalls)
     (worldAfter_reachable sampleCalls (by intro min max h; simp [sampleCalls] at h))
     (Query1 (worldAfter sampleCalls) 1 []) ⟨listedFilter [0, 1], 1, 2⟩ (by decide) (by decide)
     deletesFourAtTwo deletesFourAtTwo⟩


/-! ### The range and the cursor of the allocator -/

section cursor
variable {E C V : Type}

theorem SetIdRange_passes (w : World E) (min max : Id)
    (hp : (w.SetIdRange min max).panicked = none) :
    2 ≤ min ∧ min ≤ max ∧ (w.SetIdRange min max).state.minId = min ∧
    (w.SetIdRange min max).state.maxId = max := by
  unfold World.SetIdRange at hp ⊢
  unfold firstEntity at hp ⊢
  simp only [Id] at *
  split_ifs at hp ⊢ with h1 h2 h3
  exact ⟨by omega, by omega, rfl, rfl⟩

theorem SetIdRange_fails (w : World E) (min max : Id)
    (hp : (w.SetIdRange min max).panicked ≠ none) : (w.SetIdRange min max).state = w := by
  unfold World.SetIdRange at hp ⊢
  split_ifs at hp ⊢ with h1 h2 h3
  · rfl
  · rfl
  · rfl
  · exact absurd rfl hp

/-- The range fields of every reachable world: `2 <= minId <= maxId <= MaxEntity`. -/
theorem Reachable.range {ops : archEngineCalls E C V} {w : World E}
    (h : Reachable ops w) : 2 ≤ w.minId ∧ w.minId ≤ w.maxId ∧ w.maxId ≤ MaxEntity := by
  induction h with
  | init =>
    refine ⟨le_refl _, ?_, le_refl _⟩
    show (2 : Nat) ≤ 4294967295
    decide
  | setIdRange min max _ _ hmax hp _ =>
    obtain ⟨h1, h2, h3, h4⟩ := SetIdRange_passes _ min max hp
    rw [h3, h4]
    exact ⟨h1, h2, hmax⟩
  | newId _ ih => rw [NewId_minId, NewId_maxId]; exact ih
  | write id comp _ hw ih =>
    rw [(Write_minId ops _ _ id comp hw).2.1, (Write_minId ops _ _ id comp hw).2.2]
    exact ih
  | delete id b _ hd ih =>
    rw [(Delete_minId ops _ _ id b hd).2.1, (Delete_minId ops _ _ id b hd).2.2]
    exact ih

/-- A `SetIdRange` call with 32-bit arguments, panicking or not, leaves a
reachable world reachable. -/
theorem Reachable.afterSetIdRange {ops : archEngineCalls E C V} {w : World E}
    (h : Reachable ops w) (min max : Id) (hmin : min ≤ MaxEntity) (hmax : max ≤ MaxEntity) :
    Reachable ops (w.SetIdRange min max).state := by
  cases hp : (w.SetIdRange min max).panicked with
  | none => exact Reachable.setIdRange min max h hmin hmax hp
  | some msg =>
    rw [SetIdRange_fails w min max (by rw [hp]; exact Option.some_ne_none msg)]
    exact h

/-- The first `NewId` of a world whose cursor is below `minId` is that of the
world with the cursor moved to `minId`. -/
theorem NewId_clamped (w : World E) :
    w.NewId = ({ w with nextId := Nat.max w.nextId w.minId } : World E).NewId := by
  by_cases h : w.nextId < w.minId
  · have hm : Nat.max w.nextId w.minId = w.minId := Nat.max_eq_right (Nat.le_of_lt h)
    rw [hm]
    unfold World.NewId
    simp only [if_pos h, lt_irrefl, if_false]
  · have hm : Nat.max w.nextId w.minId = w.nextId := Nat.max_eq_left (Nat.le_of_not_lt h)
    rw [hm]

theorem NewIds_clamped (n : Nat) (w : World E) :
    (w.NewIds n).1 = (({ w with nextId := Nat.max w.nextId w.minId } : World E).NewIds n).1 := by
  cases n with
  | zero => rfl
  | succ n =>
    show w.NewId.1 :: (World.NewIds w.NewId.2 n).1 = _
    rw [NewId_clamped w]
    rfl

/-- The ids of successive `NewId` calls when the cursor is at most `maxId`: the
calls start at `max(nextId, minId)` and go round the range. -/
theorem NewIds_from_cursor (w : World E) (h1 : w.minId ≤ w.maxId) (h2 : w.nextId ≤ w.maxId)
    (h3 : w.maxId ≤ MaxEntity) (n j : Nat) (hj : j < n) :
    (w.NewIds n).1[j]? =
      some (w.minId + (Nat.max w.nextId w.minId - w.minId + j) % (w.maxId - w.minId + 1)) := by
  rw [NewIds_clamped n w]
  exact NewIds_getElem? n ({ w with nextId := Nat.max w.nextId w.minId } : World E)
    (Nat.le_max_right _ _) (Nat.max_le.mpr ⟨h2, h1⟩) h3 j hj

/-- C31: a `SetIdRange(min, max)` that passes its guards (`max` a 32-bit value)
leaves `nextId` and the entity map as they were; and if `nextId <= max` at that
point, then the `j`-th later `NewId` (counting from 0) returns
`min + ((max(nextId, min) - min + j) mod (max - min + 1))`: every returned id is
in `[min, max]` and the first one is `max(nextId, min)`, also when `Write` and
`Delete` calls (but no `SetIdRange`) come in between. -/
theorem SetIdRange_keeps_cursor (ops : archEngineCalls E C V) (w : World E) (min max : Id)
    (hmax : max ≤ MaxEntity) (hp : (w.SetIdRange min max).panicked = none) :
    (w.SetIdRange min max).state.nextId = w.nextId ∧
    (w.SetIdRange min max).state.arch = w.arch ∧
    (w.nextId ≤ max →
      (w.SetIdRange min max).state.NewId.1 = Nat.max w.nextId min ∧
      (∀ n j, j < n → ((w.SetIdRange min max).state.NewIds n).1[j]? =
        some (min + (Nat.max w.nextId min - min + j) % (max - min + 1))) ∧
      (∀ n id, id ∈ ((w.SetIdRange min max).state.NewIds n).1 → min ≤ id ∧ id ≤ max) ∧
      (∀ (calls : List (Call C)) (ids : List Id),
        (∀ a b, Call.setIdRange a b ∉ calls) →
        (w.SetIdRange min max).state.idsOf ops calls = some ids →
        ids.head? = (if ids = [] then none else some (Nat.max w.nextId min)) ∧
        ∀ id ∈ ids, min ≤ id ∧ id ≤ max)) := by
  obtain ⟨hmin2, hle, hmin, hmaxId⟩ := SetIdRange_passes w min max hp
  have hnext := SetIdRange_state_nextId w min max
  refine ⟨hnext, SetIdRange_state_arch w min max, ?_⟩
  intro hcur
  have hget : ∀ n j, j < n → ((w.SetIdRange min max).state.NewIds n).1[j]? =
      some (min + (Nat.max w.nextId min - min + j) % (max - min + 1)) := by
    intro n j hj
    have h := NewIds_from_cursor (w.SetIdRange min max).state (by rw [hmin, hmaxId]; exact hle)
      (by rw [hnext, hmaxId]; exact hcur) (by rw [hmaxId]; exact hmax) n j hj
    rw [hnext, hmin, hmaxId] at h
    exact h
  have hfirst : (w.SetIdRange min max).state.NewId.1 = Nat.max w.nextId min := by
    have h := hget 1 0 Nat.one_pos
    have hlt : Nat.max w.nextId min - min + 0 < max - min + 1 := by
      have : Nat.max w.nextId min ≤ max := Nat.max_le.mpr ⟨hcur, hle⟩
      have : min ≤ Nat.max w.nextId min := Nat.le_max_right _ _
      simp only [Id] at *
      omega
    rw [Nat.mod_eq_of_lt hlt] at h
    have h0 : ((w.SetIdRange min max).state.NewIds 1).1[0]? =
        some (w.SetIdRange min max).state.NewId.1 := rfl
    rw [h0, Option.some.injEq] at h
    rw [h]
    have : min ≤ Nat.max w.nextId min := Nat.le_max_right _ _
    simp only [Id] at *
    omega
  have hin : ∀ n id, id ∈ ((w.SetIdRange min max).state.NewIds n).1 →
      min ≤ id ∧ id ≤ max := by
    intro n id hid
    obtain ⟨j, hj, hjid⟩ := List.getElem_of_mem hid
    rw [NewIds_length] at hj
    have h := hget n j hj
    rw [List.getElem?_eq_getElem (by rw [NewIds_length]; exact hj), hjid,
      Option.some.injEq] at h
    have hm : (Nat.max w.nextId min - min + j) % (max - min + 1) < max - min + 1 :=
      Nat.mod_lt _ (Nat.succ_pos _)
    simp only [Id] at *
    omega
  refine ⟨hfirst, hget, hin, ?_⟩
  intro calls ids hno hids
  have heq := idsOf_eq_NewIds ops calls (w.SetIdRange min max).state ids hno hids
  refine ⟨?_, ?_⟩
  · cases ids with
    | nil => rfl
    | cons i rest =>
      have h0 : (((w.SetIdRange min max).state.NewIds (rest.length + 1)).1).head? =
          some (w.SetIdRange min max).state.NewId.1 := rfl
      have h1 : (i :: rest).head? =
          (((w.SetIdRange min max).state.NewIds (rest.length + 1)).1).head? :=
        congrArg List.head? heq
      rw [h1, h0, hfirst]
      simp
  · intro id hid
    rw [heq] at hid
    exact hin _ id hid

theorem SetIdRange_keeps_cursor_witness :
    (((NewWorld (engineCalls Nat)).NewId.2.SetIdRange 2 4).state.NewIds 5).1 = [3, 4, 2, 3, 4] ∧
    (((NewWorld (engineCalls Nat)).NewId.2.SetIdRange 2 4).state.nextId =
      (NewWorld (engineCalls Nat)).NewId.2.nextId ∧
     ((NewWorld (engineCalls Nat)).NewId.2.SetIdRange 2 4).state.arch =
      (NewWorld (engineCalls Nat)).NewId.2.arch ∧
     ((NewWorld (engineCalls Nat)).NewId.2.nextId ≤ 4 →
      ((NewWorld (engineCalls Nat)).NewId.2.SetIdRange 2 4).state.NewId.1 =
        Nat.max (NewWorld (engineCalls Nat)).NewId.2.nextId 2 ∧
      (∀ n j, j < n → (((NewWorld (engineCalls Nat)).NewId.2.SetIdRange 2 4).state.NewIds n).1[j]? =
        some (2 + (Nat.max (NewWorld (engineCalls Nat)).NewId.2.nextId 2 - 2 + j) %
          (4 - 2 + 1))) ∧
      (∀ n id, id ∈ (((NewWorld (engineCalls Nat)).NewId.2.SetIdRange 2 4).state.NewIds n).1 →
        2 ≤ id ∧ id ≤ 4) ∧
      (∀ (calls : List (Call (Component Nat))) (ids : List Id),
        (∀ a b, Call.setIdRange a b ∉ calls) →
        ((NewWorld (engineCalls Nat)).NewId.2.SetIdRange 2 4).state.idsOf (engineCalls Nat)
          calls = some ids →
        ids.head? =
          (if ids = [] then none
           else some (Nat.max (NewWorld (engineCalls Nat)).NewId.2.nextId 2)) ∧
        ∀ id ∈ ids, 2 ≤ id ∧ id ≤ 4))) :=
  ⟨by decide,
   SetIdRange_keeps_cursor (engineCalls Nat) (NewWorld (engineCalls Nat)).NewId.2 2 4
     (by decide) (by decide)⟩

/-- C32: in every world reachable from `NewWorld` by `SetIdRange` (32-bit
arguments), `NewId`, `Write` and `Delete` calls, `2 <= minId <= maxId <=
MaxEntity`; a `SetIdRange` call that panics leaves the world as it was, so the
world at the exit of any `SetIdRange` call, panicking or not, is reachable again
and has the same bounds. -/
theorem allocator_range_invariant (ops : archEngineCalls E C V) (w : World E)
    (h : Reachable ops w) :
    (2 ≤ w.minId ∧ w.minId ≤ w.maxId ∧ w.maxId ≤ MaxEntity) ∧
    ∀ min max : Id, min ≤ MaxEntity → max ≤ MaxEntity →
      ((w.SetIdRange min max).panicked ≠ none → (w.SetIdRange min max).state = w) ∧
      Reachable ops (w.SetIdRange min max).state ∧
      2 ≤ (w.SetIdRange min max).state.minId ∧
      (w.SetIdRange min max).state.minId ≤ (w.SetIdRange min max).state.maxId ∧
      (w.SetIdRange min max).state.maxId ≤ MaxEntity :=
  ⟨h.range, fun min max hmin hmax =>
    ⟨SetIdRange_fails w min max, h.afterSetIdRange min max hmin hmax,
      (h.afterSetIdRange min max hmin hmax).range⟩⟩

theorem allocator_range_invariant_witness :
    Reachable (engineCalls Nat)
      (worldAfter [Call.setIdRange 5 9, Call.newId, Call.write 5 [⟨1, 7⟩], Call.delete 5]) ∧
    (worldAfter [Call.setIdRange 5 9, Call.newId, Call.write 5 [⟨1, 7⟩], Call.delete 5]).minId
      = 5 ∧
    (worldAfter [Call.setIdRange 5 9, Call.newId, Call.write 5 [⟨1, 7⟩], Call.delete 5]).maxId
      = 9 ∧
    ((2 ≤ (worldAfter [Call.setIdRange 5 9, Call.newId, Call.write 5 [⟨1, 7⟩],
        Call.delete 5]).minId ∧
      (worldAfter [Call.setIdRange 5 9, Call.newId, Call.write 5 [⟨1, 7⟩],
        Call.delete 5]).minId ≤
      (worldAfter [Call.setIdRange 5 9, Call.newId, Call.write 5 [⟨1, 7⟩],
        Call.delete 5]).maxId ∧
      (worldAfter [Call.setIdRange 5 9, Call.newId, Call.write 5 [⟨1, 7⟩],
        Call.delete 5]).maxId ≤ MaxEntity)) :=
  ⟨worldAfter_reachable _ (by intro min max h; simp at h; obtain ⟨h1, h2⟩ := h; subst h1 h2; decide),
   by decide, by decide,
   (allocator_range_invariant (engineCalls Nat)
     (worldAfter [Call.setIdRange 5 9, Call.newId, Call.write 5 [⟨1, 7⟩], Call.delete 5])
     (worldAfter_reachable _
       (by intro min max h; simp at h; obtain ⟨h1, h2⟩ := h; subst h1 h2; decide))).1⟩

end cursor

/-! ### What Write and Delete leave alone -/

section frame
variable {E C V : Type}

/-- C34: `Write(id, comps...)` and `Delete(world, id)`, when they return, leave
`nextId`, `minId` and `maxId` as they were, and for every other id `j != id`
leave `Exists(j)` and the archetype id recorded for `j` as they were; over the
archetype engine both return in every world that satisfies the engine's
invariants. -/
theorem Write_Delete_frame [Inhabited V] (ops : archEngineCalls E C V) (w : World E) (id : Id)
    (comp : List C) :
    (∀ w1, w.Write ops id comp = some w1 →
      (w1.nextId = w.nextId ∧ w1.minId = w.minId ∧ w1.maxId = w.maxId) ∧
      ∀ j, j ≠ id → w1.Exists j = w.Exists j ∧ w1.arch j = w.arch j) ∧
    (∀ w1 b, Delete ops w id = some (w1, b) →
      (w1.nextId = w.nextId ∧ w1.minId = w.minId ∧ w1.maxId = w.maxId) ∧
      ∀ j, j ≠ id → w1.Exists j = w.Exists j ∧ w1.arch j = w.arch j) ∧
    (∀ (x : World (archEngine V)) (c : List (Component V)), WorldInv x →
      (x.Write (engineCalls V) id c).isSome = true ∧
      (Delete (engineCalls V) x id).isSome = true) := by
  refine ⟨?_, ?_, ?_⟩
  · intro w1 h
    refine ⟨Write_minId ops w w1 id comp h, ?_⟩
    intro j hj
    have ha := Write_arch_other ops w w1 id j comp h hj
    exact ⟨by unfold World.Exists; rw [ha], ha⟩
  · intro w1 b h
    refine ⟨Delete_minId ops w w1 id b h, ?_⟩
    intro j hj
    have ha := Delete_arch_other ops w w1 id j b h hj
    exact ⟨by unfold World.Exists; rw [ha], ha⟩
  · intro x c hx
    obtain ⟨x1, h1, _⟩ := Write_spec x id c hx
    obtain ⟨x2, b, h2, _⟩ := Delete_spec x id hx
    exact ⟨by rw [h1]; rfl, by rw [h2]; rfl⟩

theorem Write_Delete_frame_witness :
    (worldAfter [Call.write 3 [⟨1, 5⟩]]).Write (engineCalls Nat) 2 [⟨2, 7⟩] =
      some (worldAfter [Call.write 3 [⟨1, 5⟩], Call.write 2 [⟨2, 7⟩]]) ∧
    (worldAfter [Call.write 3 [⟨1, 5⟩]]).arch 3 = some 0 ∧
    (((worldAfter [Call.write 3 [⟨1, 5⟩], Call.write 2 [⟨2, 7⟩]]).nextId =
        (worldAfter [Call.write 3 [⟨1, 5⟩]]).nextId ∧
      (worldAfter [Call.write 3 [⟨1, 5⟩], Call.write 2 [⟨2, 7⟩]]).minId =
        (worldAfter [Call.write 3 [⟨1, 5⟩]]).minId ∧
      (worldAfter [Call.write 3 [⟨1, 5⟩], Call.write 2 [⟨2, 7⟩]]).maxId =
        (worldAfter [Call.write 3 [⟨1, 5⟩]]).maxId) ∧
     ∀ j, j ≠ 2 →
      (worldAfter [Call.write 3 [⟨1, 5⟩], Call.write 2 [⟨2, 7⟩]]).Exists j =
        (worldAfter [Call.write 3 [⟨1, 5⟩]]).Exists j ∧
      (worldAfter [Call.write 3 [⟨1, 5⟩], Call.write 2 [⟨2, 7⟩]]).arch j =
        (worldAfter [Call.write 3 [⟨1, 5⟩]]).arch j) :=
  ⟨rfl, by decide,
   (Write_Delete_frame (engineCalls Nat) (worldAfter [Call.write 3 [⟨1, 5⟩]]) 2
     [⟨2, 7⟩]).1 _ rfl⟩

end frame

/-! ### The reserved id on write and on view read -/

section reserved
variable {E C V : Type}

/-- C33: a `Write(InvalidEntity, comps...)` with at least one component that
returns leaves `Exists(InvalidEntity)` true, and over the archetype engine it
returns in every world that satisfies the engine's invariants; `View1.Read` and
`View2.Read` of `InvalidEntity` return nil in every position in every world
state, whatever the entity map and the engine hold. -/
theorem InvalidEntity_written_not_viewed [Inhabited V] (ops : archEngineCalls E C V)
    (w : World E) (comp : List C) (hne : comp ≠ []) :
    (∀ w1, w.Write ops InvalidEntity comp = some w1 → w1.Exists InvalidEntity = true) ∧
    (∀ (x : World (archEngine V)) (c : List (Component V)), c ≠ [] → WorldInv x →
      ∃ x1, x.Write (engineCalls V) InvalidEntity c = some x1 ∧
        x1.Exists InvalidEntity = true) ∧
    (∀ (x : World (archEngine V)) (v1 : View1) (v2 : View2),
      v1.Read x InvalidEntity = some none ∧ v2.Read x InvalidEntity = some (none, none)) := by
  have hlen : ∀ {α : Type} (l : List α), l ≠ [] → ¬ l.length ≤ 0 := by
    intro α l hl
    cases l with
    | nil => exact absurd rfl hl
    | cons c cs => simp
  refine ⟨?_, ?_, ?_⟩
  · intro w1 h
    rw [Write_arch_self ops w w1 InvalidEntity comp h, if_neg (hlen comp hne)]
  · intro x c hc hx
    obtain ⟨x1, h1, _⟩ := Write_spec x InvalidEntity c hx
    refine ⟨x1, h1, ?_⟩
    rw [Write_arch_self (engineCalls V) x x1 InvalidEntity c h1, if_neg (hlen c hc)]
  · intro x v1 v2
    exact ⟨by unfold View1.Read; rw [if_pos rfl], by unfold View2.Read; rw [if_pos rfl]⟩

theorem InvalidEntity_written_not_viewed_witness :
    (NewWorld (engineCalls Nat)).Write (engineCalls Nat) InvalidEntity [⟨1, 7⟩] =
      some (worldAfter [Call.write InvalidEntity [⟨1, 7⟩]]) ∧
    (worldAfter [Call.write InvalidEntity [⟨1, 7⟩]]).Exists InvalidEntity = true ∧
    (Query1 (worldAfter [Call.write InvalidEntity [⟨1, 7⟩]]) 1 []).Read
      (worldAfter [Call.write InvalidEntity [⟨1, 7⟩]]) InvalidEntity = some none ∧
    (Query2 (worldAfter [Call.write InvalidEntity [⟨1, 7⟩]]) 1 2 []).Read
      (worldAfter [Call.write InvalidEntity [⟨1, 7⟩]]) InvalidEntity = some (none, none) :=
  ⟨rfl,
   (InvalidEntity_written_not_viewed (engineCalls Nat) (NewWorld (engineCalls Nat)) [⟨1, 7⟩]
     (by simp)).1 _ rfl,
   ((InvalidEntity_written_not_viewed (engineCalls Nat) (NewWorld (engineCalls Nat)) [⟨1, 7⟩]
     (by simp)).2.2 _ _ (Query2 (worldAfter [Call.write InvalidEntity [⟨1, 7⟩]]) 1 2 [])).1,
   ((InvalidEntity_written_not_viewed (engineCalls Nat) (NewWorld (engineCalls Nat)) [⟨1, 7⟩]
     (by simp)).2.2 _ (Query1 (worldAfter [Call.write InvalidEntity [⟨1, 7⟩]]) 1 []) _).2⟩

end reserved

/-! ### MapSlices against MapId -/

section agreement
variable {V : Type}

theorem filterMap_eq_map_getD {α β : Type} (f : α → Option β) (d : β) (l : List α)
    (h : ∀ a ∈ l, (f a).isSome = true) : l.filterMap f = l.map (fun a => (f a).getD d) := by
  induction l with
  | nil => rfl
  | cons a l ih =>
    have ha := h a (List.mem_cons_self a l)
    obtain ⟨b, hb⟩ := Option.isSome_iff_exists.mp ha
    rw [List.filterMap_cons_some hb, List.map_cons, hb,
      ih (fun x hx => h x (List.mem_cons_of_mem a hx))]
    rfl

theorem zip_map_self {α β : Type} (g : α → β) (l : List α) :
    l.zip (l.map g) = l.map (fun a => (a, g a)) := by
  induction l with
  | nil => rfl
  | cons a l ih => rw [List.map_cons, List.zip_cons_cons, ih, List.map_cons]

theorem slotLoop_eq_filterMap {β : Type} (ptrs : Nat → Option β) (ptr : Nat → β)
    (ids : List Id) :
    ∀ (idx : Nat) (acc : List (Id × β)),
      (∀ k, idx ≤ k → k < idx + ids.length → ptrs k = some (ptr k)) →
      slotLoop ptrs idx ids acc =
        ⟨acc ++ (ids.enumFrom idx).filterMap
          (fun x => if x.2 = InvalidEntity then none else some (x.2, ptr x.1)), none⟩ := by
  induction ids with
  | nil =>
    intro idx acc _
    simp [slotLoop]
  | cons i ids ih =>
    intro idx acc h
    have hrest : ∀ k, idx + 1 ≤ k → k < idx + 1 + ids.length → ptrs k = some (ptr k) := by
      intro k hk1 hk2
      apply h k (by omega)
      simp only [List.length_cons]
      omega
    by_cases hi : i = InvalidEntity
    · simp only [slotLoop, if_pos hi, List.enumFrom_cons]
      rw [ih (idx + 1) acc hrest, List.filterMap_cons_none (by simp [hi])]
    · have hp : ptrs idx = some (ptr idx) :=
        h idx (le_refl _) (by simp only [List.length_cons]; omega)
      simp only [slotLoop, if_neg hi, hp, List.enumFrom_cons]
      rw [ih (idx + 1) _ hrest]
      simp [List.filterMap_cons, hi]

/-- The invocations of the archetype loop when every archetype of the list has a
lookup and the pointers of every slot of its id column resolve to `ptr a k`. -/
theorem archLoop_eq_sliceCalls {β : Type} (w : World (archEngine V))
    (ptrs : archetypeId → Nat → Option β) (ptr : archetypeId → Nat → β)
    (archIds : List archetypeId) :
    ∀ acc : List (Id × β),
      (∀ a ∈ archIds, ∃ l, w.engine.lookup a = some l ∧
        ∀ k, k < l.id.length → ptrs a k = some (ptr a k)) →
      archLoop w ptrs archIds acc =
        ⟨acc ++ (archIds.map (fun a => sliceCalls (ptr a) (idColumn w a))).flatten, none⟩ := by
  induction archIds with
  | nil =>
    intro acc _
    simp [archLoop]
  | cons a rest ih =>
    intro acc h
    obtain ⟨l, hl, hk⟩ := h a (List.mem_cons_self a rest)
    have hs := slotLoop_eq_filterMap (ptrs a) (ptr a) l.id 0 acc
      (fun k _ hk2 => hk k (by omega))
    have hcol : idColumn w a = l.id := by simp [idColumn, hl]
    simp only [archLoop, hl, hs]
    rw [ih _ (fun b hb => h b (List.mem_cons_of_mem a hb)), List.map_cons, List.flatten_cons,
      hcol, List.append_assoc]
    rfl

theorem sliceCalls_ids {β : Type} (ptr : Nat → β) (ids : List Id) :
    (sliceCalls ptr ids).map Prod.fst = liveIds ids := by
  have h : ∀ (l : List Id) (idx : Nat),
      ((l.enumFrom idx).filterMap
        (fun x => if x.2 = InvalidEntity then none else some (x.2, ptr x.1))).map Prod.fst =
        liveIds l := by
    intro l
    induction l with
    | nil => intro idx; rfl
    | cons i l ih =>
      intro idx
      rw [List.enumFrom_cons, liveIds_cons]
      by_cases hi : i = InvalidEntity
      · rw [List.filterMap_cons_none (by simp [hi]), ih, if_pos hi]
      · rw [if_neg hi, ← ih (idx + 1)]
        simp [List.filterMap_cons, hi]
  exact h ids 0

theorem View1_MapSlices_calls (v : View1) (w : World (archEngine V))
    (h : v.slicesSafe w = true) :
    (v.MapSlices w).panicked = none ∧
    (v.MapSlices w).state.2 = (v.filter.regenerate w).archIds.filterMap (v.slicesOf w) := by
  obtain ⟨h1, h2⟩ := View1_gatherSlices_spec { v with filter := v.filter.regenerate w } w
    (v.filter.regenerate w).archIds []
  rw [View1.slicesSafe, ← h1] at h
  simp only [View1.MapSlices]
  split
  · simp_all
  · exact ⟨rfl, by simpa [View1.slicesOf] using h2 h⟩

theorem View2_MapSlices_calls (v : View2) (w : World (archEngine V))
    (h : v.slicesSafe w = true) :
    (v.MapSlices w).panicked = none ∧
    (v.MapSlices w).state.2 = (v.filter.regenerate w).archIds.filterMap (v.slicesOf w) := by
  obtain ⟨h1, h2⟩ := View2_gatherSlices_spec { v with filter := v.filter.regenerate w } w
    (v.filter.regenerate w).archIds []
  rw [View2.slicesSafe, ← h1] at h
  simp only [View2.MapSlices]
  split
  · simp_all
  · exact ⟨rfl, by simpa [View2.slicesOf] using h2 h⟩

/-- The two iterations of a one-column view in a world where every matched
archetype has a lookup and the column, as long as the id column. -/
theorem View1_slices_vs_ids (v : View1) (w : World (archEngine V))
    (h : ∀ a ∈ (v.filter.regenerate w).archIds, ∃ l colA, w.engine.lookup a = some l ∧
      w.engine.storage v.storageA a = some colA ∧ colA.length = l.id.length) :
    (v.MapSlices w).panicked = none ∧ (v.MapId w).panicked = none ∧
    (v.MapSlices w).state.2 =
      (v.filter.regenerate w).archIds.map (fun a => ((v.slicesOf w a).getD ([], []))) ∧
    (v.MapId w).state.2 = ((v.filter.regenerate w).archIds.map (fun a =>
      sliceCalls (fun k => some (⟨v.storageA, a, k⟩ : compPtr)) (idColumn w a))).flatten := by
  have hsafe : v.slicesSafe w = true := by
    rw [View1.slicesSafe, List.all_eq_true]
    intro a ha
    obtain ⟨l, colA, hl, _, _⟩ := h a ha
    simp [hl]
  obtain ⟨hs1, hs2⟩ := View1_MapSlices_calls v w hsafe
  obtain ⟨hm1, hm2⟩ := View1_MapId_calls v w
  have hloop := archLoop_eq_sliceCalls w (v.ptrs w)
    (fun a k => some (⟨v.storageA, a, k⟩ : compPtr)) (v.filter.regenerate w).archIds [] (by
      intro a ha
      obtain ⟨l, colA, hl, hc, hlen⟩ := h a ha
      refine ⟨l, hl, ?_⟩
      intro k hk
      simp only [View1.ptrs, elemPtr, hc]
      rw [if_pos (by rw [hlen]; exact hk)])
  refine ⟨hs1, ?_, ?_, ?_⟩
  · rw [hm2, hloop]
  · rw [hs2]
    apply filterMap_eq_map_getD
    intro a ha
    obtain ⟨l, colA, hl, hc, _⟩ := h a ha
    simp [View1.slicesOf, hl, hc]
  · rw [hm1, hloop]
    simp

/-- The two iterations of a two-column view in a world where every matched
archetype has a lookup and both columns, as long as the id column. -/
theorem View2_slices_vs_ids (v : View2) (w : World (archEngine V))
    (h : ∀ a ∈ (v.filter.regenerate w).archIds, ∃ l colA colB, w.engine.lookup a = some l ∧
      w.engine.storage v.storageA a = some colA ∧ colA.length = l.id.length ∧
      w.engine.storage v.storageB a = some colB ∧ colB.length = l.id.length) :
    (v.MapSlices w).panicked = none ∧ (v.MapId w).panicked = none ∧
    (v.MapSlices w).state.2 =
      (v.filter.regenerate w).archIds.map (fun a => ((v.slicesOf w a).getD ([], [], []))) ∧
    (v.MapId w).state.2 = ((v.filter.regenerate w).archIds.map (fun a =>
      sliceCalls (fun k => (some (⟨v.storageA, a, k⟩ : compPtr),
        some (⟨v.storageB, a, k⟩ : compPtr))) (idColumn w a))).flatten := by
  have hsafe : v.slicesSafe w = true := by
    rw [View2.slicesSafe, List.all_eq_true]
    intro a ha
    obtain ⟨l, colA, colB, hl, _⟩ := h a ha
    simp [hl]
  obtain ⟨hs1, hs2⟩ := View2_MapSlices_calls v w hsafe
  obtain ⟨hm1, hm2⟩ := View2_MapId_calls v w
  have hloop := archLoop_eq_sliceCalls w (v.ptrs w)
    (fun a k => (some (⟨v.storageA, a, k⟩ : compPtr), some (⟨v.storageB, a, k⟩ : compPtr)))
    (v.filter.regenerate w).archIds [] (by
      intro a ha
      obtain ⟨l, colA, colB, hl, hcA, hlenA, hcB, hlenB⟩ := h a ha
      refine ⟨l, hl, ?_⟩
      intro k hk
      simp only [View2.ptrs, elemPtr, hcA, hcB]
      rw [if_pos (by rw [hlenA]; exact hk), if_pos (by rw [hlenB]; exact hk)])
  refine ⟨hs1, ?_, ?_, ?_⟩
  · rw [hm2, hloop]
  · rw [hs2]
    apply filterMap_eq_map_getD
    intro a ha
    obtain ⟨l, colA, colB, hl, hcA, _, hcB, _⟩ := h a ha
    simp [View2.slicesOf, hl, hcA, hcB]
  · rw [hm1, hloop]
    simp

end agreement

section agreementClaim
variable {V : Type}

theorem View1_slicesOf_eq (v : View1) (w : World (archEngine V)) (a : archetypeId)
    (l : lookupList) (colA : List V) (hl : w.engine.lookup a = some l)
    (hc : w.engine.storage v.storageA a = some colA) :
    (v.slicesOf w a).getD ([], []) = (l.id, colA) ∧ idColumn w a = l.id := by
  simp [View1.slicesOf, idColumn, hl, hc]

theorem View2_slicesOf_eq (v : View2) (w : World (archEngine V)) (a : archetypeId)
    (l : lookupList) (colA colB : List V) (hl : w.engine.lookup a = some l)
    (hcA : w.engine.storage v.storageA a = some colA)
    (hcB : w.engine.storage v.storageB a = some colB) :
    (v.slicesOf w a).getD ([], [], []) = (l.id, colA, colB) ∧ idColumn w a = l.id := by
  simp [View2.slicesOf, idColumn, hl, hcA, hcB]

theorem sliceCalls_flatten_ids {β : Type} (w : World (archEngine V))
    (ptr : archetypeId → Nat → β) (archIds : List archetypeId) :
    ((archIds.map (fun a => sliceCalls (ptr a) (idColumn w a))).flatten).map Prod.fst =
      liveIds ((archIds.map (idColumn w)).flatten) := by
  rw [← flatten_liveIds, List.map_flatten, List.map_map]
  congr 1
  apply List.map_congr_left
  intro a _
  exact sliceCalls_ids _ _

/-- C35: in a world state in which every archetype the view matches has a
lookup and every requested column, each as long as the id column, `MapSlices`
and `MapId` both return, `MapSlices` invokes its callback once per matched
archetype, and the id slices it passes, concatenated and without the
`InvalidEntity` entries, are the ids `MapId` passes, in the same order; more
precisely the invocations of `MapId` are, archetype by archetype, one for each
position of the id slice whose entry is not `InvalidEntity`, with that entry and
pointers to the same position of the archetype's columns, and such a pointer
refers to the element at that position of the column slice `MapSlices` passes. -/
theorem MapSlices_agrees_with_MapId (w : World (archEngine V)) (v1 : View1) (v2 : View2) :
    ((∀ a ∈ (v1.filter.regenerate w).archIds, ∃ l colA, w.engine.lookup a = some l ∧
        w.engine.storage v1.storageA a = some colA ∧ colA.length = l.id.length) →
      (v1.MapSlices w).panicked = none ∧ (v1.MapId w).panicked = none ∧
      (v1.MapSlices w).state.2.length = (v1.filter.regenerate w).archIds.length ∧
      liveIds (((v1.MapSlices w).state.2.map Prod.fst).flatten) =
        (v1.MapId w).state.2.map Prod.fst ∧
      (v1.MapId w).state.2 =
        (((v1.filter.regenerate w).archIds.zip (v1.MapSlices w).state.2).map (fun x =>
          sliceCalls (fun k => some (⟨v1.storageA, x.1, k⟩ : compPtr)) x.2.1)).flatten ∧
      ∀ x ∈ (v1.filter.regenerate w).archIds.zip (v1.MapSlices w).state.2,
        ∀ k, k < x.2.1.length →
          k < x.2.2.length ∧ compPtr.load w.engine ⟨v1.storageA, x.1, k⟩ = x.2.2[k]?) ∧
    ((∀ a ∈ (v2.filter.regenerate w).archIds, ∃ l colA colB, w.engine.lookup a = some l ∧
        w.engine.storage v2.storageA a = some colA ∧ colA.length = l.id.length ∧
        w.engine.storage v2.storageB a = some colB ∧ colB.length = l.id.length) →
      (v2.MapSlices w).panicked = none ∧ (v2.MapId w).panicked = none ∧
      (v2.MapSlices w).state.2.length = (v2.filter.regenerate w).archIds.length ∧
      liveIds (((v2.MapSlices w).state.2.map Prod.fst).flatten) =
        (v2.MapId w).state.2.map Prod.fst ∧
      (v2.MapId w).state.2 =
        (((v2.filter.regenerate w).archIds.zip (v2.MapSlices w).state.2).map (fun x =>
          sliceCalls (fun k => (some (⟨v2.storageA, x.1, k⟩ : compPtr),
            some (⟨v2.storageB, x.1, k⟩ : compPtr))) x.2.1)).flatten ∧
      ∀ x ∈ (v2.filter.regenerate w).archIds.zip (v2.MapSlices w).state.2,
        ∀ k, k < x.2.1.length →
          (k < x.2.2.1.length ∧
            compPtr.load w.engine ⟨v2.storageA, x.1, k⟩ = x.2.2.1[k]?) ∧
          (k < x.2.2.2.length ∧
            compPtr.load w.engine ⟨v2.storageB, x.1, k⟩ = x.2.2.2[k]?)) := by
  constructor
  · intro h
    obtain ⟨hs, hm, hS, hM⟩ := View1_slices_vs_ids v1 w h
    have hfst : ((v1.filter.regenerate w).archIds.map
        (fun a => (v1.slicesOf w a).getD ([], []))).map Prod.fst =
        (v1.filter.regenerate w).archIds.map (idColumn w) := by
      rw [List.map_map]
      apply List.map_congr_left
      intro a ha
      obtain ⟨l, colA, hl, hc, _⟩ := h a ha
      obtain ⟨e1, e2⟩ := View1_slicesOf_eq v1 w a l colA hl hc
      show ((v1.slicesOf w a).getD ([], [])).1 = idColumn w a
      rw [e1, e2]
    refine ⟨hs, hm, by rw [hS, List.length_map], ?_, ?_, ?_⟩
    · rw [hS, hM, hfst, sliceCalls_flatten_ids]
    · rw [hS, zip_map_self, List.map_map, hM]
      congr 1
      apply List.map_congr_left
      intro a ha
      obtain ⟨l, colA, hl, hc, _⟩ := h a ha
      obtain ⟨e1, e2⟩ := View1_slicesOf_eq v1 w a l colA hl hc
      simp only [Function.comp_apply, e1, e2]
    · intro x hx k hk
      rw [hS, zip_map_self] at hx
      obtain ⟨a, ha, rfl⟩ := List.mem_map.mp hx
      obtain ⟨l, colA, hl, hc, hlen⟩ := h a ha
      obtain ⟨e1, _⟩ := View1_slicesOf_eq v1 w a l colA hl hc
      simp only [e1] at hk ⊢
      exact ⟨by rw [hlen]; exact hk, by simp [compPtr.load, hc]⟩
  · intro h
    obtain ⟨hs, hm, hS, hM⟩ := View2_slices_vs_ids v2 w h
    have hfst : ((v2.filter.regenerate w).archIds.map
        (fun a => (v2.slicesOf w a).getD ([], [], []))).map Prod.fst =
        (v2.filter.regenerate w).archIds.map (idColumn w) := by
      rw [List.map_map]
      apply List.map_congr_left
      intro a ha
      obtain ⟨l, colA, colB, hl, hcA, _, hcB, _⟩ := h a ha
      obtain ⟨e1, e2⟩ := View2_slicesOf_eq v2 w a l colA colB hl hcA hcB
      show ((v2.slicesOf w a).getD ([], [], [])).1 = idColumn w a
      rw [e1, e2]
    refine ⟨hs, hm, by rw [hS, List.length_map], ?_, ?_, ?_⟩
    · rw [hS, hM, hfst, sliceCalls_flatten_ids]
    · rw [hS, zip_map_self, List.map_map, hM]
      congr 1
      apply List.map_congr_left
      intro a ha
      obtain ⟨l, colA, colB, hl, hcA, _, hcB, _⟩ := h a ha
      obtain ⟨e1, e2⟩ := View2_slicesOf_eq v2 w a l colA colB hl hcA hcB
      simp only [Function.comp_apply, e1, e2]
    · intro x hx k hk
      rw [hS, zip_map_self] at hx
      obtain ⟨a, ha, rfl⟩ := List.mem_map.mp hx
      obtain ⟨l, colA, colB, hl, hcA, hlenA, hcB, hlenB⟩ := h a ha
      obtain ⟨e1, _⟩ := View2_slicesOf_eq v2 w a l colA colB hl hcA hcB
      simp only [e1] at hk ⊢
      exact ⟨⟨by rw [hlenA]; exact hk, by simp [compPtr.load, hcA]⟩,
        ⟨by rw [hlenB]; exact hk, by simp [compPtr.load, hcB]⟩⟩



/-- The scenario of C35 on the sample world: archetype 0 holds entities 2 and 4
around a hole, archetype 1 holds entity 7. -/
theorem MapSlices_agrees_with_MapId_witness :
    ((Query1 sampleWorld 1 []).MapSlices sampleWorld).state.2 =
      [([2, 0, 4], [10, 20, 30]), ([7], [70])] ∧
    ((Query1 sampleWorld 1 []).MapId sampleWorld).state.2 =
      [(2, some ⟨1, 0, 0⟩), (4, some ⟨1, 0, 2⟩), (7, some ⟨1, 1, 0⟩)] ∧
    ((Query2 sampleWorld 1 2 []).MapSlices sampleWorld).state.2 = [([7], [70], [71])] ∧
    ((Query2 sampleWorld 1 2 []).MapId sampleWorld).state.2 =
      [(7, some ⟨1, 1, 0⟩, some ⟨2, 1, 0⟩)] ∧
    (((Query1 sampleWorld 1 []).MapSlices sampleWorld).panicked = none ∧
      ((Query1 sampleWorld 1 []).MapId sampleWorld).panicked = none ∧
      ((Query1 sampleWorld 1 []).MapSlices sampleWorld).state.2.length =
        ((Query1 sampleWorld 1 []).filter.regenerate sampleWorld).archIds.length ∧
      liveIds ((((Query1 sampleWorld 1 []).MapSlices sampleWorld).state.2.map Prod.fst).flatten) =
        ((Query1 sampleWorld 1 []).MapId sampleWorld).state.2.map Prod.fst ∧
      ((Query1 sampleWorld 1 []).MapId sampleWorld).state.2 =
        ((((Query1 sampleWorld 1 []).filter.regenerate sampleWorld).archIds.zip
          ((Query1 sampleWorld 1 []).MapSlices sampleWorld).state.2).map (fun x =>
          sliceCalls (fun k => some (⟨(Query1 sampleWorld 1 []).storageA, x.1, k⟩ : compPtr))
            x.2.1)).flatten ∧
      ∀ x ∈ ((Query1 sampleWorld 1 []).filter.regenerate sampleWorld).archIds.zip
          ((Query1 sampleWorld 1 []).MapSlices sampleWorld).state.2,
        ∀ k, k < x.2.1.length →
          k < x.2.2.length ∧
          compPtr.load sampleWorld.engine ⟨(Query1 sampleWorld 1 []).storageA, x.1, k⟩ =
            x.2.2[k]?) ∧
    (((Query2 sampleWorld 1 2 []).MapSlices sampleWorld).panicked = none ∧
      ((Query2 sampleWorld 1 2 []).MapId sampleWorld).panicked = none ∧
      ((Query2 sampleWorld 1 2 []).MapSlices sampleWorld).state.2.length =
        ((Query2 sampleWorld 1 2 []).filter.regenerate sampleWorld).archIds.length ∧
      liveIds ((((Query2 sampleWorld 1 2 []).MapSlices sampleWorld).state.2.map
          Prod.fst).flatten) =
        ((Query2 sampleWorld 1 2 []).MapId sampleWorld).state.2.map Prod.fst ∧
      ((Query2 sampleWorld 1 2 []).MapId sampleWorld).state.2 =
        ((((Query2 sampleWorld 1 2 []).filter.regenerate sampleWorld).archIds.zip
          ((Query2 sampleWorld 1 2 []).MapSlices sampleWorld).state.2).map (fun x =>
          sliceCalls (fun k =>
            (some (⟨(Query2 sampleWorld 1 2 []).storageA, x.1, k⟩ : compPtr),
             some (⟨(Query2 sampleWorld 1 2 []).storageB, x.1, k⟩ : compPtr))) x.2.1)).flatten ∧
      ∀ x ∈ ((Query2 sampleWorld 1 2 []).filter.regenerate sampleWorld).archIds.zip
          ((Query2 sampleWorld 1 2 []).MapSlices sampleWorld).state.2,
        ∀ k, k < x.2.1.length →
          (k < x.2.2.1.length ∧
            compPtr.load sampleWorld.engine ⟨(Query2 sampleWorld 1 2 []).storageA, x.1, k⟩ =
              x.2.2.1[k]?) ∧
          (k < x.2.2.2.length ∧
            compPtr.load sampleWorld.engine ⟨(Query2 sampleWorld 1 2 []).storageB, x.1, k⟩ =
              x.2.2.2[k]?)) :=
  ⟨by decide, by decide, by decide, by decide,
   (MapSlices_agrees_with_MapId sampleWorld (Query1 sampleWorld 1 [])
      (Query2 sampleWorld 1 2 [])).1 (by
        intro a ha
        have e : ((Query1 sampleWorld 1 []).filter.regenerate sampleWorld).archIds = [0, 1] := by
          decide
        rw [e] at ha
        simp only [List.mem_cons, List.mem_singleton, List.not_mem_nil, or_false] at ha
        rcases ha with rfl | rfl
        · exact ⟨_, _, rfl, rfl, rfl⟩
        · exact ⟨_, _, rfl, rfl, rfl⟩),
   (MapSlices_agrees_with_MapId sampleWorld (Query1 sampleWorld 1 [])
      (Query2 sampleWorld 1 2 [])).2 (by
        intro a ha
        have e : ((Query2 sampleWorld 1 2 []).filter.regenerate sampleWorld).archIds = [1] := by
          decide
        rw [e] at ha
        simp only [List.mem_singleton] at ha
        subst ha
        exact ⟨_, _, _, rfl, rfl, rfl, rfl, rfl⟩)⟩

end agreementClaim


/-! ### The views on the worlds the public calls produce -/

section reachedViews
variable {V : Type}

theorem Write_registry_le [Inhabited V] (w w1 : World (archEngine V)) (id : Id)
    (comp : List (Component V)) (h : WorldInv w)
    (hw : w.Write (engineCalls V) id comp = some w1) :
    w.engine.registry.length ≤ w1.engine.registry.length := by
  cases comp with
  | nil =>
    simp only [World.Write, List.length_nil, le_refl, if_true, Option.some.injEq] at hw
    subst hw
    exact le_refl _
  | cons c0 cs =>
    have hlen : ¬ (c0 :: cs).length ≤ 0 := by simp
    cases ha : w.arch id with
    | some a =>
      obtain ⟨hlt, s, hs⟩ := h.placed id a ha
      obtain ⟨e1, n, h1, _, hext1, _⟩ :=
        rewriteArch_spec w.engine a id (c0 :: cs) s h.engine hlt hs
      have hr : (engineCalls V).rewriteArch w.engine a id (c0 :: cs) = some (e1, n) := h1
      simp only [World.Write, if_neg hlen, ha, hr, Option.some.injEq] at hw
      subst hw
      exact hext1.length_le
    | none =>
      have hinv0 := resolveArchetype_inv w.engine (tagsOf (c0 :: cs)) h.engine
      have hreg0 := resolveArchetype_registry w.engine (tagsOf (c0 :: cs))
      obtain ⟨e1, h1, _, hreg1, _⟩ :=
        writeAll_spec (resolveArchetype w.engine (tagsOf (c0 :: cs))).2 id
          (tagsOf (c0 :: cs)) (c0 :: cs) _ hinv0 hreg0 (fun c hc => mem_tagsOf hc)
      have hg : (engineCalls V).GetarchetypeId w.engine (c0 :: cs) =
          some (resolveArchetype w.engine (tagsOf (c0 :: cs))) := rfl
      simp only [World.Write, if_neg hlen, ha, hg, h1, Option.some.injEq] at hw
      subst hw
      show w.engine.registry.length ≤ e1.registry.length
      rw [hreg1]
      exact resolveArchetype_length w.engine _

theorem Delete_registry_le [Inhabited V] (w w1 : World (archEngine V)) (id : Id) (b : Bool)
    (h : WorldInv w) (hd : Delete (engineCalls V) w id = some (w1, b)) :
    w.engine.registry.length ≤ w1.engine.registry.length := by
  cases ha : w.arch id with
  | none =>
    simp only [Delete, ha, Option.some.injEq, Prod.mk.injEq] at hd
    obtain ⟨hd1, _⟩ := hd
    subst hd1
    exact le_refl _
  | some a =>
    obtain ⟨_, s, hs⟩ := h.placed id a ha
    obtain ⟨e1, h1, hreg, _⟩ := TagForDeletion_spec w.engine a id s hs
    have ht : (engineCalls V).TagForDeletion w.engine a id = some e1 := h1
    simp only [Delete, ha, ht, Option.some.injEq, Prod.mk.injEq] at hd
    obtain ⟨hd1, _⟩ := hd
    subst hd1
    show w.engine.registry.length ≤ e1.registry.length
    rw [hreg]

/-- The registry only grows: after a sequence of public calls that returns, made
on a reachable world, every archetype registered before is registered still. -/
theorem run_registry_le [Inhabited V] (calls : List (Call (Component V))) :
    ∀ w w1 : World (archEngine V), Reachable (engineCalls V) w →
    (∀ min max, Call.setIdRange min max ∈ calls → min ≤ MaxEntity ∧ max ≤ MaxEntity) →
    w.run (engineCalls V) calls = some w1 →
    w.engine.registry.length ≤ w1.engine.registry.length := by
  induction calls with
  | nil =>
    intro w w1 _ _ h
    simp only [World.run, Option.some.injEq] at h
    subst h
    exact le_refl _
  | cons c cs ih =>
    intro w w1 hw hb h
    simp only [World.run] at h
    cases hs : w.step (engineCalls V) c with
    | none => simp [hs] at h
    | some w2 =>
      simp only [hs] at h
      have hr2 : Reachable (engineCalls V) w2 :=
        run_reachable (engineCalls V) [c] w w2 hw
          (fun min max hm => hb min max (by
            simp only [List.mem_singleton] at hm
            rw [hm]
            exact List.mem_cons_self _ _))
          (by simp only [World.run, hs])
      have hrest := ih w2 w1 hr2
        (fun min max hm => hb min max (List.mem_cons_of_mem c hm)) h
      refine le_trans ?_ hrest
      cases c with
      | write id comp => exact Write_registry_le w w2 id comp hw.worldInv hs
      | delete id =>
        simp only [World.step] at hs
        cases hd : Delete (engineCalls V) w id with
        | none => simp [hd] at hs
        | some r =>
          obtain ⟨w3, b⟩ := r
          simp only [hd, Option.map_some', Option.some.injEq] at hs
          subst hs
          exact Delete_registry_le w w3 id b hw.worldInv hd
      | newId =>
        simp only [World.step, Option.some.injEq] at hs
        subst hs
        rw [NewId_engine]
      | setIdRange min max =>
        simp only [World.step] at hs
        cases hp : (w.SetIdRange min max).panicked with
        | some msg => simp [hp] at hs
        | none =>
          simp only [hp, Option.some.injEq] at hs
          subst hs
          rw [SetIdRange_state_engine]

/-- A view built by `Query1` lists registered archetypes only. -/
theorem Query1_registered (w : World (archEngine V)) (A : componentId) (filters : List Filter) :
    ∀ a ∈ (Query1 w A filters).filter.archIds, a < w.engine.registry.length :=
  regenerate_listed (newFilterList [A] filters) w (by
    intro a ha
    simp [newFilterList] at ha)

/-- A view built by `Query2` lists registered archetypes only. -/
theorem Query2_registered (w : World (archEngine V)) (A B : componentId)
    (filters : List Filter) :
    ∀ a ∈ (Query2 w A B filters).filter.archIds, a < w.engine.registry.length :=
  regenerate_listed (newFilterList [A, B] filters) w (by
    intro a ha
    simp [newFilterList] at ha)

/-- A view built by `Query1` or `Query2` in an earlier state of the world lists
archetypes that are registered in every later state. -/
theorem Query_registered_later [Inhabited V] (w0 w : World (archEngine V))
    (calls : List (Call (Component V))) (h0 : Reachable (engineCalls V) w0)
    (hb : ∀ min max, Call.setIdRange min max ∈ calls → min ≤ MaxEntity ∧ max ≤ MaxEntity)
    (hrun : w0.run (engineCalls V) calls = some w) (A B : componentId)
    (filters : List Filter) :
    (∀ a ∈ (Query1 w0 A filters).filter.archIds, a < w.engine.registry.length) ∧
    (∀ a ∈ (Query2 w0 A B filters).filter.archIds, a < w.engine.registry.length) :=
  ⟨fun a ha => lt_of_lt_of_le (Query1_registered w0 A filters a ha)
      (run_registry_le calls w0 w h0 hb hrun),
   fun a ha => lt_of_lt_of_le (Query2_registered w0 A B filters a ha)
      (run_registry_le calls w0 w h0 hb hrun)⟩

/-- On a reachable world the iterations of a view that lists registered
archetypes only meet no fatal path. -/
theorem View_safe_of_reachable [Inhabited V] (w : World (archEngine V))
    (h : Reachable (engineCalls V) w) (f : filterList)
    (hf : ∀ a ∈ f.archIds, a < w.engine.registry.length) :
    (∀ A, (⟨f, A⟩ : View1).mapSafe w = true ∧ (⟨f, A⟩ : View1).slicesSafe w = true) ∧
    (∀ A B, (⟨f, A, B⟩ : View2).mapSafe w = true ∧ (⟨f, A, B⟩ : View2).slicesSafe w = true) :=
  View_safe_of_inv w h.worldInv f (regenerate_listed f w hf)

/-- The pointer `MapId` passes for slot `k` of an archetype whose columns are as
long as its id column: nil when the archetype has no column of the type, the
address of element `k` when it has one. -/
theorem elemPtr_of_column_len (w : World (archEngine V)) (t : componentId) (a : archetypeId)
    (l : lookupList)
    (hlen : ∀ col, w.engine.storage t a = some col → col.length = l.id.length)
    (k : Nat) (hk : k < l.id.length) :
    elemPtr w.engine t a k =
      some ((w.engine.storage t a).map (fun _ => (⟨t, a, k⟩ : compPtr))) := by
  unfold elemPtr
  cases hc : w.engine.storage t a with
  | none => rfl
  | some col =>
    simp only [Option.map_some']
    rw [if_pos (by rw [hlen col hc]; exact hk)]

end reachedViews

/-! ### Presence, holes, order and whole columns on reachable worlds -/

section reachedClaims
variable {V : Type}

/-- The invocations of `View1.MapId` on a reachable world, slot by slot. -/
theorem View1_MapId_of_reachable [Inhabited V] (w : World (archEngine V))
    (h : Reachable (engineCalls V) w) (v : View1)
    (hv : ∀ a ∈ v.filter.archIds, a < w.engine.registry.length) :
    (v.MapId w).panicked = none ∧
    (v.MapId w).state.2 = ((v.filter.regenerate w).archIds.map (fun a =>
      sliceCalls (fun k => (w.engine.storage v.storageA a).map
        (fun _ => (⟨v.storageA, a, k⟩ : compPtr))) (idColumn w a))).flatten := by
  have hinv := h.worldInv
  have hreg := regenerate_listed v.filter w hv
  obtain ⟨hm1, hm2⟩ := View1_MapId_calls v w
  have hloop := archLoop_eq_sliceCalls w (v.ptrs w)
    (fun a k => (w.engine.storage v.storageA a).map (fun _ => (⟨v.storageA, a, k⟩ : compPtr)))
    (v.filter.regenerate w).archIds [] (by
      intro a ha
      obtain ⟨l, hl⟩ := hinv.engine.lookup_some a (hreg a ha)
      refine ⟨l, hl, ?_⟩
      intro k hk
      exact elemPtr_of_column_len w v.storageA a l
        (fun col hc => hinv.engine.column_len a l v.storageA col hl hc) k hk)
  constructor
  · rw [hm2, hloop]
  · rw [hm1, hloop]
    simp

/-- The invocations of `View2.MapId` on a reachable world, slot by slot. -/
theorem View2_MapId_of_reachable [Inhabited V] (w : World (archEngine V))
    (h : Reachable (engineCalls V) w) (v : View2)
    (hv : ∀ a ∈ v.filter.archIds, a < w.engine.registry.length) :
    (v.MapId w).panicked = none ∧
    (v.MapId w).state.2 = ((v.filter.regenerate w).archIds.map (fun a =>
      sliceCalls (fun k =>
        ((w.engine.storage v.storageA a).map (fun _ => (⟨v.storageA, a, k⟩ : compPtr)),
         (w.engine.storage v.storageB a).map (fun _ => (⟨v.storageB, a, k⟩ : compPtr))))
        (idColumn w a))).flatten := by
  have hinv := h.worldInv
  have hreg := regenerate_listed v.filter w hv
  obtain ⟨hm1, hm2⟩ := View2_MapId_calls v w
  have hloop := archLoop_eq_sliceCalls w (v.ptrs w)
    (fun a k =>
      ((w.engine.storage v.storageA a).map (fun _ => (⟨v.storageA, a, k⟩ : compPtr)),
       (w.engine.storage v.storageB a).map (fun _ => (⟨v.storageB, a, k⟩ : compPtr))))
    (v.filter.regenerate w).archIds [] (by
      intro a ha
      obtain ⟨l, hl⟩ := hinv.engine.lookup_some a (hreg a ha)
      refine ⟨l, hl, ?_⟩
      intro k hk
      have hA := elemPtr_of_column_len w v.storageA a l
        (fun col hc => hinv.engine.column_len a l v.storageA col hl hc) k hk
      have hB := elemPtr_of_column_len w v.storageB a l
        (fun col hc => hinv.engine.column_len a l v.storageB col hl hc) k hk
      simp only [View2.ptrs, hA, hB])
  constructor
  · rw [hm2, hloop]
  · rw [hm1, hloop]
    simp

theorem count_sliceCalls {β : Type} (w : World (archEngine V)) (ptr : archetypeId → Nat → β)
    (archIds : List archetypeId) (i : Id) :
    (((archIds.map (fun a => sliceCalls (ptr a) (idColumn w a))).flatten).map Prod.fst).count i =
      if i = InvalidEntity then 0 else ((archIds.map (idColumn w)).flatten).count i := by
  rw [sliceCalls_flatten_ids, count_liveIds]

/-- C16: in every world state satisfying the storage invariants (every world
reachable through the public calls does), for every id other than
`InvalidEntity` that is in the entity map and whose slot is known to its
archetype's lookup, `View2.Read` returns, its first result is non-nil if and
only if the storage of A has a column for the entity's archetype, and its second
is non-nil if and only if the storage of B has one, each independently of the
other; in particular an entity with A but without B yields (non-nil, nil). -/
theorem View2_Read_presence (w : World (archEngine V)) (h : StorageInv w) (v : View2) (id : Id)
    (a : archetypeId) (l : lookupList) (s : Nat) (hid : id ≠ InvalidEntity)
    (ha : w.arch id = some a) (hl : w.engine.lookup a = some l) (hs : l.index id = some s) :
    ∃ r, v.Read w id = some r ∧
      (r.1 ≠ none ↔ ∃ col, w.engine.storage v.storageA a = some col) ∧
      (r.2 ≠ none ↔ ∃ col, w.engine.storage v.storageB a = some col) ∧
      ((∃ col, w.engine.storage v.storageA a = some col) →
        w.engine.storage v.storageB a = none → r.1 ≠ none ∧ r.2 = none) := by
  obtain ⟨l1, s1, hl1, hs1, hlt, _⟩ := h.placed id a ha
  rw [hl] at hl1
  cases hl1
  rw [hs] at hs1
  cases hs1
  have hcol : ∀ t col, w.engine.storage t a = some col → s < col.length := by
    intro t col hc
    rw [h.column_len a l t col hl hc]
    exact hlt
  obtain ⟨r, hr, hA, hB⟩ := View2_Read_of_columns w v id a l s hid ha hl hs
    (hcol v.storageA) (hcol v.storageB)
  refine ⟨r, hr, hA, hB, ?_⟩
  intro hAcol hBnone
  refine ⟨hA.mpr hAcol, ?_⟩
  by_contra hne
  obtain ⟨col, hc⟩ := hB.mp hne
  rw [hBnone] at hc
  cases hc

end reachedClaims

section reachedClaims2
variable {V : Type}

theorem View2_Read_presence_witness :
    Reachable (engineCalls Nat) (worldAfter sampleCalls) ∧
    (Query2 (worldAfter sampleCalls) 1 2 []).Read (worldAfter sampleCalls) 2 =
      some (some ⟨1, 0, 0⟩, none) ∧
    (Query2 (worldAfter sampleCalls) 1 2 []).Read (worldAfter sampleCalls) 7 =
      some (some ⟨1, 1, 0⟩, some ⟨2, 1, 0⟩) ∧
    ∃ r, (Query2 (worldAfter sampleCalls) 1 2 []).Read (worldAfter sampleCalls) 2 = some r ∧
      (r.1 ≠ none ↔ ∃ col, (worldAfter sampleCalls).engine.storage 1 0 = some col) ∧
      (r.2 ≠ none ↔ ∃ col, (worldAfter sampleCalls).engine.storage 2 0 = some col) ∧
      ((∃ col, (worldAfter sampleCalls).engine.storage 1 0 = some col) →
        (worldAfter sampleCalls).engine.storage 2 0 = none → r.1 ≠ none ∧ r.2 = none) :=
  ⟨worldAfter_reachable _ (by intro min max h; simp [sampleCalls] at h), by decide, by decide,
   View2_Read_presence (worldAfter sampleCalls)
     (worldAfter_reachable _ (by intro min max h; simp [sampleCalls] at h)).storageInv
     (Query2 (worldAfter sampleCalls) 1 2 []) 2 0
     (((worldAfter sampleCalls).engine.lookup 0).get (by decide)) 0
     (by decide) (by decide) (Option.some_get _).symm (by decide)⟩

/-- C17: on every world reachable through the public calls, for every view
whose match list names registered archetypes (every view built by `Query1` or
`Query2` on the world, then or earlier), `View1.MapId` and `View2.MapId` return,
and their invocations are, archetype by archetype in match order, exactly one for
each slot of the id column whose entry is not `InvalidEntity`, in slot order,
passing that entry as the id; so the callback is invoked with id `i` as many
times as the matched id columns have slots holding `i`, and never with
`InvalidEntity`. -/
theorem MapId_skips_holes [Inhabited V] (w : World (archEngine V))
    (h : Reachable (engineCalls V) w) (v1 : View1) (v2 : View2)
    (h1 : ∀ a ∈ v1.filter.archIds, a < w.engine.registry.length)
    (h2 : ∀ a ∈ v2.filter.archIds, a < w.engine.registry.length) :
    ((v1.MapId w).panicked = none ∧
      (v1.MapId w).state.2 = ((v1.filter.regenerate w).archIds.map (fun a =>
        sliceCalls (fun k => (w.engine.storage v1.storageA a).map
          (fun _ => (⟨v1.storageA, a, k⟩ : compPtr))) (idColumn w a))).flatten ∧
      ∀ i, ((v1.MapId w).state.2.map Prod.fst).count i =
        if i = InvalidEntity then 0
        else (((v1.filter.regenerate w).archIds.map (idColumn w)).flatten).count i) ∧
    ((v2.MapId w).panicked = none ∧
      (v2.MapId w).state.2 = ((v2.filter.regenerate w).archIds.map (fun a =>
        sliceCalls (fun k =>
          ((w.engine.storage v2.storageA a).map (fun _ => (⟨v2.storageA, a, k⟩ : compPtr)),
           (w.engine.storage v2.storageB a).map (fun _ => (⟨v2.storageB, a, k⟩ : compPtr))))
          (idColumn w a))).flatten ∧
      ∀ i, ((v2.MapId w).state.2.map Prod.fst).count i =
        if i = InvalidEntity then 0
        else (((v2.filter.regenerate w).archIds.map (idColumn w)).flatten).count i) := by
  obtain ⟨hp1, ht1⟩ := View1_MapId_of_reachable w h v1 h1
  obtain ⟨hp2, ht2⟩ := View2_MapId_of_reachable w h v2 h2
  refine ⟨⟨hp1, ht1, ?_⟩, ⟨hp2, ht2, ?_⟩⟩
  · intro i
    rw [ht1]
    exact count_sliceCalls w _ _ i
  · intro i
    rw [ht2]
    exact count_sliceCalls w _ _ i

/-- The scenario of C17: ids 2, 3 and 4 are written with a component of type 1
and id 3 is deleted; `MapId` of a query over type 1 then invokes the callback
exactly twice, for ids 2 and 4 in their slots 0 and 2, and never for id 3. -/
theorem MapId_skips_holes_witness :
    ((Query1 (worldAfter [Call.write 2 [⟨1, 10⟩], Call.write 3 [⟨1, 20⟩],
        Call.write 4 [⟨1, 30⟩], Call.delete 3]) 1 []).MapId
      (worldAfter [Call.write 2 [⟨1, 10⟩], Call.write 3 [⟨1, 20⟩],
        Call.write 4 [⟨1, 30⟩], Call.delete 3])).state.2 =
      [(2, some ⟨1, 0, 0⟩), (4, some ⟨1, 0, 2⟩)] ∧
    idColumn (worldAfter [Call.write 2 [⟨1, 10⟩], Call.write 3 [⟨1, 20⟩],
        Call.write 4 [⟨1, 30⟩], Call.delete 3]) 0 = [2, 0, 4] ∧
    ((Query1 (worldAfter [Call.write 2 [⟨1, 10⟩], Call.write 3 [⟨1, 20⟩],
        Call.write 4 [⟨1, 30⟩], Call.delete 3]) 1 []).MapId
      (worldAfter [Call.write 2 [⟨1, 10⟩], Call.write 3 [⟨1, 20⟩],
        Call.write 4 [⟨1, 30⟩], Call.delete 3])).panicked = none ∧
    ∀ i, (((Query1 (worldAfter [Call.write 2 [⟨1, 10⟩], Call.write 3 [⟨1, 20⟩],
        Call.write 4 [⟨1, 30⟩], Call.delete 3]) 1 []).MapId
      (worldAfter [Call.write 2 [⟨1, 10⟩], Call.write 3 [⟨1, 20⟩],
        Call.write 4 [⟨1, 30⟩], Call.delete 3])).state.2.map Prod.fst).count i =
      if i = InvalidEntity then 0
      else ((((Query1 (worldAfter [Call.write 2 [⟨1, 10⟩], Call.write 3 [⟨1, 20⟩],
        Call.write 4 [⟨1, 30⟩], Call.delete 3]) 1 []).filter.regenerate
          (worldAfter [Call.write 2 [⟨1, 10⟩], Call.write 3 [⟨1, 20⟩],
            Call.write 4 [⟨1, 30⟩], Call.delete 3])).archIds.map
        (idColumn (worldAfter [Call.write 2 [⟨1, 10⟩], Call.write 3 [⟨1, 20⟩],
          Call.write 4 [⟨1, 30⟩], Call.delete 3]))).flatten).count i :=
  ⟨by decide, by decide,
   (MapId_skips_holes _ (worldAfter_reachable _ (by intro min max h; simp at h))
     (Query1 (worldAfter [Call.write 2 [⟨1, 10⟩], Call.write 3 [⟨1, 20⟩],
        Call.write 4 [⟨1, 30⟩], Call.delete 3]) 1 [])
     (Query2 (worldAfter [Call.write 2 [⟨1, 10⟩], Call.write 3 [⟨1, 20⟩],
        Call.write 4 [⟨1, 30⟩], Call.delete 3]) 1 2 [])
     (Query1_registered _ 1 []) (Query2_registered _ 1 2 [])).1.1,
   (MapId_skips_holes _ (worldAfter_reachable _ (by intro min max h; simp at h))
     (Query1 (worldAfter [Call.write 2 [⟨1, 10⟩], Call.write 3 [⟨1, 20⟩],
        Call.write 4 [⟨1, 30⟩], Call.delete 3]) 1 [])
     (Query2 (worldAfter [Call.write 2 [⟨1, 10⟩], Call.write 3 [⟨1, 20⟩],
        Call.write 4 [⟨1, 30⟩], Call.delete 3]) 1 2 [])
     (Query1_registered _ 1 []) (Query2_registered _ 1 2 [])).1.2.2⟩

/-- C18: on every world reachable through the public calls, for every view
whose match list names registered archetypes (every view built by `Query1` or
`Query2` on the world, then or earlier), the sequence of ids `MapId` passes to
the callback is the concatenation, over the view's matched archetype ids in
their list order, of each archetype's id column in increasing slot order with
the `InvalidEntity` entries removed. -/
theorem MapId_order [Inhabited V] (w : World (archEngine V))
    (h : Reachable (engineCalls V) w) (v1 : View1) (v2 : View2)
    (h1 : ∀ a ∈ v1.filter.archIds, a < w.engine.registry.length)
    (h2 : ∀ a ∈ v2.filter.archIds, a < w.engine.registry.length) :
    ((v1.MapId w).panicked = none ∧
      (v1.MapId w).state.2.map Prod.fst =
        ((v1.filter.regenerate w).archIds.map (fun a => liveIds (idColumn w a))).flatten) ∧
    ((v2.MapId w).panicked = none ∧
      (v2.MapId w).state.2.map Prod.fst =
        ((v2.filter.regenerate w).archIds.map (fun a => liveIds (idColumn w a))).flatten) := by
  obtain ⟨hp1, ht1⟩ := View1_MapId_of_reachable w h v1 h1
  obtain ⟨hp2, ht2⟩ := View2_MapId_of_reachable w h v2 h2
  refine ⟨⟨hp1, ?_⟩, ⟨hp2, ?_⟩⟩
  · rw [ht1, sliceCalls_flatten_ids, flatten_liveIds]
  · rw [ht2, sliceCalls_flatten_ids, flatten_liveIds]

theorem MapId_order_witness :
    Reachable (engineCalls Nat) (worldAfter sampleCalls) ∧
    ((Query1 (worldAfter sampleCalls) 1 []).filter.regenerate
      (worldAfter sampleCalls)).archIds = [0, 1] ∧
    idColumn (worldAfter sampleCalls) 0 = [2, 0, 4] ∧
    idColumn (worldAfter sampleCalls) 1 = [7] ∧
    ((Query1 (worldAfter sampleCalls) 1 []).MapId (worldAfter sampleCalls)).state.2.map
      Prod.fst = [2, 4, 7] ∧
    (((Query1 (worldAfter sampleCalls) 1 []).MapId (worldAfter sampleCalls)).panicked = none ∧
      ((Query1 (worldAfter sampleCalls) 1 []).MapId (worldAfter sampleCalls)).state.2.map
        Prod.fst =
        (((Query1 (worldAfter sampleCalls) 1 []).filter.regenerate
          (worldAfter sampleCalls)).archIds.map
          (fun a => liveIds (idColumn (worldAfter sampleCalls) a))).flatten) :=
  ⟨worldAfter_reachable _ (by intro min max h; simp [sampleCalls] at h),
   by decide, by decide, by decide, by decide,
   (MapId_order _ (worldAfter_reachable _ (by intro min max h; simp [sampleCalls] at h))
     (Query1 (worldAfter sampleCalls) 1 []) (Query2 (worldAfter sampleCalls) 1 2 [])
     (Query1_registered _ 1 []) (Query2_registered _ 1 2 [])).1⟩

/-- C20: on every world reachable through the public calls, for every view
whose match list names registered archetypes (every view built by `Query1` or
`Query2` on the world, then or earlier), `MapSlices` returns and invokes the
callback exactly once for each matched archetype in which every requested
column is present, in match-list order, passing that archetype's whole id column
(`InvalidEntity` holes included) together with its whole columns, and it makes
no invocation for a matched archetype missing a requested column. -/
theorem MapSlices_full_archetypes [Inhabited V] (w : World (archEngine V))
    (h : Reachable (engineCalls V) w) (v1 : View1) (v2 : View2)
    (h1 : ∀ a ∈ v1.filter.archIds, a < w.engine.registry.length)
    (h2 : ∀ a ∈ v2.filter.archIds, a < w.engine.registry.length) :
    ((v1.MapSlices w).panicked = none ∧
      (v1.MapSlices w).state.2 = (v1.filter.regenerate w).archIds.filterMap (fun a =>
        (w.engine.storage v1.storageA a).map (fun colA => (idColumn w a, colA)))) ∧
    ((v2.MapSlices w).panicked = none ∧
      (v2.MapSlices w).state.2 = (v2.filter.regenerate w).archIds.filterMap (fun a =>
        (w.engine.storage v2.storageA a).bind (fun colA =>
          (w.engine.storage v2.storageB a).map (fun colB => (idColumn w a, colA, colB))))) := by
  have hinv := h.worldInv
  obtain ⟨hs1, _⟩ := View_safe_of_reachable w h v1.filter h1
  obtain ⟨_, hs2⟩ := View_safe_of_reachable w h v2.filter h2
  obtain ⟨hp1, ht1⟩ := View1_MapSlices_calls v1 w (hs1 v1.storageA).2
  obtain ⟨hp2, ht2⟩ := View2_MapSlices_calls v2 w (hs2 v2.storageA v2.storageB).2
  refine ⟨⟨hp1, ?_⟩, ⟨hp2, ?_⟩⟩
  · rw [ht1]
    apply List.filterMap_congr
    intro a ha
    obtain ⟨l, hl⟩ := hinv.engine.lookup_some a (regenerate_listed v1.filter w h1 a ha)
    cases hc : w.engine.storage v1.storageA a <;> simp [View1.slicesOf, idColumn, hl, hc]
  · rw [ht2]
    apply List.filterMap_congr
    intro a ha
    obtain ⟨l, hl⟩ := hinv.engine.lookup_some a (regenerate_listed v2.filter w h2 a ha)
    cases hcA : w.engine.storage v2.storageA a <;>
      cases hcB : w.engine.storage v2.storageB a <;>
      simp [View2.slicesOf, idColumn, hl, hcA, hcB]

theorem MapSlices_full_archetypes_witness :
    Reachable (engineCalls Nat) (worldAfter sampleCalls) ∧
    ((Query1 (worldAfter sampleCalls) 1 []).filter.regenerate
      (worldAfter sampleCalls)).archIds = [0, 1] ∧
    ((Query1 (worldAfter sampleCalls) 1 []).MapSlices (worldAfter sampleCalls)).state.2 =
      [([2, 0, 4], [10, 20, 30]), ([7], [70])] ∧
    ((⟨(Query1 (worldAfter sampleCalls) 1 []).filter, 1, 2⟩ : View2).MapSlices
      (worldAfter sampleCalls)).state.2 = [([7], [70], [71])] ∧
    (((Query1 (worldAfter sampleCalls) 1 []).MapSlices (worldAfter sampleCalls)).panicked =
        none ∧
      ((Query1 (worldAfter sampleCalls) 1 []).MapSlices (worldAfter sampleCalls)).state.2 =
        ((Query1 (worldAfter sampleCalls) 1 []).filter.regenerate
          (worldAfter sampleCalls)).archIds.filterMap (fun a =>
          ((worldAfter sampleCalls).engine.storage
            (Query1 (worldAfter sampleCalls) 1 []).storageA a).map
            (fun colA => (idColumn (worldAfter sampleCalls) a, colA)))) :=
  ⟨worldAfter_reachable _ (by intro min max h; simp [sampleCalls] at h),
   by decide, by decide, by decide,
   (MapSlices_full_archetypes _
     (worldAfter_reachable _ (by intro min max h; simp [sampleCalls] at h))
     (Query1 (worldAfter sampleCalls) 1 []) (Query2 (worldAfter sampleCalls) 1 2 [])
     (Query1_registered _ 1 []) (Query2_registered _ 1 2 [])).1⟩

end reachedClaims2

end ecs
